import Mathlib

/-!
# Projectile path simulator and minimum rectangle cover: embeddings and verified properties

Shallow embeddings of `projectile_path_simulator.cpp` and of
`min_rectangle_cover/solution.cpp`, and proofs about them.

## Modelling

* `double` is idealised as a linearly ordered field `K`; every definition is
  polymorphic in `K` and is evaluated at `K = ℚ` for concrete runs. Rounding,
  NaN and overflow of `double` are outside the model.
* `std::hypot` is a library routine: it is a parameter `hypot : K → K → K` of
  the two entry points. `HypotExact` says that it is exact; `hypotQ` is the
  exact instance over `ℚ` used for concrete runs, and the Euclidean norm over
  `ℝ` is used for the one scenario with an irrational length.
* `+∞` (the initial value of the two running minima) is `none : Option K`.
* `throw std::invalid_argument` is `Except.error (Error.invalid_argument ..)`.
* The two `for` loops are bounded in the source (`max_outer`, `256`); the
  bounds are the recursion fuel, so every function is total. The conversion
  of `max_outer` to `int` is taken to be exact (no overflow of `int`).
* `std::vector::push_back` / `emplace_back` is `xs ++ [x]`.
* In `solution`, `vector<vector<bool>>` is `List (List Bool)` and the table of
  prefix sums is `List (List Int)`; `int` is `Int` for the dimensions, the sums
  and the counters and `Nat` for the indices, which are never negative (no
  overflow of `int`). The `while` loop of `solve` has no bound in the source:
  it takes `fuel`, and `none` is a run that needs more fuel.

## Layout

1. The embeddings: for the simulator the data model, utilities, one inner
   iteration, the loops, the two entry points; for the rectangle cover the
   helpers, the greedy loop and `solve` (namespace `solution`, at the end of
   the definitions).
2. The vocabulary of the specification: predicates and measures that the
   properties are stated with.
3. Lemmas about the embedding.
4. The claims `C1 ..`, in order, each with its concrete instances.
-/

namespace projectile_path_simulator

/-! ## Data model (`projectile_path_simulator.h`) -/

/-- Collision behaviour of a wall (`enum class WallBehavior`). -/
inductive WallBehavior where
  | REFLECT
  | PASS_THROUGH
  | STOP
  deriving DecidableEq, Repr

/-- Axis-aligned wall with two corners and a behaviour (`struct Wall`). -/
structure Wall (K : Type) where
  x1 : K
  y1 : K
  x2 : K
  y2 : K
  behavior : WallBehavior
  deriving DecidableEq, Repr

/-- Candidate intersection of the ray with one wall face (`struct SideHit`). -/
structure SideHit (K : Type) where
  hit : Bool
  dist : K
  x : K
  y : K
  vertical : Bool
  horizontal : Bool
  behavior : WallBehavior
  deriving DecidableEq, Repr

/-- Failure kinds: the source only throws `std::invalid_argument`. -/
inductive Error where
  | invalid_argument (msg : String)
  deriving DecidableEq, Repr

deriving instance DecidableEq for Except

/-- Object state of `class ProjectilePathSimulator`. -/
structure ProjectilePathSimulator (K : Type) where
  speed_ : K
  distance_budget_ : K
  walls_ : List (Wall K)
  deriving DecidableEq, Repr

/-- Mutable locals of `simulate` that live across ticks. -/
structure RunState (K : Type) where
  path : List (K × K)
  px : K
  py : K
  dx : K
  dy : K
  remaining_budget : K
  deriving DecidableEq, Repr

/-- Mutable locals of `simulate` inside one tick: the run state plus
`recorded_pass_before_nonpass` and `remaining_in_tick`. -/
structure TickState (K : Type) where
  run : RunState K
  recorded_pass_before_nonpass : Bool
  remaining_in_tick : K
  deriving DecidableEq, Repr

/-- Outcome of one pass through the body of the inner `for` loop:
`ret` is `return path`, `brk` is `break`, `next` falls through to the next
iteration. -/
inductive Flow (K : Type) where
  | ret (path : List (K × K))
  | brk (ts : TickState K)
  | next (ts : TickState K)
  deriving DecidableEq, Repr

/-- Outcome of a loop: the function returned from inside (`stopped`) or the
loop ran to its end with the given state (`fell`). -/
inductive LoopResult (K S : Type) where
  | stopped (path : List (K × K))
  | fell (s : S)
  deriving DecidableEq, Repr

section Definitions

variable {K : Type} [LinearOrderedField K]

/-! ## Constants -/

/-- Machine epsilon of `double`, `std::numeric_limits<double>::epsilon()`. -/
def ulp : K := 1 / 2 ^ 52

/-- The literal `1e-12`. -/
def tiny : K := 1 / 10 ^ 12

/-- The constant `max_inner_per_tick`. -/
def max_inner_per_tick : Nat := 256

/-! ## Utilities -/

/-- Source: `vec_len`, a call of `std::hypot`. -/
def vec_len (hypot : K → K → K) (x y : K) : K := hypot x y

/-- Source: `normalize`; the two reference parameters are returned as a pair. -/
def normalize (hypot : K → K → K) (x y : K) : K × K :=
  let L := vec_len hypot x y
  if L = 0 then (x, y) else (x / L, y / L)

/-- Source: `scale_for`, the maximum of `1` and four absolute values. -/
def scale_for (a b c d : K) : K :=
  max 1 (max |a| (max |b| (max |c| |d|)))

/-- Source: `within`. -/
def within (v lo hi eps : K) : Bool :=
  decide (v ≥ lo - eps) && decide (v ≤ hi + eps)

/-- Source: `maybe_add_vertical`; `out` is threaded through. -/
def maybe_add_vertical (x_side : K) (w : Wall K) (sx sy dx dy maxDist
    eps_dir eps_face eps_d : K) (out : List (SideHit K)) : List (SideHit K) :=
  if |dx| ≤ eps_dir then out
  else
    let s := (x_side - sx) / dx
    if s ≤ eps_d ∨ s > maxDist + eps_d then out
    else
      let y := sy + dy * s
      if !within y w.y1 w.y2 eps_face then out
      else
        out ++ [{ hit := true, dist := s, x := x_side, y := y,
                  vertical := true, horizontal := false, behavior := w.behavior }]

/-- Source: `maybe_add_horizontal`; `out` is threaded through. -/
def maybe_add_horizontal (y_side : K) (w : Wall K) (sx sy dx dy maxDist
    eps_dir eps_face eps_d : K) (out : List (SideHit K)) : List (SideHit K) :=
  if |dy| ≤ eps_dir then out
  else
    let s := (y_side - sy) / dy
    if s ≤ eps_d ∨ s > maxDist + eps_d then out
    else
      let x := sx + dx * s
      if !within x w.x1 w.x2 eps_face then out
      else
        out ++ [{ hit := true, dist := s, x := x, y := y_side,
                  vertical := false, horizontal := true, behavior := w.behavior }]

/-! ## Construction and wall ingestion -/

/-- Source: the constructor `ProjectilePathSimulator(speed, distance_budget)`. -/
def ProjectilePathSimulator.new (speed distance_budget : K) :
    Except Error (ProjectilePathSimulator K) :=
  if speed ≤ 0 then .error (.invalid_argument "Speed must be positive")
  else if distance_budget < 0 then
    .error (.invalid_argument "Distance budget must be non-negative")
  else .ok { speed_ := speed, distance_budget_ := distance_budget, walls_ := [] }

/-- Source: `ProjectilePathSimulator::add_wall`. -/
def ProjectilePathSimulator.add_wall (sim : ProjectilePathSimulator K)
    (x1 y1 x2 y2 : K) (behavior : WallBehavior) : ProjectilePathSimulator K :=
  if |x1 - x2| < tiny ∧ |y1 - y2| < tiny then sim
  else
    { sim with walls_ := sim.walls_ ++
        [{ x1 := min x1 x2, y1 := min y1 y2, x2 := max x1 x2, y2 := max y1 y2,
           behavior := behavior }] }

/-! ## One step of the inner loop of `simulate` -/

/-- The lambda `scale_now` of `simulate`. -/
def scale_now (speed px py dx dy : K) : K :=
  scale_for px py (px + dx * max 1 speed) (py + dy * max 1 speed)

/-- Tolerance `eps_face` of one inner iteration. -/
def eps_face (speed px py dx dy : K) : K := 64 * ulp * scale_now speed px py dx dy

/-- Tolerance `eps_dir`. -/
def eps_dir : K := 64 * ulp

/-- Tolerance `eps_d`. -/
def eps_d (speed : K) : K := 64 * ulp * (1 + speed)

/-- Tolerance `eps_tie`. -/
def eps_tie (speed : K) : K := 128 * ulp * (1 + speed)

/-- Tolerance `eps_push`. -/
def eps_push (speed : K) : K := 1024 * ulp * (1 + speed)

/-- The body of the `for (const auto& w : walls_)` loop that gathers
candidates: the faces of one wall, in source order. -/
def wall_candidates (speed px py dx dy remaining_in_tick : K) (out : List (SideHit K))
    (w : Wall K) : List (SideHit K) :=
  let ef := eps_face speed px py dx dy
  let ed := eps_d speed
  let out1 :=
    if |w.x1 - w.x2| ≤ tiny then
      maybe_add_vertical w.x1 w px py dx dy remaining_in_tick eps_dir ef ed out
    else
      maybe_add_vertical w.x2 w px py dx dy remaining_in_tick eps_dir ef ed
        (maybe_add_vertical w.x1 w px py dx dy remaining_in_tick eps_dir ef ed out)
  if |w.y1 - w.y2| ≤ tiny then
    maybe_add_horizontal w.y1 w px py dx dy remaining_in_tick eps_dir ef ed out1
  else
    maybe_add_horizontal w.y2 w px py dx dy remaining_in_tick eps_dir ef ed
      (maybe_add_horizontal w.y1 w px py dx dy remaining_in_tick eps_dir ef ed out1)

/-- The candidate list of one inner iteration. -/
def gather (speed : K) (walls : List (Wall K)) (px py dx dy remaining_in_tick : K) :
    List (SideHit K) :=
  walls.foldl (wall_candidates speed px py dx dy remaining_in_tick) []

/-- Update of a running minimum that starts at `+∞`:
`if (d < m) m = d`. -/
def min_upd (m : Option K) (d : K) : Option K :=
  match m with
  | none => some d
  | some v => if d < v then some d else some v

/-- One pass through the body of the loop that computes `(s_np_min, s_p_min)`. -/
def earliest_step (acc : Option K × Option K) (h : SideHit K) : Option K × Option K :=
  if h.behavior = WallBehavior.PASS_THROUGH then (acc.1, min_upd acc.2 h.dist)
  else (min_upd acc.1 h.dist, acc.2)

/-- The loop computing `(s_np_min, s_p_min)` from the candidates. -/
def earliest (candidates : List (SideHit K)) : Option K × Option K :=
  candidates.foldl earliest_step (none, none)

/-- The resolved distance `s_min` (`none` is `+∞`). -/
def resolve_s_min (recorded_pass_before_nonpass : Bool) (eps_tie : K)
    (s_np_min s_p_min : Option K) : Option K :=
  match s_np_min with
  | some snp =>
    match s_p_min with
    | some sp =>
      if !recorded_pass_before_nonpass ∧ sp + eps_tie < snp then some sp else some snp
    | none => some snp
  | none => s_p_min

/-- The simultaneous-hit set: candidates with `|dist - s_min| ≤ eps_tie`. -/
def collect_hits (candidates : List (SideHit K)) (s_min : Option K) (eps_tie : K) :
    List (SideHit K) :=
  match s_min with
  | some s => candidates.filter (fun h => decide (|h.dist - s| ≤ eps_tie))
  | none => []

/-- The averaged impact point `(ix, iy)`. -/
def impact (hits : List (SideHit K)) : K × K :=
  ((hits.foldl (fun a h => a + h.x) 0) / (hits.length : K),
   (hits.foldl (fun a h => a + h.y) 0) / (hits.length : K))

/-- One pass through the body of the loop that sets `anyStop`, `anyReflectV`
and `anyReflectH` (in this order in the triple). -/
def flags_step (f : Bool × Bool × Bool) (h : SideHit K) : Bool × Bool × Bool :=
  if h.behavior = WallBehavior.STOP then (true, f.2.1, f.2.2)
  else if h.behavior = WallBehavior.REFLECT then
    (f.1, (if h.vertical then true else f.2.1), (if h.horizontal then true else f.2.2))
  else f

/-- The flags `(anyStop, anyReflectV, anyReflectH)` as the source's loop
computes them. -/
def flags (hits : List (SideHit K)) : Bool × Bool × Bool :=
  hits.foldl flags_step (false, false, false)

/-- `std::min(s_min, remaining_in_tick)` with `s_min` possibly `+∞`. -/
def step_used (s_min : Option K) (remaining_in_tick : K) : K :=
  match s_min with
  | some s => min s remaining_in_tick
  | none => remaining_in_tick

/-- The candidate list of the inner iteration that starts in tick state `ts`. -/
def event_candidates (speed : K) (walls : List (Wall K)) (ts : TickState K) :
    List (SideHit K) :=
  gather speed walls ts.run.px ts.run.py ts.run.dx ts.run.dy ts.remaining_in_tick

/-- The resolved distance `s_min` of the inner iteration that starts in `ts`. -/
def event_s_min (speed : K) (walls : List (Wall K)) (ts : TickState K) : Option K :=
  let e := earliest (event_candidates speed walls ts)
  resolve_s_min ts.recorded_pass_before_nonpass (eps_tie speed) e.1 e.2

/-- The simultaneous-hit set `hits` of the inner iteration that starts in `ts`. -/
def event_hits (speed : K) (walls : List (Wall K)) (ts : TickState K) : List (SideHit K) :=
  collect_hits (event_candidates speed walls ts) (event_s_min speed walls ts) (eps_tie speed)

/-- The body of the inner `for` loop of `simulate`, lines 144-264. -/
def inner_body (speed : K) (walls : List (Wall K)) (ts : TickState K) : Flow K :=
  let st := ts.run
  if (event_candidates speed walls ts).isEmpty then
    if ts.remaining_in_tick ≤ eps_d speed then
      .brk { ts with
        run := { st with remaining_budget := st.remaining_budget - ts.remaining_in_tick },
        remaining_in_tick := 0 }
    else
      .brk { ts with
        run := { st with
          px := st.px + st.dx * ts.remaining_in_tick,
          py := st.py + st.dy * ts.remaining_in_tick,
          remaining_budget := st.remaining_budget - ts.remaining_in_tick },
        remaining_in_tick := 0 }
  else
    let hits := event_hits speed walls ts
    let i := impact hits
    let used := step_used (event_s_min speed walls ts) ts.remaining_in_tick
    let remaining_in_tick := ts.remaining_in_tick - used
    let remaining_budget := st.remaining_budget - used
    let f := flags hits
    let path := st.path ++ [i]
    if f.1 then .ret path
    else
      let dx := if f.2.1 then -st.dx else st.dx
      let dy := if f.2.2 then -st.dy else st.dy
      let recorded := if f.1 || f.2.1 || f.2.2 then false else true
      let will_continue :=
        decide (remaining_in_tick > 10 * eps_d speed) &&
        decide (remaining_budget > 10 * eps_d speed)
      let px := if will_continue then i.1 + dx * eps_push speed else i.1
      let py := if will_continue then i.2 + dy * eps_push speed else i.2
      .next { run := { path := path, px := px, py := py, dx := dx, dy := dy,
                       remaining_budget := remaining_budget },
              recorded_pass_before_nonpass := recorded,
              remaining_in_tick := remaining_in_tick }

/-! ## The loops of `simulate` -/

/-- The inner `for` loop; `fuel` is `max_inner_per_tick - inner`. -/
def inner_loop (speed : K) (walls : List (Wall K)) :
    Nat → TickState K → LoopResult K (TickState K)
  | 0, ts => .fell ts
  | fuel + 1, ts =>
    if ts.remaining_in_tick > 0 then
      match inner_body speed walls ts with
      | .ret path => .stopped path
      | .brk ts1 => .fell ts1
      | .next ts1 => inner_loop speed walls fuel ts1
    else .fell ts

/-- One pass through the body of the outer `for` loop: one tick. -/
def tick (speed : K) (walls : List (Wall K)) (st : RunState K) :
    LoopResult K (RunState K) :=
  match inner_loop speed walls max_inner_per_tick
      { run := st, recorded_pass_before_nonpass := false,
        remaining_in_tick := min speed st.remaining_budget } with
  | .stopped path => .stopped path
  | .fell ts => .fell ts.run

/-- The outer `for` loop; `fuel` is `max_outer - outer`. -/
def outer_loop (speed : K) (walls : List (Wall K)) :
    Nat → RunState K → LoopResult K (RunState K)
  | 0, st => .fell st
  | fuel + 1, st =>
    if st.remaining_budget > 0 then
      match tick speed walls st with
      | .stopped path => .stopped path
      | .fell st1 => outer_loop speed walls fuel st1
    else .fell st

/-- The tolerance `eps_out` of the final de-duplication. -/
def eps_out (speed px py : K) : K :=
  max (64 * ulp * scale_for px py px py) (16 * (1024 * ulp * (1 + speed)))

/-- The code after the loops: append the rest position unless it is within
`eps_out` of the last vertex in both coordinates. -/
def finish (speed : K) (st : RunState K) : List (K × K) :=
  match st.path.getLast? with
  | none => st.path ++ [(st.px, st.py)]
  | some b =>
    if |st.px - b.1| > eps_out speed st.px st.py ∨ |st.py - b.2| > eps_out speed st.px st.py
    then st.path ++ [(st.px, st.py)]
    else st.path

variable [FloorRing K]

/-- The constant `max_outer`; the conversion to `int` is exact in the model. -/
def max_outer (speed distance_budget : K) : Int :=
  ⌈distance_budget / max tiny speed⌉ + 2

/-- Source: `ProjectilePathSimulator::simulate`. -/
def ProjectilePathSimulator.simulate (hypot : K → K → K) (sim : ProjectilePathSimulator K)
    (start_x start_y direction_x direction_y : K) : List (K × K) :=
  let d := normalize hypot direction_x direction_y
  let st0 : RunState K :=
    { path := [(start_x, start_y)], px := start_x, py := start_y, dx := d.1, dy := d.2,
      remaining_budget := sim.distance_budget_ }
  match outer_loop sim.speed_ sim.walls_
      (max_outer sim.speed_ sim.distance_budget_).toNat st0 with
  | .stopped path => path
  | .fell st => finish sim.speed_ st

/-- The wall-ingestion loop of `simulatePath`. -/
def ingest (sim : ProjectilePathSimulator K) (walls : List (Wall K)) :
    ProjectilePathSimulator K :=
  walls.foldl
    (fun s w =>
      if |w.x1 - w.x2| > tiny ∨ |w.y1 - w.y2| > tiny then
        s.add_wall w.x1 w.y1 w.x2 w.y2 w.behavior
      else s)
    sim

/-- Source: `ProjectilePathSimulator::simulatePath`. -/
def simulatePath (hypot : K → K → K) (start direction : K × K) (speed distance_budget : K)
    (walls : List (Wall K)) : Except Error (List (K × K)) :=
  if speed ≤ 0 then .error (.invalid_argument "Speed must be positive")
  else if distance_budget < 0 then
    .error (.invalid_argument "Distance budget must be non-negative")
  else
    let L := vec_len hypot direction.1 direction.2
    if L = 0 then .error (.invalid_argument "Direction vector must not be zero")
    else
      let direction := (direction.1 / L, direction.2 / L)
      match ProjectilePathSimulator.new speed distance_budget with
      | .error e => .error e
      | .ok sim =>
        .ok ((ingest sim walls).simulate hypot start.1 start.2 direction.1 direction.2)

end Definitions

/-! ## Vocabulary of the specification -/

section Vocabulary

variable {K : Type} [LinearOrderedField K]

/-- The facts that hold of every hit of behaviour `b` produced by a ray cast
from `(px, py)` along `(dx, dy)` with step distance `D` and distance
tolerance `ed`: it lies on the ray at its distance, which is in `(ed, D + ed]`. -/
structure RayHit (b : WallBehavior) (px py dx dy D ed : K) (h : SideHit K) : Prop where
  behavior_eq : h.behavior = b
  dist_gt : ed < h.dist
  dist_le : h.dist ≤ D + ed
  x_eq : h.x = px + dx * h.dist
  y_eq : h.y = py + dy * h.dist

/-- The facts that hold of every hit produced for wall `w`: a ray hit that
lies on one of the four face lines of `w`, on a non-parallel axis. -/
structure HitOf (w : Wall K) (px py dx dy D ed : K) (h : SideHit K) : Prop where
  ray : RayHit w.behavior px py dx dy D ed h
  face : (h.vertical = true ∧ h.horizontal = false ∧ (h.x = w.x1 ∨ h.x = w.x2) ∧
            eps_dir < |dx|) ∨
         (h.vertical = false ∧ h.horizontal = true ∧ (h.y = w.y1 ∨ h.y = w.y2) ∧
            eps_dir < |dy|)

/-- The mean distance of a hit set. -/
def mean_dist (hits : List (SideHit K)) : K :=
  (hits.map (fun h => h.dist)).sum / (hits.length : K)

/-- Euclidean length of the polyline through `path`, each segment measured by
the same `hypot` the program uses. -/
def polyline_length (hypot : K → K → K) : List (K × K) → K
  | [] => 0
  | [_] => 0
  | a :: b :: t => vec_len hypot (b.1 - a.1) (b.2 - a.2) + polyline_length hypot (b :: t)

/-- `hypot` returns the Euclidean length whenever that length is a number of
`K`: the idealisation of `std::hypot` in exact arithmetic. -/
def HypotExact (hypot : K → K → K) : Prop :=
  ∀ x y t : K, 0 ≤ t → x * x + y * y = t * t → hypot x y = t

/-- The per-vertex tolerance `eps_push + eps_tie + eps_d = 1216 ulp (1 + speed)`. -/
def slack (speed : K) : K := eps_push speed + eps_tie speed + eps_d speed

/-- The state after a tick whose inner loop found no candidate and whose step
was not swallowed: the position has moved `remaining_in_tick` along the ray. -/
def glide (st : RunState K) (d : K) : RunState K :=
  { st with px := st.px + st.dx * d, py := st.py + st.dy * d,
            remaining_budget := st.remaining_budget - d }

/-- The state after a step that was swallowed: only the budget changes. -/
def swallow (st : RunState K) (d : K) : RunState K :=
  { st with remaining_budget := st.remaining_budget - d }

/-- The tick state after an event that does not stop the run, as the body of
the inner loop builds it from the hit set, the resolved distance and the
state `ts` before the event. -/
def after_event (speed : K) (hits : List (SideHit K)) (s_min : Option K)
    (ts : TickState K) : TickState K :=
  let f := flags hits
  let i := impact hits
  let used := step_used s_min ts.remaining_in_tick
  let dx := if f.2.1 then -ts.run.dx else ts.run.dx
  let dy := if f.2.2 then -ts.run.dy else ts.run.dy
  let will_continue :=
    decide (ts.remaining_in_tick - used > 10 * eps_d speed) &&
    decide (ts.run.remaining_budget - used > 10 * eps_d speed)
  { run := { path := ts.run.path ++ [i],
             px := if will_continue then i.1 + dx * eps_push speed else i.1,
             py := if will_continue then i.2 + dy * eps_push speed else i.2,
             dx := dx, dy := dy,
             remaining_budget := ts.run.remaining_budget - used },
    recorded_pass_before_nonpass := if f.1 || f.2.1 || f.2.2 then false else true,
    remaining_in_tick := ts.remaining_in_tick - used }

/-- Invariant of the outer loop that ties the polyline to the budget consumed so
far. The position lies on the ray that leaves the last vertex `v`, at offset
`a`; the polyline length plus `a` exceeds the consumed budget by at most one
`slack` per recorded event. With `low` the matching lower bound is kept too
(one more `eps_d` may be lost by the step that uses up the budget). -/
structure RunInv (hypot : K → K → K) (speed B : K) (low : Prop) (st : RunState K) :
    Prop where
  unit : st.dx * st.dx + st.dy * st.dy = 1
  rb_nonneg : 0 ≤ st.remaining_budget
  ray : ∃ v a, st.path.getLast? = some v ∧ 0 ≤ a ∧
    st.px = v.1 + a * st.dx ∧ st.py = v.2 + a * st.dy ∧
    polyline_length hypot st.path + a
      ≤ B - st.remaining_budget + ((st.path.length : K) - 1) * slack speed ∧
    (low →
      (B - st.remaining_budget - ((st.path.length : K) - 1) * slack speed
          ≤ polyline_length hypot st.path + a) ∨
      (st.remaining_budget = 0 ∧
        B - ((st.path.length : K) - 1) * slack speed - eps_d speed
          ≤ polyline_length hypot st.path + a))

/-- Invariant of the inner loop: as `RunInv`, with `remaining_in_tick` between
`0` and the remaining budget. For the lower bound, either an event of this
tick has left a credit of `eps_d`, or the tick has not consumed anything yet. -/
structure TickInv (hypot : K → K → K) (speed B : K) (low : Prop) (ts : TickState K) :
    Prop where
  unit : ts.run.dx * ts.run.dx + ts.run.dy * ts.run.dy = 1
  rit_nonneg : 0 ≤ ts.remaining_in_tick
  rit_le : ts.remaining_in_tick ≤ ts.run.remaining_budget
  ray : ∃ v a, ts.run.path.getLast? = some v ∧ 0 ≤ a ∧
    ts.run.px = v.1 + a * ts.run.dx ∧ ts.run.py = v.2 + a * ts.run.dy ∧
    polyline_length hypot ts.run.path + a
      ≤ B - ts.run.remaining_budget + ((ts.run.path.length : K) - 1) * slack speed ∧
    (low →
      (B - ts.run.remaining_budget - ((ts.run.path.length : K) - 1) * slack speed
          + eps_d speed ≤ polyline_length hypot ts.run.path + a) ∨
      (ts.remaining_in_tick = min speed ts.run.remaining_budget ∧
        B - ts.run.remaining_budget - ((ts.run.path.length : K) - 1) * slack speed
          ≤ polyline_length hypot ts.run.path + a))

/-- The bound that a path returned from a STOP event satisfies. -/
def WithinBudget (hypot : K → K → K) (speed B : K) (path : List (K × K)) : Prop :=
  polyline_length hypot path ≤ B + ((path.length : K) - 1) * slack speed

/-- The tolerance within which the polyline length meets the budget: one
`slack` per recorded vertex after the first, the last swallowed step, and
the de-duplication window at the last vertex. -/
def length_tolerance (speed : K) (path : List (K × K)) : K :=
  ((path.length : K) - 1) * slack speed + eps_d speed
    + 4 * eps_out speed (path.getLast?.getD (0, 0)).1 (path.getLast?.getD (0, 0)).2

/-- A run that left the loops without a STOP event and with no budget left. -/
def budget_used_up (r : LoopResult K (RunState K)) : Bool :=
  match r with
  | .fell st => decide (st.remaining_budget = 0)
  | .stopped _ => false

/-- The path that `simulate` returns after the loops. -/
def path_of (speed : K) (r : LoopResult K (RunState K)) : List (K × K) :=
  match r with
  | .stopped path => path
  | .fell st => finish speed st

/-- The wall as `add_wall` stores it: corners ordered. -/
def Wall.normalized (w : Wall K) : Wall K :=
  { x1 := min w.x1 w.x2, y1 := min w.y1 w.y2, x2 := max w.x1 w.x2, y2 := max w.y1 w.y2,
    behavior := w.behavior }

/-- The point `(x, y)` lies in the open rectangle of the stored wall `w`. -/
def StrictlyInside (w : Wall K) (x y : K) : Prop :=
  w.x1 < x ∧ x < w.x2 ∧ w.y1 < y ∧ y < w.y2

/-- The ray from `start` along `u` leaves the stored wall `w` at distance `t`:
the point at distance `t` lies in the closed rectangle, on a face whose axis
the ray is not parallel to (in the sense of `eps_dir`). -/
def ExitsAt (w : Wall K) (start u : K × K) (t : K) : Prop :=
  w.x1 ≤ start.1 + u.1 * t ∧ start.1 + u.1 * t ≤ w.x2 ∧
  w.y1 ≤ start.2 + u.2 * t ∧ start.2 + u.2 * t ≤ w.y2 ∧
  ((eps_dir < |u.1| ∧ (start.1 + u.1 * t = w.x1 ∨ start.1 + u.1 * t = w.x2)) ∨
   (eps_dir < |u.2| ∧ (start.2 + u.2 * t = w.y1 ∨ start.2 + u.2 * t = w.y2)))

/-- The path a loop result carries. -/
def result_path (r : LoopResult K (RunState K)) : List (K × K) :=
  match r with
  | .stopped path => path
  | .fell st => st.path

/-- The first vertex recorded after `start` lies on the ray at a distance
between `t` and `t + eps_tie` (exactly `t` for an axis-parallel ray), and a
STOP wall ends the run there. -/
def FirstVertexAtExit (start u : K × K) (t speed : K) (b : WallBehavior)
    (r : LoopResult K (RunState K)) : Prop :=
  ∃ τ, t ≤ τ ∧ τ ≤ t + eps_tie speed ∧
    ((|u.1| ≤ eps_dir ∨ |u.2| ≤ eps_dir) → τ = t) ∧
    [start, (start.1 + u.1 * τ, start.2 + u.2 * τ)] <+: result_path r ∧
    (b = WallBehavior.STOP →
      r = .stopped [start, (start.1 + u.1 * τ, start.2 + u.2 * τ)])

/-- State of a run that has glided `g` from `start` along `u` without recording anything. -/
structure Gliding (start u : K × K) (B g : K) (st : RunState K) : Prop where
  path_eq : st.path = [start]
  px_eq : st.px = start.1 + u.1 * g
  py_eq : st.py = start.2 + u.2 * g
  dx_eq : st.dx = u.1
  dy_eq : st.dy = u.2
  rb_eq : st.remaining_budget = B - g

instance (w : Wall K) (x y : K) : Decidable (StrictlyInside w x y) := by
  unfold StrictlyInside; infer_instance

instance (w : Wall K) (start u : K × K) (t : K) : Decidable (ExitsAt w start u t) := by
  unfold ExitsAt; infer_instance

/-- The tick state at the start of the `k`-th further pass through the body of
the inner loop, when the loop gets that far. -/
def inner_state_after (speed : K) (walls : List (Wall K)) :
    Nat → TickState K → Option (TickState K)
  | 0, ts => some ts
  | k + 1, ts =>
    if ts.remaining_in_tick > 0 then
      match inner_body speed walls ts with
      | .next ts1 => inner_state_after speed walls k ts1
      | _ => none
    else none

/-- The run state at the start of the `j`-th further tick, when the outer loop
gets that far. -/
def run_state_after (speed : K) (walls : List (Wall K)) :
    Nat → RunState K → Option (RunState K)
  | 0, st => some st
  | j + 1, st =>
    if st.remaining_budget > 0 then
      match tick speed walls st with
      | .fell st1 => run_state_after speed walls j st1
      | .stopped _ => none
    else none

end Vocabulary

section VocabularyRun

variable {K : Type} [LinearOrderedField K] [FloorRing K]

/-- The loops of the run that `simulatePath` starts for the unit direction
`u`: the walls are ingested, the state is initialised, the outer loop runs. -/
def run_loop (start u : K × K) (speed distance_budget : K) (walls : List (Wall K)) :
    LoopResult K (RunState K) :=
  outer_loop speed
    (ingest { speed_ := speed, distance_budget_ := distance_budget, walls_ := [] } walls).walls_
    (max_outer speed distance_budget).toNat
    { path := [start], px := start.1, py := start.2, dx := u.1, dy := u.2,
      remaining_budget := distance_budget }

end VocabularyRun

/-- Newton iteration from above for the integer square root: from a guess
`g ≥ ⌊√n⌋` it descends to `⌊√n⌋`. -/
def isqrt_iter (n : Nat) : Nat → Nat → Nat
  | 0, g => g
  | fuel + 1, g =>
    let g1 := (g + n / g) / 2
    if g1 < g then isqrt_iter n fuel g1 else g

/-- Integer square root `⌊√n⌋`. -/
def isqrt (n : Nat) : Nat := if n ≤ 1 then n else isqrt_iter n n n

/-- Instance of `std::hypot` for concrete runs over `ℚ`: the square root of
numerator and denominator of `x² + y²`, which is the exact length whenever
that length is rational, as it is for every direction and segment used in
the concrete runs below. -/
def hypotQ (x y : ℚ) : ℚ :=
  mkRat (isqrt (x * x + y * y).num.toNat) (isqrt (x * x + y * y).den)

section StoreVocabulary

variable {K : Type} [LinearOrderedField K]

/-- What every stored wall satisfies: corners ordered, and width or height at
least `1e-12`. -/
def Wall.stored_ok (w : Wall K) : Prop :=
  w.x1 ≤ w.x2 ∧ w.y1 ≤ w.y2 ∧ (tiny ≤ w.x2 - w.x1 ∨ tiny ≤ w.y2 - w.y1)

/-- The object after a sequence of `add_wall` calls, one per element of
`calls` with its five fields as the arguments. -/
def add_walls (sim : ProjectilePathSimulator K) (calls : List (Wall K)) :
    ProjectilePathSimulator K :=
  calls.foldl (fun s c => s.add_wall c.x1 c.y1 c.x2 c.y2 c.behavior) sim

instance (w : Wall K) : Decidable w.stored_ok := by
  unfold Wall.stored_ok; infer_instance

end StoreVocabulary

section BatchingVocabulary

variable {K : Type} [LinearOrderedField K]

/-- The inner iteration that starts in `ts` resolves to the nearest blocking
(STOP or REFLECT) candidate, at distance `snp`: the simultaneous-hit set holds
a blocking hit at that distance, every candidate nearer than `snp - eps_tie`
is left out of it, and the body records the single vertex `impact hits` and
either returns or continues from there with the batching flag cleared. -/
def JumpsToBlocking (speed : K) (walls : List (Wall K)) (ts : TickState K) (snp : K) : Prop :=
  event_s_min speed walls ts = some snp ∧
  (∃ h ∈ event_hits speed walls ts, h.behavior ≠ WallBehavior.PASS_THROUGH ∧ h.dist = snp) ∧
  (∀ p ∈ event_candidates speed walls ts, p.dist + eps_tie speed < snp →
    p ∉ event_hits speed walls ts) ∧
  (inner_body speed walls ts
      = Flow.ret (ts.run.path ++ [impact (event_hits speed walls ts)]) ∨
   (inner_body speed walls ts
      = Flow.next (after_event speed (event_hits speed walls ts) (some snp) ts) ∧
    (after_event speed (event_hits speed walls ts) (some snp) ts).recorded_pass_before_nonpass
      = false))

/-- The inner iteration that starts in `ts` records a pass-through vertex in
front of the nearest blocking candidate at distance `snp`: the resolved
distance `sp` is nearer by more than `eps_tie`, all hits are PASS_THROUGH, the
direction is kept, the batching flag is set and the tick goes on. -/
def RecordsPassBefore (speed : K) (walls : List (Wall K)) (ts : TickState K) (snp : K) :
    Prop :=
  ∃ sp, event_s_min speed walls ts = some sp ∧ sp + eps_tie speed < snp ∧
    (∀ h ∈ event_hits speed walls ts, h.behavior = WallBehavior.PASS_THROUGH) ∧
    inner_body speed walls ts
      = Flow.next (after_event speed (event_hits speed walls ts) (some sp) ts) ∧
    (after_event speed (event_hits speed walls ts) (some sp) ts).recorded_pass_before_nonpass
      = true ∧
    0 < (after_event speed (event_hits speed walls ts) (some sp) ts).remaining_in_tick ∧
    (after_event speed (event_hits speed walls ts) (some sp) ts).run.dx = ts.run.dx ∧
    (after_event speed (event_hits speed walls ts) (some sp) ts).run.dy = ts.run.dy

end BatchingVocabulary

section CrossingVocabulary

variable {K : Type} [LinearOrderedField K]

/-- A wall of the input that is a PASS_THROUGH segment on a vertical line and
crosses the `x`-axis, long enough to be stored. -/
def PassThroughCrossing (w : Wall K) : Prop :=
  w.x1 = w.x2 ∧ min w.y1 w.y2 ≤ 0 ∧ 0 ≤ max w.y1 w.y2 ∧ tiny < |w.y1 - w.y2| ∧
    w.behavior = WallBehavior.PASS_THROUGH

instance (w : Wall K) : Decidable (PassThroughCrossing w) := by
  unfold PassThroughCrossing; infer_instance

/-- A stored PASS_THROUGH segment on a vertical line that crosses the `x`-axis. -/
def StoredCrossing (w : Wall K) : Prop :=
  w.x1 = w.x2 ∧ w.y1 ≤ 0 ∧ 0 ≤ w.y2 ∧ w.behavior = WallBehavior.PASS_THROUGH

/-- The least gap between two crossings for which both are recorded:
`eps_push + eps_d`. -/
def crossing_gap (speed : K) : K := eps_push speed + eps_d speed

/-- The segments are listed from left to right, each more than `crossing_gap`
beyond the one before. -/
def Spaced (speed : K) (ws : List (Wall K)) : Prop :=
  ws.Pairwise (fun a b => a.x1 + crossing_gap speed < b.x1)

instance (speed : K) (ws : List (Wall K)) : Decidable (Spaced speed ws) := by
  unfold Spaced; infer_instance

/-- State of a run along `+x` from `(0,0)` through the stored segments `ws`:
the segments `done` have been recorded, in order; the last vertex is `(l, 0)`,
the polyline has length `l`, and the position is at or beyond it; every
segment of `todo` is more than `eps_d` ahead. -/
structure Crossed (hypot : K → K → K) (speed : K) (ws done todo : List (Wall K))
    (st : RunState K) : Prop where
  split : ws = done ++ todo
  path_eq : st.path = (0, 0) :: done.map (fun w => (w.x1, 0))
  last : ∃ l, st.path.getLast? = some (l, 0) ∧ polyline_length hypot st.path = l ∧
    l ≤ st.px ∧ ∀ w ∈ done, w.x1 ≤ l
  ahead : ∀ w ∈ todo, st.px + eps_d speed < w.x1
  py_eq : st.py = 0
  dx_eq : st.dx = 1
  dy_eq : st.dy = 0

/-- The margin by which the crossings have to stay short of the budget for the
end point to be a vertex of its own: one `slack` per crossing, the last
swallowed step, and the de-duplication window at the far end. -/
def end_margin (speed B : K) (k : Nat) : K :=
  (k : K) * slack speed + eps_d speed + eps_out speed (B + (k : K) * slack speed) 0

end CrossingVocabulary

section MirrorVocabulary

variable {K : Type} [LinearOrderedField K]

/-- The reflection of a point about the y axis. -/
def mirror_point (p : K × K) : K × K := (-p.1, p.2)

/-- The reflection of a path: every vertex reflected about the y axis. -/
def mirror_path (path : List (K × K)) : List (K × K) := path.map mirror_point

/-- The wall with the x coordinate of both corners negated. -/
def Wall.mirror (w : Wall K) : Wall K :=
  { x1 := -w.x1, y1 := w.y1, x2 := -w.x2, y2 := w.y2, behavior := w.behavior }

/-- The reflection of a stored wall, corners in order again: its left face is
the reflection of the right one. -/
def Wall.mirror_stored (w : Wall K) : Wall K :=
  { x1 := -w.x2, y1 := w.y1, x2 := -w.x1, y2 := w.y2, behavior := w.behavior }

/-- The reflection of a candidate: the same distance, the hit point
reflected. -/
def SideHit.mirror (h : SideHit K) : SideHit K := { h with x := -h.x }

/-- The reflection of the locals of `simulate`: position, direction and path
reflected, the budget kept. -/
def RunState.mirror (st : RunState K) : RunState K :=
  { st with path := mirror_path st.path, px := -st.px, dx := -st.dx }

/-- The reflection of the locals of one tick. -/
def TickState.mirror (ts : TickState K) : TickState K := { ts with run := ts.run.mirror }

/-- The reflection of the outcome of one pass through the inner loop. -/
def Flow.mirror : Flow K → Flow K
  | .ret path => .ret (mirror_path path)
  | .brk ts => .brk ts.mirror
  | .next ts => .next ts.mirror

/-- The reflection of the outcome of a loop, `f` reflecting its state. -/
def LoopResult.mirror {S : Type} (f : S → S) : LoopResult K S → LoopResult K S
  | .stopped path => .stopped (mirror_path path)
  | .fell s => .fell (f s)

/-- The wall has no width, or a width above `1e-12`: it is not one of the
walls of which `simulate` tests the face `x1` alone although `x2` differs. -/
def Wall.plain_width (w : Wall K) : Prop := w.x1 = w.x2 ∨ |w.x1 - w.x2| > tiny

end MirrorVocabulary

end projectile_path_simulator

/-! # Minimum rectangle cover: the embedding of `solution.cpp` -/

namespace solution

/-- Failure kinds of `solve`: `std::invalid_argument` and `std::runtime_error`. -/
inductive Error where
  | invalid_argument (msg : String)
  | runtime_error (msg : String)
  deriving DecidableEq, Repr

/-- Source: `struct Rect`, the corners `(r1, c1)` and `(r2, c2)` of a rectangle
of cells, both inclusive. -/
structure Rect where
  r1 : Nat
  c1 : Nat
  r2 : Nat
  c2 : Nat
  deriving DecidableEq, Repr

/-- Source: `matrix_has_ones`. -/
def matrix_has_ones (matrix : List (List Bool)) : Bool :=
  matrix.any (fun row => row.any (fun val => val))

/-- The element `matrix[r][c]`. -/
def cell (matrix : List (List Bool)) (r c : Nat) : Bool :=
  (matrix.getD r []).getD c false

/-- The element `pref[i][j]`. -/
def pref_at (pref : List (List Int)) (i j : Nat) : Int :=
  (pref.getD i []).getD j 0

/-- The assignment `pref[i][j] = v`. -/
def pref_put (pref : List (List Int)) (i j : Nat) (v : Int) : List (List Int) :=
  pref.set i ((pref.getD i []).set j v)

/-- One pass through the body of the inner `for` loop of `build_pref`, for row
`i` and column `j`; the state is the running sum `row` and the table. -/
def build_pref_step (matrix : List (List Bool)) (i : Nat) (acc : Int × List (List Int))
    (j : Nat) : Int × List (List Int) :=
  let row := acc.1 + (if cell matrix i j then 1 else 0)
  (row, pref_put acc.2 (i + 1) (j + 1) (pref_at acc.2 i (j + 1) + row))

/-- The inner `for` loop of `build_pref` for row `i`, with `row = 0` at the
start. -/
def build_pref_row (matrix : List (List Bool)) (n i : Nat) (pref : List (List Int)) :
    List (List Int) :=
  ((List.range n).foldl (build_pref_step matrix i) (0, pref)).2

/-- Source: `build_pref`; the table passed by reference is returned. -/
def build_pref (matrix : List (List Bool)) (pref : List (List Int)) : List (List Int) :=
  let m := matrix.length
  let n := (matrix.getD 0 []).length
  (List.range m).foldl (fun p i => build_pref_row matrix n i p) pref

/-- Source: `sum_rect`. -/
def sum_rect (pref : List (List Int)) (r1 c1 r2 c2 : Nat) : Int :=
  pref_at pref (r2 + 1) (c2 + 1) - pref_at pref r1 (c2 + 1) - pref_at pref (r2 + 1) c1
    + pref_at pref r1 c1

/-- The list `rects` that `solve` builds: every rectangle of the `m × n` grid,
in the order of the four nested loops. -/
def all_rects (m n : Nat) : List Rect :=
  (List.range m).flatMap fun r1 =>
    (List.range n).flatMap fun c1 =>
      (List.range' r1 (m - r1)).flatMap fun r2 =>
        (List.range' c1 (n - c1)).map fun c2 => { r1 := r1, c1 := c1, r2 := r2, c2 := c2 }

/-- One pass through the body of the loop over `rects`; the state is
`(best_idx, best_cover)`. -/
def scan_step (matrix : List (List Bool)) (pref : List (List Int)) (acc : Int × Int)
    (ir : Nat × Rect) : Int × Int :=
  if !cell matrix ir.2.r1 ir.2.c1 then acc
  else
    let cover := sum_rect pref ir.2.r1 ir.2.c1 ir.2.r2 ir.2.c2
    if cover > acc.2 then ((ir.1 : Int), cover) else acc

/-- The loop over `rects`: `(best_idx, best_cover)`, both `-1` at the start. -/
def scan_rects (matrix : List (List Bool)) (pref : List (List Int)) (rects : List Rect) :
    Int × Int :=
  rects.enum.foldl (scan_step matrix pref) (-1, -1)

/-- The assignment `matrix[r][c] = !matrix[r][c]`. -/
def flip_cell (matrix : List (List Bool)) (r c : Nat) : List (List Bool) :=
  matrix.set r ((matrix.getD r []).set c (!cell matrix r c))

/-- The two nested loops that toggle every cell of a rectangle. -/
def flip_rect (matrix : List (List Bool)) (rect : Rect) : List (List Bool) :=
  (List.range' rect.r1 (rect.r2 + 1 - rect.r1)).foldl
    (fun mat r =>
      (List.range' rect.c1 (rect.c2 + 1 - rect.c1)).foldl (fun mat1 c => flip_cell mat1 r c) mat)
    matrix

/-- The `while (matrix_has_ones(matrix))` loop of `solve`. The loop has no
bound in the source: `fuel` bounds the number of passes, and `none` is a run
that needs more. -/
def greedy_loop (rects : List Rect) :
    Nat → List (List Bool) → List (List Int) → Int → Option (Except Error Int)
  | 0, matrix, _, flips => if matrix_has_ones matrix then none else some (.ok flips)
  | fuel + 1, matrix, pref, flips =>
    if matrix_has_ones matrix then
      let pref1 := build_pref matrix pref
      let best := scan_rects matrix pref1 rects
      if best.2 ≤ 0 ∨ best.1 < 0 ∨ best.1 ≥ (rects.length : Int) then
        some (.error (.runtime_error "Invalid best_cover or best_idx"))
      else
        greedy_loop rects fuel
          (flip_rect matrix (rects.getD best.1.toNat { r1 := 0, c1 := 0, r2 := 0, c2 := 0 }))
          pref1 (flips + 1)
    else some (.ok flips)

/-- Source: `solve`; `fuel` bounds the passes of the greedy loop. -/
def solve (fuel : Nat) (m n : Int) (matrix : List (List Bool)) : Option (Except Error Int) :=
  if m = 0 ∨ n = 0 then some (.ok 0)
  else if m < 0 ∨ n < 0 then some (.error (.invalid_argument "m < 0 or n < 0"))
  else if m ≠ (matrix.length : Int) then
    some (.error (.invalid_argument "m != matrix.size()"))
  else if (List.range m.toNat).any (fun i => decide (((matrix.getD i []).length : Int) ≠ n))
  then some (.error (.invalid_argument "row “i” length != n"))
  else if !matrix_has_ones matrix then some (.ok 0)
  else
    greedy_loop (all_rects m.toNat n.toNat) fuel matrix
      (List.replicate (m.toNat + 1) (List.replicate (n.toNat + 1) 0)) 0

end solution

/-! ## Vocabulary for the greedy loop -/

namespace solution

/-- The matrix has `m` rows, each of length `n`. -/
def WellFormed (m n : Nat) (matrix : List (List Bool)) : Prop :=
  matrix.length = m ∧ ∀ row ∈ matrix, row.length = n

/-- The table of prefix sums has `m + 1` rows, each of length `n + 1`. -/
def PrefShape (m n : Nat) (pref : List (List Int)) : Prop :=
  pref.length = m + 1 ∧ ∀ row ∈ pref, row.length = n + 1

/-- The rectangle lies in the `m × n` grid with its corners in order. -/
def Rect.inside (rect : Rect) (m n : Nat) : Prop :=
  rect.r1 ≤ rect.r2 ∧ rect.r2 < m ∧ rect.c1 ≤ rect.c2 ∧ rect.c2 < n

/-- The cell `(r, c)` belongs to the rectangle. -/
def Rect.covers (rect : Rect) (r c : Nat) : Prop :=
  rect.r1 ≤ r ∧ r ≤ rect.r2 ∧ rect.c1 ≤ c ∧ c ≤ rect.c2

instance (m n : Nat) (matrix : List (List Bool)) : Decidable (WellFormed m n matrix) := by
  unfold WellFormed; infer_instance

instance (rect : Rect) (m n : Nat) : Decidable (rect.inside m n) := by
  unfold Rect.inside; infer_instance

instance (rect : Rect) (r c : Nat) : Decidable (rect.covers r c) := by
  unfold Rect.covers; infer_instance

/-- The rectangle is a candidate of the scan: its top-left cell is true. -/
def Rect.candidate (rect : Rect) (matrix : List (List Bool)) : Prop :=
  cell matrix rect.r1 rect.c1 = true

instance (rect : Rect) (matrix : List (List Bool)) : Decidable (rect.candidate matrix) := by
  unfold Rect.candidate; infer_instance

/-- The number of true cells in the rows below `i` and the columns below `j`:
what `pref[i][j]` is to hold. -/
def ones_upto (matrix : List (List Bool)) (i j : Nat) : Int :=
  ∑ r in Finset.range i, ∑ c in Finset.range j, if cell matrix r c then 1 else 0

/-- The number of true cells of the matrix in a rectangle. -/
def ones_in (matrix : List (List Bool)) (rect : Rect) : Int :=
  ∑ r in Finset.Ico rect.r1 (rect.r2 + 1), ∑ c in Finset.Ico rect.c1 (rect.c2 + 1),
    if cell matrix r c then 1 else 0

/-- The choice of the greedy scan: `rects[i]` is a candidate with `cover` true
cells, no candidate of the list has more, and no candidate before it has as
many. -/
structure FirstBest (matrix : List (List Bool)) (rects : List Rect) (i : Nat) (cover : Int) :
    Prop where
  lt : i < rects.length
  cand : (rects.getD i { r1 := 0, c1 := 0, r2 := 0, c2 := 0 }).candidate matrix
  cover_eq : cover = ones_in matrix (rects.getD i { r1 := 0, c1 := 0, r2 := 0, c2 := 0 })
  most : ∀ j < rects.length,
    (rects.getD j { r1 := 0, c1 := 0, r2 := 0, c2 := 0 }).candidate matrix →
    ones_in matrix (rects.getD j { r1 := 0, c1 := 0, r2 := 0, c2 := 0 }) ≤ cover
  first : ∀ j < i,
    (rects.getD j { r1 := 0, c1 := 0, r2 := 0, c2 := 0 }).candidate matrix →
    ones_in matrix (rects.getD j { r1 := 0, c1 := 0, r2 := 0, c2 := 0 }) < cover

/-- The first `k` bits of `f` read as a binary number, bit `0` the most
significant. -/
def binary (f : Nat → Bool) : Nat → Nat
  | 0 => 0
  | k + 1 => 2 * binary f k + (if f k then 1 else 0)

/-- The matrix read as a binary number, row by row, the first cell the most
significant. -/
def code (m n : Nat) (matrix : List (List Bool)) : Nat :=
  binary (fun k => cell matrix (k / n) (k % n)) (m * n)

end solution

/-! ## The run of the greedy loop -/

namespace solution

/-- The matrix and the table of prefix sums at the head of pass `j` of the
`while` loop of `solve`, counted from `0`, when the loop gets that far: `none`
when the loop has ended before, by its condition or by the exception. -/
def greedy_state_after (rects : List Rect) :
    Nat → List (List Bool) → List (List Int) → Option (List (List Bool) × List (List Int))
  | 0, matrix, pref => some (matrix, pref)
  | j + 1, matrix, pref =>
    if matrix_has_ones matrix then
      let pref1 := build_pref matrix pref
      let best := scan_rects matrix pref1 rects
      if best.2 ≤ 0 ∨ best.1 < 0 ∨ best.1 ≥ (rects.length : Int) then none
      else
        greedy_state_after rects j
          (flip_rect matrix (rects.getD best.1.toNat { r1 := 0, c1 := 0, r2 := 0, c2 := 0 }))
          pref1
    else none

/-- The order in which the four nested loops of `solve` enumerate the
rectangles: lexicographic in `(r1, c1, r2, c2)`. -/
def Rect.before (a b : Rect) : Prop :=
  a.r1 < b.r1 ∨ (a.r1 = b.r1 ∧ (a.c1 < b.c1 ∨ (a.c1 = b.c1 ∧
    (a.r2 < b.r2 ∨ (a.r2 = b.r2 ∧ a.c2 < b.c2)))))

instance (a b : Rect) : Decidable (a.before b) := by
  unfold Rect.before; infer_instance

/-- The rectangle the greedy rule picks in `matrix`: a rectangle of the grid
with a true top-left cell that holds the most true cells among these, and the
earliest such in the order of enumeration. -/
def GreedyChoice (m n : Nat) (matrix : List (List Bool)) (x : Rect) : Prop :=
  x.inside m n ∧ x.candidate matrix ∧
  (∀ y : Rect, y.inside m n → y.candidate matrix → ones_in matrix y ≤ ones_in matrix x) ∧
  (∀ y : Rect, y.inside m n → y.candidate matrix → ones_in matrix y = ones_in matrix x →
    ¬ y.before x)

/-- The matrix after the rectangles of `rs` have been toggled one after the
other. -/
def flip_all (matrix : List (List Bool)) (rs : List Rect) : List (List Bool) :=
  rs.foldl flip_rect matrix

/-- The sequence `rs` of rectangles of the `m × n` grid turns the matrix
all-false when toggled one after the other. -/
def IsFlipCover (m n : Nat) (matrix : List (List Bool)) (rs : List Rect) : Prop :=
  (∀ x ∈ rs, x.inside m n) ∧ ∀ r c, cell (flip_all matrix rs) r c = false

end solution

/-! # Properties -/

namespace projectile_path_simulator

set_option linter.unusedSectionVars false

section Lemmas

variable {K : Type} [LinearOrderedField K]

/-! ## The behaviour flags of a simultaneous-hit set -/

theorem flags_foldl (hits : List (SideHit K)) (f : Bool × Bool × Bool) :
    hits.foldl flags_step f =
      (f.1 || hits.any (fun h => decide (h.behavior = WallBehavior.STOP)),
       f.2.1 || hits.any (fun h => decide (h.behavior = WallBehavior.REFLECT) && h.vertical),
       f.2.2 || hits.any (fun h => decide (h.behavior = WallBehavior.REFLECT) && h.horizontal))
    := by
  induction hits generalizing f with
  | nil => simp
  | cons h t ih =>
    rw [List.foldl_cons, ih]
    cases hb : h.behavior <;> cases hv : h.vertical <;> cases hh : h.horizontal <;>
      simp [flags_step, hb, hv, hh, Bool.or_assoc]

theorem flags_stop (hits : List (SideHit K)) :
    (flags hits).1 = true ↔ ∃ h ∈ hits, h.behavior = WallBehavior.STOP := by
  simp [flags, flags_foldl]

theorem flags_reflect_v (hits : List (SideHit K)) :
    (flags hits).2.1 = true ↔
      ∃ h ∈ hits, h.behavior = WallBehavior.REFLECT ∧ h.vertical = true := by
  simp [flags, flags_foldl]

theorem flags_reflect_h (hits : List (SideHit K)) :
    (flags hits).2.2 = true ↔
      ∃ h ∈ hits, h.behavior = WallBehavior.REFLECT ∧ h.horizontal = true := by
  simp [flags, flags_foldl]

/-! ## Hits are candidates -/

theorem collect_hits_subset (cands : List (SideHit K)) (s : Option K) (e : K) :
    ∀ h ∈ collect_hits cands s e, h ∈ cands := by
  intro h hh
  cases s with
  | none => simp [collect_hits] at hh
  | some v => exact (List.mem_filter.mp hh).1

theorem event_hits_subset (speed : K) (walls : List (Wall K)) (ts : TickState K) :
    ∀ h ∈ event_hits speed walls ts, h ∈ event_candidates speed walls ts :=
  collect_hits_subset _ _ _

theorem candidates_ne_of_hit (speed : K) (walls : List (Wall K)) (ts : TickState K)
    {h : SideHit K} (hh : h ∈ event_hits speed walls ts) :
    (event_candidates speed walls ts).isEmpty = false := by
  have := event_hits_subset speed walls ts h hh
  cases hc : event_candidates speed walls ts with
  | nil => rw [hc] at this; simp at this
  | cons a t => rfl

end Lemmas

/-! ## What a candidate hit is -/

section Candidates

variable {K : Type} [LinearOrderedField K]

theorem ulp_pos : (0 : K) < ulp := by unfold ulp; positivity

theorem eps_dir_pos : (0 : K) < eps_dir := by
  unfold eps_dir; have := @ulp_pos K _; positivity

theorem eps_d_pos {speed : K} (hs : 0 < speed) : 0 < eps_d speed := by
  unfold eps_d; have := @ulp_pos K _; positivity

theorem eps_tie_pos {speed : K} (hs : 0 < speed) : 0 < eps_tie speed := by
  unfold eps_tie; have := @ulp_pos K _; positivity

theorem eps_push_pos {speed : K} (hs : 0 < speed) : 0 < eps_push speed := by
  unfold eps_push; have := @ulp_pos K _; positivity

theorem eps_out_pos (speed px py : K) (hs : 0 < speed) : 0 < eps_out speed px py := by
  unfold eps_out
  apply lt_max_of_lt_right
  have : (0 : K) < ulp := by unfold ulp; positivity
  positivity

theorem mem_maybe_add_vertical {x_side : K} {w : Wall K} {sx sy dx dy D edir ef ed : K}
    {out : List (SideHit K)} {h : SideHit K} (hedir : 0 ≤ edir)
    (hm : h ∈ maybe_add_vertical x_side w sx sy dx dy D edir ef ed out) :
    h ∈ out ∨ (RayHit w.behavior sx sy dx dy D ed h ∧ h.vertical = true ∧
      h.horizontal = false ∧ h.x = x_side ∧ edir < |dx| ∧
      within h.y w.y1 w.y2 ef = true) := by
  unfold maybe_add_vertical at hm
  simp only at hm
  split_ifs at hm with h1 h2 h3
  · exact Or.inl hm
  · exact Or.inl hm
  · exact Or.inl hm
  · rcases List.mem_append.mp hm with hm | hm
    · exact Or.inl hm
    · right
      have hh := List.mem_singleton.mp hm
      have hdx : dx ≠ 0 := by
        intro h0; rw [h0, abs_zero] at h1; exact h1 hedir
      push_neg at h2
      subst hh
      refine ⟨⟨rfl, h2.1, h2.2, ?_, rfl⟩, rfl, rfl, rfl, not_le.mp h1, ?_⟩
      · simp only; field_simp
      · simpa using h3

theorem mem_maybe_add_horizontal {y_side : K} {w : Wall K} {sx sy dx dy D edir ef ed : K}
    {out : List (SideHit K)} {h : SideHit K} (hedir : 0 ≤ edir)
    (hm : h ∈ maybe_add_horizontal y_side w sx sy dx dy D edir ef ed out) :
    h ∈ out ∨ (RayHit w.behavior sx sy dx dy D ed h ∧ h.vertical = false ∧
      h.horizontal = true ∧ h.y = y_side ∧ edir < |dy| ∧
      within h.x w.x1 w.x2 ef = true) := by
  unfold maybe_add_horizontal at hm
  simp only at hm
  split_ifs at hm with h1 h2 h3
  · exact Or.inl hm
  · exact Or.inl hm
  · exact Or.inl hm
  · rcases List.mem_append.mp hm with hm | hm
    · exact Or.inl hm
    · right
      have hh := List.mem_singleton.mp hm
      have hdy : dy ≠ 0 := by
        intro h0; rw [h0, abs_zero] at h1; exact h1 hedir
      push_neg at h2
      subst hh
      refine ⟨⟨rfl, h2.1, h2.2, rfl, ?_⟩, rfl, rfl, rfl, not_le.mp h1, ?_⟩
      · simp only; field_simp
      · simpa using h3

theorem mem_wall_candidates {speed px py dx dy D : K} {out : List (SideHit K)}
    {w : Wall K} {h : SideHit K} (hm : h ∈ wall_candidates speed px py dx dy D out w) :
    h ∈ out ∨ HitOf w px py dx dy D (eps_d speed) h := by
  have he : (0 : K) ≤ eps_dir := eps_dir_pos.le
  have hv : ∀ (o : List (SideHit K)) (side : K), (side = w.x1 ∨ side = w.x2) →
      (h ∈ o → h ∈ out ∨ HitOf w px py dx dy D (eps_d speed) h) →
      h ∈ maybe_add_vertical side w px py dx dy D eps_dir (eps_face speed px py dx dy)
        (eps_d speed) o → h ∈ out ∨ HitOf w px py dx dy D (eps_d speed) h := by
    intro o side hside ho hmem
    rcases mem_maybe_add_vertical he hmem with h1 | ⟨h1, h2, h3, h4, h5, _⟩
    · exact ho h1
    · exact Or.inr ⟨h1, Or.inl ⟨h2, h3, by rw [h4]; exact hside, h5⟩⟩
  have hh : ∀ (o : List (SideHit K)) (side : K), (side = w.y1 ∨ side = w.y2) →
      (h ∈ o → h ∈ out ∨ HitOf w px py dx dy D (eps_d speed) h) →
      h ∈ maybe_add_horizontal side w px py dx dy D eps_dir (eps_face speed px py dx dy)
        (eps_d speed) o → h ∈ out ∨ HitOf w px py dx dy D (eps_d speed) h := by
    intro o side hside ho hmem
    rcases mem_maybe_add_horizontal he hmem with h1 | ⟨h1, h2, h3, h4, h5, _⟩
    · exact ho h1
    · exact Or.inr ⟨h1, Or.inr ⟨h2, h3, by rw [h4]; exact hside, h5⟩⟩
  have h0 : h ∈ out → h ∈ out ∨ HitOf w px py dx dy D (eps_d speed) h := Or.inl
  have hx1 : w.x1 = w.x1 ∨ w.x1 = w.x2 := Or.inl rfl
  have hx2 : w.x2 = w.x1 ∨ w.x2 = w.x2 := Or.inr rfl
  have hy1 : w.y1 = w.y1 ∨ w.y1 = w.y2 := Or.inl rfl
  have hy2 : w.y2 = w.y1 ∨ w.y2 = w.y2 := Or.inr rfl
  revert hm
  unfold wall_candidates
  simp only
  split_ifs
  · exact hh _ _ hy1 (hv _ _ hx1 h0)
  · exact hh _ _ hy1 (hv _ _ hx2 (hv _ _ hx1 h0))
  · exact hh _ _ hy2 (hh _ _ hy1 (hv _ _ hx1 h0))
  · exact hh _ _ hy2 (hh _ _ hy1 (hv _ _ hx2 (hv _ _ hx1 h0)))

theorem mem_foldl_wall_candidates {speed px py dx dy D : K} (walls : List (Wall K))
    (out : List (SideHit K)) {h : SideHit K}
    (hm : h ∈ walls.foldl (wall_candidates speed px py dx dy D) out) :
    h ∈ out ∨ ∃ w ∈ walls, HitOf w px py dx dy D (eps_d speed) h := by
  induction walls generalizing out with
  | nil => exact Or.inl (by simpa using hm)
  | cons w t ih =>
    rw [List.foldl_cons] at hm
    rcases ih _ hm with h1 | ⟨w1, hw1, h1⟩
    · rcases mem_wall_candidates h1 with h2 | h2
      · exact Or.inl h2
      · exact Or.inr ⟨w, List.mem_cons_self _ _, h2⟩
    · exact Or.inr ⟨w1, List.mem_cons_of_mem _ hw1, h1⟩

theorem mem_gather {speed px py dx dy D : K} {walls : List (Wall K)} {h : SideHit K}
    (hm : h ∈ gather speed walls px py dx dy D) :
    ∃ w ∈ walls, HitOf w px py dx dy D (eps_d speed) h := by
  rcases mem_foldl_wall_candidates walls [] hm with h1 | h1
  · simp at h1
  · exact h1

end Candidates

/-! ## The resolved distance and the simultaneous-hit set -/

section Resolve

variable {K : Type} [LinearOrderedField K]

theorem foldl_min_upd_none (l : List K) (m : Option K) :
    l.foldl min_upd m = none ↔ m = none ∧ l = [] := by
  induction l generalizing m with
  | nil => simp
  | cons a t ih =>
    rw [List.foldl_cons, ih]
    cases m with
    | none => simp [min_upd]
    | some v => simp only [min_upd]; split_ifs <;> simp

theorem foldl_min_upd_some (l : List K) (m : Option K) {v : K}
    (h : l.foldl min_upd m = some v) :
    (m = some v ∨ v ∈ l) ∧ (∀ u, m = some u → v ≤ u) ∧ ∀ u ∈ l, v ≤ u := by
  induction l generalizing m with
  | nil =>
    simp only [List.foldl_nil] at h
    subst h
    simp
  | cons a t ih =>
    rw [List.foldl_cons] at h
    obtain ⟨h1, h2, h3⟩ := ih _ h
    cases m with
    | none =>
      simp only [min_upd] at h1 h2
      refine ⟨Or.inr ?_, by simp, ?_⟩
      · rcases h1 with h1 | h1
        · simp only [Option.some.injEq] at h1; simp [h1]
        · exact List.mem_cons_of_mem _ h1
      · intro u hu
        rcases List.mem_cons.mp hu with hu | hu
        · rw [hu]; exact h2 a rfl
        · exact h3 u hu
    | some m0 =>
      simp only [min_upd] at h1 h2
      by_cases hlt : a < m0
      · simp only [hlt, if_true] at h1 h2
        refine ⟨Or.inr ?_, ?_, ?_⟩
        · rcases h1 with h1 | h1
          · simp only [Option.some.injEq] at h1; simp [h1]
          · exact List.mem_cons_of_mem _ h1
        · intro u hu
          simp only [Option.some.injEq] at hu
          rw [← hu]; exact (h2 a rfl).trans hlt.le
        · intro u hu
          rcases List.mem_cons.mp hu with hu | hu
          · rw [hu]; exact h2 a rfl
          · exact h3 u hu
      · simp only [hlt, if_false] at h1 h2
        refine ⟨?_, ?_, ?_⟩
        · rcases h1 with h1 | h1
          · exact Or.inl h1
          · exact Or.inr (List.mem_cons_of_mem _ h1)
        · intro u hu
          simp only [Option.some.injEq] at hu
          rw [← hu]; exact h2 m0 rfl
        · intro u hu
          rcases List.mem_cons.mp hu with hu | hu
          · rw [hu]; exact (h2 m0 rfl).trans (not_lt.mp hlt)
          · exact h3 u hu

theorem earliest_foldl (cands : List (SideHit K)) (acc : Option K × Option K) :
    cands.foldl earliest_step acc =
      (((cands.filter (fun h => decide (h.behavior ≠ WallBehavior.PASS_THROUGH))).map
          (fun h => h.dist)).foldl min_upd acc.1,
       ((cands.filter (fun h => decide (h.behavior = WallBehavior.PASS_THROUGH))).map
          (fun h => h.dist)).foldl min_upd acc.2) := by
  induction cands generalizing acc with
  | nil => simp
  | cons a t ih =>
    rw [List.foldl_cons, ih]
    by_cases hb : a.behavior = WallBehavior.PASS_THROUGH
    · simp [earliest_step, hb, List.filter_cons]
    · simp [earliest_step, hb, List.filter_cons]

/-- The resolved distance of a non-empty candidate list is the distance of one
of the candidates. -/
theorem resolved_is_candidate (cands : List (SideHit K)) (flag : Bool) (et : K)
    (hne : cands ≠ []) :
    ∃ s, resolve_s_min flag et (earliest cands).1 (earliest cands).2 = some s ∧
      ∃ h ∈ cands, h.dist = s := by
  have hmem : ∀ (p : SideHit K → Bool) (v : K),
      v ∈ (cands.filter p).map (fun h => h.dist) → ∃ h ∈ cands, h.dist = v := by
    intro p v hv
    obtain ⟨h, hh, hd⟩ := List.mem_map.mp hv
    exact ⟨h, (List.mem_filter.mp hh).1, hd⟩
  unfold earliest
  rw [earliest_foldl]
  simp only
  cases hnp : ((cands.filter (fun h => decide (h.behavior ≠ WallBehavior.PASS_THROUGH))).map
      (fun h => h.dist)).foldl min_upd none with
  | none =>
    cases hp : ((cands.filter (fun h => decide (h.behavior = WallBehavior.PASS_THROUGH))).map
        (fun h => h.dist)).foldl min_upd none with
    | none =>
      exfalso
      have h1 := ((foldl_min_upd_none _ _).mp hnp).2
      have h2 := ((foldl_min_upd_none _ _).mp hp).2
      simp only [List.map_eq_nil_iff, List.filter_eq_nil_iff] at h1 h2
      cases cands with
      | nil => exact hne rfl
      | cons a t =>
        have ha1 := h1 a (List.mem_cons_self _ _)
        have ha2 := h2 a (List.mem_cons_self _ _)
        simp at ha1 ha2
        exact ha2 ha1
    | some sp =>
      refine ⟨sp, by simp [resolve_s_min], ?_⟩
      rcases (foldl_min_upd_some _ _ hp).1 with h1 | h1
      · simp at h1
      · exact hmem _ _ h1
  | some snp =>
    have hsnp : ∃ h ∈ cands, h.dist = snp := by
      rcases (foldl_min_upd_some _ _ hnp).1 with h1 | h1
      · simp at h1
      · exact hmem _ _ h1
    cases hp : ((cands.filter (fun h => decide (h.behavior = WallBehavior.PASS_THROUGH))).map
        (fun h => h.dist)).foldl min_upd none with
    | none => exact ⟨snp, by simp [resolve_s_min], hsnp⟩
    | some sp =>
      have hsp : ∃ h ∈ cands, h.dist = sp := by
        rcases (foldl_min_upd_some _ _ hp).1 with h1 | h1
        · simp at h1
        · exact hmem _ _ h1
      simp only [resolve_s_min]
      split_ifs
      · exact ⟨sp, rfl, hsp⟩
      · exact ⟨snp, rfl, hsnp⟩

/-- In an inner iteration with a non-empty candidate list the resolved distance
is finite, it is the distance of a candidate, and that candidate is in the
simultaneous-hit set. -/
theorem event_s_min_spec {speed : K} (hs : 0 < speed) (walls : List (Wall K))
    (ts : TickState K) (hne : (event_candidates speed walls ts).isEmpty = false) :
    ∃ s, event_s_min speed walls ts = some s ∧
      (∃ h ∈ event_hits speed walls ts, h.dist = s) ∧
      ∀ h ∈ event_hits speed walls ts, |h.dist - s| ≤ eps_tie speed := by
  have hne1 : event_candidates speed walls ts ≠ [] := by
    intro h0; rw [h0] at hne; simp at hne
  obtain ⟨s, hs1, h, hh, hd⟩ := resolved_is_candidate (event_candidates speed walls ts)
    ts.recorded_pass_before_nonpass (eps_tie speed) hne1
  have hsm : event_s_min speed walls ts = some s := hs1
  refine ⟨s, hsm, ⟨h, ?_, hd⟩, ?_⟩
  · unfold event_hits
    rw [hsm]
    simp only [collect_hits, List.mem_filter, decide_eq_true_eq]
    refine ⟨hh, ?_⟩
    rw [hd, sub_self, abs_zero]
    exact (eps_tie_pos hs).le
  · intro h1 hh1
    unfold event_hits at hh1
    rw [hsm] at hh1
    simp only [collect_hits, List.mem_filter, decide_eq_true_eq] at hh1
    exact hh1.2

/-! ### The averaged impact point lies on the ray -/

theorem foldl_add_eq_sum (l : List (SideHit K)) (f : SideHit K → K) (a : K) :
    l.foldl (fun a h => a + f h) a = a + (l.map f).sum := by
  induction l generalizing a with
  | nil => simp
  | cons h t ih => rw [List.foldl_cons, ih]; simp [add_assoc]

theorem sum_on_ray (l : List (SideHit K)) (p d : K) (f : SideHit K → K)
    (hf : ∀ h ∈ l, f h = p + d * h.dist) :
    (l.map f).sum = (l.length : K) * p + d * (l.map (fun h => h.dist)).sum := by
  induction l with
  | nil => simp
  | cons h t ih =>
    have h1 := hf h (List.mem_cons_self _ _)
    have h2 := ih (fun x hx => hf x (List.mem_cons_of_mem _ hx))
    simp only [List.map_cons, List.sum_cons, List.length_cons, Nat.cast_succ]
    rw [h1, h2]; ring

theorem sum_dist_bounds (l : List (SideHit K)) (lo hi : K)
    (hb : ∀ h ∈ l, lo ≤ h.dist ∧ h.dist ≤ hi) :
    (l.length : K) * lo ≤ (l.map (fun h => h.dist)).sum ∧
    (l.map (fun h => h.dist)).sum ≤ (l.length : K) * hi := by
  induction l with
  | nil => simp
  | cons h t ih =>
    have h1 := hb h (List.mem_cons_self _ _)
    have h2 := ih (fun x hx => hb x (List.mem_cons_of_mem _ hx))
    simp only [List.map_cons, List.sum_cons, List.length_cons, Nat.cast_succ]
    constructor <;> nlinarith [h1.1, h1.2, h2.1, h2.2]

theorem impact_on_ray (hits : List (SideHit K)) (px py dx dy : K) (hne : hits ≠ [])
    (hx : ∀ h ∈ hits, h.x = px + dx * h.dist) (hy : ∀ h ∈ hits, h.y = py + dy * h.dist) :
    impact hits = (px + dx * mean_dist hits, py + dy * mean_dist hits) := by
  have hn : (hits.length : K) ≠ 0 := by
    have : hits.length ≠ 0 := fun h0 => hne (List.length_eq_zero.mp h0)
    exact_mod_cast this
  unfold impact mean_dist
  rw [foldl_add_eq_sum, foldl_add_eq_sum, sum_on_ray hits px dx _ hx,
    sum_on_ray hits py dy _ hy]
  refine Prod.ext ?_ ?_ <;> simp only <;> field_simp <;> ring

theorem mean_dist_bounds (hits : List (SideHit K)) (lo hi : K) (hne : hits ≠ [])
    (hb : ∀ h ∈ hits, lo ≤ h.dist ∧ h.dist ≤ hi) :
    lo ≤ mean_dist hits ∧ mean_dist hits ≤ hi := by
  have hn : (0 : K) < (hits.length : K) := by
    have : 0 < hits.length := List.length_pos.mpr hne
    exact_mod_cast this
  obtain ⟨h1, h2⟩ := sum_dist_bounds hits lo hi hb
  unfold mean_dist
  constructor
  · rw [le_div_iff₀ hn]; linarith
  · rw [div_le_iff₀ hn]; linarith

end Resolve

/-! ## The four outcomes of the body of the inner loop -/

section Body

variable {K : Type} [LinearOrderedField K]

theorem inner_body_swallow (speed : K) (walls : List (Wall K)) (ts : TickState K)
    (he : (event_candidates speed walls ts).isEmpty = true)
    (hr : ts.remaining_in_tick ≤ eps_d speed) :
    inner_body speed walls ts =
      Flow.brk { ts with run := swallow ts.run ts.remaining_in_tick,
                         remaining_in_tick := 0 } := by
  simp [inner_body, he, hr, swallow]

theorem inner_body_glide (speed : K) (walls : List (Wall K)) (ts : TickState K)
    (he : (event_candidates speed walls ts).isEmpty = true)
    (hr : eps_d speed < ts.remaining_in_tick) :
    inner_body speed walls ts =
      Flow.brk { ts with run := glide ts.run ts.remaining_in_tick,
                         remaining_in_tick := 0 } := by
  simp [inner_body, he, not_le.mpr hr, glide]

theorem inner_body_stop (speed : K) (walls : List (Wall K)) (ts : TickState K)
    (he : (event_candidates speed walls ts).isEmpty = false)
    (hf : (flags (event_hits speed walls ts)).1 = true) :
    inner_body speed walls ts =
      Flow.ret (ts.run.path ++ [impact (event_hits speed walls ts)]) := by
  simp [inner_body, he, hf]

theorem inner_body_next (speed : K) (walls : List (Wall K)) (ts : TickState K)
    (he : (event_candidates speed walls ts).isEmpty = false)
    (hf : (flags (event_hits speed walls ts)).1 = false) :
    inner_body speed walls ts =
      Flow.next (after_event speed (event_hits speed walls ts)
        (event_s_min speed walls ts) ts) := by
  simp [inner_body, he, hf, after_event]

/-- Everything the later proofs need about a resolved event: the resolved
distance `s` lies in `(eps_d, remaining_in_tick + eps_d]`, and the impact point
lies on the ray at the mean hit distance `m`, with `|m - s| ≤ eps_tie`. -/
theorem event_facts {speed : K} (hs : 0 < speed) (walls : List (Wall K))
    (ts : TickState K) (hne : (event_candidates speed walls ts).isEmpty = false) :
    ∃ s m, event_s_min speed walls ts = some s ∧
      impact (event_hits speed walls ts)
        = (ts.run.px + ts.run.dx * m, ts.run.py + ts.run.dy * m) ∧
      eps_d speed < s ∧ s ≤ ts.remaining_in_tick + eps_d speed ∧
      s - eps_tie speed ≤ m ∧ m ≤ s + eps_tie speed ∧ eps_d speed ≤ m ∧
      m = mean_dist (event_hits speed walls ts) ∧ event_hits speed walls ts ≠ [] := by
  obtain ⟨s, hsm, ⟨h0, hh0, hd0⟩, hall⟩ := event_s_min_spec hs walls ts hne
  have hray : ∀ h ∈ event_hits speed walls ts,
      ∃ b, RayHit b ts.run.px ts.run.py ts.run.dx ts.run.dy ts.remaining_in_tick
        (eps_d speed) h := by
    intro h hh
    obtain ⟨w, _, hw⟩ := mem_gather (event_hits_subset speed walls ts h hh)
    exact ⟨_, hw.ray⟩
  have hne1 : event_hits speed walls ts ≠ [] := by
    intro h; rw [h] at hh0; simp at hh0
  refine ⟨s, mean_dist (event_hits speed walls ts), hsm, ?_, ?_, ?_, ?_, ?_, ?_, rfl, hne1⟩
  · apply impact_on_ray _ _ _ _ _ hne1
    · intro h hh; obtain ⟨b, hb⟩ := hray h hh; exact hb.x_eq
    · intro h hh; obtain ⟨b, hb⟩ := hray h hh; exact hb.y_eq
  · obtain ⟨b, hb⟩ := hray h0 hh0; rw [← hd0]; exact hb.dist_gt
  · obtain ⟨b, hb⟩ := hray h0 hh0; rw [← hd0]; exact hb.dist_le
  · refine (mean_dist_bounds _ (s - eps_tie speed) (s + eps_tie speed) hne1 ?_).1
    intro h hh
    have := abs_le.mp (hall h hh)
    constructor <;> linarith [this.1, this.2]
  · refine (mean_dist_bounds _ (s - eps_tie speed) (s + eps_tie speed) hne1 ?_).2
    intro h hh
    have := abs_le.mp (hall h hh)
    constructor <;> linarith [this.1, this.2]
  · refine (mean_dist_bounds _ (eps_d speed) (ts.remaining_in_tick + eps_d speed) hne1 ?_).1
    intro h hh
    obtain ⟨b, hb⟩ := hray h hh
    exact ⟨hb.dist_gt.le, hb.dist_le⟩

end Body

/-! ## Polyline length against consumed budget -/

section Odometer

variable {K : Type} [LinearOrderedField K]

theorem polyline_length_append (hypot : K → K → K) (path : List (K × K)) (v x : K × K)
    (hv : path.getLast? = some v) :
    polyline_length hypot (path ++ [x])
      = polyline_length hypot path + vec_len hypot (x.1 - v.1) (x.2 - v.2) := by
  induction path with
  | nil => simp at hv
  | cons a t ih =>
    cases t with
    | nil =>
      simp only [List.getLast?_singleton, Option.some.injEq] at hv
      subst hv
      simp [polyline_length]
    | cons b u =>
      have hv1 : (b :: u).getLast? = some v := by
        rw [List.getLast?_cons_cons] at hv; exact hv
      have h1 : polyline_length hypot (b :: (u ++ [x]))
          = polyline_length hypot (b :: u) + vec_len hypot (x.1 - v.1) (x.2 - v.2) := ih hv1
      have e1 : polyline_length hypot (a :: b :: (u ++ [x]))
          = vec_len hypot (b.1 - a.1) (b.2 - a.2)
            + polyline_length hypot (b :: (u ++ [x])) := rfl
      have e2 : polyline_length hypot (a :: b :: u)
          = vec_len hypot (b.1 - a.1) (b.2 - a.2) + polyline_length hypot (b :: u) := rfl
      show polyline_length hypot (a :: b :: (u ++ [x])) = _
      rw [e1, e2, h1]; ring

theorem hypot_on_ray {hypot : K → K → K} (hx : HypotExact hypot) {dx dy t : K}
    (hu : dx * dx + dy * dy = 1) (ht : 0 ≤ t) : vec_len hypot (t * dx) (t * dy) = t := by
  unfold vec_len
  apply hx _ _ _ ht
  have : t * dx * (t * dx) + t * dy * (t * dy) = t * t * (dx * dx + dy * dy) := by ring
  rw [this, hu, mul_one]

theorem slack_ge {speed : K} (hs : 0 < speed) :
    eps_tie speed + eps_d speed ≤ slack speed ∧ 0 ≤ slack speed := by
  have h1 := eps_push_pos hs
  have h2 := eps_tie_pos hs
  have h3 := eps_d_pos hs
  unfold slack
  constructor <;> linarith

theorem tickInv_to_runInv {hypot : K → K → K} {speed B : K} {low : Prop}
    {ts : TickState K} (hs : 0 < speed) (h : TickInv hypot speed B low ts) :
    RunInv hypot speed B low ts.run := by
  obtain ⟨v, a, h1, h2, h3, h4, h5, h6⟩ := h.ray
  refine ⟨h.unit, h.rit_nonneg.trans h.rit_le, v, a, h1, h2, h3, h4, h5, ?_⟩
  intro hl
  have hd := eps_d_pos hs
  rcases h6 hl with h7 | h7
  · exact Or.inl (by linarith)
  · exact Or.inl h7.2

theorem swallow_inv {hypot : K → K → K} {speed B : K} {low : Prop}
    (hlow : low → eps_d speed < speed)
    (ts : TickState K) (hinv : TickInv hypot speed B low ts)
    (hr : ts.remaining_in_tick ≤ eps_d speed) :
    RunInv hypot speed B low (swallow ts.run ts.remaining_in_tick) := by
  obtain ⟨v, a, hv, ha, hpx, hpy, hup, hlo⟩ := hinv.ray
  have h1 := hinv.rit_le
  have h2 := hinv.rit_nonneg
  refine ⟨hinv.unit, ?_, v, a, hv, ha, hpx, hpy, ?_, ?_⟩
  · show 0 ≤ ts.run.remaining_budget - ts.remaining_in_tick
    linarith
  · show polyline_length hypot ts.run.path + a
      ≤ B - (ts.run.remaining_budget - ts.remaining_in_tick)
        + ((ts.run.path.length : K) - 1) * slack speed
    linarith
  · intro hl
    show (B - (ts.run.remaining_budget - ts.remaining_in_tick)
          - ((ts.run.path.length : K) - 1) * slack speed
          ≤ polyline_length hypot ts.run.path + a) ∨
        (ts.run.remaining_budget - ts.remaining_in_tick = 0 ∧
          B - ((ts.run.path.length : K) - 1) * slack speed - eps_d speed
            ≤ polyline_length hypot ts.run.path + a)
    rcases hlo hl with h7 | ⟨h7, h8⟩
    · exact Or.inl (by linarith)
    · right
      have hlt : ts.remaining_in_tick < speed := lt_of_le_of_lt hr (hlow hl)
      have hrb : ts.remaining_in_tick = ts.run.remaining_budget := by
        rcases min_choice speed ts.run.remaining_budget with hm | hm
        · rw [hm] at h7; rw [h7] at hlt; exact absurd hlt (lt_irrefl _)
        · rw [hm] at h7; exact h7
      exact ⟨by rw [hrb]; ring, by linarith⟩

theorem glide_inv {hypot : K → K → K} {speed B : K} {low : Prop}
    (hs : 0 < speed) (ts : TickState K) (hinv : TickInv hypot speed B low ts) :
    RunInv hypot speed B low (glide ts.run ts.remaining_in_tick) := by
  obtain ⟨v, a, hv, ha, hpx, hpy, hup, hlo⟩ := hinv.ray
  have h1 := hinv.rit_le
  have h2 := hinv.rit_nonneg
  refine ⟨hinv.unit, ?_, v, a + ts.remaining_in_tick, hv, by linarith, ?_, ?_, ?_, ?_⟩
  · show 0 ≤ ts.run.remaining_budget - ts.remaining_in_tick
    linarith
  · show ts.run.px + ts.run.dx * ts.remaining_in_tick
      = v.1 + (a + ts.remaining_in_tick) * ts.run.dx
    rw [hpx]; ring
  · show ts.run.py + ts.run.dy * ts.remaining_in_tick
      = v.2 + (a + ts.remaining_in_tick) * ts.run.dy
    rw [hpy]; ring
  · show polyline_length hypot ts.run.path + (a + ts.remaining_in_tick)
      ≤ B - (ts.run.remaining_budget - ts.remaining_in_tick)
        + ((ts.run.path.length : K) - 1) * slack speed
    linarith
  · intro hl
    left
    show B - (ts.run.remaining_budget - ts.remaining_in_tick)
          - ((ts.run.path.length : K) - 1) * slack speed
          ≤ polyline_length hypot ts.run.path + (a + ts.remaining_in_tick)
    rcases hlo hl with h7 | ⟨_, h8⟩
    · have := eps_d_pos hs
      linarith
    · linarith

/-- Length of the path after one more vertex on the current ray. -/
theorem length_after_hit {hypot : K → K → K} (hx : HypotExact hypot)
    {path : List (K × K)} {v i : K × K} {px py dx dy a m : K}
    (hu : dx * dx + dy * dy = 1) (hv : path.getLast? = some v)
    (hpx : px = v.1 + a * dx) (hpy : py = v.2 + a * dy)
    (hi : i = (px + dx * m, py + dy * m)) (ham : 0 ≤ a + m) :
    polyline_length hypot (path ++ [i]) = polyline_length hypot path + (a + m) := by
  have e1 : i.1 - v.1 = (a + m) * dx := by rw [hi]; simp only; rw [hpx]; ring
  have e2 : i.2 - v.2 = (a + m) * dy := by rw [hi]; simp only; rw [hpy]; ring
  rw [polyline_length_append hypot _ v _ hv, e1, e2, hypot_on_ray hx hu ham]

theorem stop_inv {hypot : K → K → K} {speed B : K} {low : Prop}
    (hx : HypotExact hypot) (hs : 0 < speed)
    (ts : TickState K) (hinv : TickInv hypot speed B low ts) {i : K × K} {s m : K}
    (hi : i = (ts.run.px + ts.run.dx * m, ts.run.py + ts.run.dy * m))
    (hs2 : s ≤ ts.remaining_in_tick + eps_d speed) (hm2 : m ≤ s + eps_tie speed)
    (hm3 : eps_d speed ≤ m) :
    WithinBudget hypot speed B (ts.run.path ++ [i]) := by
  obtain ⟨v, a, hv, ha, hpx, hpy, hup, _⟩ := hinv.ray
  have hed := eps_d_pos hs
  have hsl := slack_ge hs
  have h1 := hinv.rit_le
  unfold WithinBudget
  rw [length_after_hit hx hinv.unit hv hpx hpy hi (by linarith)]
  have hcast : (((ts.run.path ++ [i]).length : ℕ) : K) = (ts.run.path.length : K) + 1 := by
    simp
  rw [hcast]
  have e : ((ts.run.path.length : K) + 1 - 1) * slack speed
      = ((ts.run.path.length : K) - 1) * slack speed + slack speed := by ring
  rw [e]
  linarith [hsl.1]

theorem next_inv {hypot : K → K → K} {speed B : K} {low : Prop}
    (hx : HypotExact hypot) (hs : 0 < speed)
    (ts : TickState K) (hinv : TickInv hypot speed B low ts)
    (hits : List (SideHit K)) {s m : K}
    (hi : impact hits = (ts.run.px + ts.run.dx * m, ts.run.py + ts.run.dy * m))
    (hs2 : s ≤ ts.remaining_in_tick + eps_d speed)
    (hm1 : s - eps_tie speed ≤ m) (hm2 : m ≤ s + eps_tie speed)
    (hm3 : eps_d speed ≤ m) :
    TickInv hypot speed B low (after_event speed hits (some s) ts) := by
  obtain ⟨v, a, hv, ha, hpx, hpy, hup, hlo⟩ := hinv.ray
  have hu := hinv.unit
  have hed := eps_d_pos hs
  have het := eps_tie_pos hs
  have hep := eps_push_pos hs
  have h1 := hinv.rit_le
  have h2 := hinv.rit_nonneg
  have hu1 : min s ts.remaining_in_tick ≤ ts.remaining_in_tick := min_le_right _ _
  have hu2 : s - eps_d speed ≤ min s ts.remaining_in_tick := by
    rcases min_choice s ts.remaining_in_tick with hc | hc <;> rw [hc] <;> linarith
  have hu3 : min s ts.remaining_in_tick ≤ s := min_le_left _ _
  have hlen := length_after_hit hx hu hv hpx hpy hi (by linarith)
  have hcast : (((ts.run.path ++ [impact hits]).length : ℕ) : K)
      = (ts.run.path.length : K) + 1 := by simp
  have e : ((ts.run.path.length : K) + 1 - 1) * slack speed
      = ((ts.run.path.length : K) - 1) * slack speed + slack speed := by ring
  have hS : slack speed = eps_push speed + eps_tie speed + eps_d speed := rfl
  -- the new direction is a unit vector again
  have hunit : (after_event speed hits (some s) ts).run.dx *
        (after_event speed hits (some s) ts).run.dx +
      (after_event speed hits (some s) ts).run.dy *
        (after_event speed hits (some s) ts).run.dy = 1 := by
    show (if (flags hits).2.1 = true then -ts.run.dx else ts.run.dx) *
          (if (flags hits).2.1 = true then -ts.run.dx else ts.run.dx) +
        (if (flags hits).2.2 = true then -ts.run.dy else ts.run.dy) *
          (if (flags hits).2.2 = true then -ts.run.dy else ts.run.dy) = 1
    split_ifs <;> linarith
  -- the nudge
  obtain ⟨a1, ha1, ha2, hpx1, hpy1⟩ : ∃ a1 : K, 0 ≤ a1 ∧ a1 ≤ eps_push speed ∧
      (after_event speed hits (some s) ts).run.px
        = (impact hits).1 + a1 * (after_event speed hits (some s) ts).run.dx ∧
      (after_event speed hits (some s) ts).run.py
        = (impact hits).2 + a1 * (after_event speed hits (some s) ts).run.dy := by
    by_cases hw : (decide (ts.remaining_in_tick - step_used (some s) ts.remaining_in_tick
          > 10 * eps_d speed) &&
        decide (ts.run.remaining_budget - step_used (some s) ts.remaining_in_tick
          > 10 * eps_d speed)) = true
    · refine ⟨eps_push speed, hep.le, le_rfl, ?_, ?_⟩
      · simp only [after_event, hw, if_true]; ring
      · simp only [after_event, hw, if_true]; ring
    · refine ⟨0, le_rfl, hep.le, ?_, ?_⟩
      · simp only [after_event, hw]; simp
      · simp only [after_event, hw]; simp
  refine ⟨hunit, ?_, ?_, impact hits, a1, ?_, ha1, hpx1, hpy1, ?_, ?_⟩
  · show 0 ≤ ts.remaining_in_tick - min s ts.remaining_in_tick
    linarith
  · show ts.remaining_in_tick - min s ts.remaining_in_tick
      ≤ ts.run.remaining_budget - min s ts.remaining_in_tick
    linarith
  · show (ts.run.path ++ [impact hits]).getLast? = some (impact hits)
    exact List.getLast?_concat _
  · show polyline_length hypot (ts.run.path ++ [impact hits]) + a1
      ≤ B - (ts.run.remaining_budget - min s ts.remaining_in_tick)
        + (((ts.run.path ++ [impact hits]).length : K) - 1) * slack speed
    rw [hlen, hcast, e]
    linarith
  · intro hl
    left
    show B - (ts.run.remaining_budget - min s ts.remaining_in_tick)
          - (((ts.run.path ++ [impact hits]).length : K) - 1) * slack speed
          + eps_d speed
        ≤ polyline_length hypot (ts.run.path ++ [impact hits]) + a1
    rw [hlen, hcast, e]
    have hbase : B - ts.run.remaining_budget
        - ((ts.run.path.length : K) - 1) * slack speed
        ≤ polyline_length hypot ts.run.path + a := by
      rcases hlo hl with h7 | ⟨_, h8⟩
      · linarith
      · exact h8
    linarith

/-- The body of the inner loop keeps the odometer invariant. -/
theorem inner_body_inv {hypot : K → K → K} {speed B : K} {low : Prop}
    (hx : HypotExact hypot) (hs : 0 < speed) (hlow : low → eps_d speed < speed)
    (walls : List (Wall K)) (ts : TickState K) (hinv : TickInv hypot speed B low ts) :
    match inner_body speed walls ts with
    | .ret p => WithinBudget hypot speed B p
    | .brk t => RunInv hypot speed B low t.run
    | .next t => TickInv hypot speed B low t := by
  by_cases he : (event_candidates speed walls ts).isEmpty = true
  · by_cases hr : ts.remaining_in_tick ≤ eps_d speed
    · rw [inner_body_swallow speed walls ts he hr]
      exact swallow_inv hlow ts hinv hr
    · rw [inner_body_glide speed walls ts he (not_le.mp hr)]
      exact glide_inv hs ts hinv
  · have he1 : (event_candidates speed walls ts).isEmpty = false := by
      simpa using he
    obtain ⟨s, m, hsm, himp, hs1, hs2, hm1, hm2, hm3, _, _⟩ := event_facts hs walls ts he1
    by_cases hf : (flags (event_hits speed walls ts)).1 = true
    · rw [inner_body_stop speed walls ts he1 hf]
      exact stop_inv hx hs ts hinv himp hs2 hm2 hm3
    · have hf1 : (flags (event_hits speed walls ts)).1 = false := by simpa using hf
      rw [inner_body_next speed walls ts he1 hf1, hsm]
      exact next_inv hx hs ts hinv _ himp hs2 hm1 hm2 hm3

theorem inner_loop_inv {hypot : K → K → K} {speed B : K} {low : Prop}
    (hx : HypotExact hypot) (hs : 0 < speed) (hlow : low → eps_d speed < speed)
    (walls : List (Wall K)) (fuel : Nat) (ts : TickState K)
    (hinv : TickInv hypot speed B low ts) :
    match inner_loop speed walls fuel ts with
    | .stopped p => WithinBudget hypot speed B p
    | .fell t => RunInv hypot speed B low t.run := by
  induction fuel generalizing ts with
  | zero => simpa [inner_loop] using tickInv_to_runInv hs hinv
  | succ n ih =>
    unfold inner_loop
    split_ifs with hpos
    · have hb := inner_body_inv hx hs hlow walls ts hinv
      cases hib : inner_body speed walls ts with
      | ret p => rw [hib] at hb; simpa using hb
      | brk t => rw [hib] at hb; simpa using hb
      | next t => rw [hib] at hb; exact ih t hb
    · simpa using tickInv_to_runInv hs hinv

theorem tick_inv {hypot : K → K → K} {speed B : K} {low : Prop}
    (hx : HypotExact hypot) (hs : 0 < speed) (hlow : low → eps_d speed < speed)
    (walls : List (Wall K)) (st : RunState K) (hinv : RunInv hypot speed B low st)
    (hpos : 0 < st.remaining_budget) :
    match tick speed walls st with
    | .stopped p => WithinBudget hypot speed B p
    | .fell t => RunInv hypot speed B low t := by
  have h0 : TickInv hypot speed B low
      { run := st, recorded_pass_before_nonpass := false,
        remaining_in_tick := min speed st.remaining_budget } := by
    obtain ⟨v, a, hv, ha, hpx, hpy, hup, hlo⟩ := hinv.ray
    refine ⟨hinv.unit, le_min hs.le hpos.le, min_le_right _ _, v, a, hv, ha, hpx, hpy, hup, ?_⟩
    intro hl
    right
    refine ⟨rfl, ?_⟩
    rcases hlo hl with h7 | ⟨h7, _⟩
    · exact h7
    · exact absurd h7 (ne_of_gt hpos)
  have h := inner_loop_inv hx hs hlow walls max_inner_per_tick _ h0
  unfold tick
  cases hil : inner_loop speed walls max_inner_per_tick
    { run := st, recorded_pass_before_nonpass := false,
      remaining_in_tick := min speed st.remaining_budget } with
  | stopped p => rw [hil] at h; simpa using h
  | fell u => rw [hil] at h; simpa using h

theorem outer_loop_inv {hypot : K → K → K} {speed : K} (B : K) (low : Prop)
    (hx : HypotExact hypot) (hs : 0 < speed) (hlow : low → eps_d speed < speed)
    (walls : List (Wall K)) (fuel : Nat) (st : RunState K)
    (hinv : RunInv hypot speed B low st) :
    match outer_loop speed walls fuel st with
    | .stopped p => WithinBudget hypot speed B p
    | .fell t => RunInv hypot speed B low t := by
  induction fuel generalizing st with
  | zero => simpa [outer_loop] using hinv
  | succ n ih =>
    unfold outer_loop
    split_ifs with hpos
    · have hb := tick_inv hx hs hlow walls st hinv hpos
      cases ht : tick speed walls st with
      | stopped p => rw [ht] at hb; simpa using hb
      | fell t => rw [ht] at hb; exact ih t hb
    · simpa using hinv

/-! ### The final de-duplication -/

theorem scale_for_ge_one (a b c d : K) : 1 ≤ scale_for a b c d := le_max_left _ _

theorem eps_out_shift {speed px py vx vy : K} (hs : 0 < speed)
    (h1 : |px - vx| ≤ eps_out speed px py) (h2 : |py - vy| ≤ eps_out speed px py) :
    eps_out speed px py ≤ 2 * eps_out speed vx vy := by
  have hulp : (0 : K) < ulp := ulp_pos
  have h64 : (64 : K) * ulp ≤ 1 / 2 := by unfold ulp; norm_num
  have hv0 : 0 < eps_out speed vx vy := eps_out_pos speed vx vy hs
  have hC : 16 * (1024 * ulp * (1 + speed)) ≤ eps_out speed vx vy := le_max_right _ _
  have hA : 64 * ulp * scale_for vx vy vx vy ≤ eps_out speed vx vy := le_max_left _ _
  rcases max_choice (64 * ulp * scale_for px py px py) (16 * (1024 * ulp * (1 + speed)))
    with hc | hc
  · -- the scale term is the larger one
    have he : eps_out speed px py = 64 * ulp * scale_for px py px py := hc
    have hx1 : |px| ≤ scale_for vx vy vx vy + eps_out speed px py := by
      have : |px| ≤ |vx| + |px - vx| := by
        have := abs_add (px - vx) vx
        rw [sub_add_cancel] at this; linarith
      have hvx : |vx| ≤ scale_for vx vy vx vy :=
        le_max_of_le_right (le_max_left _ _)
      linarith
    have hy1 : |py| ≤ scale_for vx vy vx vy + eps_out speed px py := by
      have : |py| ≤ |vy| + |py - vy| := by
        have := abs_add (py - vy) vy
        rw [sub_add_cancel] at this; linarith
      have hvy : |vy| ≤ scale_for vx vy vx vy :=
        le_max_of_le_right (le_max_of_le_right (le_max_left _ _))
      linarith
    have hone : (1 : K) ≤ scale_for vx vy vx vy + eps_out speed px py := by
      have := scale_for_ge_one vx vy vx vy
      have := eps_out_pos speed px py hs
      linarith
    have hsc : scale_for px py px py ≤ scale_for vx vy vx vy + eps_out speed px py := by
      unfold scale_for
      exact max_le hone (max_le hx1 (max_le hy1 (max_le hx1 hy1)))
    have hmul : 64 * ulp * scale_for px py px py
        ≤ 64 * ulp * (scale_for vx vy vx vy + eps_out speed px py) :=
      mul_le_mul_of_nonneg_left hsc (by positivity)
    have hp0 := eps_out_pos speed px py hs
    have hhalf : 64 * ulp * eps_out speed px py ≤ 1 / 2 * eps_out speed px py :=
      mul_le_mul_of_nonneg_right h64 hp0.le
    rw [← he] at hmul
    linarith
  · have he : eps_out speed px py = 16 * (1024 * ulp * (1 + speed)) := hc
    rw [he]; linarith

theorem finish_upper {hypot : K → K → K} {speed B : K} {low : Prop}
    (hx : HypotExact hypot) (hs : 0 < speed) (st : RunState K)
    (hinv : RunInv hypot speed B low st) :
    WithinBudget hypot speed B (finish speed st) := by
  obtain ⟨v, a, hv, ha, hpx, hpy, hup, _⟩ := hinv.ray
  have hsl := slack_ge hs
  have hrb := hinv.rb_nonneg
  unfold finish WithinBudget
  rw [hv]
  simp only
  split_ifs
  · have hlen := length_after_hit (i := (st.px, st.py)) (m := 0) hx hinv.unit hv hpx hpy
      (by simp) (by linarith)
    rw [hlen]
    have hcast : (((st.path ++ [(st.px, st.py)]).length : ℕ) : K)
        = (st.path.length : K) + 1 := by simp
    rw [hcast]
    have e : ((st.path.length : K) + 1 - 1) * slack speed
        = ((st.path.length : K) - 1) * slack speed + slack speed := by ring
    rw [e]
    linarith [hsl.2]
  · linarith

theorem finish_lower {hypot : K → K → K} {speed B : K}
    (hx : HypotExact hypot) (hs : 0 < speed) (st : RunState K)
    (hinv : RunInv hypot speed B True st) (h0 : st.remaining_budget = 0) :
    B ≤ polyline_length hypot (finish speed st) + length_tolerance speed (finish speed st) := by
  obtain ⟨v, a, hv, ha, hpx, hpy, _, hlo⟩ := hinv.ray
  have hsl := slack_ge hs
  have hed := eps_d_pos hs
  have hbase : B - ((st.path.length : K) - 1) * slack speed - eps_d speed
      ≤ polyline_length hypot st.path + a := by
    rcases hlo trivial with h7 | ⟨_, h8⟩
    · rw [h0] at h7; linarith
    · exact h8
  unfold finish length_tolerance
  rw [hv]
  simp only
  split_ifs with hc
  · have hlen := length_after_hit (i := (st.px, st.py)) (m := 0) hx hinv.unit hv hpx hpy
      (by simp) (by linarith)
    rw [hlen]
    have hcast : (((st.path ++ [(st.px, st.py)]).length : ℕ) : K)
        = (st.path.length : K) + 1 := by simp
    rw [hcast, List.getLast?_concat]
    simp only [Option.getD_some]
    have e : ((st.path.length : K) + 1 - 1) * slack speed
        = ((st.path.length : K) - 1) * slack speed + slack speed := by ring
    rw [e]
    have := eps_out_pos speed st.px st.py hs
    linarith [hsl.2]
  · rw [hv]
    simp only [Option.getD_some]
    push_neg at hc
    obtain ⟨hc1, hc2⟩ := hc
    have hsh := eps_out_shift hs hc1 hc2
    -- the offset is at most twice the window
    have hax : a * |st.dx| ≤ eps_out speed st.px st.py := by
      have : st.px - v.1 = a * st.dx := by rw [hpx]; ring
      rw [this, abs_mul, abs_of_nonneg ha] at hc1; exact hc1
    have hay : a * |st.dy| ≤ eps_out speed st.px st.py := by
      have : st.py - v.2 = a * st.dy := by rw [hpy]; ring
      rw [this, abs_mul, abs_of_nonneg ha] at hc2; exact hc2
    have hu := hinv.unit
    have hdx1 : |st.dx| ≤ 1 :=
      abs_le_one_iff_mul_self_le_one.mpr (by linarith [mul_self_nonneg st.dy])
    have hdy1 : |st.dy| ≤ 1 :=
      abs_le_one_iff_mul_self_le_one.mpr (by linarith [mul_self_nonneg st.dx])
    have ha2 : a ≤ 2 * eps_out speed st.px st.py := by
      have e1 : a = a * |st.dx| * |st.dx| + a * |st.dy| * |st.dy| := by
        have hsq1 : |st.dx| * |st.dx| = st.dx * st.dx := abs_mul_abs_self _
        have hsq2 : |st.dy| * |st.dy| = st.dy * st.dy := abs_mul_abs_self _
        calc a = a * (st.dx * st.dx + st.dy * st.dy) := by rw [hu, mul_one]
          _ = a * (|st.dx| * |st.dx|) + a * (|st.dy| * |st.dy|) := by rw [hsq1, hsq2]; ring
          _ = a * |st.dx| * |st.dx| + a * |st.dy| * |st.dy| := by ring
      have hp0 := (eps_out_pos speed st.px st.py hs).le
      have t1 : a * |st.dx| * |st.dx| ≤ eps_out speed st.px st.py := by
        calc a * |st.dx| * |st.dx| ≤ eps_out speed st.px st.py * 1 :=
              mul_le_mul hax hdx1 (abs_nonneg _) hp0
          _ = _ := mul_one _
      have t2 : a * |st.dy| * |st.dy| ≤ eps_out speed st.px st.py := by
        calc a * |st.dy| * |st.dy| ≤ eps_out speed st.px st.py * 1 :=
              mul_le_mul hay hdy1 (abs_nonneg _) hp0
          _ = _ := mul_one _
      linarith
    linarith

end Odometer

/-! ## The rational instance of `hypot` is exact -/

theorem newton_ge (n g : Nat) (hg : 0 < g) : Nat.sqrt n ≤ (g + n / g) / 2 := by
  rw [Nat.le_div_iff_mul_le (by norm_num)]
  have hr : Nat.sqrt n * Nat.sqrt n ≤ n := Nat.sqrt_le n
  by_cases h : 2 * Nat.sqrt n ≤ g
  · have : Nat.sqrt n * 2 ≤ g := by omega
    exact le_trans this (Nat.le_add_right _ _)
  · push_neg at h
    have h1 : Nat.sqrt n * 2 - g ≤ n / g := by
      rw [Nat.le_div_iff_mul_le hg]
      have h2 : (Nat.sqrt n * 2 - g) * g ≤ Nat.sqrt n * Nat.sqrt n := by
        have hle : g ≤ Nat.sqrt n * 2 := by omega
        zify [hle]
        nlinarith [sq_nonneg ((Nat.sqrt n : ℤ) - g)]
      exact le_trans h2 hr
    omega

theorem newton_lt (n g : Nat) (hg : Nat.sqrt n < g) : (g + n / g) / 2 < g := by
  have h1 : n < g * g := Nat.sqrt_lt.mp hg
  have hg0 : 0 < g := by omega
  have h2 : n / g < g := (Nat.div_lt_iff_lt_mul hg0).mpr h1
  omega

theorem isqrt_iter_zero (n fuel : Nat) : isqrt_iter n fuel 0 = 0 := by
  cases fuel <;> simp [isqrt_iter]

theorem isqrt_iter_eq (n : Nat) (fuel g : Nat) (h1 : Nat.sqrt n ≤ g)
    (h2 : g ≤ Nat.sqrt n + fuel) : isqrt_iter n fuel g = Nat.sqrt n := by
  induction fuel generalizing g with
  | zero => simp only [isqrt_iter]; omega
  | succ k ih =>
    rcases Nat.eq_zero_or_pos g with hg | hg
    · subst hg
      rw [isqrt_iter_zero]; omega
    · simp only [isqrt_iter]
      split_ifs with hlt
      · exact ih _ (newton_ge n g hg) (by omega)
      · by_contra hne
        have : Nat.sqrt n < g := by omega
        exact hlt (newton_lt n g this)

theorem isqrt_eq (n : Nat) : isqrt n = Nat.sqrt n := by
  unfold isqrt
  split_ifs with h
  · interval_cases n <;> simp
  · exact isqrt_iter_eq n n n (Nat.sqrt_le_self n) (by omega)

theorem hypotQ_eq (x y : ℚ) : hypotQ x y = Rat.sqrt (x * x + y * y) := by
  unfold hypotQ Rat.sqrt Int.sqrt
  rw [isqrt_eq, isqrt_eq]

theorem hypotQ_exact : HypotExact hypotQ := by
  intro x y t ht h
  rw [hypotQ_eq, h, Rat.sqrt_eq, abs_of_nonneg ht]

/-! ## A ray that starts inside a wall -/

section Inside

variable {K : Type} [LinearOrderedField K]

theorem subset_maybe_add_vertical (x_side : K) (w : Wall K) (sx sy dx dy D edir ef ed : K)
    (out : List (SideHit K)) {h : SideHit K} (hm : h ∈ out) :
    h ∈ maybe_add_vertical x_side w sx sy dx dy D edir ef ed out := by
  unfold maybe_add_vertical
  simp only
  split_ifs
  · exact hm
  · exact hm
  · exact hm
  · exact List.mem_append_left _ hm

theorem subset_maybe_add_horizontal (y_side : K) (w : Wall K)
    (sx sy dx dy D edir ef ed : K) (out : List (SideHit K)) {h : SideHit K} (hm : h ∈ out) :
    h ∈ maybe_add_horizontal y_side w sx sy dx dy D edir ef ed out := by
  unfold maybe_add_horizontal
  simp only
  split_ifs
  · exact hm
  · exact hm
  · exact hm
  · exact List.mem_append_left _ hm

theorem new_maybe_add_vertical (x_side : K) (w : Wall K) (sx sy dx dy D edir ef ed : K)
    (out : List (SideHit K)) (h1 : edir < |dx|) (h2 : ed < (x_side - sx) / dx)
    (h3 : (x_side - sx) / dx ≤ D + ed)
    (h4 : within (sy + dy * ((x_side - sx) / dx)) w.y1 w.y2 ef = true) :
    ∃ h ∈ maybe_add_vertical x_side w sx sy dx dy D edir ef ed out,
      h.dist = (x_side - sx) / dx := by
  unfold maybe_add_vertical
  simp only [not_le.mpr h1, if_false, h4, Bool.not_true]
  have : ¬ ((x_side - sx) / dx ≤ ed ∨ (x_side - sx) / dx > D + ed) := by
    push_neg; exact ⟨h2, h3⟩
  simp only [this, if_false]
  exact ⟨_, List.mem_append_right _ (List.mem_singleton.mpr rfl), rfl⟩

theorem new_maybe_add_horizontal (y_side : K) (w : Wall K) (sx sy dx dy D edir ef ed : K)
    (out : List (SideHit K)) (h1 : edir < |dy|) (h2 : ed < (y_side - sy) / dy)
    (h3 : (y_side - sy) / dy ≤ D + ed)
    (h4 : within (sx + dx * ((y_side - sy) / dy)) w.x1 w.x2 ef = true) :
    ∃ h ∈ maybe_add_horizontal y_side w sx sy dx dy D edir ef ed out,
      h.dist = (y_side - sy) / dy := by
  unfold maybe_add_horizontal
  simp only [not_le.mpr h1, if_false, h4, Bool.not_true]
  have : ¬ ((y_side - sy) / dy ≤ ed ∨ (y_side - sy) / dy > D + ed) := by
    push_neg; exact ⟨h2, h3⟩
  simp only [this, if_false]
  exact ⟨_, List.mem_append_right _ (List.mem_singleton.mpr rfl), rfl⟩

/-- A vertical face of a wall with both extents above `1e-12` that the ray
meets within the step yields a candidate. -/
theorem vertical_face_is_candidate (speed : K) (w : Wall K) (px py dx dy D side : K)
    (hw : tiny < |w.x1 - w.x2|) (hh : tiny < |w.y1 - w.y2|)
    (hside : side = w.x1 ∨ side = w.x2) (h1 : eps_dir < |dx|)
    (h2 : eps_d speed < (side - px) / dx) (h3 : (side - px) / dx ≤ D + eps_d speed)
    (h4 : within (py + dy * ((side - px) / dx)) w.y1 w.y2 (eps_face speed px py dx dy)
      = true) :
    ∃ h ∈ gather speed [w] px py dx dy D, h.dist = (side - px) / dx := by
  unfold gather
  simp only [List.foldl_cons, List.foldl_nil, wall_candidates, not_le.mpr hw, not_le.mpr hh,
    if_false]
  have hv : ∃ h ∈ maybe_add_vertical w.x2 w px py dx dy D eps_dir
      (eps_face speed px py dx dy) (eps_d speed)
      (maybe_add_vertical w.x1 w px py dx dy D eps_dir (eps_face speed px py dx dy)
        (eps_d speed) []), h.dist = (side - px) / dx := by
    rcases hside with hside | hside
    · subst hside
      obtain ⟨h, hm, hd⟩ := new_maybe_add_vertical w.x1 w px py dx dy D eps_dir
        (eps_face speed px py dx dy) (eps_d speed) [] h1 h2 h3 h4
      exact ⟨h, subset_maybe_add_vertical _ _ _ _ _ _ _ _ _ _ _ hm, hd⟩
    · subst hside
      exact new_maybe_add_vertical w.x2 w px py dx dy D eps_dir
        (eps_face speed px py dx dy) (eps_d speed) _ h1 h2 h3 h4
  obtain ⟨h, hm, hd⟩ := hv
  exact ⟨h, subset_maybe_add_horizontal _ _ _ _ _ _ _ _ _ _ _
    (subset_maybe_add_horizontal _ _ _ _ _ _ _ _ _ _ _ hm), hd⟩

/-- A horizontal face of a wall with both extents above `1e-12` that the ray
meets within the step yields a candidate. -/
theorem horizontal_face_is_candidate (speed : K) (w : Wall K) (px py dx dy D side : K)
    (hw : tiny < |w.x1 - w.x2|) (hh : tiny < |w.y1 - w.y2|)
    (hside : side = w.y1 ∨ side = w.y2) (h1 : eps_dir < |dy|)
    (h2 : eps_d speed < (side - py) / dy) (h3 : (side - py) / dy ≤ D + eps_d speed)
    (h4 : within (px + dx * ((side - py) / dy)) w.x1 w.x2 (eps_face speed px py dx dy)
      = true) :
    ∃ h ∈ gather speed [w] px py dx dy D, h.dist = (side - py) / dy := by
  unfold gather
  simp only [List.foldl_cons, List.foldl_nil, wall_candidates, not_le.mpr hw, not_le.mpr hh,
    if_false]
  rcases hside with hside | hside
  · subst hside
    obtain ⟨h, hm, hd⟩ := new_maybe_add_horizontal w.y1 w px py dx dy D eps_dir
      (eps_face speed px py dx dy) (eps_d speed)
      (maybe_add_vertical w.x2 w px py dx dy D eps_dir (eps_face speed px py dx dy)
        (eps_d speed)
        (maybe_add_vertical w.x1 w px py dx dy D eps_dir (eps_face speed px py dx dy)
          (eps_d speed) [])) h1 h2 h3 h4
    exact ⟨h, subset_maybe_add_horizontal _ _ _ _ _ _ _ _ _ _ _ hm, hd⟩
  · subst hside
    exact new_maybe_add_horizontal w.y2 w px py dx dy D eps_dir
      (eps_face speed px py dx dy) (eps_d speed) _ h1 h2 h3 h4

theorem eps_face_nonneg (speed px py dx dy : K) : 0 ≤ eps_face speed px py dx dy := by
  unfold eps_face scale_now
  have h1 := scale_for_ge_one px py (px + dx * max 1 speed) (py + dy * max 1 speed)
  have h2 : (0 : K) < ulp := ulp_pos
  have : (0 : K) ≤ scale_for px py (px + dx * max 1 speed) (py + dy * max 1 speed) := by
    linarith
  positivity

theorem within_of_mem {v lo hi eps : K} (h1 : lo ≤ v) (h2 : v ≤ hi) (he : 0 ≤ eps) :
    within v lo hi eps = true := by
  unfold within
  simp only [ge_iff_le, Bool.and_eq_true, decide_eq_true_eq]
  constructor <;> linarith

/-- On the way from a point of the open interval `(a, b)` to a point of the
closed interval `[a, b]` every earlier point is in the open interval. -/
theorem strictly_between {a b p d t s : K} (h1 : a < p) (h2 : p < b)
    (h3 : a ≤ p + d * t) (h4 : p + d * t ≤ b) (hs0 : 0 ≤ s) (hst : s < t) :
    a < p + d * s ∧ p + d * s < b := by
  rcases lt_trichotomy d 0 with hd | hd | hd
  · have e1 : d * s ≤ 0 := mul_nonpos_of_nonpos_of_nonneg hd.le hs0
    have e2 : d * t < d * s := mul_lt_mul_of_neg_left hst hd
    constructor <;> linarith
  · subst hd
    simp only [zero_mul, add_zero]
    exact ⟨h1, h2⟩
  · have e1 : 0 ≤ d * s := mul_nonneg hd.le hs0
    have e2 : d * s < d * t := mul_lt_mul_of_pos_left hst hd
    constructor <;> linarith

theorem inside_before_exit {w : Wall K} {start u : K × K} {t s : K}
    (hin : StrictlyInside w start.1 start.2) (hex : ExitsAt w start u t)
    (hs0 : 0 ≤ s) (hst : s < t) :
    StrictlyInside w (start.1 + u.1 * s) (start.2 + u.2 * s) := by
  obtain ⟨a1, a2, a3, a4⟩ := hin
  obtain ⟨b1, b2, b3, b4, _⟩ := hex
  have hx := strictly_between a1 a2 b1 b2 hs0 hst
  have hy := strictly_between a3 a4 b3 b4 hs0 hst
  exact ⟨hx.1, hx.2, hy.1, hy.2⟩

/-- A hit for the wall the ray is inside of is never nearer than the exit. -/
theorem hit_not_before_exit {w : Wall K} {start u : K × K} {t g D ed : K} {h : SideHit K}
    (hin : StrictlyInside w start.1 start.2) (hex : ExitsAt w start u t)
    (hg : 0 ≤ g) (hed : 0 ≤ ed)
    (hh : HitOf w (start.1 + u.1 * g) (start.2 + u.2 * g) u.1 u.2 D ed h) :
    t ≤ g + h.dist := by
  by_contra hlt
  push_neg at hlt
  have hd : 0 < h.dist := lt_of_le_of_lt hed hh.ray.dist_gt
  obtain ⟨c1, c2, c3, c4⟩ := inside_before_exit hin hex (by linarith : 0 ≤ g + h.dist) hlt
  have ex : h.x = start.1 + u.1 * (g + h.dist) := by rw [hh.ray.x_eq]; ring
  have ey : h.y = start.2 + u.2 * (g + h.dist) := by rw [hh.ray.y_eq]; ring
  rcases hh.face with ⟨_, _, hf, _⟩ | ⟨_, _, hf, _⟩
  · rcases hf with hf | hf
    · rw [ex] at hf; linarith
    · rw [ex] at hf; linarith
  · rcases hf with hf | hf
    · rw [ey] at hf; linarith
    · rw [ey] at hf; linarith

end Inside

/-! ## Validation, wall ingestion and the first vertex -/

section EntryPoint

variable {K : Type} [LinearOrderedField K]

theorem ingest_append (sim : ProjectilePathSimulator K) (l1 l2 : List (Wall K)) :
    ingest sim (l1 ++ l2) = ingest (ingest sim l1) l2 := by
  simp [ingest, List.foldl_append]

theorem ingest_cons_degenerate (sim : ProjectilePathSimulator K) (w : Wall K)
    (l : List (Wall K)) (hx : |w.x1 - w.x2| ≤ tiny) (hy : |w.y1 - w.y2| ≤ tiny) :
    ingest sim (w :: l) = ingest sim l := by
  simp [ingest, List.foldl_cons, not_lt.mpr hx, not_lt.mpr hy]

theorem add_wall_speed (sim : ProjectilePathSimulator K) (x1 y1 x2 y2 : K)
    (b : WallBehavior) :
    (sim.add_wall x1 y1 x2 y2 b).speed_ = sim.speed_ ∧
    (sim.add_wall x1 y1 x2 y2 b).distance_budget_ = sim.distance_budget_ := by
  unfold ProjectilePathSimulator.add_wall
  split <;> simp

theorem ingest_speed (sim : ProjectilePathSimulator K) (l : List (Wall K)) :
    (ingest sim l).speed_ = sim.speed_ ∧
    (ingest sim l).distance_budget_ = sim.distance_budget_ := by
  induction l generalizing sim with
  | nil => simp [ingest]
  | cons w t ih =>
    have h : ingest sim (w :: t) =
        ingest (if |w.x1 - w.x2| > tiny ∨ |w.y1 - w.y2| > tiny then
          sim.add_wall w.x1 w.y1 w.x2 w.y2 w.behavior else sim) t := by
      simp [ingest, List.foldl_cons]
    rw [h]
    split
    · rw [(ih _).1, (ih _).2]; exact add_wall_speed _ _ _ _ _ _
    · exact ih _

/-! ### The path only grows -/

theorem inner_body_extends (speed : K) (walls : List (Wall K)) (ts : TickState K) :
    match inner_body speed walls ts with
    | .ret p => ts.run.path <+: p
    | .brk t => ts.run.path <+: t.run.path
    | .next t => ts.run.path <+: t.run.path := by
  unfold inner_body
  simp only
  split_ifs <;> simp

theorem inner_loop_extends (speed : K) (walls : List (Wall K)) (fuel : Nat)
    (ts : TickState K) :
    match inner_loop speed walls fuel ts with
    | .stopped p => ts.run.path <+: p
    | .fell t => ts.run.path <+: t.run.path := by
  induction fuel generalizing ts with
  | zero => simp [inner_loop]
  | succ n ih =>
    unfold inner_loop
    split_ifs with hpos
    · have hb := inner_body_extends speed walls ts
      cases hib : inner_body speed walls ts with
      | ret p => rw [hib] at hb; simpa using hb
      | brk t => rw [hib] at hb; simpa using hb
      | next t =>
        rw [hib] at hb
        have h2 := ih t
        simp only
        cases hil : inner_loop speed walls n t with
        | stopped p => rw [hil] at h2; exact List.IsPrefix.trans hb h2
        | fell u => rw [hil] at h2; exact List.IsPrefix.trans hb h2
    · simp

theorem tick_extends (speed : K) (walls : List (Wall K)) (st : RunState K) :
    match tick speed walls st with
    | .stopped p => st.path <+: p
    | .fell t => st.path <+: t.path := by
  unfold tick
  have h := inner_loop_extends speed walls max_inner_per_tick
    { run := st, recorded_pass_before_nonpass := false,
      remaining_in_tick := min speed st.remaining_budget }
  cases hil : inner_loop speed walls max_inner_per_tick
    { run := st, recorded_pass_before_nonpass := false,
      remaining_in_tick := min speed st.remaining_budget } with
  | stopped p => rw [hil] at h; simpa using h
  | fell u => rw [hil] at h; simpa using h

theorem outer_loop_extends (speed : K) (walls : List (Wall K)) (fuel : Nat)
    (st : RunState K) :
    match outer_loop speed walls fuel st with
    | .stopped p => st.path <+: p
    | .fell t => st.path <+: t.path := by
  induction fuel generalizing st with
  | zero => simp [outer_loop]
  | succ n ih =>
    unfold outer_loop
    split_ifs with hpos
    · have hb := tick_extends speed walls st
      cases ht : tick speed walls st with
      | stopped p => rw [ht] at hb; simpa using hb
      | fell t =>
        rw [ht] at hb
        have h2 := ih t
        simp only
        cases hol : outer_loop speed walls n t with
        | stopped p => rw [hol] at h2; exact List.IsPrefix.trans hb h2
        | fell u => rw [hol] at h2; exact List.IsPrefix.trans hb h2
    · simp

theorem finish_extends (speed : K) (st : RunState K) : st.path <+: finish speed st := by
  unfold finish
  split
  · simp
  · split_ifs <;> simp

theorem simulate_extends [FloorRing K] (hypot : K → K → K) (sim : ProjectilePathSimulator K)
    (sx sy dx dy : K) : [(sx, sy)] <+: sim.simulate hypot sx sy dx dy := by
  unfold ProjectilePathSimulator.simulate
  simp only
  have h := outer_loop_extends sim.speed_ sim.walls_
    (max_outer sim.speed_ sim.distance_budget_).toNat
    { path := [(sx, sy)], px := sx, py := sy, dx := (normalize hypot dx dy).1,
      dy := (normalize hypot dx dy).2, remaining_budget := sim.distance_budget_ }
  cases hol : outer_loop sim.speed_ sim.walls_
    (max_outer sim.speed_ sim.distance_budget_).toNat
    { path := [(sx, sy)], px := sx, py := sy, dx := (normalize hypot dx dy).1,
      dy := (normalize hypot dx dy).2, remaining_budget := sim.distance_budget_ } with
  | stopped p => rw [hol] at h; simpa using h
  | fell u =>
    rw [hol] at h
    exact List.IsPrefix.trans h (finish_extends _ _)

theorem simulatePath_ok [FloorRing K] (hypot : K → K → K) (start direction : K × K)
    (speed distance_budget : K) (walls : List (Wall K))
    (hs : 0 < speed) (hb : 0 ≤ distance_budget)
    (hd : vec_len hypot direction.1 direction.2 ≠ 0) :
    simulatePath hypot start direction speed distance_budget walls =
      .ok ((ingest { speed_ := speed, distance_budget_ := distance_budget, walls_ := [] }
              walls).simulate hypot start.1 start.2
            (direction.1 / vec_len hypot direction.1 direction.2)
            (direction.2 / vec_len hypot direction.1 direction.2)) := by
  simp [simulatePath, ProjectilePathSimulator.new, not_le.mpr hs, not_lt.mpr hb, hd]

theorem simulatePath_eq_run [FloorRing K] {hypot : K → K → K} (hx : HypotExact hypot)
    (start direction : K × K) (speed distance_budget len : K) (walls : List (Wall K))
    (hs : 0 < speed) (hb : 0 ≤ distance_budget) (hl : 0 < len)
    (hd : direction.1 * direction.1 + direction.2 * direction.2 = len * len) :
    simulatePath hypot start direction speed distance_budget walls =
      .ok (path_of speed
        (run_loop start (direction.1 / len, direction.2 / len) speed distance_budget walls))
    := by
  have hL : vec_len hypot direction.1 direction.2 = len := hx _ _ _ hl.le hd
  have hne : len ≠ 0 := ne_of_gt hl
  have h1 : vec_len hypot (direction.1 / len) (direction.2 / len) = 1 := by
    apply hx _ _ _ zero_le_one
    field_simp
    linarith
  rw [simulatePath_ok hypot start direction speed distance_budget walls hs hb
    (by rw [hL]; exact hne), hL]
  have h0 := ingest_speed
    ({ speed_ := speed, distance_budget_ := distance_budget, walls_ := [] } :
      ProjectilePathSimulator K) walls
  simp only at h0
  simp only [ProjectilePathSimulator.simulate, normalize, h1, one_ne_zero, if_false,
    div_one, h0.1, h0.2, run_loop, path_of]

theorem initial_inv {hypot : K → K → K} {speed B : K} (low : Prop) (start u : K × K)
    (hB : 0 ≤ B) (hu : u.1 * u.1 + u.2 * u.2 = 1) :
    RunInv hypot speed B low
      { path := [start], px := start.1, py := start.2, dx := u.1, dy := u.2,
        remaining_budget := B } := by
  refine ⟨hu, hB, start, 0, rfl, le_rfl, by simp, by simp, ?_, ?_⟩
  · simp [polyline_length]
  · intro _; left; simp [polyline_length]

theorem unit_of_len {direction : K × K} {len : K} (hl : 0 < len)
    (hd : direction.1 * direction.1 + direction.2 * direction.2 = len * len) :
    (direction.1 / len) * (direction.1 / len) + (direction.2 / len) * (direction.2 / len) = 1
    := by
  have hne : len ≠ 0 := ne_of_gt hl
  field_simp
  linarith

end EntryPoint

/-! ## The run of a ray that starts inside a single wall -/

section InsideRun

variable {K : Type} [LinearOrderedField K]

theorem resolved_le_of_uniform (cands : List (SideHit K)) (flag : Bool) (et : K)
    (b : WallBehavior) (hb : ∀ h ∈ cands, h.behavior = b) {s : K}
    (hs : resolve_s_min flag et (earliest cands).1 (earliest cands).2 = some s) :
    ∀ h ∈ cands, s ≤ h.dist := by
  unfold earliest at hs
  rw [earliest_foldl] at hs
  simp only at hs
  intro h hh
  have hmem : ∀ (l : List (SideHit K)), l = cands → h.dist ∈ l.map (fun x => x.dist) := by
    intro l hl; rw [hl]; exact List.mem_map.mpr ⟨h, hh, rfl⟩
  by_cases hp : b = WallBehavior.PASS_THROUGH
  · have h1 : cands.filter (fun h => decide (h.behavior ≠ WallBehavior.PASS_THROUGH)) = [] := by
      rw [List.filter_eq_nil_iff]
      intro a ha
      simp [hb a ha, hp]
    have h2 : cands.filter (fun h => decide (h.behavior = WallBehavior.PASS_THROUGH)) = cands := by
      rw [List.filter_eq_self]
      intro a ha
      simp [hb a ha, hp]
    rw [h1, h2] at hs
    simp only [List.map_nil, List.foldl_nil, resolve_s_min] at hs
    exact (foldl_min_upd_some _ _ hs).2.2 _ (hmem _ rfl)
  · have h1 : cands.filter (fun h => decide (h.behavior ≠ WallBehavior.PASS_THROUGH)) = cands := by
      rw [List.filter_eq_self]
      intro a ha
      simp [hb a ha, hp]
    have h2 : cands.filter (fun h => decide (h.behavior = WallBehavior.PASS_THROUGH)) = [] := by
      rw [List.filter_eq_nil_iff]
      intro a ha
      simp [hb a ha, hp]
    rw [h1, h2] at hs
    simp only [List.map_nil, List.foldl_nil] at hs
    cases hf : (cands.map (fun h => h.dist)).foldl min_upd none with
    | none => rw [hf] at hs; simp [resolve_s_min] at hs
    | some v =>
      rw [hf] at hs
      simp only [resolve_s_min, Option.some.injEq] at hs
      subst hs
      exact (foldl_min_upd_some _ _ hf).2.2 _ (hmem _ rfl)

theorem same_face {sx u1 x1 x2 t τ : K} (h1 : x1 < sx) (h2 : sx < x2) (ht : 0 < t)
    (hτ : 0 < τ) (hu : u1 ≠ 0)
    (hq : sx + u1 * t = x1 ∨ sx + u1 * t = x2) (hh : sx + u1 * τ = x1 ∨ sx + u1 * τ = x2) :
    τ = t := by
  have key : u1 * τ = u1 * t := by
    rcases lt_or_gt_of_ne hu with hneg | hpos
    · have a1 : u1 * t < 0 := mul_neg_of_neg_of_pos hneg ht
      have a2 : u1 * τ < 0 := mul_neg_of_neg_of_pos hneg hτ
      rcases hq with hq | hq <;> rcases hh with hh | hh <;> linarith
    · have a1 : 0 < u1 * t := mul_pos hpos ht
      have a2 : 0 < u1 * τ := mul_pos hpos hτ
      rcases hq with hq | hq <;> rcases hh with hh | hh <;> linarith
  exact mul_left_cancel₀ hu key

theorem candidates_single {speed : K} {w : Wall K} {ts : TickState K} {h : SideHit K}
    (hm : h ∈ event_candidates speed [w] ts) :
    HitOf w ts.run.px ts.run.py ts.run.dx ts.run.dy ts.remaining_in_tick (eps_d speed) h := by
  obtain ⟨w1, hw1, hh⟩ := mem_gather hm
  rw [List.mem_singleton] at hw1
  rw [← hw1]; exact hh

/-- The inner iteration in which the exit face comes within reach. -/
theorem exit_event {speed : K} (hs : 0 < speed) {w : Wall K} (hw : tiny < |w.x1 - w.x2|)
    (hh : tiny < |w.y1 - w.y2|) {start u : K × K} {t B g : K}
    (hin : StrictlyInside w start.1 start.2) (hex : ExitsAt w start u t)
    (ts : TickState K) (hG : Gliding start u B g ts.run) (hg : 0 ≤ g)
    (hgt : eps_d speed < t - g) (hle : t - g ≤ ts.remaining_in_tick + eps_d speed) :
    ∃ τ, t ≤ τ ∧ τ ≤ t + eps_tie speed ∧
      ((|u.1| ≤ eps_dir ∨ |u.2| ≤ eps_dir) → τ = t) ∧
      (event_candidates speed [w] ts).isEmpty = false ∧
      impact (event_hits speed [w] ts) = (start.1 + u.1 * τ, start.2 + u.2 * τ) ∧
      ((flags (event_hits speed [w] ts)).1 = true ↔ w.behavior = WallBehavior.STOP) := by
  have hed := eps_d_pos hs
  have hedir : (0 : K) < eps_dir := eps_dir_pos
  obtain ⟨i1, i2, i3, i4⟩ := hin
  obtain ⟨q1, q2, q3, q4, qf⟩ := hex
  have hex : ExitsAt w start u t := ⟨q1, q2, q3, q4, qf⟩
  have hin : StrictlyInside w start.1 start.2 := ⟨i1, i2, i3, i4⟩
  have htpos : 0 < t := by linarith
  -- the exit face is a candidate
  have hcand : ∃ h0 ∈ event_candidates speed [w] ts, h0.dist = t - g := by
    unfold event_candidates
    rw [hG.px_eq, hG.py_eq, hG.dx_eq, hG.dy_eq]
    have hef := eps_face_nonneg speed (start.1 + u.1 * g) (start.2 + u.2 * g) u.1 u.2
    rcases qf with ⟨hd, hq⟩ | ⟨hd, hq⟩
    · have hu1 : u.1 ≠ 0 := by
        intro h0; rw [h0, abs_zero] at hd; linarith
      have e : (start.1 + u.1 * t - (start.1 + u.1 * g)) / u.1 = t - g := by
        field_simp; ring
      have ey : start.2 + u.2 * g + u.2 * (t - g) = start.2 + u.2 * t := by ring
      have := vertical_face_is_candidate speed w (start.1 + u.1 * g) (start.2 + u.2 * g)
        u.1 u.2 ts.remaining_in_tick (start.1 + u.1 * t) hw hh hq hd
        (by rw [e]; exact hgt) (by rw [e]; exact hle)
        (by rw [e, ey]; exact within_of_mem q3 q4 hef)
      rw [e] at this; exact this
    · have hu2 : u.2 ≠ 0 := by
        intro h0; rw [h0, abs_zero] at hd; linarith
      have e : (start.2 + u.2 * t - (start.2 + u.2 * g)) / u.2 = t - g := by
        field_simp; ring
      have ex : start.1 + u.1 * g + u.1 * (t - g) = start.1 + u.1 * t := by ring
      have := horizontal_face_is_candidate speed w (start.1 + u.1 * g) (start.2 + u.2 * g)
        u.1 u.2 ts.remaining_in_tick (start.2 + u.2 * t) hw hh hq hd
        (by rw [e]; exact hgt) (by rw [e]; exact hle)
        (by rw [e, ex]; exact within_of_mem q1 q2 hef)
      rw [e] at this; exact this
  obtain ⟨h0, hh0, hd0⟩ := hcand
  have hne : (event_candidates speed [w] ts).isEmpty = false := by
    cases hc : event_candidates speed [w] ts with
    | nil => rw [hc] at hh0; simp at hh0
    | cons a l => rfl
  -- facts about every candidate
  have hof : ∀ h ∈ event_candidates speed [w] ts,
      HitOf w (start.1 + u.1 * g) (start.2 + u.2 * g) u.1 u.2 ts.remaining_in_tick
        (eps_d speed) h := by
    intro h hm
    have := candidates_single hm
    rw [hG.px_eq, hG.py_eq, hG.dx_eq, hG.dy_eq] at this
    exact this
  have hfar : ∀ h ∈ event_candidates speed [w] ts, t ≤ g + h.dist :=
    fun h hm => hit_not_before_exit hin hex hg hed.le (hof h hm)
  obtain ⟨s, m, hsm, himp, _, _, _, hm2, _, hmean, hhne⟩ := event_facts hs [w] ts hne
  obtain ⟨s1, hsm1, ⟨h1, hh1, hd1⟩, hall⟩ := event_s_min_spec hs [w] ts hne
  have hs1 : s1 = s := by rw [hsm] at hsm1; exact (Option.some.inj hsm1).symm
  subst hs1
  have hle1 : s1 ≤ t - g := by
    have := resolved_le_of_uniform (event_candidates speed [w] ts)
      ts.recorded_pass_before_nonpass (eps_tie speed) w.behavior
      (fun h hm => (hof h hm).ray.behavior_eq) hsm h0 hh0
    rw [hd0] at this; exact this
  have hge1 : t - g ≤ s1 := by
    have := hfar h1 (event_hits_subset speed [w] ts h1 hh1)
    rw [hd1] at this; linarith
  have hseq : s1 = t - g := le_antisymm hle1 hge1
  have hb1 := mean_dist_bounds (event_hits speed [w] ts) (t - g) (t - g + eps_tie speed) hhne
    (by
      intro h hm
      have a1 := hfar h (event_hits_subset speed [w] ts h hm)
      have a2 := (abs_le.mp (hall h hm)).2
      constructor <;> linarith)
  rw [← hmean] at hb1
  refine ⟨g + m, by linarith [hb1.1], by linarith [hb1.2], ?_, hne, ?_, ?_⟩
  · -- axis-parallel ray: every hit is at the exit distance
    intro hpar
    have hexact : ∀ h ∈ event_hits speed [w] ts, t - g ≤ h.dist ∧ h.dist ≤ t - g := by
      intro h hm
      have hc := event_hits_subset speed [w] ts h hm
      have ho := hof h hc
      have hdpos : 0 < g + h.dist := by linarith [ho.ray.dist_gt]
      have hx : h.x = start.1 + u.1 * (g + h.dist) := by rw [ho.ray.x_eq]; ring
      have hy : h.y = start.2 + u.2 * (g + h.dist) := by rw [ho.ray.y_eq]; ring
      have key : g + h.dist = t := by
        rcases ho.face with ⟨_, _, hf, hfd⟩ | ⟨_, _, hf, hfd⟩
        · -- vertical hit
          have hu1 : u.1 ≠ 0 := by
            intro h0; rw [h0, abs_zero] at hfd; linarith
          rcases qf with ⟨_, hq⟩ | ⟨hd2, _⟩
          · rw [hx] at hf
            exact same_face i1 i2 htpos hdpos hu1 hq hf
          · rcases hpar with hp | hp
            · linarith
            · linarith
        · have hu2 : u.2 ≠ 0 := by
            intro h0; rw [h0, abs_zero] at hfd; linarith
          rcases qf with ⟨hd2, _⟩ | ⟨_, hq⟩
          · rcases hpar with hp | hp
            · linarith
            · linarith
          · rw [hy] at hf
            exact same_face i3 i4 htpos hdpos hu2 hq hf
      constructor <;> linarith
    have hb2 := mean_dist_bounds (event_hits speed [w] ts) (t - g) (t - g) hhne hexact
    rw [← hmean] at hb2
    linarith [hb2.1, hb2.2]
  · rw [himp, hG.px_eq, hG.py_eq, hG.dx_eq, hG.dy_eq]
    refine Prod.ext ?_ ?_ <;> simp only <;> ring
  · rw [flags_stop]
    constructor
    · rintro ⟨h, hm, hb⟩
      rw [← hb]
      exact ((hof h (event_hits_subset speed [w] ts h hm)).ray.behavior_eq).symm
    · intro hb
      exact ⟨h1, hh1, by
        rw [(hof h1 (event_hits_subset speed [w] ts h1 hh1)).ray.behavior_eq]; exact hb⟩

theorem inner_loop_succ (speed : K) (walls : List (Wall K)) (fuel : Nat) (ts : TickState K)
    (hpos : 0 < ts.remaining_in_tick) :
    inner_loop speed walls (fuel + 1) ts =
      match inner_body speed walls ts with
      | .ret path => .stopped path
      | .brk ts1 => .fell ts1
      | .next ts1 => inner_loop speed walls fuel ts1 := by
  simp only [inner_loop, gt_iff_lt, hpos, if_true]

theorem tick_glides (speed : K) (walls : List (Wall K)) (st : RunState K)
    (he : (event_candidates speed walls
      { run := st, recorded_pass_before_nonpass := false,
        remaining_in_tick := min speed st.remaining_budget }).isEmpty = true)
    (hr : eps_d speed < min speed st.remaining_budget) (hs : 0 < speed) :
    tick speed walls st = .fell (glide st (min speed st.remaining_budget)) := by
  have hpos : 0 < min speed st.remaining_budget := lt_trans (eps_d_pos hs) hr
  unfold tick
  have h256 : max_inner_per_tick = 255 + 1 := rfl
  rw [h256, inner_loop_succ speed walls 255 _ hpos, inner_body_glide speed walls _ he hr]

theorem tick_exits {speed : K} (hs : 0 < speed) {w : Wall K} (hw : tiny < |w.x1 - w.x2|)
    (hh : tiny < |w.y1 - w.y2|) {start u : K × K} {t B g : K}
    (hin : StrictlyInside w start.1 start.2) (hex : ExitsAt w start u t)
    {st : RunState K} (hG : Gliding start u B g st) (hg : 0 ≤ g)
    (hgt : eps_d speed < t - g)
    (hle : t - g ≤ min speed st.remaining_budget + eps_d speed)
    (hpos : 0 < min speed st.remaining_budget) :
    FirstVertexAtExit start u t speed w.behavior (tick speed [w] st) := by
  obtain ⟨τ, h1, h2, h3, hne, himp, hfl⟩ := exit_event hs hw hh hin hex
    { run := st, recorded_pass_before_nonpass := false,
      remaining_in_tick := min speed st.remaining_budget } hG hg hgt hle
  refine ⟨τ, h1, h2, h3, ?_⟩
  have h256 : max_inner_per_tick = 255 + 1 := rfl
  by_cases hb : w.behavior = WallBehavior.STOP
  · have hf := hfl.mpr hb
    have ht : tick speed [w] st
        = .stopped [start, (start.1 + u.1 * τ, start.2 + u.2 * τ)] := by
      unfold tick
      rw [h256, inner_loop_succ speed [w] 255 _ hpos, inner_body_stop speed [w] _ hne hf,
        himp]
      simp only [hG.path_eq]
      rfl
    rw [ht]
    exact ⟨List.prefix_refl _, fun _ => rfl⟩
  · have hf : (flags (event_hits speed [w]
        { run := st, recorded_pass_before_nonpass := false,
          remaining_in_tick := min speed st.remaining_budget })).1 = false := by
      cases hfv : (flags (event_hits speed [w]
        { run := st, recorded_pass_before_nonpass := false,
          remaining_in_tick := min speed st.remaining_budget })).1 with
      | false => rfl
      | true => exact absurd (hfl.mp hfv) hb
    refine ⟨?_, fun h => absurd h hb⟩
    unfold tick
    rw [h256, inner_loop_succ speed [w] 255 _ hpos, inner_body_next speed [w] _ hne hf]
    simp only
    have hext := inner_loop_extends speed [w] 255
      (after_event speed (event_hits speed [w]
        { run := st, recorded_pass_before_nonpass := false,
          remaining_in_tick := min speed st.remaining_budget })
        (event_s_min speed [w]
        { run := st, recorded_pass_before_nonpass := false,
          remaining_in_tick := min speed st.remaining_budget })
        { run := st, recorded_pass_before_nonpass := false,
          remaining_in_tick := min speed st.remaining_budget })
    have hp : (after_event speed (event_hits speed [w]
        { run := st, recorded_pass_before_nonpass := false,
          remaining_in_tick := min speed st.remaining_budget })
        (event_s_min speed [w]
        { run := st, recorded_pass_before_nonpass := false,
          remaining_in_tick := min speed st.remaining_budget })
        { run := st, recorded_pass_before_nonpass := false,
          remaining_in_tick := min speed st.remaining_budget }).run.path
        = [start, (start.1 + u.1 * τ, start.2 + u.2 * τ)] := by
      show st.path ++ [impact _] = _
      rw [himp, hG.path_eq]; rfl
    rw [hp] at hext
    cases hil : inner_loop speed [w] 255
      (after_event speed (event_hits speed [w]
        { run := st, recorded_pass_before_nonpass := false,
          remaining_in_tick := min speed st.remaining_budget })
        (event_s_min speed [w]
        { run := st, recorded_pass_before_nonpass := false,
          remaining_in_tick := min speed st.remaining_budget })
        { run := st, recorded_pass_before_nonpass := false,
          remaining_in_tick := min speed st.remaining_budget }) with
    | stopped p => rw [hil] at hext; simpa [result_path] using hext
    | fell ts1 => rw [hil] at hext; simpa [result_path] using hext

theorem outer_after_tick {speed : K} {walls : List (Wall K)} {start u : K × K} {t : K}
    {b : WallBehavior} (fuel : Nat) (st : RunState K) (hpos : 0 < st.remaining_budget)
    (h : FirstVertexAtExit start u t speed b (tick speed walls st)) :
    FirstVertexAtExit start u t speed b (outer_loop speed walls (fuel + 1) st) := by
  obtain ⟨τ, h1, h2, h3, h4, h5⟩ := h
  refine ⟨τ, h1, h2, h3, ?_, ?_⟩
  · simp only [outer_loop, gt_iff_lt, hpos, if_true]
    cases ht : tick speed walls st with
    | stopped p => rw [ht] at h4; simpa [result_path] using h4
    | fell st1 =>
      rw [ht] at h4
      simp only [result_path] at h4
      simp only
      have := outer_loop_extends speed walls fuel st1
      cases hol : outer_loop speed walls fuel st1 with
      | stopped p => rw [hol] at this; exact List.IsPrefix.trans h4 this
      | fell st2 => rw [hol] at this; exact List.IsPrefix.trans h4 this
  · intro hb
    simp only [outer_loop, gt_iff_lt, hpos, if_true, h5 hb]

theorem eps_d_lt_speed {speed : K} (h : tiny ≤ speed) : eps_d speed < speed := by
  unfold eps_d ulp
  unfold tiny at h
  norm_num at h ⊢
  linarith

/-- From inside a wall the run glides tick by tick until the exit face is
within reach and records its first vertex there. -/
theorem exit_run {speed : K} (hs : tiny ≤ speed) {w : Wall K} (hw : tiny < |w.x1 - w.x2|)
    (hh : tiny < |w.y1 - w.y2|) {start u : K × K} {t B : K}
    (hin : StrictlyInside w start.1 start.2) (hex : ExitsAt w start u t) (hB : t ≤ B)
    (fuel : Nat) (g : K) (st : RunState K) (hG : Gliding start u B g st) (hg : 0 ≤ g)
    (hgt : eps_d speed < t - g) (hfuel : t - g ≤ fuel * speed) :
    FirstVertexAtExit start u t speed w.behavior (outer_loop speed [w] fuel st) := by
  have hs0 : 0 < speed := lt_of_lt_of_le (by unfold tiny; positivity) hs
  have hed := eps_d_pos hs0
  have hsp := eps_d_lt_speed hs
  induction fuel generalizing g st with
  | zero =>
    simp only [Nat.cast_zero, zero_mul] at hfuel
    linarith
  | succ n ih =>
    have hrb : 0 < st.remaining_budget := by rw [hG.rb_eq]; linarith
    have hpos : 0 < min speed st.remaining_budget := lt_min hs0 hrb
    by_cases hreach : t - g ≤ min speed st.remaining_budget + eps_d speed
    · exact outer_after_tick n st hrb (tick_exits hs0 hw hh hin hex hG hg hgt hreach hpos)
    · push_neg at hreach
      -- the tick is a full one and finds nothing
      have hmin : min speed st.remaining_budget = speed := by
        rcases min_choice speed st.remaining_budget with hm | hm
        · exact hm
        · rw [hm, hG.rb_eq] at hreach; linarith
      rw [hmin] at hreach
      have hnone : (event_candidates speed [w]
          { run := st, recorded_pass_before_nonpass := false,
            remaining_in_tick := min speed st.remaining_budget }).isEmpty = true := by
        rw [List.isEmpty_iff]
        apply List.eq_nil_iff_forall_not_mem.mpr
        intro h hm
        have ho := candidates_single hm
        simp only [hG.px_eq, hG.py_eq, hG.dx_eq, hG.dy_eq, hmin] at ho
        have h1 := hit_not_before_exit hin hex hg hed.le ho
        have h2 := ho.ray.dist_le
        linarith
      have htick := tick_glides speed [w] st hnone (by rw [hmin]; exact hsp) hs0
      rw [hmin] at htick
      simp only [outer_loop, gt_iff_lt, hrb, if_true, htick]
      apply ih (g + speed) (glide st speed)
      · refine ⟨hG.path_eq, ?_, ?_, hG.dx_eq, hG.dy_eq, ?_⟩
        · show st.px + st.dx * speed = _
          rw [hG.px_eq, hG.dx_eq]; ring
        · show st.py + st.dy * speed = _
          rw [hG.py_eq, hG.dy_eq]; ring
        · show st.remaining_budget - speed = _
          rw [hG.rb_eq]; ring
      · linarith
      · linarith
      · push_cast at hfuel; linarith

end InsideRun

/-! ## Reaching a given iteration -/

section Reach

variable {K : Type} [LinearOrderedField K]

theorem inner_loop_after (speed : K) (walls : List (Wall K)) (k fuel : Nat)
    (ts0 ts : TickState K) (h : inner_state_after speed walls k ts0 = some ts) :
    inner_loop speed walls (k + fuel) ts0 = inner_loop speed walls fuel ts := by
  induction k generalizing ts0 with
  | zero =>
    simp only [inner_state_after, Option.some.injEq] at h
    subst h
    simp
  | succ n ih =>
    simp only [inner_state_after] at h
    split_ifs at h with hpos
    cases hb : inner_body speed walls ts0 with
    | ret p => rw [hb] at h; simp at h
    | brk t => rw [hb] at h; simp at h
    | next t =>
      rw [hb] at h
      simp only at h
      have e : n + 1 + fuel = (n + fuel) + 1 := by omega
      rw [e, inner_loop_succ speed walls (n + fuel) ts0 hpos, hb]
      exact ih t h

theorem outer_loop_succ (speed : K) (walls : List (Wall K)) (fuel : Nat) (st : RunState K)
    (hpos : 0 < st.remaining_budget) :
    outer_loop speed walls (fuel + 1) st =
      match tick speed walls st with
      | .stopped path => .stopped path
      | .fell st1 => outer_loop speed walls fuel st1 := by
  cases h : tick speed walls st <;> simp [outer_loop, hpos, h]

theorem outer_loop_after (speed : K) (walls : List (Wall K)) (j fuel : Nat)
    (st0 st : RunState K) (h : run_state_after speed walls j st0 = some st) :
    outer_loop speed walls (j + fuel) st0 = outer_loop speed walls fuel st := by
  induction j generalizing st0 with
  | zero =>
    simp only [run_state_after, Option.some.injEq] at h
    subst h
    simp
  | succ n ih =>
    simp only [run_state_after] at h
    split_ifs at h with hpos
    cases hb : tick speed walls st0 with
    | stopped p => rw [hb] at h; simp at h
    | fell t =>
      rw [hb] at h
      simp only at h
      have e : n + 1 + fuel = (n + fuel) + 1 := by omega
      rw [e, outer_loop_succ speed walls (n + fuel) st0 hpos, hb]
      exact ih t h

end Reach

/-! ## Runs whose every tick is swallowed -/

section Swallowed

variable {K : Type} [LinearOrderedField K]

theorem tick_swallows (speed : K) (walls : List (Wall K)) (st : RunState K)
    (he : (event_candidates speed walls
      { run := st, recorded_pass_before_nonpass := false,
        remaining_in_tick := min speed st.remaining_budget }).isEmpty = true)
    (hr : min speed st.remaining_budget ≤ eps_d speed)
    (hpos : 0 < min speed st.remaining_budget) :
    tick speed walls st = .fell (swallow st (min speed st.remaining_budget)) := by
  unfold tick
  have h256 : max_inner_per_tick = 255 + 1 := rfl
  rw [h256, inner_loop_succ speed walls 255 _ hpos, inner_body_swallow speed walls _ he hr]

/-- With a speed of at most `eps_d` every tick that finds no candidate is
swallowed: the outer loop only lowers the remaining budget. -/
theorem swallowed_run {speed : K} (hs : 0 < speed) (hsp : speed ≤ eps_d speed)
    (walls : List (Wall K)) (fuel : Nat) (st : RunState K)
    (hnone : ∀ D, D ≤ speed → gather speed walls st.px st.py st.dx st.dy D = []) :
    ∃ rb, outer_loop speed walls fuel st = .fell { st with remaining_budget := rb } := by
  induction fuel generalizing st with
  | zero => exact ⟨st.remaining_budget, rfl⟩
  | succ n ih =>
    by_cases hrb : 0 < st.remaining_budget
    · have hpos : 0 < min speed st.remaining_budget := lt_min hs hrb
      have he : (event_candidates speed walls
          { run := st, recorded_pass_before_nonpass := false,
            remaining_in_tick := min speed st.remaining_budget }).isEmpty = true := by
        rw [List.isEmpty_iff]
        exact hnone _ (min_le_left _ _)
      have ht := tick_swallows speed walls st he ((min_le_left _ _).trans hsp) hpos
      obtain ⟨rb, hrb1⟩ := ih (swallow st (min speed st.remaining_budget)) hnone
      refine ⟨rb, ?_⟩
      simp only [outer_loop, gt_iff_lt, hrb, if_true, ht]
      rw [hrb1]
      rfl
    · refine ⟨st.remaining_budget, ?_⟩
      simp only [outer_loop, gt_iff_lt, hrb, if_false]

theorem finish_at_start (speed : K) (hs : 0 < speed) (start : K × K) (dx dy rb : K) :
    finish speed { path := [start], px := start.1, py := start.2, dx := dx, dy := dy,
                   remaining_budget := rb } = [start] := by
  have hpos := eps_out_pos speed start.1 start.2 hs
  simp [finish, not_lt.mpr hpos.le]

/-- No ray cast from inside a wall finds anything while the exit is farther
than the step plus `eps_d`. -/
theorem no_hit_short_of_exit {speed : K} (hs : 0 < speed) (w : Wall K) (start : K × K)
    (ux uy t D : K) (hin : StrictlyInside w start.1 start.2)
    (hex : ExitsAt w start (ux, uy) t) (hD : D + eps_d speed < t) :
    gather speed [w] start.1 start.2 ux uy D = [] := by
  apply List.eq_nil_iff_forall_not_mem.mpr
  intro h hm
  obtain ⟨w1, hw1, ho⟩ := mem_gather hm
  rw [List.mem_singleton] at hw1
  subst hw1
  have ho1 : HitOf w1 (start.1 + (ux, uy).1 * 0) (start.2 + (ux, uy).2 * 0) (ux, uy).1
      (ux, uy).2 D (eps_d speed) h := by
    simpa using ho
  have h1 := hit_not_before_exit hin hex le_rfl (eps_d_pos hs).le ho1
  have h2 := ho1.ray.dist_le
  linarith

end Swallowed

section SwallowedRun

variable {K : Type} [LinearOrderedField K] [FloorRing K]

/-- A run whose speed is at most `eps_d` and whose ray casts from the start
find nothing returns `[start]`. -/
theorem tiny_speed_stays {hypot : K → K → K} (hx : HypotExact hypot)
    (start direction : K × K) (speed B len : K) (walls : List (Wall K))
    (hs : 0 < speed) (hsp : speed ≤ eps_d speed) (hB : 0 ≤ B) (hl : 0 < len)
    (hd : direction.1 * direction.1 + direction.2 * direction.2 = len * len)
    (hnone : ∀ D, D ≤ speed →
      gather speed
        (ingest { speed_ := speed, distance_budget_ := B, walls_ := [] } walls).walls_
        start.1 start.2 (direction.1 / len) (direction.2 / len) D = []) :
    simulatePath hypot start direction speed B walls = .ok [start] := by
  rw [simulatePath_eq_run hx start direction speed B len walls hs hB hl hd]
  obtain ⟨rb, hrb⟩ := swallowed_run hs hsp
    (ingest { speed_ := speed, distance_budget_ := B, walls_ := [] } walls).walls_
    (max_outer speed B).toNat
    { path := [start], px := start.1, py := start.2, dx := direction.1 / len,
      dy := direction.2 / len, remaining_budget := B } hnone
  unfold run_loop
  simp only
  rw [hrb]
  simp only [path_of]
  rw [finish_at_start speed hs]

end SwallowedRun

/-! ## From the loops to `simulatePath`, for a start inside a wall -/

section InsideEntry

variable {K : Type} [LinearOrderedField K] [FloorRing K]

theorem abs_min_sub_max (a b : K) : |min a b - max a b| = |a - b| := by
  rcases le_total a b with h | h
  · rw [min_eq_left h, max_eq_right h]
  · rw [min_eq_right h, max_eq_left h, abs_sub_comm]

theorem ingest_single (sim : ProjectilePathSimulator K) (w : Wall K)
    (hw : tiny < |w.x1 - w.x2|) :
    (ingest sim [w]).walls_ = sim.walls_ ++ [w.normalized] := by
  have h1 : ¬ (|w.x1 - w.x2| < tiny ∧ |w.y1 - w.y2| < tiny) := by
    intro h; linarith [h.1]
  simp [ingest, ProjectilePathSimulator.add_wall, hw, h1, Wall.normalized]

theorem fuel_covers_budget {speed B : K} (hs : tiny ≤ speed) (hB : 0 ≤ B) :
    B ≤ ((max_outer speed B).toNat : K) * speed := by
  have hs0 : 0 < speed := lt_of_lt_of_le (by unfold tiny; positivity) hs
  unfold max_outer
  rw [max_eq_right hs]
  have h1 : B / speed ≤ ((⌈B / speed⌉ : ℤ) : K) := Int.le_ceil _
  have h2 : (0 : ℤ) ≤ ⌈B / speed⌉ := Int.ceil_nonneg (div_nonneg hB hs0.le)
  have h3 : ((⌈B / speed⌉ + 2 : ℤ).toNat : ℤ) = ⌈B / speed⌉ + 2 :=
    Int.toNat_of_nonneg (by linarith)
  have h4 : (((⌈B / speed⌉ + 2 : ℤ).toNat : ℕ) : K) = ((⌈B / speed⌉ : ℤ) : K) + 2 := by
    rw [← Int.cast_natCast, h3]
    push_cast
    ring
  rw [h4]
  have h5 : B = B / speed * speed := by field_simp
  nlinarith

/-- What `simulatePath` returns for a single wall whose interior holds the
start: the loops of the run record their first vertex at the exit. -/
theorem inside_run_first_vertex {hypot : K → K → K} (hx : HypotExact hypot)
    (start direction : K × K) (speed B len t : K) (w0 : Wall K)
    (hs : tiny ≤ speed) (hl : 0 < len)
    (hd : direction.1 * direction.1 + direction.2 * direction.2 = len * len)
    (hw : tiny < |w0.x1 - w0.x2|) (hh : tiny < |w0.y1 - w0.y2|)
    (hin : StrictlyInside w0.normalized start.1 start.2)
    (hex : ExitsAt w0.normalized start (direction.1 / len, direction.2 / len) t)
    (ht : eps_d speed < t) (hB : t ≤ B) :
    simulatePath hypot start direction speed B [w0]
      = .ok (path_of speed (run_loop start (direction.1 / len, direction.2 / len) speed B [w0]))
    ∧ FirstVertexAtExit start (direction.1 / len, direction.2 / len) t speed w0.behavior
        (run_loop start (direction.1 / len, direction.2 / len) speed B [w0]) := by
  have hs0 : 0 < speed := lt_of_lt_of_le (by unfold tiny; positivity) hs
  have hed := eps_d_pos hs0
  have hB0 : 0 ≤ B := by linarith
  refine ⟨simulatePath_eq_run hx start direction speed B len [w0] hs0 hB0 hl hd, ?_⟩
  unfold run_loop
  rw [ingest_single _ _ hw]
  simp only [List.nil_append]
  have hw1 : tiny < |w0.normalized.x1 - w0.normalized.x2| := by
    show tiny < |min w0.x1 w0.x2 - max w0.x1 w0.x2|
    rw [abs_min_sub_max]; exact hw
  have hh1 : tiny < |w0.normalized.y1 - w0.normalized.y2| := by
    show tiny < |min w0.y1 w0.y2 - max w0.y1 w0.y2|
    rw [abs_min_sub_max]; exact hh
  have := exit_run hs hw1 hh1 hin hex hB (max_outer speed B).toNat 0
    { path := [start], px := start.1, py := start.2, dx := (direction.1 / len, direction.2 / len).1,
      dy := (direction.1 / len, direction.2 / len).2, remaining_budget := B }
    ⟨rfl, by simp, by simp, rfl, rfl, by simp⟩ le_rfl (by linarith)
    (by have := fuel_covers_budget hs hB0; linarith)
  exact this

end InsideEntry

/-! ## The wall store -/

section Store

variable {K : Type} [LinearOrderedField K]

theorem abs_sub_eq_max_sub_min (a b : K) : |a - b| = max a b - min a b := by
  rcases le_total a b with h | h
  · rw [max_eq_right h, min_eq_left h, abs_sub_comm, abs_of_nonneg (sub_nonneg.mpr h)]
  · rw [max_eq_left h, min_eq_right h, abs_of_nonneg (sub_nonneg.mpr h)]

theorem add_wall_keeps_ok (sim : ProjectilePathSimulator K) (x1 y1 x2 y2 : K)
    (b : WallBehavior) (h : ∀ w ∈ sim.walls_, w.stored_ok) :
    ∀ w ∈ (sim.add_wall x1 y1 x2 y2 b).walls_, w.stored_ok := by
  intro w hw
  unfold ProjectilePathSimulator.add_wall at hw
  split_ifs at hw with hc
  · exact h w hw
  · rcases List.mem_append.mp hw with hw | hw
    · exact h w hw
    · have hw1 := List.mem_singleton.mp hw
      subst hw1
      refine ⟨min_le_max, min_le_max, ?_⟩
      show tiny ≤ max x1 x2 - min x1 x2 ∨ tiny ≤ max y1 y2 - min y1 y2
      rw [← abs_sub_eq_max_sub_min, ← abs_sub_eq_max_sub_min]
      by_contra hcon
      push_neg at hcon
      exact hc hcon

theorem add_walls_keeps_ok (sim : ProjectilePathSimulator K) (calls : List (Wall K))
    (h : ∀ w ∈ sim.walls_, w.stored_ok) : ∀ w ∈ (add_walls sim calls).walls_, w.stored_ok := by
  induction calls generalizing sim with
  | nil => exact h
  | cons c t ih =>
    exact ih _ (add_wall_keeps_ok sim c.x1 c.y1 c.x2 c.y2 c.behavior h)

theorem new_walls_empty {speed budget : K} {sim : ProjectilePathSimulator K}
    (h : ProjectilePathSimulator.new speed budget = .ok sim) : sim.walls_ = [] := by
  unfold ProjectilePathSimulator.new at h
  split_ifs at h
  simp only [Except.ok.injEq] at h
  rw [← h]

end Store

/-! ## The batching rule -/

section Batching

variable {K : Type} [LinearOrderedField K]

theorem earliest_blocking (cands : List (SideHit K)) {c : SideHit K} (hc : c ∈ cands)
    (hcb : c.behavior ≠ WallBehavior.PASS_THROUGH) :
    ∃ snp, (earliest cands).1 = some snp ∧ snp ≤ c.dist ∧
      (∃ h ∈ cands, h.behavior ≠ WallBehavior.PASS_THROUGH ∧ h.dist = snp) ∧
      ∀ h ∈ cands, h.behavior ≠ WallBehavior.PASS_THROUGH → snp ≤ h.dist := by
  unfold earliest
  rw [earliest_foldl]
  simp only
  have hmem : c.dist ∈ (cands.filter
      (fun h => decide (h.behavior ≠ WallBehavior.PASS_THROUGH))).map (fun h => h.dist) :=
    List.mem_map.mpr ⟨c, List.mem_filter.mpr ⟨hc, by simpa using hcb⟩, rfl⟩
  cases hnp : ((cands.filter (fun h => decide (h.behavior ≠ WallBehavior.PASS_THROUGH))).map
      (fun h => h.dist)).foldl min_upd none with
  | none =>
    have := ((foldl_min_upd_none _ _).mp hnp).2
    rw [this] at hmem
    simp at hmem
  | some snp =>
    obtain ⟨h1, _, h3⟩ := foldl_min_upd_some _ _ hnp
    refine ⟨snp, rfl, h3 _ hmem, ?_, ?_⟩
    · rcases h1 with h1 | h1
      · simp at h1
      · obtain ⟨h, hh, hd⟩ := List.mem_map.mp h1
        have := List.mem_filter.mp hh
        exact ⟨h, this.1, by simpa using this.2, hd⟩
    · intro h hh hb
      exact h3 _ (List.mem_map.mpr ⟨h, List.mem_filter.mpr ⟨hh, by simpa using hb⟩, rfl⟩)

theorem earliest_pass (cands : List (SideHit K)) {sp : K}
    (h : (earliest cands).2 = some sp) :
    ∃ h ∈ cands, h.behavior = WallBehavior.PASS_THROUGH ∧ h.dist = sp := by
  unfold earliest at h
  rw [earliest_foldl] at h
  simp only at h
  rcases (foldl_min_upd_some _ _ h).1 with h1 | h1
  · simp at h1
  · obtain ⟨c, hc, hd⟩ := List.mem_map.mp h1
    have := List.mem_filter.mp hc
    exact ⟨c, this.1, by simpa using this.2, hd⟩

theorem mem_event_hits {speed : K} {walls : List (Wall K)} {ts : TickState K} {s : K}
    (hsm : event_s_min speed walls ts = some s) (h : SideHit K) :
    h ∈ event_hits speed walls ts ↔
      h ∈ event_candidates speed walls ts ∧ |h.dist - s| ≤ eps_tie speed := by
  unfold event_hits
  rw [hsm]
  simp [collect_hits]

/-- Every hit is on a vertical or on a horizontal face. -/
theorem hit_has_axis {speed : K} {walls : List (Wall K)} {ts : TickState K} {h : SideHit K}
    (hh : h ∈ event_hits speed walls ts) : h.vertical = true ∨ h.horizontal = true := by
  obtain ⟨w, _, hw⟩ := mem_gather (event_hits_subset speed walls ts h hh)
  rcases hw.face with ⟨h1, _⟩ | ⟨_, h2, _⟩
  · exact Or.inl h1
  · exact Or.inr h2

theorem flags_all_pass (hits : List (SideHit K))
    (h : ∀ x ∈ hits, x.behavior = WallBehavior.PASS_THROUGH) :
    flags hits = (false, false, false) := by
  have h1 : (flags hits).1 = false := by
    rw [← Bool.not_eq_true, flags_stop]
    rintro ⟨x, hx, hb⟩
    rw [h x hx] at hb
    exact absurd hb (by decide)
  have h2 : (flags hits).2.1 = false := by
    rw [← Bool.not_eq_true, flags_reflect_v]
    rintro ⟨x, hx, hb, _⟩
    rw [h x hx] at hb
    exact absurd hb (by decide)
  have h3 : (flags hits).2.2 = false := by
    rw [← Bool.not_eq_true, flags_reflect_h]
    rintro ⟨x, hx, hb, _⟩
    rw [h x hx] at hb
    exact absurd hb (by decide)
  exact Prod.ext h1 (Prod.ext h2 h3)

/-- A step of the inner loop that goes on to the next pass is an event without
a STOP hit. -/
theorem inner_body_next_inv {speed : K} {walls : List (Wall K)} {ts0 ts : TickState K}
    (h : inner_body speed walls ts0 = Flow.next ts) :
    (event_candidates speed walls ts0).isEmpty = false ∧
    (flags (event_hits speed walls ts0)).1 = false ∧
    ts = after_event speed (event_hits speed walls ts0) (event_s_min speed walls ts0) ts0 := by
  cases he : (event_candidates speed walls ts0).isEmpty with
  | true =>
    exfalso
    rcases le_or_lt ts0.remaining_in_tick (eps_d speed) with hr | hr
    · rw [inner_body_swallow speed walls ts0 he hr] at h; cases h
    · rw [inner_body_glide speed walls ts0 he hr] at h; cases h
  | false =>
    cases hf : (flags (event_hits speed walls ts0)).1 with
    | true => rw [inner_body_stop speed walls ts0 he hf] at h; cases h
    | false =>
      rw [inner_body_next speed walls ts0 he hf] at h
      exact ⟨rfl, rfl, (Flow.next.inj h).symm⟩

/-- The batching flag after an event tells whether its vertex was a
pass-through vertex. -/
theorem flag_iff_pass_vertex {speed : K} {walls : List (Wall K)} {ts0 ts : TickState K}
    (h : inner_body speed walls ts0 = Flow.next ts) :
    ts.recorded_pass_before_nonpass = true ↔
      ∀ x ∈ event_hits speed walls ts0, x.behavior = WallBehavior.PASS_THROUGH := by
  obtain ⟨_, hf1, hts⟩ := inner_body_next_inv h
  have hrec : ts.recorded_pass_before_nonpass =
      (if (flags (event_hits speed walls ts0)).1 || (flags (event_hits speed walls ts0)).2.1
          || (flags (event_hits speed walls ts0)).2.2 then false else true) := by
    rw [hts]; rfl
  constructor
  · intro hr x hx
    rw [hrec] at hr
    have h2 : (flags (event_hits speed walls ts0)).2.1 = false := by
      cases hv : (flags (event_hits speed walls ts0)).2.1 with
      | false => rfl
      | true => rw [hv] at hr; simp at hr
    have h3 : (flags (event_hits speed walls ts0)).2.2 = false := by
      cases hv : (flags (event_hits speed walls ts0)).2.2 with
      | false => rfl
      | true => rw [hv] at hr; simp at hr
    cases hb : x.behavior with
    | PASS_THROUGH => rfl
    | STOP =>
      exfalso
      have := (flags_stop _).mpr ⟨x, hx, hb⟩
      rw [hf1] at this; cases this
    | REFLECT =>
      exfalso
      rcases hit_has_axis hx with hv | hv
      · have := (flags_reflect_v _).mpr ⟨x, hx, hb, hv⟩
        rw [h2] at this; cases this
      · have := (flags_reflect_h _).mpr ⟨x, hx, hb, hv⟩
        rw [h3] at this; cases this
  · intro hall
    rw [hrec, flags_all_pass _ hall]
    rfl

theorem jumps_to_blocking {speed : K} (hs : 0 < speed) (walls : List (Wall K))
    (ts : TickState K) {snp : K}
    (hb : ∃ h ∈ event_candidates speed walls ts,
      h.behavior ≠ WallBehavior.PASS_THROUGH ∧ h.dist = snp)
    (hsm : event_s_min speed walls ts = some snp) :
    JumpsToBlocking speed walls ts snp := by
  obtain ⟨b, hbc, hbb, hbd⟩ := hb
  have hbh : b ∈ event_hits speed walls ts := by
    rw [mem_event_hits hsm]
    refine ⟨hbc, ?_⟩
    rw [hbd, sub_self, abs_zero]
    exact (eps_tie_pos hs).le
  have hne := candidates_ne_of_hit speed walls ts hbh
  refine ⟨hsm, ⟨b, hbh, hbb, hbd⟩, ?_, ?_⟩
  · intro p _ hlt hp
    have := ((mem_event_hits hsm p).mp hp).2
    have := (abs_le.mp this).1
    linarith
  · cases hf : (flags (event_hits speed walls ts)).1 with
    | true => exact Or.inl (inner_body_stop speed walls ts hne hf)
    | false =>
      right
      have hn := inner_body_next speed walls ts hne hf
      rw [hsm] at hn
      refine ⟨hn, ?_⟩
      have hrefl : b.behavior = WallBehavior.REFLECT := by
        cases hb2 : b.behavior with
        | REFLECT => rfl
        | PASS_THROUGH => exact absurd hb2 hbb
        | STOP =>
          have := (flags_stop _).mpr ⟨b, hbh, hb2⟩
          rw [hf] at this; cases this
      have : (flags (event_hits speed walls ts)).2.1 = true ∨
          (flags (event_hits speed walls ts)).2.2 = true := by
        rcases hit_has_axis hbh with hv | hv
        · exact Or.inl ((flags_reflect_v _).mpr ⟨b, hbh, hrefl, hv⟩)
        · exact Or.inr ((flags_reflect_h _).mpr ⟨b, hbh, hrefl, hv⟩)
      show (if (flags (event_hits speed walls ts)).1 || (flags (event_hits speed walls ts)).2.1
          || (flags (event_hits speed walls ts)).2.2 then false else true) = false
      rcases this with h1 | h1 <;> simp [h1]

theorem batching_step {speed : K} (hs : 0 < speed) (walls : List (Wall K))
    (ts : TickState K) {c : SideHit K} (hc : c ∈ event_candidates speed walls ts)
    (hcb : c.behavior ≠ WallBehavior.PASS_THROUGH) :
    ∃ snp, snp ≤ c.dist ∧
      (ts.recorded_pass_before_nonpass = true → JumpsToBlocking speed walls ts snp) ∧
      (ts.recorded_pass_before_nonpass = false →
        RecordsPassBefore speed walls ts snp ∨ JumpsToBlocking speed walls ts snp) := by
  obtain ⟨snp, he, hle, hb, hmin⟩ := earliest_blocking _ hc hcb
  refine ⟨snp, hle, ?_, ?_⟩
  · intro hflag
    apply jumps_to_blocking hs walls ts hb
    unfold event_s_min
    simp only
    rw [he, hflag]
    cases (earliest (event_candidates speed walls ts)).2 <;> simp [resolve_s_min]
  · intro hflag
    cases hp : (earliest (event_candidates speed walls ts)).2 with
    | none =>
      right
      apply jumps_to_blocking hs walls ts hb
      unfold event_s_min
      simp only
      rw [he, hp]
      rfl
    | some sp =>
      by_cases hlt : sp + eps_tie speed < snp
      · left
        have hsm : event_s_min speed walls ts = some sp := by
          unfold event_s_min
          simp only
          rw [he, hp, hflag]
          simp [resolve_s_min, hlt]
        obtain ⟨p, hpc, hpb, hpd⟩ := earliest_pass _ hp
        have hph : p ∈ event_hits speed walls ts := by
          rw [mem_event_hits hsm]
          refine ⟨hpc, ?_⟩
          rw [hpd, sub_self, abs_zero]
          exact (eps_tie_pos hs).le
        have hne := candidates_ne_of_hit speed walls ts hph
        have hall : ∀ h ∈ event_hits speed walls ts,
            h.behavior = WallBehavior.PASS_THROUGH := by
          intro h hh
          by_contra hnb
          obtain ⟨hhc, habs⟩ := (mem_event_hits hsm h).mp hh
          have h1 := hmin h hhc hnb
          have h2 := (abs_le.mp habs).2
          linarith
        have hfl := flags_all_pass _ hall
        have hf1 : (flags (event_hits speed walls ts)).1 = false := by rw [hfl]
        have hn := inner_body_next speed walls ts hne hf1
        rw [hsm] at hn
        obtain ⟨w, _, hw⟩ := mem_gather hc
        have hcd := hw.ray.dist_le
        have hrit : sp < ts.remaining_in_tick := by
          have : eps_tie speed = 2 * eps_d speed := by unfold eps_tie eps_d; ring
          have := eps_d_pos hs
          linarith
        refine ⟨sp, hsm, hlt, hall, hn, ?_, ?_, ?_, ?_⟩
        · show (if (flags (event_hits speed walls ts)).1
              || (flags (event_hits speed walls ts)).2.1
              || (flags (event_hits speed walls ts)).2.2 then false else true) = true
          rw [hfl]; rfl
        · show 0 < ts.remaining_in_tick - step_used (some sp) ts.remaining_in_tick
          simp only [step_used]
          rw [min_eq_left hrit.le]
          linarith
        · show (if (flags (event_hits speed walls ts)).2.1 then -ts.run.dx else ts.run.dx)
              = ts.run.dx
          rw [hfl]; rfl
        · show (if (flags (event_hits speed walls ts)).2.2 then -ts.run.dy else ts.run.dy)
              = ts.run.dy
          rw [hfl]; rfl
      · right
        apply jumps_to_blocking hs walls ts hb
        unfold event_s_min
        simp only
        rw [he, hp]
        simp [resolve_s_min, hlt]

end Batching

section WallOrder

variable {K : Type} [LinearOrderedField K]

/-! ## The order of the walls -/

theorem maybe_add_vertical_append (x_side : K) (w : Wall K) (sx sy dx dy D edir ef ed : K)
    (out : List (SideHit K)) :
    maybe_add_vertical x_side w sx sy dx dy D edir ef ed out
      = out ++ maybe_add_vertical x_side w sx sy dx dy D edir ef ed [] := by
  unfold maybe_add_vertical
  simp only
  split_ifs <;> simp

theorem maybe_add_horizontal_append (y_side : K) (w : Wall K) (sx sy dx dy D edir ef ed : K)
    (out : List (SideHit K)) :
    maybe_add_horizontal y_side w sx sy dx dy D edir ef ed out
      = out ++ maybe_add_horizontal y_side w sx sy dx dy D edir ef ed [] := by
  unfold maybe_add_horizontal
  simp only
  split_ifs <;> simp

theorem wall_candidates_append (speed px py dx dy D : K) (out : List (SideHit K))
    (w : Wall K) :
    wall_candidates speed px py dx dy D out w
      = out ++ wall_candidates speed px py dx dy D [] w := by
  unfold wall_candidates
  simp only
  split_ifs
  · rw [maybe_add_horizontal_append, maybe_add_vertical_append,
      maybe_add_horizontal_append _ _ _ _ _ _ _ _ _ _ (maybe_add_vertical _ _ _ _ _ _ _ _ _ _ [])]
    simp
  · rw [maybe_add_horizontal_append, maybe_add_vertical_append, maybe_add_vertical_append _ _ _ _ _ _ _ _ _ _ out,
      maybe_add_horizontal_append _ _ _ _ _ _ _ _ _ _ (maybe_add_vertical _ _ _ _ _ _ _ _ _ _ (maybe_add_vertical _ _ _ _ _ _ _ _ _ _ [])),
      maybe_add_vertical_append _ _ _ _ _ _ _ _ _ _ (maybe_add_vertical _ _ _ _ _ _ _ _ _ _ [])]
    simp
  · rw [maybe_add_horizontal_append, maybe_add_horizontal_append _ _ _ _ _ _ _ _ _ _ (maybe_add_vertical _ _ _ _ _ _ _ _ _ _ out),
      maybe_add_vertical_append,
      maybe_add_horizontal_append _ _ _ _ _ _ _ _ _ _ (maybe_add_horizontal _ _ _ _ _ _ _ _ _ _ (maybe_add_vertical _ _ _ _ _ _ _ _ _ _ [])),
      maybe_add_horizontal_append _ _ _ _ _ _ _ _ _ _ (maybe_add_vertical _ _ _ _ _ _ _ _ _ _ [])]
    simp
  · rw [maybe_add_horizontal_append,
      maybe_add_horizontal_append _ _ _ _ _ _ _ _ _ _ (maybe_add_vertical _ _ _ _ _ _ _ _ _ _ (maybe_add_vertical _ _ _ _ _ _ _ _ _ _ out)),
      maybe_add_vertical_append, maybe_add_vertical_append _ _ _ _ _ _ _ _ _ _ out,
      maybe_add_horizontal_append _ _ _ _ _ _ _ _ _ _ (maybe_add_horizontal _ _ _ _ _ _ _ _ _ _ (maybe_add_vertical _ _ _ _ _ _ _ _ _ _ (maybe_add_vertical _ _ _ _ _ _ _ _ _ _ []))),
      maybe_add_horizontal_append _ _ _ _ _ _ _ _ _ _ (maybe_add_vertical _ _ _ _ _ _ _ _ _ _ (maybe_add_vertical _ _ _ _ _ _ _ _ _ _ [])),
      maybe_add_vertical_append _ _ _ _ _ _ _ _ _ _ (maybe_add_vertical _ _ _ _ _ _ _ _ _ _ [])]
    simp

theorem foldl_wall_candidates (speed px py dx dy D : K) (walls : List (Wall K))
    (out : List (SideHit K)) :
    walls.foldl (wall_candidates speed px py dx dy D) out
      = out ++ walls.flatMap (wall_candidates speed px py dx dy D []) := by
  induction walls generalizing out with
  | nil => simp
  | cons w t ih =>
    rw [List.foldl_cons, ih, wall_candidates_append]
    simp

theorem gather_eq_flatMap (speed : K) (walls : List (Wall K)) (px py dx dy D : K) :
    gather speed walls px py dx dy D
      = walls.flatMap (wall_candidates speed px py dx dy D []) := by
  unfold gather
  rw [foldl_wall_candidates]
  simp

theorem gather_perm (speed : K) {walls walls1 : List (Wall K)} (h : walls.Perm walls1)
    (px py dx dy D : K) :
    (gather speed walls px py dx dy D).Perm (gather speed walls1 px py dx dy D) := by
  rw [gather_eq_flatMap, gather_eq_flatMap]
  exact h.flatMap_right _

theorem min_upd_comm (m : Option K) (a b : K) :
    min_upd (min_upd m a) b = min_upd (min_upd m b) a := by
  cases m with
  | none =>
    simp only [min_upd]
    rcases lt_trichotomy a b with h | h | h
    · simp [h, not_lt.mpr h.le]
    · simp [h]
    · simp [h, not_lt.mpr h.le]
  | some v =>
    simp only [min_upd]
    by_cases h1 : a < v <;> by_cases h2 : b < v <;> simp only [h1, h2, if_true, if_false]
    · rcases lt_trichotomy a b with h | h | h
      · simp [h, not_lt.mpr h.le]
      · simp [h]
      · simp [h, not_lt.mpr h.le]
    · have : ¬ b < a := fun h => h2 (h.trans h1)
      simp [this]
    · have : ¬ a < b := fun h => h1 (h.trans h2)
      simp [this]

theorem earliest_step_comm (acc : Option K × Option K) (a b : SideHit K) :
    earliest_step (earliest_step acc a) b = earliest_step (earliest_step acc b) a := by
  unfold earliest_step
  by_cases ha : a.behavior = WallBehavior.PASS_THROUGH <;>
    by_cases hb : b.behavior = WallBehavior.PASS_THROUGH <;>
    simp only [ha, hb, if_true, if_false] <;>
    first
      | rfl
      | (rw [min_upd_comm])

theorem flags_step_comm (f : Bool × Bool × Bool) (a b : SideHit K) :
    flags_step (flags_step f a) b = flags_step (flags_step f b) a := by
  unfold flags_step
  cases a.behavior <;> cases b.behavior <;> cases a.vertical <;> cases a.horizontal <;>
    cases b.vertical <;> cases b.horizontal <;> simp

theorem earliest_perm {c c1 : List (SideHit K)} (h : c.Perm c1) : earliest c = earliest c1 :=
  h.foldl_eq' (fun x _ y _ z => earliest_step_comm z x y) _

theorem flags_perm {c c1 : List (SideHit K)} (h : c.Perm c1) : flags c = flags c1 :=
  h.foldl_eq' (fun x _ y _ z => flags_step_comm z x y) _

theorem impact_perm {c c1 : List (SideHit K)} (h : c.Perm c1) : impact c = impact c1 := by
  unfold impact
  rw [h.length_eq, foldl_add_eq_sum, foldl_add_eq_sum, foldl_add_eq_sum, foldl_add_eq_sum,
    (h.map _).sum_eq, (h.map _).sum_eq]

theorem inner_body_perm (speed : K) {walls walls1 : List (Wall K)} (h : walls.Perm walls1)
    (ts : TickState K) : inner_body speed walls ts = inner_body speed walls1 ts := by
  have hc : (event_candidates speed walls ts).Perm (event_candidates speed walls1 ts) :=
    gather_perm speed h _ _ _ _ _
  have he : (event_candidates speed walls ts).isEmpty
      = (event_candidates speed walls1 ts).isEmpty := by
    have hl := hc.length_eq
    cases h1 : event_candidates speed walls ts <;>
      cases h2 : event_candidates speed walls1 ts <;> simp [h1, h2] at hl ⊢
  have hs : event_s_min speed walls ts = event_s_min speed walls1 ts := by
    unfold event_s_min
    rw [earliest_perm hc]
  have hh : (event_hits speed walls ts).Perm (event_hits speed walls1 ts) := by
    unfold event_hits
    rw [hs]
    cases event_s_min speed walls1 ts with
    | none => simp [collect_hits]
    | some s => exact hc.filter _
  unfold inner_body
  simp only
  rw [he, hs, impact_perm hh, flags_perm hh]

theorem inner_loop_perm (speed : K) {walls walls1 : List (Wall K)} (h : walls.Perm walls1)
    (fuel : Nat) (ts : TickState K) :
    inner_loop speed walls fuel ts = inner_loop speed walls1 fuel ts := by
  induction fuel generalizing ts with
  | zero => rfl
  | succ n ih =>
    unfold inner_loop
    rw [inner_body_perm speed h]
    split_ifs
    · cases inner_body speed walls1 ts with
      | ret p => rfl
      | brk t1 => rfl
      | next t1 => exact ih t1
    · rfl

theorem tick_perm (speed : K) {walls walls1 : List (Wall K)} (h : walls.Perm walls1)
    (st : RunState K) : tick speed walls st = tick speed walls1 st := by
  unfold tick
  rw [inner_loop_perm speed h]

theorem outer_loop_perm (speed : K) {walls walls1 : List (Wall K)} (h : walls.Perm walls1)
    (fuel : Nat) (st : RunState K) :
    outer_loop speed walls fuel st = outer_loop speed walls1 fuel st := by
  induction fuel generalizing st with
  | zero => rfl
  | succ n ih =>
    unfold outer_loop
    rw [tick_perm speed h]
    split_ifs
    · cases tick speed walls1 st with
      | stopped p => rfl
      | fell s1 => exact ih s1
    · rfl

theorem ingest_walls (sim : ProjectilePathSimulator K) (l : List (Wall K)) :
    (ingest sim l).walls_ = sim.walls_ ++
      (l.filter (fun w => decide (|w.x1 - w.x2| > tiny ∨ |w.y1 - w.y2| > tiny))).map
        Wall.normalized := by
  induction l generalizing sim with
  | nil => simp [ingest]
  | cons w t ih =>
    have h : ingest sim (w :: t) =
        ingest (if |w.x1 - w.x2| > tiny ∨ |w.y1 - w.y2| > tiny then
          sim.add_wall w.x1 w.y1 w.x2 w.y2 w.behavior else sim) t := by
      simp [ingest, List.foldl_cons]
    rw [h, ih]
    by_cases hc : |w.x1 - w.x2| > tiny ∨ |w.y1 - w.y2| > tiny
    · have hn : ¬(|w.x1 - w.x2| < tiny ∧ |w.y1 - w.y2| < tiny) := by
        rintro ⟨h1, h2⟩
        rcases hc with hc | hc
        · exact lt_asymm h1 hc
        · exact lt_asymm h2 hc
      rw [if_pos hc, List.filter_cons_of_pos (by simpa using hc)]
      unfold ProjectilePathSimulator.add_wall
      rw [if_neg hn]
      simp [Wall.normalized]
    · rw [if_neg hc, List.filter_cons_of_neg (by simpa using hc)]

theorem ingest_perm (sim : ProjectilePathSimulator K) {l l1 : List (Wall K)}
    (h : l.Perm l1) : (ingest sim l).walls_.Perm (ingest sim l1).walls_ := by
  rw [ingest_walls, ingest_walls]
  exact List.Perm.append_left _ ((h.filter _).map _)

end WallOrder

/-! ## Free flight: ticks that find no candidate -/

section FreeFlight

variable {K : Type} [LinearOrderedField K]

theorem outer_loop_done (speed : K) (walls : List (Wall K)) (fuel : Nat) (st : RunState K)
    (h : st.remaining_budget ≤ 0) : outer_loop speed walls fuel st = .fell st := by
  cases fuel with
  | zero => rfl
  | succ n => simp only [outer_loop, gt_iff_lt, not_lt.mpr h, if_false]

theorem gliding_glide {start u : K × K} {B g d : K} {st : RunState K}
    (hG : Gliding start u B g st) : Gliding start u B (g + d) (glide st d) := by
  refine ⟨hG.path_eq, ?_, ?_, hG.dx_eq, hG.dy_eq, ?_⟩
  · show st.px + st.dx * d = _
    rw [hG.px_eq, hG.dx_eq]; ring
  · show st.py + st.dy * d = _
    rw [hG.py_eq, hG.dy_eq]; ring
  · show st.remaining_budget - d = _
    rw [hG.rb_eq]; ring

/-- A run without candidates whose remaining budget is `m` full ticks and a
last step `r` in `(eps_d, speed]` glides through all of it. -/
theorem free_run {speed : K} (hs : 0 < speed) (walls : List (Wall K))
    {start u : K × K} {B r : K} (hr : eps_d speed < r) (hrs : r ≤ speed)
    (hnone : ∀ px py D, gather speed walls px py u.1 u.2 D = [])
    (m fuel : Nat) (hfuel : m + 1 ≤ fuel) (g : K) (st : RunState K)
    (hG : Gliding start u B g st) (hrem : B - g = m * speed + r) :
    ∃ st1, outer_loop speed walls fuel st = .fell st1 ∧ Gliding start u B B st1 := by
  have hed := eps_d_pos hs
  induction m generalizing fuel g st with
  | zero =>
    obtain ⟨n, rfl⟩ : ∃ n, fuel = n + 1 := ⟨fuel - 1, by omega⟩
    simp only [Nat.cast_zero, zero_mul, zero_add] at hrem
    have hrb : st.remaining_budget = r := by rw [hG.rb_eq, hrem]
    have hmin : min speed st.remaining_budget = r := by rw [hrb]; exact min_eq_right hrs
    have hpos : 0 < st.remaining_budget := by rw [hrb]; linarith
    have hemp : (event_candidates speed walls
        { run := st, recorded_pass_before_nonpass := false,
          remaining_in_tick := min speed st.remaining_budget }).isEmpty = true := by
      rw [List.isEmpty_iff]
      show gather speed walls st.px st.py st.dx st.dy _ = []
      rw [hG.dx_eq, hG.dy_eq]
      exact hnone _ _ _
    have ht := tick_glides speed walls st hemp (by rw [hmin]; exact hr) hs
    rw [hmin] at ht
    have hG1 : Gliding start u B B (glide st r) := by
      have := gliding_glide (d := r) hG
      have e : g + r = B := by linarith
      rwa [e] at this
    refine ⟨glide st r, ?_, hG1⟩
    rw [outer_loop_succ speed walls n st hpos, ht]
    simp only
    apply outer_loop_done
    rw [hG1.rb_eq, sub_self]
  | succ k ih =>
    obtain ⟨n, rfl⟩ : ∃ n, fuel = n + 1 := ⟨fuel - 1, by omega⟩
    have hk : (0 : K) ≤ (k : K) * speed := mul_nonneg (Nat.cast_nonneg k) hs.le
    have hrb : st.remaining_budget = (k + 1 : K) * speed + r := by
      rw [hG.rb_eq, hrem]; push_cast; ring
    have hmin : min speed st.remaining_budget = speed := by
      apply min_eq_left
      rw [hrb]; nlinarith
    have hpos : 0 < st.remaining_budget := by rw [hrb]; nlinarith
    have hemp : (event_candidates speed walls
        { run := st, recorded_pass_before_nonpass := false,
          remaining_in_tick := min speed st.remaining_budget }).isEmpty = true := by
      rw [List.isEmpty_iff]
      show gather speed walls st.px st.py st.dx st.dy _ = []
      rw [hG.dx_eq, hG.dy_eq]
      exact hnone _ _ _
    have ht := tick_glides speed walls st hemp (by rw [hmin]; linarith) hs
    rw [hmin] at ht
    rw [outer_loop_succ speed walls n st hpos, ht]
    simp only
    apply ih n (by omega) (g + speed) (glide st speed) (gliding_glide hG)
    push_cast at hrem; linarith

theorem finish_gliding {speed : K} {start u : K × K} {B g : K} {st : RunState K}
    (hG : Gliding start u B g st)
    (hfar : eps_out speed (start.1 + u.1 * g) (start.2 + u.2 * g) < |u.1 * g| ∨
      eps_out speed (start.1 + u.1 * g) (start.2 + u.2 * g) < |u.2 * g|) :
    finish speed st = [start, (start.1 + u.1 * g, start.2 + u.2 * g)] := by
  unfold finish
  rw [hG.path_eq]
  simp only [List.getLast?_singleton]
  rw [hG.px_eq, hG.py_eq]
  have e1 : start.1 + u.1 * g - start.1 = u.1 * g := by ring
  have e2 : start.2 + u.2 * g - start.2 = u.2 * g := by ring
  rw [e1, e2, if_pos (by simpa [gt_iff_lt] using hfar)]
  rfl

end FreeFlight

section FreeFlightEntry

variable {K : Type} [LinearOrderedField K] [FloorRing K]

theorem max_outer_covers {speed B : K} (hs : tiny ≤ speed) : ⌈B / speed⌉ ≤ max_outer speed B := by
  unfold max_outer
  rw [max_eq_right hs]
  omega

theorem ceil_toNat_pred {x : K} (hx : 0 < x) :
    (((⌈x⌉ - 1).toNat : ℕ) : K) = ((⌈x⌉ : ℤ) : K) - 1 := by
  have h1 : (0 : ℤ) < ⌈x⌉ := Int.ceil_pos.mpr hx
  have h3 : (((⌈x⌉ - 1).toNat : ℕ) : ℤ) = ⌈x⌉ - 1 := Int.toNat_of_nonneg (by omega)
  rw [← Int.cast_natCast, h3]
  push_cast
  ring

end FreeFlightEntry

/-! ## A ray along `+x` and vertical segments across it -/

section Crossing

variable {K : Type} [LinearOrderedField K]

/-- The hit that a vertical segment at `x = a` yields for a ray along `+x`
from `(p, 0)`. -/
theorem crossing_candidates (speed : K) (w : Wall K) (hx : w.x1 = w.x2) (hy1 : w.y1 ≤ 0)
    (hy2 : 0 ≤ w.y2) (p D : K) :
    wall_candidates speed p 0 1 0 D [] w =
      if eps_d speed < w.x1 - p ∧ w.x1 - p ≤ D + eps_d speed then
        [{ hit := true, dist := w.x1 - p, x := w.x1, y := 0, vertical := true,
           horizontal := false, behavior := w.behavior }]
      else [] := by
  have hw : |w.x1 - w.x2| ≤ tiny := by
    rw [hx, sub_self, abs_zero]; unfold tiny; positivity
  have hdir : ¬ |(1 : K)| ≤ eps_dir := by
    rw [abs_one, not_le]
    unfold eps_dir ulp
    norm_num
  have h0 : |(0 : K)| ≤ eps_dir := by rw [abs_zero]; exact eps_dir_pos.le
  have hin : within (0 : K) w.y1 w.y2 (eps_face speed p 0 1 0) = true :=
    within_of_mem hy1 hy2 (eps_face_nonneg _ _ _ _ _)
  unfold wall_candidates
  simp only [hw, if_true]
  have hh : ∀ (side : K) (out : List (SideHit K)),
      maybe_add_horizontal side w p 0 1 0 D eps_dir (eps_face speed p 0 1 0) (eps_d speed) out
        = out := by
    intro side out
    unfold maybe_add_horizontal
    rw [if_pos h0]
  have hv : maybe_add_vertical w.x1 w p 0 1 0 D eps_dir (eps_face speed p 0 1 0)
        (eps_d speed) [] =
      if eps_d speed < w.x1 - p ∧ w.x1 - p ≤ D + eps_d speed then
        [{ hit := true, dist := w.x1 - p, x := w.x1, y := 0, vertical := true,
           horizontal := false, behavior := w.behavior }]
      else [] := by
    unfold maybe_add_vertical
    simp only [hdir, if_false, div_one, zero_mul, add_zero, hin, Bool.not_true,
      List.nil_append]
    by_cases hc : eps_d speed < w.x1 - p ∧ w.x1 - p ≤ D + eps_d speed
    · have : ¬ (w.x1 - p ≤ eps_d speed ∨ w.x1 - p > D + eps_d speed) := by
        push_neg; exact hc
      rw [if_neg this, if_pos hc]
      simp
    · have : w.x1 - p ≤ eps_d speed ∨ w.x1 - p > D + eps_d speed := by
        by_contra hn
        push_neg at hn
        exact hc hn
      rw [if_pos this, if_neg hc]
  simp only [hh, hv, ite_self]

end Crossing

section StopAhead

variable {K : Type} [LinearOrderedField K]

theorem eps_tie_nonneg {speed : K} (hs : 0 < speed) : 0 ≤ eps_tie speed := (eps_tie_pos hs).le

/-- An inner iteration whose only candidate is a STOP hit returns the path
with the hit point appended. -/
theorem single_stop_candidate {speed : K} (hs : 0 < speed) (walls : List (Wall K))
    (ts : TickState K) (h : SideHit K) (hc : event_candidates speed walls ts = [h])
    (hb : h.behavior = WallBehavior.STOP) :
    inner_body speed walls ts = Flow.ret (ts.run.path ++ [(h.x, h.y)]) := by
  have hne : (event_candidates speed walls ts).isEmpty = false := by rw [hc]; rfl
  have hsm : event_s_min speed walls ts = some h.dist := by
    unfold event_s_min
    rw [hc]
    simp [earliest, earliest_step, hb, min_upd, resolve_s_min]
  have hh : event_hits speed walls ts = [h] := by
    unfold event_hits
    rw [hsm, hc]
    simp [collect_hits, eps_tie_nonneg hs]
  have hf : (flags (event_hits speed walls ts)).1 = true := by
    rw [flags_stop, hh]
    exact ⟨h, List.mem_singleton.mpr rfl, hb⟩
  rw [inner_body_stop speed walls ts hne hf, hh]
  simp [impact]

/-- A run that glides along `+x` towards a STOP segment at `x = a` stops at
`(a, 0)`. -/
theorem stop_ahead_run {speed : K} (hs0 : 0 < speed) (hsp : eps_d speed < speed)
    (w : Wall K) (hx : w.x1 = w.x2)
    (hy1 : w.y1 ≤ 0) (hy2 : 0 ≤ w.y2) (hb : w.behavior = WallBehavior.STOP) {B : K}
    (hB : w.x1 ≤ B) (fuel : Nat) (g : K) (st : RunState K)
    (hG : Gliding (0, 0) (1, 0) B g st) (hgt : eps_d speed < w.x1 - g)
    (hfuel : w.x1 - g ≤ fuel * speed) :
    outer_loop speed [w] fuel st = .stopped [(0, 0), (w.x1, 0)] := by
  have hed := eps_d_pos hs0
  induction fuel generalizing g st with
  | zero =>
    simp only [Nat.cast_zero, zero_mul] at hfuel
    linarith
  | succ n ih =>
    have hrb : 0 < st.remaining_budget := by rw [hG.rb_eq]; linarith
    have hpos : 0 < min speed st.remaining_budget := lt_min hs0 hrb
    have hpx : st.px = g := by rw [hG.px_eq]; simp
    have hpy : st.py = 0 := by rw [hG.py_eq]; simp
    have hcand : event_candidates speed [w]
        { run := st, recorded_pass_before_nonpass := false,
          remaining_in_tick := min speed st.remaining_budget }
        = wall_candidates speed g 0 1 0 (min speed st.remaining_budget) [] w := by
      show gather speed [w] st.px st.py st.dx st.dy _ = _
      rw [hpx, hpy, hG.dx_eq, hG.dy_eq]
      rfl
    rw [crossing_candidates speed w hx hy1 hy2] at hcand
    rw [outer_loop_succ speed [w] n st hrb]
    by_cases hreach : w.x1 - g ≤ min speed st.remaining_budget + eps_d speed
    · rw [if_pos ⟨hgt, hreach⟩] at hcand
      have hbody := single_stop_candidate hs0 [w] _ _ hcand hb
      have h256 : max_inner_per_tick = 255 + 1 := rfl
      have ht : tick speed [w] st = .stopped [(0, 0), (w.x1, 0)] := by
        unfold tick
        rw [h256, inner_loop_succ speed [w] 255 _ hpos, hbody]
        simp only [hG.path_eq]
        rfl
      rw [ht]
    · have hnr : ¬ (eps_d speed < w.x1 - g ∧
          w.x1 - g ≤ min speed st.remaining_budget + eps_d speed) := fun h => hreach h.2
      rw [if_neg hnr] at hcand
      push_neg at hreach
      have hmin : min speed st.remaining_budget = speed := by
        rcases min_choice speed st.remaining_budget with hm | hm
        · exact hm
        · rw [hm, hG.rb_eq] at hreach; linarith
      have hemp : (event_candidates speed [w]
          { run := st, recorded_pass_before_nonpass := false,
            remaining_in_tick := min speed st.remaining_budget }).isEmpty = true := by
        rw [hcand]; rfl
      have htick := tick_glides speed [w] st hemp (by rw [hmin]; exact hsp) hs0
      rw [hmin] at htick hreach
      rw [htick]
      simp only
      apply ih (g + speed) (glide st speed) (gliding_glide hG)
      · linarith
      · push_cast at hfuel; linarith

end StopAhead

/-! ## A run through PASS_THROUGH segments across the ray -/

section CrossingRun

variable {K : Type} [LinearOrderedField K]

theorem crossing_hit_facts {speed : K} {ws : List (Wall K)}
    (hws : ∀ w ∈ ws, StoredCrossing w) {px D : K} {h : SideHit K}
    (hm : h ∈ gather speed ws px 0 1 0 D) :
    ∃ w ∈ ws, h.dist = w.x1 - px ∧ h.x = w.x1 ∧ h.y = 0 ∧
      h.behavior = WallBehavior.PASS_THROUGH ∧ eps_d speed < h.dist ∧
      h.dist ≤ D + eps_d speed := by
  obtain ⟨w, hw, ho⟩ := mem_gather hm
  obtain ⟨hx, _, _, hb⟩ := hws w hw
  have hxe := ho.ray.x_eq
  have hye := ho.ray.y_eq
  have hX : h.x = w.x1 := by
    rcases ho.face with ⟨_, _, hf, _⟩ | ⟨_, _, _, hd⟩
    · rcases hf with hf | hf
      · exact hf
      · rw [hf, hx]
    · exfalso
      rw [abs_zero] at hd
      exact absurd hd (not_lt.mpr eps_dir_pos.le)
  refine ⟨w, hw, ?_, hX, by simpa using hye, by rw [ho.ray.behavior_eq, hb],
    ho.ray.dist_gt, ho.ray.dist_le⟩
  rw [hX] at hxe
  linarith

theorem crossing_candidate_mem (speed : K) {ws : List (Wall K)} {w : Wall K} (hw : w ∈ ws)
    (hc : StoredCrossing w) (px D : K) (h1 : eps_d speed < w.x1 - px)
    (h2 : w.x1 - px ≤ D + eps_d speed) :
    ∃ h ∈ gather speed ws px 0 1 0 D, h.dist = w.x1 - px := by
  rw [gather_eq_flatMap]
  refine ⟨{ hit := true, dist := w.x1 - px, x := w.x1, y := 0, vertical := true,
            horizontal := false, behavior := w.behavior },
    List.mem_flatMap.mpr ⟨w, hw, ?_⟩, rfl⟩
  rw [crossing_candidates speed w hc.1 hc.2.1 hc.2.2.1, if_pos ⟨h1, h2⟩]
  exact List.mem_singleton.mpr rfl

/-- An event whose hits are all PASS_THROUGH hits at the resolved distance
`s`: the vertex is the point at distance `s`, the direction is kept, the
batching flag is set, and the loop goes on. -/
theorem uniform_pass_event {speed : K} (hs : 0 < speed) (walls : List (Wall K))
    (ts : TickState K) (s : K)
    (hne : (event_candidates speed walls ts).isEmpty = false)
    (hall : ∀ h ∈ event_hits speed walls ts,
      h.dist = s ∧ h.behavior = WallBehavior.PASS_THROUGH) :
    inner_body speed walls ts = Flow.next
      { run := { path := ts.run.path ++ [(ts.run.px + ts.run.dx * s, ts.run.py + ts.run.dy * s)],
                 px := if ts.remaining_in_tick - min s ts.remaining_in_tick > 10 * eps_d speed ∧
                        ts.run.remaining_budget - min s ts.remaining_in_tick > 10 * eps_d speed
                      then ts.run.px + ts.run.dx * s + ts.run.dx * eps_push speed
                      else ts.run.px + ts.run.dx * s,
                 py := if ts.remaining_in_tick - min s ts.remaining_in_tick > 10 * eps_d speed ∧
                        ts.run.remaining_budget - min s ts.remaining_in_tick > 10 * eps_d speed
                      then ts.run.py + ts.run.dy * s + ts.run.dy * eps_push speed
                      else ts.run.py + ts.run.dy * s,
                 dx := ts.run.dx, dy := ts.run.dy,
                 remaining_budget := ts.run.remaining_budget - min s ts.remaining_in_tick },
        recorded_pass_before_nonpass := true,
        remaining_in_tick := ts.remaining_in_tick - min s ts.remaining_in_tick } := by
  obtain ⟨s1, m, hsm, himp, _, _, _, _, _, hm, hhne⟩ := event_facts hs walls ts hne
  obtain ⟨s2, hsm2, ⟨h0, hh0, hd0⟩, _⟩ := event_s_min_spec hs walls ts hne
  have hs1 : s1 = s := by
    rw [hsm] at hsm2
    simp only [Option.some.injEq] at hsm2
    rw [hsm2, ← hd0]
    exact (hall h0 hh0).1
  subst hs1
  have hmean : m = s1 := by
    rw [hm]
    have := mean_dist_bounds (event_hits speed walls ts) s1 s1 hhne (by
      intro h hh
      have := (hall h hh).1
      exact ⟨this.ge, this.le⟩)
    exact le_antisymm this.2 this.1
  rw [hmean] at himp
  have hfl := flags_all_pass _ (fun h hh => (hall h hh).2)
  have hf1 : (flags (event_hits speed walls ts)).1 = false := by rw [hfl]
  rw [inner_body_next speed walls ts hne hf1]
  unfold after_event
  simp only [hfl, himp, hsm, step_used, Bool.or_self, Bool.false_eq_true, if_false,
    Bool.and_eq_true, decide_eq_true_eq]

theorem gap_gt_tie {speed : K} (hs : 0 < speed) : eps_tie speed < crossing_gap speed := by
  unfold crossing_gap eps_tie eps_push eps_d
  have := @ulp_pos K _
  nlinarith [mul_pos this hs]

theorem crossed_candidates {hypot : K → K → K} {speed : K} {ws done todo : List (Wall K)}
    {ts : TickState K} (hC : Crossed hypot speed ws done todo ts.run) :
    event_candidates speed ws ts = gather speed ws ts.run.px 0 1 0 ts.remaining_in_tick := by
  unfold event_candidates
  rw [hC.py_eq, hC.dx_eq, hC.dy_eq]

/-- The wall of a candidate of the crossing run is one of those still ahead. -/
theorem crossed_hit_wall {hypot : K → K → K} {speed : K} (hs : 0 < speed)
    {ws done todo : List (Wall K)} (hws : ∀ w ∈ ws, StoredCrossing w) {ts : TickState K}
    (hC : Crossed hypot speed ws done todo ts.run) {h : SideHit K}
    (hm : h ∈ event_candidates speed ws ts) :
    ∃ w ∈ todo, h.dist = w.x1 - ts.run.px ∧ h.behavior = WallBehavior.PASS_THROUGH ∧
      h.dist ≤ ts.remaining_in_tick + eps_d speed := by
  rw [crossed_candidates hC] at hm
  obtain ⟨w, hw, hd, _, _, hb, hgt, hle⟩ := crossing_hit_facts hws hm
  refine ⟨w, ?_, hd, hb, hle⟩
  rw [hC.split] at hw
  rcases List.mem_append.mp hw with hw | hw
  · exfalso
    obtain ⟨l, _, _, hl, hdone⟩ := hC.last
    have := hdone w hw
    have := eps_d_pos hs
    linarith
  · exact hw

/-- An inner iteration of the crossing run that finds a candidate records the
nearest segment ahead. -/
theorem crossing_event {hypot : K → K → K} (hx : HypotExact hypot) {speed : K}
    (hs : 0 < speed) {ws done todo : List (Wall K)} (hws : ∀ w ∈ ws, StoredCrossing w)
    (hsp : Spaced speed ws) {ts : TickState K}
    (hC : Crossed hypot speed ws done todo ts.run)
    (hne : (event_candidates speed ws ts).isEmpty = false) :
    ∃ w1 rest ts1, todo = w1 :: rest ∧ inner_body speed ws ts = Flow.next ts1 ∧
      Crossed hypot speed ws (done ++ [w1]) rest ts1.run ∧
      ts1.remaining_in_tick
        = ts.remaining_in_tick - min (w1.x1 - ts.run.px) ts.remaining_in_tick ∧
      ts1.run.remaining_budget
        = ts.run.remaining_budget - min (w1.x1 - ts.run.px) ts.remaining_in_tick := by
  have hed := eps_d_pos hs
  have hep := eps_push_pos hs
  have hgt := gap_gt_tie hs
  -- some candidate, hence a segment ahead
  obtain ⟨h0, hh0⟩ : ∃ h0, h0 ∈ event_candidates speed ws ts := by
    cases hc : event_candidates speed ws ts with
    | nil => rw [hc] at hne; simp at hne
    | cons a t => exact ⟨a, List.mem_cons_self _ _⟩
  obtain ⟨w0, hw0, hd0, _, hle0⟩ := crossed_hit_wall hs hws hC hh0
  obtain ⟨w1, rest, htodo⟩ : ∃ w1 rest, todo = w1 :: rest := by
    cases todo with
    | nil => simp at hw0
    | cons a t => exact ⟨a, t, rfl⟩
  subst htodo
  have hsp1 : ∀ w ∈ rest, w1.x1 + crossing_gap speed < w.x1 := by
    have h1 : (done ++ w1 :: rest).Pairwise
        (fun a b => a.x1 + crossing_gap speed < b.x1) := by
      rw [← hC.split]; exact hsp
    have h2 := (List.pairwise_append.mp h1).2.1
    exact (List.pairwise_cons.mp h2).1
  have hw1ws : w1 ∈ ws := by rw [hC.split]; simp
  have hahead := hC.ahead w1 (List.mem_cons_self _ _)
  -- the nearest segment is a candidate
  have hle1 : w1.x1 ≤ w0.x1 := by
    rcases List.mem_cons.mp hw0 with h | h
    · rw [h]
    · have := hsp1 w0 h
      have : 0 < crossing_gap speed := lt_trans (eps_tie_pos hs) hgt
      linarith
  obtain ⟨h1, hh1, hd1⟩ := crossing_candidate_mem speed hw1ws (hws w1 hw1ws) ts.run.px
    ts.remaining_in_tick (by linarith) (by linarith)
  rw [← crossed_candidates hC] at hh1
  -- the resolved distance
  obtain ⟨s, hsm, ⟨h2, hh2, hd2⟩, htie⟩ := event_s_min_spec hs ws ts hne
  have hmin : ∀ h ∈ event_candidates speed ws ts, s ≤ h.dist := by
    apply resolved_le_of_uniform _ ts.recorded_pass_before_nonpass (eps_tie speed)
      WallBehavior.PASS_THROUGH
    · intro h hh
      obtain ⟨_, _, _, hb, _⟩ := crossed_hit_wall hs hws hC hh
      exact hb
    · exact hsm
  have hs_eq : s = w1.x1 - ts.run.px := by
    apply le_antisymm
    · rw [← hd1]; exact hmin h1 hh1
    · obtain ⟨w2, hw2, hd2', _, _⟩ :=
        crossed_hit_wall hs hws hC (event_hits_subset speed ws ts h2 hh2)
      rw [← hd2, hd2']
      rcases List.mem_cons.mp hw2 with h | h
      · rw [h]
      · have := hsp1 w2 h
        have : 0 < crossing_gap speed := lt_trans (eps_tie_pos hs) hgt
        linarith
  have hall : ∀ h ∈ event_hits speed ws ts,
      h.dist = s ∧ h.behavior = WallBehavior.PASS_THROUGH := by
    intro h hh
    obtain ⟨w, hw, hd, hb, _⟩ :=
      crossed_hit_wall hs hws hC (event_hits_subset speed ws ts h hh)
    refine ⟨?_, hb⟩
    rcases List.mem_cons.mp hw with hw | hw
    · rw [hd, hw, hs_eq]
    · exfalso
      have h3 := hsp1 w hw
      have h4 := (abs_le.mp (htie h hh)).2
      linarith
  have hbody := uniform_pass_event hs ws ts s hne hall
  obtain ⟨l, hl1, hl2, hl3, hl4⟩ := hC.last
  have hpos : ts.run.px + ts.run.dx * s = w1.x1 := by rw [hC.dx_eq, hs_eq]; ring
  have hposy : ts.run.py + ts.run.dy * s = 0 := by rw [hC.py_eq, hC.dy_eq]; ring
  rw [hpos, hposy, hC.dx_eq, hC.dy_eq] at hbody
  refine ⟨w1, rest, _, rfl, hbody, ?_, by rw [hs_eq], by rw [hs_eq]⟩
  have hlw : l ≤ w1.x1 := by linarith
  refine ⟨by rw [hC.split]; simp, ?_, ⟨w1.x1, ?_, ?_, ?_, ?_⟩, ?_, ?_, rfl, rfl⟩
  · show ts.run.path ++ [(w1.x1, (0 : K))] = _
    rw [hC.path_eq]
    simp
  · show (ts.run.path ++ [(w1.x1, (0 : K))]).getLast? = _
    rw [List.getLast?_concat]
  · show polyline_length hypot (ts.run.path ++ [(w1.x1, (0 : K))]) = _
    rw [polyline_length_append hypot _ _ _ hl1, hl2]
    have : vec_len hypot (w1.x1 - l) (0 - 0) = w1.x1 - l := by
      unfold vec_len
      apply hx _ _ _ (by linarith)
      ring
    simp only at this ⊢
    rw [this]; ring
  · simp only
    split_ifs
    · simp only [one_mul]; linarith
    · exact le_rfl
  · intro w hw
    rcases List.mem_append.mp hw with hw | hw
    · exact (hl4 w hw).trans hlw
    · rw [List.mem_singleton.mp hw]
  · intro w hw
    have h3 := hsp1 w hw
    unfold crossing_gap at h3
    simp only
    split_ifs
    · simp only [one_mul]; linarith
    · linarith
  · simp only
    split_ifs <;> simp

/-- An inner iteration of the crossing run that finds no candidate ends the
tick; all of the step is taken off the budget. -/
theorem crossing_idle {hypot : K → K → K} {speed : K}
    {ws done todo : List (Wall K)} (hws : ∀ w ∈ ws, StoredCrossing w) {ts : TickState K}
    (hC : Crossed hypot speed ws done todo ts.run) (hpos : 0 < ts.remaining_in_tick)
    (he : (event_candidates speed ws ts).isEmpty = true) :
    ∃ ts1, inner_body speed ws ts = Flow.brk ts1 ∧
      Crossed hypot speed ws done todo ts1.run ∧ ts1.remaining_in_tick = 0 ∧
      ts1.run.remaining_budget = ts.run.remaining_budget - ts.remaining_in_tick := by
  obtain ⟨l, hl1, hl2, hl3, hl4⟩ := hC.last
  rcases le_or_lt ts.remaining_in_tick (eps_d speed) with hr | hr
  · refine ⟨_, inner_body_swallow speed ws ts he hr, ?_, rfl, rfl⟩
    exact ⟨hC.split, hC.path_eq, ⟨l, hl1, hl2, hl3, hl4⟩, hC.ahead, hC.py_eq, hC.dx_eq,
      hC.dy_eq⟩
  · refine ⟨_, inner_body_glide speed ws ts he hr, ?_, rfl, rfl⟩
    refine ⟨hC.split, hC.path_eq, ⟨l, hl1, hl2, ?_, hl4⟩, ?_, ?_, hC.dx_eq, hC.dy_eq⟩
    · show l ≤ ts.run.px + ts.run.dx * ts.remaining_in_tick
      rw [hC.dx_eq]; linarith
    · intro w hw
      show ts.run.px + ts.run.dx * ts.remaining_in_tick + eps_d speed < w.x1
      rw [hC.dx_eq, one_mul]
      by_contra hcon
      push_neg at hcon
      have hww : w ∈ ws := by rw [hC.split]; exact List.mem_append_right _ hw
      obtain ⟨h, hh, _⟩ := crossing_candidate_mem speed hww (hws w hww) ts.run.px
        ts.remaining_in_tick (by have := hC.ahead w hw; linarith) (by linarith)
      rw [← crossed_candidates hC, List.isEmpty_iff.mp he] at hh
      simp at hh
    · show ts.run.py + ts.run.dy * ts.remaining_in_tick = 0
      rw [hC.py_eq, hC.dy_eq]; ring

theorem crossing_inner_loop {hypot : K → K → K} (hx : HypotExact hypot) {speed : K}
    (hs : 0 < speed) {ws : List (Wall K)} (hws : ∀ w ∈ ws, StoredCrossing w)
    (hsp : Spaced speed ws) (fuel : Nat) (done todo : List (Wall K)) (ts : TickState K)
    (hC : Crossed hypot speed ws done todo ts.run) (hrit : 0 ≤ ts.remaining_in_tick) :
    ∃ done1 todo1 ts1, inner_loop speed ws fuel ts = .fell ts1 ∧
      Crossed hypot speed ws done1 todo1 ts1.run ∧
      (todo.length < fuel → ts1.remaining_in_tick = 0 ∧
        ts1.run.remaining_budget = ts.run.remaining_budget - ts.remaining_in_tick) := by
  induction fuel generalizing done todo ts with
  | zero => exact ⟨done, todo, ts, rfl, hC, fun h => absurd h (Nat.not_lt_zero _)⟩
  | succ n ih =>
    by_cases hpos : 0 < ts.remaining_in_tick
    · rw [inner_loop_succ speed ws n ts hpos]
      cases he : (event_candidates speed ws ts).isEmpty with
      | true =>
        obtain ⟨ts1, hb, hC1, h1, h2⟩ := crossing_idle hws hC hpos he
        rw [hb]
        exact ⟨done, todo, ts1, rfl, hC1, fun _ => ⟨h1, h2⟩⟩
      | false =>
        obtain ⟨w1, rest, ts1, htodo, hb, hC1, h1, h2⟩ := crossing_event hx hs hws hsp hC he
        rw [hb]
        simp only
        have hr1 : 0 ≤ ts1.remaining_in_tick := by
          rw [h1]
          have := min_le_right (w1.x1 - ts.run.px) ts.remaining_in_tick
          linarith
        obtain ⟨done2, todo2, ts2, hl, hC2, hfin⟩ := ih (done ++ [w1]) rest ts1 hC1 hr1
        refine ⟨done2, todo2, ts2, hl, hC2, ?_⟩
        intro hlen
        rw [htodo, List.length_cons] at hlen
        obtain ⟨f1, f2⟩ := hfin (by omega)
        refine ⟨f1, ?_⟩
        rw [f2, h1, h2]; ring
    · have h0 : ts.remaining_in_tick = 0 := le_antisymm (not_lt.mp hpos) hrit
      refine ⟨done, todo, ts, ?_, hC, fun _ => ⟨h0, by rw [h0, sub_zero]⟩⟩
      simp only [inner_loop, gt_iff_lt, hpos, if_false]

theorem crossing_tick {hypot : K → K → K} (hx : HypotExact hypot) {speed : K}
    (hs : 0 < speed) {ws : List (Wall K)} (hws : ∀ w ∈ ws, StoredCrossing w)
    (hsp : Spaced speed ws) (done todo : List (Wall K)) (st : RunState K)
    (hC : Crossed hypot speed ws done todo st) (hpos : 0 < st.remaining_budget) :
    ∃ done1 todo1 st1, tick speed ws st = .fell st1 ∧
      Crossed hypot speed ws done1 todo1 st1 ∧
      (todo.length < max_inner_per_tick →
        st1.remaining_budget = st.remaining_budget - min speed st.remaining_budget) := by
  obtain ⟨done1, todo1, ts1, hl, hC1, hfin⟩ := crossing_inner_loop hx hs hws hsp
    max_inner_per_tick done todo
    { run := st, recorded_pass_before_nonpass := false,
      remaining_in_tick := min speed st.remaining_budget } hC (le_min hs.le hpos.le)
  refine ⟨done1, todo1, ts1.run, ?_, hC1, fun h => (hfin h).2⟩
  unfold tick
  rw [hl]

theorem crossing_outer_loop {hypot : K → K → K} (hx : HypotExact hypot) {speed : K}
    (hs : 0 < speed) {ws : List (Wall K)} (hws : ∀ w ∈ ws, StoredCrossing w)
    (hsp : Spaced speed ws) (fuel : Nat) (done todo : List (Wall K)) (st : RunState K)
    (hC : Crossed hypot speed ws done todo st) :
    ∃ done1 todo1 st1, outer_loop speed ws fuel st = .fell st1 ∧
      Crossed hypot speed ws done1 todo1 st1 ∧
      (ws.length < max_inner_per_tick → 0 ≤ st.remaining_budget →
        st.remaining_budget ≤ fuel * speed → st1.remaining_budget = 0) := by
  induction fuel generalizing done todo st with
  | zero =>
    refine ⟨done, todo, st, rfl, hC, ?_⟩
    intro _ h0 h1
    simp only [Nat.cast_zero, zero_mul] at h1
    exact le_antisymm h1 h0
  | succ n ih =>
    by_cases hpos : 0 < st.remaining_budget
    · obtain ⟨done1, todo1, st1, ht, hC1, hrb⟩ := crossing_tick hx hs hws hsp done todo st hC hpos
      rw [outer_loop_succ speed ws n st hpos, ht]
      simp only
      obtain ⟨done2, todo2, st2, hl, hC2, hfin⟩ := ih done1 todo1 st1 hC1
      refine ⟨done2, todo2, st2, hl, hC2, ?_⟩
      intro hlen _ hle
      have htl : todo.length < max_inner_per_tick := by
        have : todo.length ≤ ws.length := by rw [hC.split]; simp
        omega
      have h1 := hrb htl
      apply hfin hlen
      · rw [h1]
        have := min_le_right speed st.remaining_budget
        linarith
      · rw [h1]
        push_cast at hle
        rcases min_choice speed st.remaining_budget with hm | hm
        · rw [hm]; linarith
        · rw [hm, sub_self]
          exact mul_nonneg (Nat.cast_nonneg n) hs.le
    · refine ⟨done, todo, st, outer_loop_done speed ws _ st (not_lt.mp hpos), hC, ?_⟩
      intro _ h0 _
      exact le_antisymm (not_lt.mp hpos) h0

theorem eps_out_mono {speed px X : K} (h0 : 0 ≤ px) (hX : px ≤ X) :
    eps_out speed px 0 ≤ eps_out speed X 0 := by
  unfold eps_out scale_for
  have hulp : (0 : K) < ulp := ulp_pos
  have h1 : |px| ≤ |X| := by
    rw [abs_of_nonneg h0, abs_of_nonneg (h0.trans hX)]; exact hX
  apply max_le_max _ le_rfl
  apply mul_le_mul_of_nonneg_left _ (by positivity)
  exact max_le_max le_rfl (max_le_max h1 (max_le_max le_rfl (max_le_max h1 le_rfl)))

/-- The end of a crossing run that has used up its budget: every segment has
been recorded, and the end point is a vertex of its own, within the tolerance
of the budget. -/
theorem crossing_finish {hypot : K → K → K} {speed B : K} (hs : 0 < speed)
    {ws done todo : List (Wall K)} {st : RunState K}
    (hC : Crossed hypot speed ws done todo st) (hR : RunInv hypot speed B True st)
    (hrb : st.remaining_budget = 0)
    (hB0 : end_margin speed B ws.length < B)
    (hend : ∀ w ∈ ws, w.x1 + end_margin speed B ws.length < B) :
    ∃ e, finish speed st = (0, 0) :: ws.map (fun w => (w.x1, (0 : K))) ++ [(e, 0)] ∧
      B - (ws.length : K) * slack speed - eps_d speed ≤ e ∧
      e ≤ B + (ws.length : K) * slack speed := by
  obtain ⟨l, hl1, hl2, hl3, hl4⟩ := hC.last
  obtain ⟨v, a, hv, ha, hpx, _, hup, hlo⟩ := hR.ray
  have hsl := (slack_ge hs).2
  have hed := eps_d_pos hs
  rw [hl1] at hv
  simp only [Option.some.injEq] at hv
  subst hv
  rw [hC.dx_eq, mul_one] at hpx
  simp only at hpx
  rw [hl2, hrb, sub_zero] at hup
  have hlen : (st.path.length : K) - 1 = (done.length : K) := by
    rw [hC.path_eq]; simp
  rw [hlen] at hup
  have hdl : (done.length : K) ≤ (ws.length : K) := by
    have : done.length ≤ ws.length := by rw [hC.split]; simp
    exact_mod_cast this
  have hlow : B - (done.length : K) * slack speed - eps_d speed ≤ st.px := by
    rcases hlo trivial with h | ⟨_, h⟩
    · rw [hl2, hrb, sub_zero, hlen] at h; linarith
    · rw [hl2, hlen] at h; linarith
  have hEpos : 0 < eps_out speed (B + (ws.length : K) * slack speed) 0 := eps_out_pos _ _ _ hs
  have hkd : (done.length : K) * slack speed ≤ (ws.length : K) * slack speed :=
    mul_le_mul_of_nonneg_right hdl hsl
  -- nothing is left ahead
  have htodo : todo = [] := by
    cases htd : todo with
    | nil => rfl
    | cons w t =>
      exfalso
      have hw : w ∈ todo := by rw [htd]; exact List.mem_cons_self _ _
      have h1 := hC.ahead w hw
      have h2 := hend w (by rw [hC.split]; exact List.mem_append_right _ hw)
      unfold end_margin at h2
      linarith
  have hdone : done = ws := by rw [hC.split, htodo, List.append_nil]
  rw [hdone] at hup hlow
  -- the last vertex is short of the end point
  have hlB : l + end_margin speed B ws.length < B := by
    have hmem : (l, (0 : K)) ∈ st.path := List.mem_of_getLast?_eq_some hl1
    rw [hC.path_eq, hdone] at hmem
    rcases List.mem_cons.mp hmem with h | h
    · have : l = 0 := by simpa using (Prod.ext_iff.mp h).1
      rw [this, zero_add]; exact hB0
    · obtain ⟨w, hw, hwe⟩ := List.mem_map.mp h
      have : w.x1 = l := (Prod.ext_iff.mp hwe).1
      rw [← this]; exact hend w hw
  unfold end_margin at hlB
  have hpx0 : 0 ≤ st.px := by
    unfold end_margin at hB0
    linarith
  have hout : eps_out speed st.px st.py
      ≤ eps_out speed (B + (ws.length : K) * slack speed) 0 := by
    rw [hC.py_eq]
    exact eps_out_mono hpx0 (by linarith)
  have hfar : |st.px - l| > eps_out speed st.px st.py := by
    rw [abs_of_nonneg (by linarith)]
    linarith
  refine ⟨st.px, ?_, hlow, by linarith⟩
  unfold finish
  rw [hl1]
  simp only [hfar, true_or, if_true]
  rw [hC.path_eq, hdone, hC.py_eq]

end CrossingRun

section CrossingEntry

variable {K : Type} [LinearOrderedField K] [FloorRing K]

theorem normalized_crossing {w : Wall K} (h : PassThroughCrossing w) :
    StoredCrossing w.normalized ∧ w.normalized.x1 = w.x1 := by
  obtain ⟨h1, h2, h3, _, h5⟩ := h
  have e1 : w.normalized.x1 = w.x1 := by
    show min w.x1 w.x2 = w.x1
    rw [← h1, min_self]
  have e2 : w.normalized.x2 = w.x1 := by
    show max w.x1 w.x2 = w.x1
    rw [← h1, max_self]
  exact ⟨⟨by rw [e1, e2], h2, h3, h5⟩, e1⟩

theorem ingest_crossings (sim : ProjectilePathSimulator K) (walls : List (Wall K))
    (h : ∀ w ∈ walls, PassThroughCrossing w) :
    (ingest sim walls).walls_ = sim.walls_ ++ walls.map Wall.normalized := by
  rw [ingest_walls]
  congr 2
  rw [List.filter_eq_self]
  intro w hw
  have := (h w hw).2.2.2.1
  simp only [gt_iff_lt, decide_eq_true_eq]
  exact Or.inr this

/-- What `simulatePath` returns for a ray from `(0,0)` along `+x` through
PASS_THROUGH segments across it. -/
theorem crossing_run {hypot : K → K → K} (hx : HypotExact hypot) (speed B : K)
    (walls : List (Wall K)) (hs : 0 < speed) (hlow : eps_d speed < speed)
    (hw : ∀ w ∈ walls, PassThroughCrossing w) (hsp : Spaced speed walls)
    (hfirst : ∀ w ∈ walls, eps_d speed < w.x1)
    (hB0 : end_margin speed B walls.length < B)
    (hend : ∀ w ∈ walls, w.x1 + end_margin speed B walls.length < B)
    (hrun : (walls.length < 256 ∧ tiny ≤ speed) ∨
      budget_used_up (run_loop (0, 0) (1, 0) speed B walls) = true) :
    ∃ e, simulatePath hypot (0, 0) (1, 0) speed B walls
        = .ok ((0, 0) :: walls.map (fun w => (w.x1, (0 : K))) ++ [(e, 0)]) ∧
      B - (walls.length : K) * slack speed - eps_d speed ≤ e ∧
      e ≤ B + (walls.length : K) * slack speed := by
  have hB : 0 ≤ B := by
    have := eps_out_pos speed (B + (walls.length : K) * slack speed) 0 hs
    have := (slack_ge hs).2
    have : 0 ≤ (walls.length : K) * slack speed := mul_nonneg (Nat.cast_nonneg _) this
    have := eps_d_pos hs
    unfold end_margin at hB0
    linarith
  rw [simulatePath_eq_run hx (0, 0) (1, 0) speed B 1 walls hs hB one_pos (by simp)]
  have hing : (ingest ({ speed_ := speed, distance_budget_ := B, walls_ := [] } :
      ProjectilePathSimulator K) walls).walls_ = walls.map Wall.normalized := by
    rw [ingest_crossings _ _ hw]; rfl
  have hws : ∀ w ∈ walls.map Wall.normalized, StoredCrossing w := by
    intro w hm
    obtain ⟨w0, hw0, rfl⟩ := List.mem_map.mp hm
    exact (normalized_crossing (hw w0 hw0)).1
  have hx1 : ∀ w ∈ walls, w.normalized.x1 = w.x1 :=
    fun w hm => (normalized_crossing (hw w hm)).2
  have hsp1 : Spaced speed (walls.map Wall.normalized) := by
    unfold Spaced at hsp ⊢
    rw [List.pairwise_map]
    refine hsp.imp_of_mem ?_
    intro a b ha hb hab
    rw [hx1 a ha, hx1 b hb]; exact hab
  have hmapx : (walls.map Wall.normalized).map (fun w => (w.x1, (0 : K)))
      = walls.map (fun w => (w.x1, (0 : K))) := by
    rw [List.map_map]
    apply List.map_congr_left
    intro w hm
    simp only [Function.comp, hx1 w hm]
  have hlenw : (walls.map Wall.normalized).length = walls.length := List.length_map _ _
  have hC0 : Crossed hypot speed (walls.map Wall.normalized) [] (walls.map Wall.normalized)
      { path := [(0, 0)], px := 0, py := 0, dx := 1, dy := 0, remaining_budget := B } := by
    refine ⟨rfl, rfl, ⟨0, rfl, rfl, le_rfl, by simp⟩, ?_, rfl, rfl, rfl⟩
    intro w hm
    obtain ⟨w0, hw0, rfl⟩ := List.mem_map.mp hm
    rw [hx1 w0 hw0]
    simpa using hfirst w0 hw0
  obtain ⟨done1, todo1, st1, hloop, hC1, hrbf⟩ := crossing_outer_loop hx hs hws hsp1
    (max_outer speed B).toNat [] (walls.map Wall.normalized) _ hC0
  have hR := outer_loop_inv B True hx hs (fun _ => hlow) (walls.map Wall.normalized)
    (max_outer speed B).toNat _
    (@initial_inv K _ hypot speed B True ((0 : K), (0 : K)) ((1 : K), (0 : K)) hB (by simp))
  simp only at hR
  rw [hloop] at hR
  have hrl : run_loop ((0 : K), (0 : K)) ((1 : K), (0 : K)) speed B walls = .fell st1 := by
    unfold run_loop
    rw [hing]
    exact hloop
  have hrb : st1.remaining_budget = 0 := by
    rcases hrun with ⟨hk, ht⟩ | hbu
    · apply hrbf
      · rw [hlenw]; exact hk
      · exact hB
      · exact fuel_covers_budget ht hB
    · rw [hrl] at hbu
      simpa [budget_used_up] using hbu
  obtain ⟨e, he, h1, h2⟩ := crossing_finish hs hC1 hR hrb (by rw [hlenw]; exact hB0) (by
    intro w hm
    obtain ⟨w0, hw0, rfl⟩ := List.mem_map.mp hm
    rw [hx1 w0 hw0, hlenw]
    exact hend w0 hw0)
  rw [hmapx] at he
  rw [hlenw] at h1 h2
  refine ⟨e, ?_, h1, h2⟩
  have : run_loop ((0 : K), (0 : K)) (((1 : K), (0 : K)).1 / 1, ((1 : K), (0 : K)).2 / 1)
      speed B walls = .fell st1 := by
    simp only [div_one]
    exact hrl
  rw [this]
  simp only [path_of]
  rw [he]

end CrossingEntry

/-! ## Reflection at a corner -/

section Corner

variable {K : Type} [LinearOrderedField K]

theorem vertical_hit_mem (x_side : K) (w : Wall K) (sx sy dx dy D edir ef ed : K)
    (out : List (SideHit K)) (h1 : edir < |dx|) (h2 : ed < (x_side - sx) / dx)
    (h3 : (x_side - sx) / dx ≤ D + ed)
    (h4 : within (sy + dy * ((x_side - sx) / dx)) w.y1 w.y2 ef = true) :
    ∃ h ∈ maybe_add_vertical x_side w sx sy dx dy D edir ef ed out,
      h.dist = (x_side - sx) / dx ∧ h.vertical = true := by
  unfold maybe_add_vertical
  simp only [not_le.mpr h1, if_false, h4, Bool.not_true]
  have : ¬ ((x_side - sx) / dx ≤ ed ∨ (x_side - sx) / dx > D + ed) := by
    push_neg; exact ⟨h2, h3⟩
  simp only [this, if_false]
  exact ⟨_, List.mem_append_right _ (List.mem_singleton.mpr rfl), rfl, rfl⟩

theorem horizontal_hit_mem (y_side : K) (w : Wall K) (sx sy dx dy D edir ef ed : K)
    (out : List (SideHit K)) (h1 : edir < |dy|) (h2 : ed < (y_side - sy) / dy)
    (h3 : (y_side - sy) / dy ≤ D + ed)
    (h4 : within (sx + dx * ((y_side - sy) / dy)) w.x1 w.x2 ef = true) :
    ∃ h ∈ maybe_add_horizontal y_side w sx sy dx dy D edir ef ed out,
      h.dist = (y_side - sy) / dy ∧ h.horizontal = true := by
  unfold maybe_add_horizontal
  simp only [not_le.mpr h1, if_false, h4, Bool.not_true]
  have : ¬ ((y_side - sy) / dy ≤ ed ∨ (y_side - sy) / dy > D + ed) := by
    push_neg; exact ⟨h2, h3⟩
  simp only [this, if_false]
  exact ⟨_, List.mem_append_right _ (List.mem_singleton.mpr rfl), rfl, rfl⟩

/-- The near vertical face `x = w.x1` of a wall with both extents above `1e-12`
yields a hit on a vertical face when the ray meets it within the step. -/
theorem near_vertical_face_hit (speed : K) (w : Wall K) (px py dx dy D : K)
    (hw : tiny < |w.x1 - w.x2|) (hh : tiny < |w.y1 - w.y2|) (h1 : eps_dir < |dx|)
    (h2 : eps_d speed < (w.x1 - px) / dx) (h3 : (w.x1 - px) / dx ≤ D + eps_d speed)
    (h4 : within (py + dy * ((w.x1 - px) / dx)) w.y1 w.y2 (eps_face speed px py dx dy)
      = true) :
    ∃ h ∈ gather speed [w] px py dx dy D, h.dist = (w.x1 - px) / dx ∧ h.vertical = true := by
  unfold gather
  simp only [List.foldl_cons, List.foldl_nil, wall_candidates, not_le.mpr hw, not_le.mpr hh,
    if_false]
  obtain ⟨h, hm, hd⟩ := vertical_hit_mem w.x1 w px py dx dy D eps_dir
    (eps_face speed px py dx dy) (eps_d speed) [] h1 h2 h3 h4
  exact ⟨h, subset_maybe_add_horizontal _ _ _ _ _ _ _ _ _ _ _
    (subset_maybe_add_horizontal _ _ _ _ _ _ _ _ _ _ _
      (subset_maybe_add_vertical _ _ _ _ _ _ _ _ _ _ _ hm)), hd⟩

/-- The near horizontal face `y = w.y1`, likewise. -/
theorem near_horizontal_face_hit (speed : K) (w : Wall K) (px py dx dy D : K)
    (hw : tiny < |w.x1 - w.x2|) (hh : tiny < |w.y1 - w.y2|) (h1 : eps_dir < |dy|)
    (h2 : eps_d speed < (w.y1 - py) / dy) (h3 : (w.y1 - py) / dy ≤ D + eps_d speed)
    (h4 : within (px + dx * ((w.y1 - py) / dy)) w.x1 w.x2 (eps_face speed px py dx dy)
      = true) :
    ∃ h ∈ gather speed [w] px py dx dy D, h.dist = (w.y1 - py) / dy ∧ h.horizontal = true := by
  unfold gather
  simp only [List.foldl_cons, List.foldl_nil, wall_candidates, not_le.mpr hw, not_le.mpr hh,
    if_false]
  obtain ⟨h, hm, hd⟩ := horizontal_hit_mem w.y1 w px py dx dy D eps_dir
    (eps_face speed px py dx dy) (eps_d speed)
    (maybe_add_vertical w.x2 w px py dx dy D eps_dir (eps_face speed px py dx dy)
      (eps_d speed)
      (maybe_add_vertical w.x1 w px py dx dy D eps_dir (eps_face speed px py dx dy)
        (eps_d speed) [])) h1 h2 h3 h4
  exact ⟨h, subset_maybe_add_horizontal _ _ _ _ _ _ _ _ _ _ _ hm, hd⟩

/-- An event whose hits are all REFLECT hits at the resolved distance `s`,
among them one on a vertical and one on a horizontal face: the vertex is the
point at distance `s`, both direction components flip, and the loop goes on. -/
theorem corner_event {speed : K} (hs : 0 < speed) (walls : List (Wall K)) (ts : TickState K)
    (s : K) (hall : ∀ h ∈ event_candidates speed walls ts,
      h.dist = s ∧ h.behavior = WallBehavior.REFLECT)
    (hv : ∃ h ∈ event_candidates speed walls ts, h.vertical = true)
    (hh : ∃ h ∈ event_candidates speed walls ts, h.horizontal = true) :
    inner_body speed walls ts = Flow.next
      { run := { path := ts.run.path ++ [(ts.run.px + ts.run.dx * s, ts.run.py + ts.run.dy * s)],
                 px := if ts.remaining_in_tick - min s ts.remaining_in_tick > 10 * eps_d speed ∧
                        ts.run.remaining_budget - min s ts.remaining_in_tick > 10 * eps_d speed
                      then ts.run.px + ts.run.dx * s + -ts.run.dx * eps_push speed
                      else ts.run.px + ts.run.dx * s,
                 py := if ts.remaining_in_tick - min s ts.remaining_in_tick > 10 * eps_d speed ∧
                        ts.run.remaining_budget - min s ts.remaining_in_tick > 10 * eps_d speed
                      then ts.run.py + ts.run.dy * s + -ts.run.dy * eps_push speed
                      else ts.run.py + ts.run.dy * s,
                 dx := -ts.run.dx, dy := -ts.run.dy,
                 remaining_budget := ts.run.remaining_budget - min s ts.remaining_in_tick },
        recorded_pass_before_nonpass := false,
        remaining_in_tick := ts.remaining_in_tick - min s ts.remaining_in_tick } := by
  obtain ⟨v, hvc, hvv⟩ := hv
  obtain ⟨z, hzc, hzh⟩ := hh
  have hne : (event_candidates speed walls ts).isEmpty = false := by
    cases hc : event_candidates speed walls ts with
    | nil => rw [hc] at hvc; simp at hvc
    | cons a t => rfl
  obtain ⟨s1, m, hsm, himp, _, _, _, _, _, hm, hhne⟩ := event_facts hs walls ts hne
  obtain ⟨s2, hsm2, ⟨h0, hh0, hd0⟩, _⟩ := event_s_min_spec hs walls ts hne
  have hs1 : s1 = s := by
    rw [hsm] at hsm2
    simp only [Option.some.injEq] at hsm2
    rw [hsm2, ← hd0]
    exact (hall h0 (event_hits_subset speed walls ts h0 hh0)).1
  subst hs1
  have hmem : ∀ h, h ∈ event_candidates speed walls ts → h ∈ event_hits speed walls ts := by
    intro h hc
    rw [mem_event_hits hsm]
    refine ⟨hc, ?_⟩
    rw [(hall h hc).1, sub_self, abs_zero]
    exact (eps_tie_pos hs).le
  have hmean : m = s1 := by
    rw [hm]
    have := mean_dist_bounds (event_hits speed walls ts) s1 s1 hhne (by
      intro h hh
      have := (hall h (event_hits_subset speed walls ts h hh)).1
      exact ⟨this.ge, this.le⟩)
    exact le_antisymm this.2 this.1
  rw [hmean] at himp
  have hf1 : (flags (event_hits speed walls ts)).1 = false := by
    rw [← Bool.not_eq_true, flags_stop]
    rintro ⟨x, hx, hb⟩
    rw [(hall x (event_hits_subset speed walls ts x hx)).2] at hb
    exact absurd hb (by decide)
  have hf2 : (flags (event_hits speed walls ts)).2.1 = true :=
    (flags_reflect_v _).mpr ⟨v, hmem v hvc, (hall v hvc).2, hvv⟩
  have hf3 : (flags (event_hits speed walls ts)).2.2 = true :=
    (flags_reflect_h _).mpr ⟨z, hmem z hzc, (hall z hzc).2, hzh⟩
  rw [inner_body_next speed walls ts hne hf1]
  unfold after_event
  simp only [hf1, hf2, hf3, himp, hsm, step_used, if_true, Bool.or_true, Bool.and_eq_true,
    decide_eq_true_eq]

theorem sqrt_two_bounds {r : K} (hr : 0 < r) (hr2 : r * r = 2) : 7 / 5 < r ∧ r < 3 / 2 := by
  constructor
  · by_contra h
    push_neg at h
    nlinarith
  · by_contra h
    push_neg at h
    nlinarith

theorem eps_ten : eps_d (10 : K) = 11 / 2 ^ 46 ∧ eps_push (10 : K) = 11 / 2 ^ 42 ∧
    eps_dir = (1 : K) / 2 ^ 46 := by
  unfold eps_d eps_push eps_dir ulp
  norm_num

/-- The first pass of the corner scenario: both faces through the corner
`(1,1)` are hit at distance `r = √2`, both direction components flip, and the
position is nudged back along the diagonal. -/
theorem corner_first_pass {r : K} (hr : 0 < r) (hr2 : r * r = 2) :
    inner_body (10 : K) [⟨1, 1, 3, 3, WallBehavior.REFLECT⟩]
        { run := { path := [(0, 0)], px := 0, py := 0, dx := 1 / r, dy := 1 / r,
                   remaining_budget := 3 },
          recorded_pass_before_nonpass := false, remaining_in_tick := min 10 3 }
      = Flow.next
        { run := { path := [(0, 0), (1, 1)], px := 1 - eps_push 10 / r,
                   py := 1 - eps_push 10 / r, dx := -(1 / r), dy := -(1 / r),
                   remaining_budget := 3 - r },
          recorded_pass_before_nonpass := false, remaining_in_tick := 3 - r } := by
  obtain ⟨hr1, hr3⟩ := sqrt_two_bounds hr hr2
  obtain ⟨hed, hep, hdir⟩ := @eps_ten K _
  have hne : r ≠ 0 := ne_of_gt hr
  have hmin : min (10 : K) 3 = 3 := min_eq_right (by norm_num)
  have hed0 : (0 : K) < eps_d 10 := eps_d_pos (by norm_num)
  have hedS : eps_d (10 : K) < 1 / 1000 := by rw [hed]; norm_num
  have hinv : (1 : K) / r * r = 1 := by field_simp
  have hinv1 : 2 / 3 < 1 / r := by rw [lt_div_iff₀ hr]; linarith
  have hsr : ((1 : K) - 0) / (1 / r) = r := by field_simp
  have hw : tiny < |(1 : K) - 3| := by
    rw [show (1 : K) - 3 = -2 by norm_num, abs_neg, abs_two]; unfold tiny; norm_num
  have hdirr : eps_dir < |1 / r| := by
    rw [abs_of_pos (by positivity), hdir]
    have : (1 : K) / 2 ^ 46 < 2 / 3 := by norm_num
    linarith
  have key := @corner_event K _ 10 (by norm_num) [⟨1, 1, 3, 3, WallBehavior.REFLECT⟩]
    { run := { path := [(0, 0)], px := 0, py := 0, dx := 1 / r, dy := 1 / r,
               remaining_budget := 3 },
      recorded_pass_before_nonpass := false, remaining_in_tick := min 10 3 } r ?_ ?_ ?_
  · rw [key]
    have hminr : min r 3 = r := min_eq_left (by linarith)
    have hc : (3 : K) - r > 10 * eps_d 10 := by linarith
    simp only [hmin, hminr, hc, and_self, if_true, zero_add, hinv, List.singleton_append]
    have e : (1 : K) + -(1 / r) * eps_push 10 = 1 - eps_push 10 / r := by ring
    rw [e]
  · intro h hm
    have ho := candidates_single hm
    refine ⟨?_, ho.ray.behavior_eq⟩
    have hx := ho.ray.x_eq
    have hy := ho.ray.y_eq
    have hle := ho.ray.dist_le
    simp only [zero_add, hmin] at hx hy hle
    have hd3 : h.dist < 3 * r := by linarith
    rcases ho.face with ⟨_, _, hf, _⟩ | ⟨_, _, hf, _⟩
    · simp only at hf
      rcases hf with hf | hf
      · rw [hx] at hf
        field_simp at hf
        exact hf
      · rw [hx] at hf
        field_simp at hf
        linarith
    · simp only at hf
      rcases hf with hf | hf
      · rw [hy] at hf
        field_simp at hf
        exact hf
      · rw [hy] at hf
        field_simp at hf
        linarith
  · obtain ⟨h, hm, _, hv⟩ := near_vertical_face_hit (10 : K) ⟨1, 1, 3, 3, WallBehavior.REFLECT⟩
      0 0 (1 / r) (1 / r) (min 10 3) hw hw hdirr (by simp only [hsr]; linarith)
      (by simp only [hsr, hmin]; linarith)
      (by
        simp only [hsr, hinv, zero_add]
        exact within_of_mem le_rfl (by norm_num) (eps_face_nonneg _ _ _ _ _))
    exact ⟨h, hm, hv⟩
  · obtain ⟨h, hm, _, hv⟩ := near_horizontal_face_hit (10 : K)
      ⟨1, 1, 3, 3, WallBehavior.REFLECT⟩
      0 0 (1 / r) (1 / r) (min 10 3) hw hw hdirr (by simp only [hsr]; linarith)
      (by simp only [hsr, hmin]; linarith)
      (by
        simp only [hsr, hinv, zero_add]
        exact within_of_mem le_rfl (by norm_num) (eps_face_nonneg _ _ _ _ _))
    exact ⟨h, hm, hv⟩

/-- After the bounce at the corner the ray leaves the rectangle behind: no
face is a candidate. -/
theorem corner_behind {r : K} (hr : 0 < r) (D : K) :
    gather (10 : K) [⟨1, 1, 3, 3, WallBehavior.REFLECT⟩] (1 - eps_push 10 / r)
      (1 - eps_push 10 / r) (-(1 / r)) (-(1 / r)) D = [] := by
  apply List.eq_nil_iff_forall_not_mem.mpr
  intro h hm
  obtain ⟨w1, hw1, ho⟩ := mem_gather hm
  rw [List.mem_singleton] at hw1
  subst hw1
  have hed0 : (0 : K) < eps_d 10 := eps_d_pos (by norm_num)
  have hep0 : (0 : K) < eps_push 10 := eps_push_pos (by norm_num)
  have hd := ho.ray.dist_gt
  have h1 : 0 < 1 / r * h.dist := mul_pos (by positivity) (by linarith)
  have h2 : 0 < eps_push 10 / r := div_pos hep0 hr
  have hx := ho.ray.x_eq
  have hy := ho.ray.y_eq
  rcases ho.face with ⟨_, _, hf, _⟩ | ⟨_, _, hf, _⟩
  · simp only at hf
    rcases hf with hf | hf <;> · rw [hx] at hf; linarith
  · simp only at hf
    rcases hf with hf | hf <;> · rw [hy] at hf; linarith

/-- The loops of the corner scenario. -/
theorem corner_loops {r : K} (hr : 0 < r) (hr2 : r * r = 2) :
    outer_loop (10 : K) [⟨1, 1, 3, 3, WallBehavior.REFLECT⟩] 3
        { path := [(0, 0)], px := 0, py := 0, dx := 1 / r, dy := 1 / r, remaining_budget := 3 }
      = .fell
        { path := [(0, 0), (1, 1)], px := 1 - (3 - r + eps_push 10) / r,
          py := 1 - (3 - r + eps_push 10) / r, dx := -(1 / r), dy := -(1 / r),
          remaining_budget := 0 } := by
  obtain ⟨hr1, hr3⟩ := sqrt_two_bounds hr hr2
  obtain ⟨hed, _, _⟩ := @eps_ten K _
  have hedS : eps_d (10 : K) < 1 / 1000 := by rw [hed]; norm_num
  have hmin : min (10 : K) 3 = 3 := min_eq_right (by norm_num)
  have h256 : max_inner_per_tick = 254 + 1 + 1 := rfl
  have ht : tick (10 : K) [⟨1, 1, 3, 3, WallBehavior.REFLECT⟩]
      { path := [(0, 0)], px := 0, py := 0, dx := 1 / r, dy := 1 / r, remaining_budget := 3 }
      = .fell
        { path := [(0, 0), (1, 1)], px := 1 - (3 - r + eps_push 10) / r,
          py := 1 - (3 - r + eps_push 10) / r, dx := -(1 / r), dy := -(1 / r),
          remaining_budget := 0 } := by
    unfold tick
    rw [h256, inner_loop_succ _ _ _ _ (by show (0 : K) < min 10 3; rw [hmin]; norm_num),
      corner_first_pass hr hr2]
    simp only
    rw [inner_loop_succ _ _ _ _ (by show (0 : K) < 3 - r; linarith),
      inner_body_glide _ _ _ (by
        rw [List.isEmpty_iff]
        exact corner_behind hr _) (by show eps_d (10 : K) < 3 - r; linarith)]
    simp only [glide]
    congr 2
    · field_simp; ring
    · field_simp; ring
    · ring
  rw [show (3 : Nat) = 2 + 1 from rfl, outer_loop_succ _ _ _ _ (by norm_num), ht]
  simp only
  exact outer_loop_done _ _ _ _ le_rfl

theorem corner_finish {r : K} (hr : 0 < r) (hr2 : r * r = 2) :
    finish (10 : K)
        { path := [(0, 0), (1, 1)], px := 1 - (3 - r + eps_push 10) / r,
          py := 1 - (3 - r + eps_push 10) / r, dx := -(1 / r), dy := -(1 / r),
          remaining_budget := 0 }
      = [(0, 0), (1, 1),
         (1 - (3 - r + eps_push 10) / r, 1 - (3 - r + eps_push 10) / r)] := by
  obtain ⟨hr1, hr3⟩ := sqrt_two_bounds hr hr2
  obtain ⟨_, hep, _⟩ := @eps_ten K _
  have hq1 : 1 ≤ (3 - r + eps_push 10) / r := by
    rw [le_div_iff₀ hr]
    have : (0 : K) < eps_push 10 := eps_push_pos (by norm_num)
    linarith
  have hq2 : (3 - r + eps_push 10) / r ≤ 2 := by
    rw [div_le_iff₀ hr, hep]
    have : (11 : K) / 2 ^ 42 < 1 / 10 := by norm_num
    linarith
  have habs : |1 - (3 - r + eps_push 10) / r| ≤ 2 := by
    rw [abs_le]; constructor <;> linarith
  have hout : eps_out (10 : K) (1 - (3 - r + eps_push 10) / r)
      (1 - (3 - r + eps_push 10) / r) < 1 := by
    unfold eps_out scale_for ulp
    apply max_lt
    · have : max (1 : K) (max |1 - (3 - r + eps_push 10) / r|
          (max |1 - (3 - r + eps_push 10) / r| (max |1 - (3 - r + eps_push 10) / r|
            |1 - (3 - r + eps_push 10) / r|))) ≤ 2 :=
        max_le (by norm_num) (max_le habs (max_le habs (max_le habs habs)))
      have h2 : (0 : K) < 64 * (1 / 2 ^ 52) := by norm_num
      have h3 : (64 : K) * (1 / 2 ^ 52) * 2 < 1 := by norm_num
      nlinarith
    · norm_num
  have hfar : |1 - (3 - r + eps_push 10) / r - 1| > eps_out (10 : K)
      (1 - (3 - r + eps_push 10) / r) (1 - (3 - r + eps_push 10) / r) := by
    rw [show 1 - (3 - r + eps_push 10) / r - 1 = -((3 - r + eps_push 10) / r) by ring, abs_neg,
      abs_of_pos (by linarith)]
    linarith
  unfold finish
  simp only [List.getLast?_cons_cons, List.getLast?_singleton, hfar, true_or, if_true,
    List.cons_append, List.nil_append]

end Corner

section CornerEntry

variable {K : Type} [LinearOrderedField K] [FloorRing K]

/-- What `simulatePath` returns in the corner scenario, with `r = √2`. -/
theorem corner_run {hypot : K → K → K} (hx : HypotExact hypot) {r : K} (hr : 0 < r)
    (hr2 : r * r = 2) :
    simulatePath hypot (0, 0) (1, 1) 10 3 [⟨1, 1, 3, 3, WallBehavior.REFLECT⟩]
      = .ok [(0, 0), (1, 1),
          (1 - (3 - r + eps_push 10) / r, 1 - (3 - r + eps_push 10) / r)] := by
  rw [simulatePath_eq_run hx (0, 0) (1, 1) 10 3 r _ (by norm_num) (by norm_num) hr
    (by simp only; linarith)]
  have hw : (ingest ({ speed_ := 10, distance_budget_ := 3, walls_ := [] } :
      ProjectilePathSimulator K) [⟨1, 1, 3, 3, WallBehavior.REFLECT⟩]).walls_
      = [⟨1, 1, 3, 3, WallBehavior.REFLECT⟩] := by
    rw [ingest_walls]
    have h1 : tiny < |(1 : K) - 3| := by
      rw [show (1 : K) - 3 = -2 by norm_num, abs_neg, abs_two]; unfold tiny; norm_num
    simp [h1, Wall.normalized]
  have hm : (max_outer (10 : K) 3).toNat = 3 := by
    unfold max_outer
    have h1 : max (tiny : K) 10 = 10 := max_eq_right (by unfold tiny; norm_num)
    have h2 : ⌈(3 : K) / 10⌉ = 1 := Int.ceil_eq_iff.mpr ⟨by norm_num, by norm_num⟩
    rw [h1, h2]
    rfl
  unfold run_loop
  simp only [hw, hm]
  rw [corner_loops hr hr2]
  simp only [path_of]
  rw [corner_finish hr hr2]

end CornerEntry

theorem real_hypot_exact : HypotExact (fun x y : ℝ => Real.sqrt (x * x + y * y)) := by
  intro x y t ht h
  simp only
  rw [h]
  exact Real.sqrt_mul_self ht

section Counting

variable {K : Type} [LinearOrderedField K]

/-! ## Counting vertices -/

theorem inner_body_length (speed : K) (walls : List (Wall K)) (ts : TickState K) :
    match inner_body speed walls ts with
    | .ret p => p.length ≤ ts.run.path.length + 1
    | .brk ts1 => ts1.run.path.length ≤ ts.run.path.length
    | .next ts1 => ts1.run.path.length ≤ ts.run.path.length + 1 := by
  unfold inner_body
  simp only
  split_ifs <;> simp

theorem inner_loop_length (speed : K) (walls : List (Wall K)) (fuel : Nat)
    (ts : TickState K) :
    match inner_loop speed walls fuel ts with
    | .stopped p => p.length ≤ ts.run.path.length + fuel
    | .fell ts1 => ts1.run.path.length ≤ ts.run.path.length + fuel := by
  induction fuel generalizing ts with
  | zero => simp [inner_loop]
  | succ n ih =>
    unfold inner_loop
    split_ifs with hpos
    · have hb := inner_body_length speed walls ts
      cases h : inner_body speed walls ts with
      | ret p => rw [h] at hb; simp only at hb ⊢; omega
      | brk ts1 => rw [h] at hb; simp only at hb ⊢; omega
      | next ts1 =>
        rw [h] at hb
        simp only at hb ⊢
        have := ih ts1
        cases h2 : inner_loop speed walls n ts1 with
        | stopped p => rw [h2] at this; simp only at this ⊢; omega
        | fell ts2 => rw [h2] at this; simp only at this ⊢; omega
    · simp

theorem tick_length (speed : K) (walls : List (Wall K)) (st : RunState K) :
    match tick speed walls st with
    | .stopped p => p.length ≤ st.path.length + max_inner_per_tick
    | .fell st1 => st1.path.length ≤ st.path.length + max_inner_per_tick := by
  unfold tick
  have := inner_loop_length speed walls max_inner_per_tick
    { run := st, recorded_pass_before_nonpass := false,
      remaining_in_tick := min speed st.remaining_budget }
  cases h : inner_loop speed walls max_inner_per_tick
    { run := st, recorded_pass_before_nonpass := false,
      remaining_in_tick := min speed st.remaining_budget } with
  | stopped p => rw [h] at this; simpa using this
  | fell ts1 => rw [h] at this; simpa using this

theorem outer_loop_length (speed : K) (walls : List (Wall K)) (fuel : Nat)
    (st : RunState K) :
    match outer_loop speed walls fuel st with
    | .stopped p => p.length ≤ st.path.length + max_inner_per_tick * fuel
    | .fell st1 => st1.path.length ≤ st.path.length + max_inner_per_tick * fuel := by
  induction fuel generalizing st with
  | zero => simp [outer_loop]
  | succ n ih =>
    unfold outer_loop
    split_ifs with hpos
    · have hb := tick_length speed walls st
      cases h : tick speed walls st with
      | stopped p =>
        rw [h] at hb; simp only at hb ⊢
        have : max_inner_per_tick ≤ max_inner_per_tick * (n + 1) := Nat.le_mul_of_pos_right _ (by omega)
        omega
      | fell st1 =>
        rw [h] at hb
        simp only at hb ⊢
        have := ih st1
        have e : max_inner_per_tick * (n + 1) = max_inner_per_tick * n + max_inner_per_tick := by ring
        cases h2 : outer_loop speed walls n st1 with
        | stopped p => rw [h2] at this; simp only at this ⊢; omega
        | fell st2 => rw [h2] at this; simp only at this ⊢; omega
    · simp

theorem finish_length (speed : K) (st : RunState K) :
    (finish speed st).length ≤ st.path.length + 1 := by
  unfold finish
  split
  · simp
  · split_ifs <;> simp

theorem simulate_length [FloorRing K] (hypot : K → K → K) (sim : ProjectilePathSimulator K)
    (sx sy dx dy : K) :
    (sim.simulate hypot sx sy dx dy).length
      ≤ max_inner_per_tick * (max_outer sim.speed_ sim.distance_budget_).toNat + 2 := by
  unfold ProjectilePathSimulator.simulate
  simp only
  have := outer_loop_length sim.speed_ sim.walls_
    (max_outer sim.speed_ sim.distance_budget_).toNat
    { path := [(sx, sy)], px := sx, py := sy, dx := (normalize hypot dx dy).1,
      dy := (normalize hypot dx dy).2, remaining_budget := sim.distance_budget_ }
  cases h : outer_loop sim.speed_ sim.walls_
    (max_outer sim.speed_ sim.distance_budget_).toNat
    { path := [(sx, sy)], px := sx, py := sy, dx := (normalize hypot dx dy).1,
      dy := (normalize hypot dx dy).2, remaining_budget := sim.distance_budget_ } with
  | stopped p => rw [h] at this; simp only [List.length_singleton] at this ⊢; omega
  | fell st1 =>
    rw [h] at this
    simp only [List.length_singleton] at this ⊢
    have := finish_length sim.speed_ st1
    omega

theorem max_outer_le [FloorRing K] {speed budget : K} (hs : 0 < speed) (hB : 0 ≤ budget) :
    max_outer speed budget ≤ ⌈budget / speed⌉ + 2 := by
  unfold max_outer
  have : budget / max tiny speed ≤ budget / speed :=
    div_le_div_of_nonneg_left hB hs (le_max_right _ _)
  have := Int.ceil_mono this
  omega

end Counting

/-! ## The direction along a run -/

section Direction

variable {K : Type} [LinearOrderedField K]

theorem after_event_dir (speed : K) (hits : List (SideHit K)) (s_min : Option K)
    (ts : TickState K) :
    |(after_event speed hits s_min ts).run.dx| = |ts.run.dx| ∧
    |(after_event speed hits s_min ts).run.dy| = |ts.run.dy| := by
  unfold after_event
  simp only
  constructor <;> split_ifs <;> simp

/-- A pass through the body of the inner loop keeps the absolute value of
both direction components. -/
theorem inner_body_dir {speed : K} {walls : List (Wall K)} {ts ts1 : TickState K}
    (h : inner_body speed walls ts = Flow.next ts1 ∨ inner_body speed walls ts = Flow.brk ts1) :
    |ts1.run.dx| = |ts.run.dx| ∧ |ts1.run.dy| = |ts.run.dy| := by
  rcases h with h | h
  · obtain ⟨_, _, hts⟩ := inner_body_next_inv h
    rw [hts]
    exact after_event_dir _ _ _ _
  · by_cases he : (event_candidates speed walls ts).isEmpty = true
    · by_cases hr : ts.remaining_in_tick ≤ eps_d speed
      · rw [inner_body_swallow speed walls ts he hr] at h
        have := (Flow.brk.inj h).symm
        subst this
        simp [swallow]
      · rw [inner_body_glide speed walls ts he (not_le.mp hr)] at h
        have := (Flow.brk.inj h).symm
        subst this
        simp [glide]
    · have he1 : (event_candidates speed walls ts).isEmpty = false := by simpa using he
      cases hf : (flags (event_hits speed walls ts)).1 with
      | true => rw [inner_body_stop speed walls ts he1 hf] at h; cases h
      | false => rw [inner_body_next speed walls ts he1 hf] at h; cases h

theorem inner_state_after_dir {speed : K} {walls : List (Wall K)} (k : Nat)
    {ts0 ts : TickState K} (h : inner_state_after speed walls k ts0 = some ts) :
    |ts.run.dx| = |ts0.run.dx| ∧ |ts.run.dy| = |ts0.run.dy| := by
  induction k generalizing ts0 with
  | zero =>
    simp only [inner_state_after, Option.some.injEq] at h
    subst h
    exact ⟨rfl, rfl⟩
  | succ n ih =>
    simp only [inner_state_after] at h
    split_ifs at h with hpos
    cases hb : inner_body speed walls ts0 with
    | ret p => rw [hb] at h; simp at h
    | brk t => rw [hb] at h; simp at h
    | next t =>
      rw [hb] at h
      simp only at h
      have h1 := ih h
      have h2 := inner_body_dir (Or.inl hb)
      exact ⟨h1.1.trans h2.1, h1.2.trans h2.2⟩

theorem inner_loop_dir {speed : K} {walls : List (Wall K)} (fuel : Nat)
    {ts0 ts : TickState K} (h : inner_loop speed walls fuel ts0 = .fell ts) :
    |ts.run.dx| = |ts0.run.dx| ∧ |ts.run.dy| = |ts0.run.dy| := by
  induction fuel generalizing ts0 with
  | zero =>
    simp only [inner_loop, LoopResult.fell.injEq] at h
    subst h
    exact ⟨rfl, rfl⟩
  | succ n ih =>
    unfold inner_loop at h
    split_ifs at h with hpos
    · cases hb : inner_body speed walls ts0 with
      | ret p => rw [hb] at h; simp at h
      | brk t =>
        rw [hb] at h
        simp only [LoopResult.fell.injEq] at h
        subst h
        exact inner_body_dir (Or.inr hb)
      | next t =>
        rw [hb] at h
        simp only at h
        have h1 := ih h
        have h2 := inner_body_dir (Or.inl hb)
        exact ⟨h1.1.trans h2.1, h1.2.trans h2.2⟩
    · simp only [LoopResult.fell.injEq] at h
      subst h
      exact ⟨rfl, rfl⟩

theorem tick_dir {speed : K} {walls : List (Wall K)} {st st1 : RunState K}
    (h : tick speed walls st = .fell st1) :
    |st1.dx| = |st.dx| ∧ |st1.dy| = |st.dy| := by
  unfold tick at h
  cases hl : inner_loop speed walls max_inner_per_tick
      { run := st, recorded_pass_before_nonpass := false,
        remaining_in_tick := min speed st.remaining_budget } with
  | stopped p => rw [hl] at h; simp at h
  | fell ts =>
    rw [hl] at h
    simp only [LoopResult.fell.injEq] at h
    subst h
    exact inner_loop_dir _ hl

theorem run_state_after_dir {speed : K} {walls : List (Wall K)} (j : Nat)
    {st0 st : RunState K} (h : run_state_after speed walls j st0 = some st) :
    |st.dx| = |st0.dx| ∧ |st.dy| = |st0.dy| := by
  induction j generalizing st0 with
  | zero =>
    simp only [run_state_after, Option.some.injEq] at h
    subst h
    exact ⟨rfl, rfl⟩
  | succ n ih =>
    simp only [run_state_after] at h
    split_ifs at h with hpos
    cases hb : tick speed walls st0 with
    | stopped p => rw [hb] at h; simp at h
    | fell t =>
      rw [hb] at h
      simp only at h
      have h1 := ih h
      have h2 := tick_dir hb
      exact ⟨h1.1.trans h2.1, h1.2.trans h2.2⟩

theorem unit_of_abs {a b c d : K} (ha : |a| = |c|) (hb : |b| = |d|)
    (h : c * c + d * d = 1) : a * a + b * b = 1 := by
  have h1 : a * a = c * c := abs_eq_abs.mp ha |>.elim (fun e => by rw [e]) (fun e => by rw [e]; ring)
  have h2 : b * b = d * d := abs_eq_abs.mp hb |>.elim (fun e => by rw [e]) (fun e => by rw [e]; ring)
  rw [h1, h2]; exact h

/-- With an exact `hypot`, normalising a unit vector changes nothing. -/
theorem normalize_unit {hypot : K → K → K} (hx : HypotExact hypot) {x y : K}
    (h : x * x + y * y = 1) : normalize hypot x y = (x, y) := by
  have h1 : vec_len hypot x y = 1 := hx _ _ _ zero_le_one (by rw [h]; ring)
  simp [normalize, h1]

/-- With an exact `hypot`, the length of a scaled vector is the scaled length. -/
theorem vec_len_scale {hypot : K → K → K} (hx : HypotExact hypot) {x y len k : K}
    (hk : 0 ≤ k) (hl : 0 ≤ len) (hd : x * x + y * y = len * len) :
    vec_len hypot x y = len ∧ vec_len hypot (k * x) (k * y) = k * len := by
  refine ⟨hx _ _ _ hl hd, hx _ _ _ (mul_nonneg hk hl) ?_⟩
  have : k * x * (k * x) + k * y * (k * y) = k * k * (x * x + y * y) := by ring
  rw [this, hd]; ring

end Direction

end projectile_path_simulator

/-! ## `solve`: the checks in front of the greedy loop -/

namespace solution

theorem has_ones_false_iff (matrix : List (List Bool)) :
    matrix_has_ones matrix = false ↔ ∀ row ∈ matrix, ∀ v ∈ row, v = false := by
  unfold matrix_has_ones
  rw [← Bool.not_eq_true, List.any_eq_true]
  constructor
  · intro h row hrow v hv
    cases hvv : v with
    | false => rfl
    | true =>
      exfalso
      apply h
      refine ⟨row, hrow, ?_⟩
      rw [List.any_eq_true]
      exact ⟨v, hv, hvv⟩
  · rintro h ⟨row, hrow, hr⟩
    rw [List.any_eq_true] at hr
    obtain ⟨v, hv, hvv⟩ := hr
    rw [h row hrow v hv] at hvv
    cases hvv

/-- The row check of `solve` fires exactly when some row has a length other
than `n`, once the number of rows is `m`. -/
theorem row_check_iff (matrix : List (List Bool)) (n : Int) :
    (List.range matrix.length).any
        (fun i => decide (((matrix.getD i []).length : Int) ≠ n)) = true ↔
      ∃ row ∈ matrix, (row.length : Int) ≠ n := by
  rw [List.any_eq_true]
  constructor
  · rintro ⟨i, hi, h⟩
    have hi1 : i < matrix.length := List.mem_range.mp hi
    refine ⟨matrix[i], List.getElem_mem _, ?_⟩
    have e : matrix.getD i [] = matrix[i] := by
      simp [List.getD_eq_getElem?_getD, List.getElem?_eq_getElem hi1]
    rw [e] at h
    simpa using h
  · rintro ⟨row, hrow, h⟩
    obtain ⟨i, hi, e⟩ := List.getElem_of_mem hrow
    refine ⟨i, List.mem_range.mpr hi, ?_⟩
    have e1 : matrix.getD i [] = row := by
      simp [List.getD_eq_getElem?_getD, List.getElem?_eq_getElem hi, e]
    rw [e1]
    simpa using h

/-- What `solve` does with well-formed dimensions: `0` without ones, the
greedy loop with ones. -/
theorem solve_well_formed (fuel : Nat) (m n : Int) (matrix : List (List Bool))
    (hm : 1 ≤ m) (hn : 1 ≤ n) (hrows : (matrix.length : Int) = m)
    (hcols : ∀ row ∈ matrix, (row.length : Int) = n) :
    solve fuel m n matrix =
      if matrix_has_ones matrix then
        greedy_loop (all_rects m.toNat n.toNat) fuel matrix
          (List.replicate (m.toNat + 1) (List.replicate (n.toNat + 1) 0)) 0
      else some (.ok 0) := by
  have h1 : ¬(m = 0 ∨ n = 0) := by omega
  have h2 : ¬(m < 0 ∨ n < 0) := by omega
  have h3 : ¬(m ≠ (matrix.length : Int)) := by simp [hrows]
  have hmt : m.toNat = matrix.length := by omega
  have h4 : ¬((List.range m.toNat).any
      (fun i => decide (((matrix.getD i []).length : Int) ≠ n)) = true) := by
    rw [hmt, row_check_iff]
    rintro ⟨row, hrow, h⟩
    exact h (hcols row hrow)
  unfold solve
  rw [if_neg h1, if_neg h2, if_neg h3, if_neg h4]
  cases matrix_has_ones matrix <;> simp

/-- The greedy loop only counts up, and counts at least one flip when it
starts with a true cell. -/
theorem greedy_loop_counts (rects : List Rect) (fuel : Nat) (matrix : List (List Bool))
    (pref : List (List Int)) (flips k : Int)
    (h : greedy_loop rects fuel matrix pref flips = some (.ok k)) :
    flips ≤ k ∧ (matrix_has_ones matrix = true → flips + 1 ≤ k) := by
  induction fuel generalizing matrix pref flips with
  | zero =>
    unfold greedy_loop at h
    split_ifs at h with h1
    simp only [Option.some.injEq, Except.ok.injEq] at h
    subst h
    exact ⟨le_rfl, fun h2 => absurd h2 h1⟩
  | succ f ih =>
    unfold greedy_loop at h
    simp only at h
    split_ifs at h with h1 h2
    · simp at h
    · have := (ih _ _ _ h).1
      exact ⟨by omega, fun _ => this⟩
    · simp only [Option.some.injEq, Except.ok.injEq] at h
      subst h
      exact ⟨le_rfl, fun h2 => absurd h2 h1⟩

end solution

namespace projectile_path_simulator

/-! ## The batching flag along a tick -/

section Flag

variable {K : Type} [LinearOrderedField K]

theorem earliest_pass_le (cands : List (SideHit K)) {p : SideHit K} (hp : p ∈ cands)
    (hpb : p.behavior = WallBehavior.PASS_THROUGH) :
    ∃ sp, (earliest cands).2 = some sp ∧ sp ≤ p.dist := by
  unfold earliest
  rw [earliest_foldl]
  simp only
  have hmem : p.dist ∈ (cands.filter
      (fun h => decide (h.behavior = WallBehavior.PASS_THROUGH))).map (fun h => h.dist) :=
    List.mem_map.mpr ⟨p, List.mem_filter.mpr ⟨hp, by simpa using hpb⟩, rfl⟩
  cases hnp : ((cands.filter (fun h => decide (h.behavior = WallBehavior.PASS_THROUGH))).map
      (fun h => h.dist)).foldl min_upd none with
  | none =>
    have := ((foldl_min_upd_none _ _).mp hnp).2
    rw [this] at hmem
    simp at hmem
  | some sp =>
    obtain ⟨_, _, h3⟩ := foldl_min_upd_some _ _ hnp
    exact ⟨sp, rfl, h3 _ hmem⟩

/-- With the flag not set, a pass-through candidate that is more than
`eps_tie` nearer than every blocking candidate is recorded first. -/
theorem pass_recorded_first {speed : K} (hs : 0 < speed) (walls : List (Wall K))
    (ts : TickState K) (hflag : ts.recorded_pass_before_nonpass = false)
    {p c : SideHit K} (hp : p ∈ event_candidates speed walls ts)
    (hpb : p.behavior = WallBehavior.PASS_THROUGH)
    (hc : c ∈ event_candidates speed walls ts)
    (hcb : c.behavior ≠ WallBehavior.PASS_THROUGH)
    (hfar : ∀ b ∈ event_candidates speed walls ts, b.behavior ≠ WallBehavior.PASS_THROUGH →
      p.dist + eps_tie speed < b.dist) :
    ∃ snp, snp ≤ c.dist ∧ RecordsPassBefore speed walls ts snp := by
  obtain ⟨snp0, he, _, ⟨b0, hb0, hb0b, hb0d⟩, hmin⟩ := earliest_blocking _ hc hcb
  obtain ⟨sp, hsp, hsple⟩ := earliest_pass_le _ hp hpb
  have hlt : sp + eps_tie speed < snp0 := by
    have := hfar b0 hb0 hb0b
    rw [hb0d] at this
    linarith
  have hsm : event_s_min speed walls ts = some sp := by
    unfold event_s_min
    simp only
    rw [he, hsp, hflag]
    simp [resolve_s_min, hlt]
  obtain ⟨snp, hle, _, h2⟩ := batching_step hs walls ts hc hcb
  rcases h2 hflag with h | h
  · exact ⟨snp, hle, h⟩
  · exfalso
    obtain ⟨hj, ⟨b, hbh, hbb, hbd⟩, _, _⟩ := h
    rw [hsm] at hj
    have e : sp = snp := Option.some.inj hj
    have h1 := hmin b (event_hits_subset speed walls ts b hbh) hbb
    have := eps_tie_pos hs
    rw [hbd, ← e] at h1
    linarith

/-- The flag after a pass that goes on is set exactly when the pass applied no
reflection. -/
theorem flag_after_pass {speed : K} {walls : List (Wall K)} {ts ts1 : TickState K}
    (h : inner_body speed walls ts = Flow.next ts1) :
    (flags (event_hits speed walls ts)).1 = false ∧
    (ts1.recorded_pass_before_nonpass = true ↔
      (flags (event_hits speed walls ts)).2.1 = false ∧
      (flags (event_hits speed walls ts)).2.2 = false) ∧
    (ts1.run.dx = if (flags (event_hits speed walls ts)).2.1 then -ts.run.dx else ts.run.dx) ∧
    (ts1.run.dy = if (flags (event_hits speed walls ts)).2.2 then -ts.run.dy else ts.run.dy)
    := by
  obtain ⟨_, hf1, hts⟩ := inner_body_next_inv h
  have hrec : ts1.recorded_pass_before_nonpass =
      (if (flags (event_hits speed walls ts)).1 || (flags (event_hits speed walls ts)).2.1
          || (flags (event_hits speed walls ts)).2.2 then false else true) := by
    rw [hts]; rfl
  refine ⟨hf1, ?_, by rw [hts]; rfl, by rw [hts]; rfl⟩
  rw [hrec, hf1]
  cases (flags (event_hits speed walls ts)).2.1 <;>
    cases (flags (event_hits speed walls ts)).2.2 <;> simp

/-- The state at the start of pass `k + 1` is what pass `k` went on with. -/
theorem inner_state_after_last {speed : K} {walls : List (Wall K)} (k : Nat)
    {ts0 ts1 : TickState K} (h : inner_state_after speed walls (k + 1) ts0 = some ts1) :
    ∃ ts, inner_state_after speed walls k ts0 = some ts ∧ 0 < ts.remaining_in_tick ∧
      inner_body speed walls ts = Flow.next ts1 := by
  induction k generalizing ts0 with
  | zero =>
    simp only [inner_state_after] at h
    split_ifs at h with hpos
    cases hb : inner_body speed walls ts0 with
    | ret p => rw [hb] at h; simp at h
    | brk t => rw [hb] at h; simp at h
    | next t =>
      rw [hb] at h
      simp only [Option.some.injEq] at h
      subst h
      exact ⟨ts0, rfl, hpos, hb⟩
  | succ n ih =>
    rw [inner_state_after] at h
    split_ifs at h with hpos
    cases hb : inner_body speed walls ts0 with
    | ret p => rw [hb] at h; simp at h
    | brk t => rw [hb] at h; simp at h
    | next t =>
      rw [hb] at h
      simp only at h
      obtain ⟨ts, h1, h2, h3⟩ := ih h
      refine ⟨ts, ?_, h2, h3⟩
      rw [inner_state_after, if_pos hpos, hb]
      exact h1

end Flag

/-! ## The two ways to run a simulation -/

section Route

variable {K : Type} [LinearOrderedField K]

/-- The filter of `simulatePath` and the test of `add_wall` agree on every
wall whose larger extent is not exactly `1e-12`. -/
theorem add_walls_eq_ingest (sim : ProjectilePathSimulator K) (walls : List (Wall K))
    (hw : ∀ w ∈ walls, max |w.x1 - w.x2| |w.y1 - w.y2| ≠ tiny) :
    add_walls sim walls = ingest sim walls := by
  induction walls generalizing sim with
  | nil => rfl
  | cons w t ih =>
    have hw1 := hw w (List.mem_cons_self _ _)
    have ht : ∀ v ∈ t, max |v.x1 - v.x2| |v.y1 - v.y2| ≠ tiny :=
      fun v hv => hw v (List.mem_cons_of_mem _ hv)
    have h1 : add_walls sim (w :: t)
        = add_walls (sim.add_wall w.x1 w.y1 w.x2 w.y2 w.behavior) t := by
      simp [add_walls, List.foldl_cons]
    have h2 : ingest sim (w :: t) =
        ingest (if |w.x1 - w.x2| > tiny ∨ |w.y1 - w.y2| > tiny then
          sim.add_wall w.x1 w.y1 w.x2 w.y2 w.behavior else sim) t := by
      simp [ingest, List.foldl_cons]
    rw [h1, h2, ih _ ht]
    by_cases hc : |w.x1 - w.x2| > tiny ∨ |w.y1 - w.y2| > tiny
    · rw [if_pos hc]
    · rw [if_neg hc]
      push_neg at hc
      have hlt : |w.x1 - w.x2| < tiny ∧ |w.y1 - w.y2| < tiny := by
        constructor
        · rcases lt_or_eq_of_le hc.1 with h | h
          · exact h
          · exact absurd (by rw [h]; exact max_eq_left hc.2) hw1
        · rcases lt_or_eq_of_le hc.2 with h | h
          · exact h
          · exact absurd (by rw [h]; exact max_eq_right hc.1) hw1
      unfold ProjectilePathSimulator.add_wall
      rw [if_pos hlt]

/-- With an exact `hypot`, `simulate` returns the same path for a direction
and for that direction divided by its length. -/
theorem simulate_normalized [FloorRing K] {hypot : K → K → K} (hx : HypotExact hypot)
    (sim : ProjectilePathSimulator K) (sx sy : K) (direction : K × K) {len : K}
    (hl : 0 < len)
    (hd : direction.1 * direction.1 + direction.2 * direction.2 = len * len) :
    sim.simulate hypot sx sy (direction.1 / len) (direction.2 / len)
      = sim.simulate hypot sx sy direction.1 direction.2 := by
  have h1 : normalize hypot (direction.1 / len) (direction.2 / len)
      = (direction.1 / len, direction.2 / len) := normalize_unit hx (unit_of_len hl hd)
  have h2 : normalize hypot direction.1 direction.2
      = (direction.1 / len, direction.2 / len) := by
    have hL : vec_len hypot direction.1 direction.2 = len := hx _ _ _ hl.le hd
    simp [normalize, hL, ne_of_gt hl]
  unfold ProjectilePathSimulator.simulate
  rw [h1, h2]

end Route

/-! ## The two distance counters -/

section Counters

variable {K : Type} [LinearOrderedField K]

/-- What a pass through the body of the inner loop does to the two counters. -/
theorem inner_body_budget {speed : K} (hs : 0 < speed) (walls : List (Wall K))
    (ts : TickState K) (hpos : 0 < ts.remaining_in_tick) :
    match inner_body speed walls ts with
    | .ret _ => True
    | .brk t => t.remaining_in_tick = 0 ∧
        t.run.remaining_budget = ts.run.remaining_budget - ts.remaining_in_tick
    | .next t => ∃ s, event_s_min speed walls ts = some s ∧
        0 < min s ts.remaining_in_tick ∧
        t.remaining_in_tick = ts.remaining_in_tick - min s ts.remaining_in_tick ∧
        t.run.remaining_budget = ts.run.remaining_budget - min s ts.remaining_in_tick := by
  by_cases he : (event_candidates speed walls ts).isEmpty = true
  · by_cases hr : ts.remaining_in_tick ≤ eps_d speed
    · rw [inner_body_swallow speed walls ts he hr]
      simp [swallow]
    · rw [inner_body_glide speed walls ts he (not_le.mp hr)]
      simp [glide]
  · have he1 : (event_candidates speed walls ts).isEmpty = false := by simpa using he
    cases hf : (flags (event_hits speed walls ts)).1 with
    | true => rw [inner_body_stop speed walls ts he1 hf]; trivial
    | false =>
      rw [inner_body_next speed walls ts he1 hf]
      obtain ⟨s, m, hsm, _, hs1, _⟩ := event_facts hs walls ts he1
      refine ⟨s, hsm, lt_min (lt_trans (eps_d_pos hs) hs1) hpos, ?_, ?_⟩
      · rw [hsm]; rfl
      · rw [hsm]; rfl

theorem inner_state_after_budget {speed : K} (hs : 0 < speed) (walls : List (Wall K))
    (k : Nat) {ts0 ts : TickState K} (h0 : 0 ≤ ts0.remaining_in_tick)
    (h1 : ts0.remaining_in_tick ≤ ts0.run.remaining_budget)
    (h : inner_state_after speed walls k ts0 = some ts) :
    0 ≤ ts.remaining_in_tick ∧ ts.remaining_in_tick ≤ ts.run.remaining_budget ∧
    ts.run.remaining_budget ≤ ts0.run.remaining_budget ∧
    ts.run.remaining_budget - ts.remaining_in_tick
      = ts0.run.remaining_budget - ts0.remaining_in_tick := by
  induction k generalizing ts0 with
  | zero =>
    simp only [inner_state_after, Option.some.injEq] at h
    subst h
    exact ⟨h0, h1, le_rfl, rfl⟩
  | succ n ih =>
    simp only [inner_state_after] at h
    split_ifs at h with hpos
    have hb0 := inner_body_budget hs walls ts0 hpos
    cases hb : inner_body speed walls ts0 with
    | ret p => rw [hb] at h; simp at h
    | brk t => rw [hb] at h; simp at h
    | next t =>
      rw [hb] at h hb0
      simp only at h hb0
      obtain ⟨s, _, hpos1, e1, e2⟩ := hb0
      have hm : min s ts0.remaining_in_tick ≤ ts0.remaining_in_tick := min_le_right _ _
      obtain ⟨a1, a2, a3, a4⟩ := ih (by rw [e1]; linarith) (by rw [e1, e2]; linarith) h
      refine ⟨a1, a2, ?_, ?_⟩
      · rw [e2] at a3; linarith
      · rw [a4, e1, e2]; ring

theorem inner_loop_budget {speed : K} (hs : 0 < speed) (walls : List (Wall K))
    (fuel : Nat) {ts0 ts : TickState K} (h0 : 0 ≤ ts0.remaining_in_tick)
    (h1 : ts0.remaining_in_tick ≤ ts0.run.remaining_budget)
    (h : inner_loop speed walls fuel ts0 = .fell ts) :
    0 ≤ ts.remaining_in_tick ∧ ts.remaining_in_tick ≤ ts.run.remaining_budget ∧
    ts.run.remaining_budget ≤ ts0.run.remaining_budget ∧
    ts.run.remaining_budget - ts.remaining_in_tick
      = ts0.run.remaining_budget - ts0.remaining_in_tick := by
  induction fuel generalizing ts0 with
  | zero =>
    simp only [inner_loop, LoopResult.fell.injEq] at h
    subst h
    exact ⟨h0, h1, le_rfl, rfl⟩
  | succ n ih =>
    unfold inner_loop at h
    split_ifs at h with hpos
    · have hb0 := inner_body_budget hs walls ts0 hpos
      cases hb : inner_body speed walls ts0 with
      | ret p => rw [hb] at h; simp at h
      | brk t =>
        rw [hb] at h hb0
        simp only [LoopResult.fell.injEq] at h
        simp only at hb0
        subst h
        obtain ⟨e1, e2⟩ := hb0
        refine ⟨by rw [e1], by rw [e1, e2]; linarith, by rw [e2]; linarith, ?_⟩
        rw [e1, e2]; ring
      | next t =>
        rw [hb] at h hb0
        simp only at h hb0
        obtain ⟨s, _, hpos1, e1, e2⟩ := hb0
        have hm : min s ts0.remaining_in_tick ≤ ts0.remaining_in_tick := min_le_right _ _
        obtain ⟨a1, a2, a3, a4⟩ := ih (by rw [e1]; linarith) (by rw [e1, e2]; linarith) h
        refine ⟨a1, a2, ?_, ?_⟩
        · rw [e2] at a3; linarith
        · rw [a4, e1, e2]; ring
    · simp only [LoopResult.fell.injEq] at h
      subst h
      exact ⟨h0, h1, le_rfl, rfl⟩

theorem tick_budget {speed : K} (hs : 0 < speed) (walls : List (Wall K))
    {st st1 : RunState K} (hrb : 0 ≤ st.remaining_budget)
    (h : tick speed walls st = .fell st1) :
    0 ≤ st1.remaining_budget ∧ st1.remaining_budget ≤ st.remaining_budget := by
  unfold tick at h
  cases hl : inner_loop speed walls max_inner_per_tick
      { run := st, recorded_pass_before_nonpass := false,
        remaining_in_tick := min speed st.remaining_budget } with
  | stopped p => rw [hl] at h; simp at h
  | fell ts =>
    rw [hl] at h
    simp only [LoopResult.fell.injEq] at h
    subst h
    obtain ⟨a1, a2, a3, _⟩ := inner_loop_budget hs walls _ (le_min hs.le hrb)
      (min_le_right _ _) hl
    exact ⟨le_trans a1 a2, a3⟩

theorem run_state_after_budget {speed : K} (hs : 0 < speed) (walls : List (Wall K))
    (j : Nat) {st0 st : RunState K} (hrb : 0 ≤ st0.remaining_budget)
    (h : run_state_after speed walls j st0 = some st) :
    0 ≤ st.remaining_budget ∧ st.remaining_budget ≤ st0.remaining_budget := by
  induction j generalizing st0 with
  | zero =>
    simp only [run_state_after, Option.some.injEq] at h
    subst h
    exact ⟨hrb, le_rfl⟩
  | succ n ih =>
    simp only [run_state_after] at h
    split_ifs at h with hpos
    cases hb : tick speed walls st0 with
    | stopped p => rw [hb] at h; simp at h
    | fell t =>
      rw [hb] at h
      simp only at h
      have h2 := tick_budget hs walls hrb hb
      have h1 := ih h2.1 h
      exact ⟨h1.1, le_trans h1.2 h2.2⟩

/-- A tick whose inner loop ends before the cap, at the start of pass `k` or
by the `break` of pass `k`, has consumed its whole step. -/
theorem tick_ends_early {speed : K} (hs : 0 < speed) (walls : List (Wall K))
    (st : RunState K) (hrb : 0 ≤ st.remaining_budget) (k : Nat) (ts : TickState K)
    (hk : inner_state_after speed walls k
      { run := st, recorded_pass_before_nonpass := false,
        remaining_in_tick := min speed st.remaining_budget } = some ts)
    (hklt : k < max_inner_per_tick)
    (hend : ¬ 0 < ts.remaining_in_tick ∨ ∃ t, inner_body speed walls ts = Flow.brk t) :
    ∃ st1, tick speed walls st = .fell st1 ∧
      st1.remaining_budget = st.remaining_budget - min speed st.remaining_budget := by
  obtain ⟨a1, a2, _, a4⟩ := inner_state_after_budget hs walls k (le_min hs.le hrb)
    (min_le_right _ _) hk
  simp only at a4
  obtain ⟨f, hf⟩ : ∃ f, max_inner_per_tick = k + (f + 1) :=
    ⟨max_inner_per_tick - k - 1, by omega⟩
  by_cases hpos : 0 < ts.remaining_in_tick
  · rcases hend with hend | ⟨t, ht⟩
    · exact absurd hpos hend
    · have hb0 := inner_body_budget hs walls ts hpos
      rw [ht] at hb0
      simp only at hb0
      refine ⟨t.run, ?_, ?_⟩
      · unfold tick
        rw [hf, inner_loop_after _ _ k (f + 1) _ ts hk, inner_loop_succ _ _ f ts hpos, ht]
      · rw [hb0.2]; linarith
  · refine ⟨ts.run, ?_, ?_⟩
    · unfold tick
      rw [hf, inner_loop_after _ _ k (f + 1) _ ts hk]
      simp [inner_loop, hpos]
    · have : ts.remaining_in_tick = 0 := le_antisymm (not_lt.mp hpos) a1
      rw [this] at a4
      linarith

end Counters

/-! ## Reflection about the y axis -/

section Mirror

variable {K : Type} [LinearOrderedField K]

theorem scale_now_mirror (speed px py dx dy : K) :
    scale_now speed (-px) py (-dx) dy = scale_now speed px py dx dy := by
  unfold scale_now scale_for
  have e : -px + -dx * max 1 speed = -(px + dx * max 1 speed) := by ring
  rw [e, abs_neg, abs_neg]

theorem eps_face_mirror (speed px py dx dy : K) :
    eps_face speed (-px) py (-dx) dy = eps_face speed px py dx dy := by
  unfold eps_face
  rw [scale_now_mirror]

theorem maybe_add_vertical_mirror (x_side : K) (w w1 : Wall K) (sx sy dx dy D edir ef ed : K)
    (out : List (SideHit K)) (h1 : w1.y1 = w.y1) (h2 : w1.y2 = w.y2)
    (h3 : w1.behavior = w.behavior) :
    maybe_add_vertical (-x_side) w1 (-sx) sy (-dx) dy D edir ef ed (out.map SideHit.mirror)
      = (maybe_add_vertical x_side w sx sy dx dy D edir ef ed out).map SideHit.mirror := by
  unfold maybe_add_vertical
  have e : (-x_side - -sx) / -dx = (x_side - sx) / dx := by
    rw [show -x_side - -sx = -(x_side - sx) by ring, neg_div_neg_eq]
  simp only [abs_neg, e, h1, h2, h3]
  split_ifs <;> simp [SideHit.mirror]

theorem within_mirror (v lo hi eps : K) : within (-v) (-hi) (-lo) eps = within v lo hi eps := by
  unfold within
  rw [Bool.and_comm]
  congr 1
  · exact decide_eq_decide.mpr ⟨fun h => by linarith, fun h => by linarith⟩
  · exact decide_eq_decide.mpr ⟨fun h => by linarith, fun h => by linarith⟩

theorem maybe_add_horizontal_mirror (y_side : K) (w : Wall K) (sx sy dx dy D edir ef ed : K)
    (out : List (SideHit K)) :
    maybe_add_horizontal y_side w.mirror_stored (-sx) sy (-dx) dy D edir ef ed
        (out.map SideHit.mirror)
      = (maybe_add_horizontal y_side w sx sy dx dy D edir ef ed out).map SideHit.mirror := by
  unfold maybe_add_horizontal
  have e : ∀ s : K, -sx + -dx * s = -(sx + dx * s) := fun s => by ring
  simp only [e, Wall.mirror_stored, within_mirror]
  split_ifs <;> simp [SideHit.mirror]

/-- The candidates of one wall, face by face. -/
theorem wall_candidates_faces (speed px py dx dy D : K) (w : Wall K) :
    wall_candidates speed px py dx dy D [] w =
      (if |w.x1 - w.x2| ≤ tiny then
        maybe_add_vertical w.x1 w px py dx dy D eps_dir (eps_face speed px py dx dy)
          (eps_d speed) []
      else
        maybe_add_vertical w.x1 w px py dx dy D eps_dir (eps_face speed px py dx dy)
            (eps_d speed) [] ++
          maybe_add_vertical w.x2 w px py dx dy D eps_dir (eps_face speed px py dx dy)
            (eps_d speed) []) ++
      (if |w.y1 - w.y2| ≤ tiny then
        maybe_add_horizontal w.y1 w px py dx dy D eps_dir (eps_face speed px py dx dy)
          (eps_d speed) []
      else
        maybe_add_horizontal w.y1 w px py dx dy D eps_dir (eps_face speed px py dx dy)
            (eps_d speed) [] ++
          maybe_add_horizontal w.y2 w px py dx dy D eps_dir (eps_face speed px py dx dy)
            (eps_d speed) []) := by
  unfold wall_candidates
  simp only
  by_cases hx : |w.x1 - w.x2| ≤ tiny
  · by_cases hy : |w.y1 - w.y2| ≤ tiny
    · rw [if_pos hx, if_pos hy, if_pos hx, if_pos hy, maybe_add_horizontal_append]
    · rw [if_pos hx, if_neg hy, if_pos hx, if_neg hy, maybe_add_horizontal_append,
        maybe_add_horizontal_append _ _ _ _ _ _ _ _ _ _
          (maybe_add_vertical _ _ _ _ _ _ _ _ _ _ []),
        List.append_assoc]
  · by_cases hy : |w.y1 - w.y2| ≤ tiny
    · rw [if_neg hx, if_pos hy, if_neg hx, if_pos hy, maybe_add_horizontal_append,
        maybe_add_vertical_append]
    · rw [if_neg hx, if_neg hy, if_neg hx, if_neg hy, maybe_add_horizontal_append,
        maybe_add_horizontal_append _ _ _ _ _ _ _ _ _ _
          (maybe_add_vertical _ _ _ _ _ _ _ _ _ _ (maybe_add_vertical _ _ _ _ _ _ _ _ _ _ [])),
        maybe_add_vertical_append, List.append_assoc]

/-- The candidates of the reflected wall for the reflected ray are those of
the wall reflected, the two vertical faces in the other order. -/
theorem wall_candidates_mirror (speed px py dx dy D : K) (w : Wall K) (hw : w.plain_width) :
    (wall_candidates speed (-px) py (-dx) dy D [] w.mirror_stored).Perm
      ((wall_candidates speed px py dx dy D [] w).map SideHit.mirror) := by
  have hv : ∀ x : K,
      maybe_add_vertical (-x) w.mirror_stored (-px) py (-dx) dy D eps_dir
          (eps_face speed px py dx dy) (eps_d speed) []
        = (maybe_add_vertical x w px py dx dy D eps_dir (eps_face speed px py dx dy)
            (eps_d speed) []).map SideHit.mirror :=
    fun x => maybe_add_vertical_mirror x w w.mirror_stored px py dx dy D _ _ _ [] rfl rfl rfl
  have hh : ∀ y : K,
      maybe_add_horizontal y w.mirror_stored (-px) py (-dx) dy D eps_dir
          (eps_face speed px py dx dy) (eps_d speed) []
        = (maybe_add_horizontal y w px py dx dy D eps_dir (eps_face speed px py dx dy)
            (eps_d speed) []).map SideHit.mirror :=
    fun y => maybe_add_horizontal_mirror y w px py dx dy D _ _ _ []
  have ex : |w.mirror_stored.x1 - w.mirror_stored.x2| = |w.x1 - w.x2| := by
    show |-w.x2 - -w.x1| = |w.x1 - w.x2|
    rw [show -w.x2 - -w.x1 = w.x1 - w.x2 by ring]
  have e1 : w.mirror_stored.x1 = -w.x2 := rfl
  have e2 : w.mirror_stored.x2 = -w.x1 := rfl
  have e3 : w.mirror_stored.y1 = w.y1 := rfl
  have e4 : w.mirror_stored.y2 = w.y2 := rfl
  rw [wall_candidates_faces, wall_candidates_faces, eps_face_mirror, ex, e1, e2, e3, e4]
  simp only [hv, hh]
  rw [List.map_append]
  apply List.Perm.append
  · by_cases ht : |w.x1 - w.x2| ≤ tiny
    · rw [if_pos ht, if_pos ht]
      rcases hw with h | h
      · rw [h]
      · exact absurd h (not_lt.mpr ht)
    · rw [if_neg ht, if_neg ht, List.map_append]
      exact List.perm_append_comm
  · split_ifs <;> simp

theorem gather_mirror (speed : K) (walls : List (Wall K)) (hw : ∀ w ∈ walls, w.plain_width)
    (px py dx dy D : K) :
    (gather speed (walls.map Wall.mirror_stored) (-px) py (-dx) dy D).Perm
      ((gather speed walls px py dx dy D).map SideHit.mirror) := by
  rw [gather_eq_flatMap, gather_eq_flatMap]
  induction walls with
  | nil => simp
  | cons w t ih =>
    simp only [List.map_cons, List.flatMap_cons, List.map_append]
    exact List.Perm.append (wall_candidates_mirror speed px py dx dy D w
      (hw w (List.mem_cons_self _ _))) (ih (fun v hv => hw v (List.mem_cons_of_mem _ hv)))

theorem earliest_mirror (c : List (SideHit K)) : earliest (c.map SideHit.mirror) = earliest c := by
  unfold earliest
  rw [List.foldl_map]
  rfl

theorem flags_mirror (c : List (SideHit K)) : flags (c.map SideHit.mirror) = flags c := by
  unfold flags
  rw [List.foldl_map]
  rfl

theorem collect_hits_mirror (c : List (SideHit K)) (s : Option K) (e : K) :
    collect_hits (c.map SideHit.mirror) s e = (collect_hits c s e).map SideHit.mirror := by
  cases s with
  | none => rfl
  | some v =>
    simp only [collect_hits, List.filter_map]
    rfl

theorem impact_mirror (hits : List (SideHit K)) :
    impact (hits.map SideHit.mirror) = mirror_point (impact hits) := by
  unfold impact mirror_point
  rw [foldl_add_eq_sum, foldl_add_eq_sum, foldl_add_eq_sum, foldl_add_eq_sum]
  simp only [List.map_map, List.length_map, zero_add]
  have e1 : (hits.map ((fun h : SideHit K => h.x) ∘ SideHit.mirror)).sum
      = -(hits.map (fun h : SideHit K => h.x)).sum := by
    induction hits with
    | nil => simp
    | cons h t ih =>
      simp only [List.map_cons, List.sum_cons, ih, Function.comp]
      simp only [SideHit.mirror]
      ring
  have e2 : (hits.map ((fun h : SideHit K => h.y) ∘ SideHit.mirror))
      = hits.map (fun h : SideHit K => h.y) := rfl
  rw [e1, e2, neg_div]

end Mirror

section MirrorRun

variable {K : Type} [LinearOrderedField K]

theorem event_candidates_mirror (speed : K) (walls : List (Wall K))
    (hw : ∀ w ∈ walls, w.plain_width) (ts : TickState K) :
    (event_candidates speed (walls.map Wall.mirror_stored) ts.mirror).Perm
      ((event_candidates speed walls ts).map SideHit.mirror) :=
  gather_mirror speed walls hw _ _ _ _ _

theorem event_s_min_mirror (speed : K) (walls : List (Wall K))
    (hw : ∀ w ∈ walls, w.plain_width) (ts : TickState K) :
    event_s_min speed (walls.map Wall.mirror_stored) ts.mirror = event_s_min speed walls ts := by
  unfold event_s_min
  rw [earliest_perm (event_candidates_mirror speed walls hw ts), earliest_mirror]
  rfl

theorem event_hits_mirror (speed : K) (walls : List (Wall K))
    (hw : ∀ w ∈ walls, w.plain_width) (ts : TickState K) :
    (event_hits speed (walls.map Wall.mirror_stored) ts.mirror).Perm
      ((event_hits speed walls ts).map SideHit.mirror) := by
  unfold event_hits
  rw [event_s_min_mirror speed walls hw, ← collect_hits_mirror]
  cases event_s_min speed walls ts with
  | none => simp [collect_hits]
  | some s => exact (event_candidates_mirror speed walls hw ts).filter _

/-- One pass through the inner loop for the reflected walls from the reflected
state is the reflection of the pass for the walls from the state. -/
theorem inner_body_mirror (speed : K) (walls : List (Wall K))
    (hw : ∀ w ∈ walls, w.plain_width) (ts : TickState K) :
    inner_body speed (walls.map Wall.mirror_stored) ts.mirror
      = (inner_body speed walls ts).mirror := by
  have hc := event_candidates_mirror speed walls hw ts
  have he : (event_candidates speed (walls.map Wall.mirror_stored) ts.mirror).isEmpty
      = (event_candidates speed walls ts).isEmpty := by
    have hl := hc.length_eq
    rw [List.length_map] at hl
    cases h1 : event_candidates speed (walls.map Wall.mirror_stored) ts.mirror <;>
      cases h2 : event_candidates speed walls ts <;> simp [h1, h2] at hl ⊢
  have hs := event_s_min_mirror speed walls hw ts
  have hh := event_hits_mirror speed walls hw ts
  have hi : impact (event_hits speed (walls.map Wall.mirror_stored) ts.mirror)
      = mirror_point (impact (event_hits speed walls ts)) := by
    rw [impact_perm hh, impact_mirror]
  have hf : flags (event_hits speed (walls.map Wall.mirror_stored) ts.mirror)
      = flags (event_hits speed walls ts) := by
    rw [flags_perm hh, flags_mirror]
  unfold inner_body
  simp only
  rw [he, hs, hi, hf]
  by_cases hemp : (event_candidates speed walls ts).isEmpty = true
  · rw [if_pos hemp, if_pos hemp]
    by_cases hsw : ts.remaining_in_tick ≤ eps_d speed
    · have hsw1 : ts.mirror.remaining_in_tick ≤ eps_d speed := hsw
      rw [if_pos hsw, if_pos hsw1]
      rfl
    · have hsw1 : ¬ ts.mirror.remaining_in_tick ≤ eps_d speed := hsw
      rw [if_neg hsw, if_neg hsw1]
      simp only [Flow.mirror, TickState.mirror, RunState.mirror, Flow.brk.injEq,
        TickState.mk.injEq, RunState.mk.injEq, and_true, true_and]
      ring
  · rw [if_neg hemp, if_neg hemp]
    by_cases hstop : (flags (event_hits speed walls ts)).1 = true
    · rw [if_pos hstop, if_pos hstop]
      simp [Flow.mirror, TickState.mirror, RunState.mirror, mirror_path]
    · rw [if_neg hstop, if_neg hstop]
      simp only [Flow.mirror, TickState.mirror, RunState.mirror, mirror_path, mirror_point,
        Flow.next.injEq, TickState.mk.injEq, RunState.mk.injEq, List.map_append, List.map_cons,
        List.map_nil, and_true, true_and]
      refine ⟨?_, ?_⟩
      · split_ifs <;> ring
      · split_ifs <;> ring

theorem inner_loop_mirror (speed : K) (walls : List (Wall K))
    (hw : ∀ w ∈ walls, w.plain_width) (fuel : Nat) (ts : TickState K) :
    inner_loop speed (walls.map Wall.mirror_stored) fuel ts.mirror
      = (inner_loop speed walls fuel ts).mirror TickState.mirror := by
  induction fuel generalizing ts with
  | zero => rfl
  | succ f ih =>
    unfold inner_loop
    rw [inner_body_mirror speed walls hw]
    have e : ts.mirror.remaining_in_tick = ts.remaining_in_tick := rfl
    rw [e]
    split_ifs
    · cases inner_body speed walls ts with
      | ret p => rfl
      | brk t1 => rfl
      | next t1 => exact ih t1
    · rfl

theorem tick_mirror (speed : K) (walls : List (Wall K)) (hw : ∀ w ∈ walls, w.plain_width)
    (st : RunState K) :
    tick speed (walls.map Wall.mirror_stored) st.mirror
      = (tick speed walls st).mirror RunState.mirror := by
  unfold tick
  have e : ({ run := st.mirror, recorded_pass_before_nonpass := false,
              remaining_in_tick := min speed st.mirror.remaining_budget } : TickState K)
      = TickState.mirror { run := st, recorded_pass_before_nonpass := false,
                           remaining_in_tick := min speed st.remaining_budget } := rfl
  rw [e, inner_loop_mirror speed walls hw]
  cases inner_loop speed walls max_inner_per_tick
      { run := st, recorded_pass_before_nonpass := false,
        remaining_in_tick := min speed st.remaining_budget } with
  | stopped p => rfl
  | fell t => rfl

theorem outer_loop_mirror (speed : K) (walls : List (Wall K))
    (hw : ∀ w ∈ walls, w.plain_width) (fuel : Nat) (st : RunState K) :
    outer_loop speed (walls.map Wall.mirror_stored) fuel st.mirror
      = (outer_loop speed walls fuel st).mirror RunState.mirror := by
  induction fuel generalizing st with
  | zero => rfl
  | succ f ih =>
    unfold outer_loop
    rw [tick_mirror speed walls hw]
    have e : st.mirror.remaining_budget = st.remaining_budget := rfl
    rw [e]
    split_ifs
    · cases tick speed walls st with
      | stopped p => rfl
      | fell s1 => exact ih s1
    · rfl

theorem eps_out_mirror (speed px py : K) : eps_out speed (-px) py = eps_out speed px py := by
  unfold eps_out scale_for
  rw [abs_neg]

theorem finish_mirror (speed : K) (st : RunState K) :
    finish speed st.mirror = mirror_path (finish speed st) := by
  unfold finish
  have e1 : st.mirror.path.getLast? = st.path.getLast?.map mirror_point := by
    show (st.path.map mirror_point).getLast? = _
    rw [List.getLast?_map]
  rw [e1]
  cases hl : st.path.getLast? with
  | none => simp [RunState.mirror, mirror_path, mirror_point]
  | some b =>
    simp only [Option.map_some']
    have e2 : st.mirror.px = -st.px := rfl
    have e3 : st.mirror.py = st.py := rfl
    have e4 : (mirror_point b).1 = -b.1 := rfl
    have e5 : (mirror_point b).2 = b.2 := rfl
    have e6 : |-st.px - -b.1| = |st.px - b.1| := by
      rw [show -st.px - -b.1 = -(st.px - b.1) by ring, abs_neg]
    rw [e2, e3, e4, e5, e6, eps_out_mirror]
    split_ifs <;> simp [RunState.mirror, mirror_path, mirror_point]

theorem normalize_mirror {hypot : K → K → K} (hsym : ∀ x y, hypot (-x) y = hypot x y)
    (x y : K) : normalize hypot (-x) y = mirror_point (normalize hypot x y) := by
  unfold normalize vec_len
  simp only [hsym]
  split_ifs
  · rfl
  · simp [mirror_point, neg_div]

theorem plain_width_normalized {w : Wall K} (h : w.plain_width) : w.normalized.plain_width := by
  unfold Wall.plain_width Wall.normalized at *
  simp only
  rcases le_total w.x1 w.x2 with h1 | h1
  · rw [min_eq_left h1, max_eq_right h1]
    exact h
  · rw [min_eq_right h1, max_eq_left h1]
    rcases h with h | h
    · exact Or.inl h.symm
    · right
      rw [abs_sub_comm]
      exact h

theorem normalized_mirror (w : Wall K) : w.mirror.normalized = w.normalized.mirror_stored := by
  unfold Wall.mirror Wall.normalized Wall.mirror_stored
  simp only [min_neg_neg, max_neg_neg]

/-- The walls stored for the reflected input are the reflections of the walls
stored for the input. -/
theorem ingest_mirror (speed budget : K) (walls : List (Wall K)) :
    (ingest { speed_ := speed, distance_budget_ := budget, walls_ := [] }
        (walls.map Wall.mirror)).walls_
      = (ingest { speed_ := speed, distance_budget_ := budget, walls_ := [] } walls).walls_.map
          Wall.mirror_stored := by
  rw [ingest_walls, ingest_walls]
  simp only [List.nil_append, List.filter_map, List.map_map]
  have e : ((fun w : Wall K => decide (|w.x1 - w.x2| > tiny ∨ |w.y1 - w.y2| > tiny)) ∘
      Wall.mirror) = (fun w : Wall K => decide (|w.x1 - w.x2| > tiny ∨ |w.y1 - w.y2| > tiny)) := by
    funext w
    show decide (|-w.x1 - -w.x2| > tiny ∨ |w.y1 - w.y2| > tiny) = _
    rw [show -w.x1 - -w.x2 = -(w.x1 - w.x2) by ring, abs_neg]
  rw [e]
  apply List.map_congr_left
  intro w _
  exact normalized_mirror w

variable [FloorRing K]

/-- The method `simulate` of an object with the reflected walls, called with
the reflected start and direction, returns the reflected path. -/
theorem simulate_mirror {hypot : K → K → K} (hsym : ∀ x y, hypot (-x) y = hypot x y)
    (sim sim1 : ProjectilePathSimulator K) (h1 : sim1.speed_ = sim.speed_)
    (h2 : sim1.distance_budget_ = sim.distance_budget_)
    (h3 : sim1.walls_ = sim.walls_.map Wall.mirror_stored)
    (hw : ∀ w ∈ sim.walls_, w.plain_width) (sx sy ux uy : K) :
    sim1.simulate hypot (-sx) sy (-ux) uy = mirror_path (sim.simulate hypot sx sy ux uy) := by
  unfold ProjectilePathSimulator.simulate
  simp only
  rw [h1, h2, h3, normalize_mirror hsym]
  have e : ({ path := [(-sx, sy)], px := -sx, py := sy,
              dx := (mirror_point (normalize hypot ux uy)).1,
              dy := (mirror_point (normalize hypot ux uy)).2,
              remaining_budget := sim.distance_budget_ } : RunState K)
      = RunState.mirror { path := [(sx, sy)], px := sx, py := sy,
                          dx := (normalize hypot ux uy).1, dy := (normalize hypot ux uy).2,
                          remaining_budget := sim.distance_budget_ } := rfl
  rw [e, outer_loop_mirror sim.speed_ sim.walls_ hw]
  cases outer_loop sim.speed_ sim.walls_ (max_outer sim.speed_ sim.distance_budget_).toNat
      { path := [(sx, sy)], px := sx, py := sy,
        dx := (normalize hypot ux uy).1, dy := (normalize hypot ux uy).2,
        remaining_budget := sim.distance_budget_ } with
  | stopped p => rfl
  | fell s => exact finish_mirror _ s

end MirrorRun

end projectile_path_simulator

/-! ## The greedy loop of `solve` -/

namespace solution

/-! ### Reading and writing cells -/

theorem getD_set {α : Type} (l : List α) (i j : Nat) (a d : α) :
    (l.set i a).getD j d = if i = j ∧ i < l.length then a else l.getD j d := by
  simp only [List.getD_eq_getElem?_getD, List.getElem?_set]
  by_cases h : i = j
  · subst h
    by_cases h2 : i < l.length
    · simp [h2]
    · simp [h2, List.getElem?_eq_none (not_lt.mp h2)]
  · simp [h]

theorem getD_mem {α : Type} (l : List α) (i : Nat) (d : α) (h : i < l.length) :
    l.getD i d ∈ l := by
  rw [List.getD_eq_getElem?_getD, List.getElem?_eq_getElem h]
  exact List.getElem_mem _

theorem mem_set {α : Type} (l : List α) (i : Nat) (a x : α) (h : x ∈ l.set i a) :
    x = a ∨ x ∈ l := by
  rcases List.mem_or_eq_of_mem_set h with h1 | h1
  · exact Or.inr h1
  · exact Or.inl h1

theorem cell_eq_false_of_row {m n : Nat} {matrix : List (List Bool)}
    (h : WellFormed m n matrix) {r c : Nat} (hr : m ≤ r ∨ n ≤ c) : cell matrix r c = false := by
  unfold cell
  rcases hr with hr | hc
  · have : matrix.getD r [] = [] := by
      rw [List.getD_eq_getElem?_getD, List.getElem?_eq_none (by rw [h.1]; exact hr)]
      rfl
    rw [this]; rfl
  · by_cases hr : r < matrix.length
    · have hl := h.2 _ (getD_mem matrix r [] hr)
      rw [List.getD_eq_getElem?_getD (matrix.getD r []),
        List.getElem?_eq_none (by rw [hl]; exact hc)]
      rfl
    · have : matrix.getD r [] = [] := by
        rw [List.getD_eq_getElem?_getD, List.getElem?_eq_none (not_lt.mp hr)]
        rfl
      rw [this]; rfl

theorem flip_cell_wf {m n : Nat} {matrix : List (List Bool)} (h : WellFormed m n matrix)
    (r c : Nat) : WellFormed m n (flip_cell matrix r c) := by
  unfold flip_cell
  by_cases hr : r < matrix.length
  · refine ⟨by rw [List.length_set]; exact h.1, ?_⟩
    intro row hrow
    rcases mem_set _ _ _ _ hrow with h1 | h1
    · rw [h1, List.length_set]
      exact h.2 _ (getD_mem matrix r [] hr)
    · exact h.2 _ h1
  · rw [List.set_eq_of_length_le (not_lt.mp hr)]
    exact h

/-- Toggling a cell of the grid changes that cell and no other. -/
theorem cell_flip_cell {m n : Nat} {matrix : List (List Bool)} (h : WellFormed m n matrix)
    {r c : Nat} (hr : r < m) (hc : c < n) (r1 c1 : Nat) :
    cell (flip_cell matrix r c) r1 c1 =
      if r1 = r ∧ c1 = c then !cell matrix r c else cell matrix r1 c1 := by
  have hrl : r < matrix.length := by rw [h.1]; exact hr
  have hcl : c < (matrix.getD r []).length := by
    rw [h.2 _ (getD_mem matrix r [] hrl)]; exact hc
  unfold flip_cell
  show ((matrix.set r ((matrix.getD r []).set c (!cell matrix r c))).getD r1 []).getD c1 false = _
  rw [getD_set]
  by_cases h1 : r = r1
  · subst h1
    rw [if_pos ⟨rfl, hrl⟩, getD_set]
    by_cases h2 : c = c1
    · subst h2
      rw [if_pos ⟨rfl, hcl⟩, if_pos ⟨rfl, rfl⟩]
    · rw [if_neg (fun hh => h2 hh.1), if_neg (fun hh => h2 hh.2.symm)]
      rfl
  · rw [if_neg (fun hh => h1 hh.1), if_neg (fun hh => h1 hh.1.symm)]
    rfl

/-- The inner loop of a flip: the cells of row `r` in the columns `cs`. -/
theorem flip_cols {m n : Nat} (r : Nat) (hr : r < m) (cs : List Nat) (hnd : cs.Nodup)
    (hcs : ∀ c ∈ cs, c < n) (matrix : List (List Bool)) (h : WellFormed m n matrix) :
    WellFormed m n (cs.foldl (fun mat1 c => flip_cell mat1 r c) matrix) ∧
    ∀ r1 c1, cell (cs.foldl (fun mat1 c => flip_cell mat1 r c) matrix) r1 c1 =
      if r1 = r ∧ c1 ∈ cs then !cell matrix r1 c1 else cell matrix r1 c1 := by
  induction cs generalizing matrix with
  | nil => exact ⟨h, fun r1 c1 => by simp⟩
  | cons c t ih =>
    rw [List.nodup_cons] at hnd
    have hc : c < n := hcs c (List.mem_cons_self _ _)
    have hwf := flip_cell_wf h r c
    obtain ⟨i1, i2⟩ := ih hnd.2 (fun x hx => hcs x (List.mem_cons_of_mem _ hx)) _ hwf
    rw [List.foldl_cons]
    refine ⟨i1, ?_⟩
    intro r1 c1
    rw [i2, cell_flip_cell h hr hc]
    by_cases hr1 : r1 = r
    · subst hr1
      by_cases hc1 : c1 = c
      · subst hc1
        simp [hnd.1]
      · by_cases hc2 : c1 ∈ t
        · simp [hc1, hc2]
        · simp [hc1, hc2]
    · simp [hr1]

/-- The two loops of a flip: the cells in the rows `rs` and the columns `cs`. -/
theorem flip_rows {m n : Nat} (rs : List Nat) (hrnd : rs.Nodup) (hrs : ∀ r ∈ rs, r < m)
    (cs : List Nat) (hnd : cs.Nodup) (hcs : ∀ c ∈ cs, c < n)
    (matrix : List (List Bool)) (h : WellFormed m n matrix) :
    WellFormed m n
      (rs.foldl (fun mat r => cs.foldl (fun mat1 c => flip_cell mat1 r c) mat) matrix) ∧
    ∀ r1 c1,
      cell (rs.foldl (fun mat r => cs.foldl (fun mat1 c => flip_cell mat1 r c) mat) matrix)
          r1 c1 =
        if r1 ∈ rs ∧ c1 ∈ cs then !cell matrix r1 c1 else cell matrix r1 c1 := by
  induction rs generalizing matrix with
  | nil => exact ⟨h, fun r1 c1 => by simp⟩
  | cons r t ih =>
    rw [List.nodup_cons] at hrnd
    have hr : r < m := hrs r (List.mem_cons_self _ _)
    obtain ⟨w1, w2⟩ := flip_cols r hr cs hnd hcs matrix h
    obtain ⟨i1, i2⟩ := ih hrnd.2 (fun x hx => hrs x (List.mem_cons_of_mem _ hx)) _ w1
    rw [List.foldl_cons]
    refine ⟨i1, ?_⟩
    intro r1 c1
    rw [i2, w2]
    by_cases hr1 : r1 = r
    · subst hr1
      by_cases hc1 : c1 ∈ cs
      · simp [hrnd.1, hc1]
      · simp [hc1]
    · by_cases hr2 : r1 ∈ t
      · by_cases hc1 : c1 ∈ cs
        · simp [hr1, hr2, hc1]
        · simp [hc1]
      · simp [hr1, hr2]

/-- A flip of a rectangle of the grid toggles exactly the cells it covers. -/
theorem cell_flip_rect {m n : Nat} {matrix : List (List Bool)} (h : WellFormed m n matrix)
    {rect : Rect} (hin : rect.inside m n) :
    WellFormed m n (flip_rect matrix rect) ∧
    ∀ r c, cell (flip_rect matrix rect) r c =
      if rect.covers r c then !cell matrix r c else cell matrix r c := by
  obtain ⟨h1, h2, h3, h4⟩ := hin
  have hrs : ∀ r ∈ List.range' rect.r1 (rect.r2 + 1 - rect.r1), r < m := by
    intro r hr
    have := List.mem_range'_1.mp hr
    omega
  have hcs : ∀ c ∈ List.range' rect.c1 (rect.c2 + 1 - rect.c1), c < n := by
    intro c hc
    have := List.mem_range'_1.mp hc
    omega
  obtain ⟨w1, w2⟩ := flip_rows _ (List.nodup_range' _ _) hrs _ (List.nodup_range' _ _) hcs
    matrix h
  refine ⟨w1, ?_⟩
  intro r c
  unfold flip_rect
  rw [w2]
  have e : (r ∈ List.range' rect.r1 (rect.r2 + 1 - rect.r1) ∧
      c ∈ List.range' rect.c1 (rect.c2 + 1 - rect.c1)) ↔ rect.covers r c := by
    rw [List.mem_range'_1, List.mem_range'_1]
    unfold Rect.covers
    constructor
    · rintro ⟨⟨a, b⟩, c1, d⟩
      exact ⟨a, by omega, c1, by omega⟩
    · rintro ⟨a, b, c1, d⟩
      exact ⟨⟨a, by omega⟩, c1, by omega⟩
  by_cases hc : rect.covers r c
  · rw [if_pos (e.mpr hc), if_pos hc]
  · rw [if_neg (fun hh => hc (e.mp hh)), if_neg hc]

/-! ### The matrix as a binary number -/

theorem binary_lt (f : Nat → Bool) (k : Nat) : binary f k < 2 ^ k := by
  induction k with
  | zero => simp [binary]
  | succ k ih =>
    simp only [binary]
    have : (if f k then 1 else 0) ≤ 1 := by split <;> omega
    rw [pow_succ]
    omega

theorem binary_congr (f g : Nat → Bool) (k : Nat) (h : ∀ i < k, f i = g i) :
    binary f k = binary g k := by
  induction k with
  | zero => rfl
  | succ k ih =>
    simp only [binary]
    rw [ih (fun i hi => h i (by omega)), h k (by omega)]

/-- Two bit strings that agree up to a bit that is `1` in the first and `0`
in the second: the second is the smaller number. -/
theorem binary_drop (f g : Nat → Bool) (k0 k : Nat) (hk : k0 < k)
    (h : ∀ i < k0, f i = g i) (hf : f k0 = true) (hg : g k0 = false) :
    binary g k < binary f k := by
  induction k with
  | zero => omega
  | succ k ih =>
    simp only [binary]
    by_cases hk1 : k0 = k
    · subst hk1
      rw [binary_congr f g k0 h, hf, hg]
      simp
    · have := ih (by omega)
      have h1 : (if g k then 1 else 0) ≤ 1 := by split <;> omega
      omega

theorem binary_pos (f : Nat → Bool) (k0 k : Nat) (hk : k0 < k) (hf : f k0 = true) :
    0 < binary f k := by
  induction k with
  | zero => omega
  | succ k ih =>
    simp only [binary]
    by_cases hk1 : k0 = k
    · subst hk1
      rw [hf]
      simp
    · have := ih (by omega)
      omega

/-- A flip of a rectangle whose top-left cell is true lowers the matrix as a
binary number. -/
theorem code_flip_rect {m n : Nat} {matrix : List (List Bool)} (h : WellFormed m n matrix)
    {rect : Rect} (hin : rect.inside m n) (htl : cell matrix rect.r1 rect.c1 = true) :
    code m n (flip_rect matrix rect) < code m n matrix := by
  obtain ⟨_, hcell⟩ := cell_flip_rect h hin
  obtain ⟨h1, h2, h3, h4⟩ := hin
  have hn : 0 < n := by omega
  unfold code
  apply binary_drop _ _ (rect.r1 * n + rect.c1)
  · calc rect.r1 * n + rect.c1 < rect.r1 * n + n := by omega
      _ = (rect.r1 + 1) * n := by ring
      _ ≤ m * n := Nat.mul_le_mul_right n (by omega)
  · intro i hi
    show cell matrix (i / n) (i % n) = cell (flip_rect matrix rect) (i / n) (i % n)
    rw [hcell]
    have hnc : ¬ rect.covers (i / n) (i % n) := by
      rintro ⟨a, _, c, _⟩
      have := Nat.div_add_mod i n
      have : rect.r1 * n ≤ (i / n) * n := Nat.mul_le_mul_right n a
      have e : n * (i / n) = (i / n) * n := Nat.mul_comm _ _
      omega
    rw [if_neg hnc]
  · show cell matrix ((rect.r1 * n + rect.c1) / n) ((rect.r1 * n + rect.c1) % n) = true
    have e1 : (rect.r1 * n + rect.c1) / n = rect.r1 := by
      rw [Nat.mul_comm, Nat.mul_add_div hn, Nat.div_eq_of_lt (by omega)]
      rfl
    have e2 : (rect.r1 * n + rect.c1) % n = rect.c1 := by
      rw [Nat.mul_comm, Nat.mul_add_mod, Nat.mod_eq_of_lt (by omega)]
    rw [e1, e2]
    exact htl
  · show cell (flip_rect matrix rect) ((rect.r1 * n + rect.c1) / n)
      ((rect.r1 * n + rect.c1) % n) = false
    have e1 : (rect.r1 * n + rect.c1) / n = rect.r1 := by
      rw [Nat.mul_comm, Nat.mul_add_div hn, Nat.div_eq_of_lt (by omega)]
      rfl
    have e2 : (rect.r1 * n + rect.c1) % n = rect.c1 := by
      rw [Nat.mul_comm, Nat.mul_add_mod, Nat.mod_eq_of_lt (by omega)]
    rw [e1, e2, hcell, if_pos ⟨le_rfl, h1, le_rfl, h3⟩, htl]
    rfl

end solution

namespace solution

/-! ### The table of prefix sums -/

theorem pref_put_shape {m n : Nat} {pref : List (List Int)} (h : PrefShape m n pref)
    (i j : Nat) (v : Int) : PrefShape m n (pref_put pref i j v) := by
  unfold pref_put
  by_cases hi : i < pref.length
  · refine ⟨by rw [List.length_set]; exact h.1, ?_⟩
    intro row hrow
    rcases mem_set _ _ _ _ hrow with h1 | h1
    · rw [h1, List.length_set]
      exact h.2 _ (getD_mem pref i [] hi)
    · exact h.2 _ h1
  · rw [List.set_eq_of_length_le (not_lt.mp hi)]
    exact h

theorem pref_at_put {m n : Nat} {pref : List (List Int)} (h : PrefShape m n pref)
    {i j : Nat} (hi : i ≤ m) (hj : j ≤ n) (v : Int) (a b : Nat) :
    pref_at (pref_put pref i j v) a b = if a = i ∧ b = j then v else pref_at pref a b := by
  have hil : i < pref.length := by rw [h.1]; omega
  have hjl : j < (pref.getD i []).length := by
    rw [h.2 _ (getD_mem pref i [] hil)]; omega
  unfold pref_put
  show ((pref.set i ((pref.getD i []).set j v)).getD a []).getD b 0 = _
  rw [getD_set]
  by_cases h1 : i = a
  · subst h1
    rw [if_pos ⟨rfl, hil⟩, getD_set]
    by_cases h2 : j = b
    · subst h2
      rw [if_pos ⟨rfl, hjl⟩, if_pos ⟨rfl, rfl⟩]
    · rw [if_neg (fun hh => h2 hh.1), if_neg (fun hh => h2 hh.2.symm)]
      rfl
  · rw [if_neg (fun hh => h1 hh.1), if_neg (fun hh => h1 hh.1.symm)]
    rfl

/-- The inner loop of `build_pref` after the columns below `j` of row `i`. -/
theorem build_pref_cols {m n : Nat} (matrix : List (List Bool)) {i : Nat} (hi : i < m)
    (pref : List (List Int)) (h : PrefShape m n pref) (j : Nat) (hj : j ≤ n) :
    ((List.range j).foldl (build_pref_step matrix i) (0, pref)).1
      = (∑ c in Finset.range j, if cell matrix i c then (1 : Int) else 0) ∧
    PrefShape m n ((List.range j).foldl (build_pref_step matrix i) (0, pref)).2 ∧
    ∀ a b, pref_at ((List.range j).foldl (build_pref_step matrix i) (0, pref)).2 a b =
      if a = i + 1 ∧ 1 ≤ b ∧ b ≤ j then
        pref_at pref i b + ∑ c in Finset.range b, if cell matrix i c then (1 : Int) else 0
      else pref_at pref a b := by
  induction j with
  | zero =>
    refine ⟨by simp, h, ?_⟩
    intro a b
    have : ¬(a = i + 1 ∧ 1 ≤ b ∧ b ≤ 0) := by omega
    rw [if_neg this]
    rfl
  | succ j ih =>
    obtain ⟨e1, e2, e3⟩ := ih (by omega)
    rw [List.range_succ, List.foldl_append]
    simp only [List.foldl_cons, List.foldl_nil, build_pref_step]
    refine ⟨?_, pref_put_shape e2 _ _ _, ?_⟩
    · rw [e1, Finset.sum_range_succ]
    · intro a b
      rw [pref_at_put e2 (by omega) (by omega), e1, e3 i (j + 1)]
      have hne : ¬(i = i + 1 ∧ 1 ≤ j + 1 ∧ j + 1 ≤ j) := by omega
      rw [if_neg hne]
      by_cases hab : a = i + 1 ∧ b = j + 1
      · obtain ⟨ha, hb⟩ := hab
        subst ha hb
        rw [if_pos (show i + 1 = i + 1 ∧ j + 1 = j + 1 from ⟨rfl, rfl⟩),
          if_pos (show i + 1 = i + 1 ∧ 1 ≤ j + 1 ∧ j + 1 ≤ j + 1 from ⟨rfl, by omega, le_rfl⟩),
          Finset.sum_range_succ]
      · rw [if_neg hab, e3]
        by_cases hc : a = i + 1 ∧ 1 ≤ b ∧ b ≤ j
        · rw [if_pos hc, if_pos ⟨hc.1, hc.2.1, by omega⟩]
        · have hc2 : ¬(a = i + 1 ∧ 1 ≤ b ∧ b ≤ j + 1) := by
            rintro ⟨x, y, z⟩
            rcases Nat.lt_or_ge j b with hlt | hge
            · exact hab ⟨x, by omega⟩
            · exact hc ⟨x, y, hge⟩
          rw [if_neg hc, if_neg hc2]

theorem build_pref_row_spec {m n : Nat} (matrix : List (List Bool)) {i : Nat} (hi : i < m)
    (pref : List (List Int)) (h : PrefShape m n pref) :
    PrefShape m n (build_pref_row matrix n i pref) ∧
    ∀ a b, pref_at (build_pref_row matrix n i pref) a b =
      if a = i + 1 ∧ 1 ≤ b ∧ b ≤ n then
        pref_at pref i b + ∑ c in Finset.range b, if cell matrix i c then (1 : Int) else 0
      else pref_at pref a b := by
  have := build_pref_cols matrix hi pref h n le_rfl
  exact ⟨this.2.1, this.2.2⟩

theorem ones_upto_zero_left (matrix : List (List Bool)) (j : Nat) : ones_upto matrix 0 j = 0 := by
  simp [ones_upto]

theorem ones_upto_zero_right (matrix : List (List Bool)) (i : Nat) :
    ones_upto matrix i 0 = 0 := by
  simp [ones_upto]

theorem ones_upto_succ (matrix : List (List Bool)) (i j : Nat) :
    ones_upto matrix (i + 1) j =
      ones_upto matrix i j + ∑ c in Finset.range j, if cell matrix i c then (1 : Int) else 0 := by
  simp [ones_upto, Finset.sum_range_succ]

/-- The outer loop of `build_pref` after the rows below `i`. -/
theorem build_pref_rows {m n : Nat} (matrix : List (List Bool)) (pref : List (List Int))
    (h : PrefShape m n pref) (h0 : ∀ b, pref_at pref 0 b = 0) (h1 : ∀ a, pref_at pref a 0 = 0)
    (i : Nat) (hi : i ≤ m) :
    PrefShape m n ((List.range i).foldl (fun p r => build_pref_row matrix n r p) pref) ∧
    (∀ b, pref_at ((List.range i).foldl (fun p r => build_pref_row matrix n r p) pref) 0 b
      = 0) ∧
    (∀ a, pref_at ((List.range i).foldl (fun p r => build_pref_row matrix n r p) pref) a 0
      = 0) ∧
    ∀ a b, a ≤ i → b ≤ n →
      pref_at ((List.range i).foldl (fun p r => build_pref_row matrix n r p) pref) a b
        = ones_upto matrix a b := by
  induction i with
  | zero =>
    refine ⟨h, h0, h1, ?_⟩
    intro a b ha _
    have : a = 0 := by omega
    subst this
    simp only [List.range_zero, List.foldl_nil]
    rw [h0, ones_upto_zero_left]
  | succ i ih =>
    obtain ⟨e1, e2, e3, e4⟩ := ih (by omega)
    obtain ⟨s1, s2⟩ := build_pref_row_spec matrix (show i < m by omega) _ e1
    simp only [List.range_succ, List.foldl_append, List.foldl_cons, List.foldl_nil]
    refine ⟨s1, ?_, ?_, ?_⟩
    · intro b
      rw [s2, if_neg (by omega), e2]
    · intro a
      rw [s2, if_neg (by omega), e3]
    · intro a b ha hb
      rw [s2]
      by_cases hc : a = i + 1 ∧ 1 ≤ b ∧ b ≤ n
      · rw [if_pos hc, hc.1, e4 i b le_rfl hb, ones_upto_succ]
      · rw [if_neg hc]
        rcases Nat.lt_or_ge a (i + 1) with hlt | hge
        · exact e4 a b (by omega) hb
        · have ha1 : a = i + 1 := by omega
          have hb0 : b = 0 := by
            by_contra hb0
            exact hc ⟨ha1, by omega, hb⟩
          subst hb0
          rw [e3, ones_upto_zero_right]

/-- What `build_pref` computes for a well-formed matrix: a table of the same
shape whose entry `(a, b)` is the number of true cells above and left of it. -/
theorem build_pref_spec {m n : Nat} {matrix : List (List Bool)} (hwf : WellFormed m n matrix)
    (hm : 0 < m) {pref : List (List Int)} (h : PrefShape m n pref)
    (h0 : ∀ b, pref_at pref 0 b = 0) (h1 : ∀ a, pref_at pref a 0 = 0) :
    PrefShape m n (build_pref matrix pref) ∧
    (∀ b, pref_at (build_pref matrix pref) 0 b = 0) ∧
    (∀ a, pref_at (build_pref matrix pref) a 0 = 0) ∧
    ∀ a b, a ≤ m → b ≤ n → pref_at (build_pref matrix pref) a b = ones_upto matrix a b := by
  have hl : matrix.length = m := hwf.1
  have hn : (matrix.getD 0 []).length = n :=
    hwf.2 _ (getD_mem matrix 0 [] (by rw [hl]; exact hm))
  have := build_pref_rows matrix pref h h0 h1 m le_rfl
  unfold build_pref
  simp only [hl, hn]
  exact this

/-- Over a correct table `sum_rect` is the number of true cells in the
rectangle. -/
theorem sum_rect_spec {m n : Nat} {matrix : List (List Bool)} {pref : List (List Int)}
    (hp : ∀ a b, a ≤ m → b ≤ n → pref_at pref a b = ones_upto matrix a b)
    {rect : Rect} (hin : rect.inside m n) :
    sum_rect pref rect.r1 rect.c1 rect.r2 rect.c2 = ones_in matrix rect := by
  obtain ⟨h1, h2, h3, h4⟩ := hin
  unfold sum_rect
  rw [hp _ _ (by omega) (by omega), hp _ _ (by omega) (by omega), hp _ _ (by omega) (by omega),
    hp _ _ (by omega) (by omega)]
  unfold ones_in ones_upto
  rw [Finset.sum_Ico_eq_sub _ (show rect.r1 ≤ rect.r2 + 1 by omega)]
  have e : ∀ r, (∑ c in Finset.Ico rect.c1 (rect.c2 + 1), if cell matrix r c then (1 : Int) else 0)
      = (∑ c in Finset.range (rect.c2 + 1), if cell matrix r c then (1 : Int) else 0)
        - ∑ c in Finset.range rect.c1, if cell matrix r c then (1 : Int) else 0 :=
    fun r => Finset.sum_Ico_eq_sub _ (show rect.c1 ≤ rect.c2 + 1 by omega)
  simp only [e, Finset.sum_sub_distrib]
  ring

theorem ones_in_pos (matrix : List (List Bool)) {rect : Rect} (h1 : rect.r1 ≤ rect.r2)
    (h2 : rect.c1 ≤ rect.c2) (htl : cell matrix rect.r1 rect.c1 = true) :
    1 ≤ ones_in matrix rect := by
  unfold ones_in
  have hnn : ∀ r c, (0 : Int) ≤ if cell matrix r c then 1 else 0 := by
    intro r c; split <;> omega
  calc (1 : Int) = if cell matrix rect.r1 rect.c1 then 1 else 0 := by rw [htl]; rfl
    _ ≤ ∑ c in Finset.Ico rect.c1 (rect.c2 + 1), if cell matrix rect.r1 c then 1 else 0 :=
        Finset.single_le_sum (f := fun c => if cell matrix rect.r1 c then (1 : Int) else 0)
          (fun c _ => hnn _ c) (Finset.mem_Ico.mpr ⟨le_rfl, by omega⟩)
    _ ≤ _ :=
        Finset.single_le_sum
          (f := fun r => ∑ c in Finset.Ico rect.c1 (rect.c2 + 1),
            if cell matrix r c then (1 : Int) else 0)
          (fun r _ => Finset.sum_nonneg (fun c _ => hnn r c))
          (Finset.mem_Ico.mpr ⟨le_rfl, by omega⟩)

/-! ### The scan for the best rectangle -/

theorem getD_snoc {α : Type} (l : List α) (x d : α) (j : Nat) :
    (l ++ [x]).getD j d =
      if j < l.length then l.getD j d else if j = l.length then x else d := by
  simp only [List.getD_eq_getElem?_getD, List.getElem?_append]
  by_cases h : j < l.length
  · simp [h]
  · by_cases h2 : j = l.length
    · subst h2; simp
    · have : j - l.length ≠ 0 := by omega
      simp only [h, if_false, h2]
      cases hj : j - l.length with
      | zero => exact absurd hj this
      | succ k => simp

theorem scan_rects_snoc (matrix : List (List Bool)) (pref : List (List Int))
    (done : List Rect) (x : Rect) :
    scan_rects matrix pref (done ++ [x])
      = scan_step matrix pref (scan_rects matrix pref done) (done.length, x) := by
  unfold scan_rects
  rw [List.enum_append, List.foldl_append]
  rfl

theorem first_best_keep {matrix : List (List Bool)} {done : List Rect} {x : Rect} {i : Nat}
    {cover : Int} (h : FirstBest matrix done i cover)
    (hx : x.candidate matrix → ones_in matrix x ≤ cover) :
    FirstBest matrix (done ++ [x]) i cover := by
  have hget : ∀ j, j < done.length →
      (done ++ [x]).getD j { r1 := 0, c1 := 0, r2 := 0, c2 := 0 }
        = done.getD j { r1 := 0, c1 := 0, r2 := 0, c2 := 0 } := by
    intro j hj
    rw [getD_snoc, if_pos hj]
  refine ⟨by rw [List.length_append]; have := h.lt; simp; omega, ?_, ?_, ?_, ?_⟩
  · rw [hget i h.lt]; exact h.cand
  · rw [hget i h.lt]; exact h.cover_eq
  · intro j hj hc
    rw [List.length_append, List.length_singleton] at hj
    rcases Nat.lt_or_ge j done.length with hlt | hge
    · rw [hget j hlt] at hc ⊢
      exact h.most j hlt hc
    · have hj0 : j = done.length := by omega
      have e : (done ++ [x]).getD j { r1 := 0, c1 := 0, r2 := 0, c2 := 0 } = x := by
        rw [getD_snoc, if_neg (by omega), if_pos hj0]
      rw [e] at hc ⊢
      exact hx hc
  · intro j hj hc
    have hlt : j < done.length := lt_trans hj h.lt
    rw [hget j hlt] at hc ⊢
    exact h.first j hj hc

/-- What the scan returns: `(-1, -1)` when no rectangle has a true top-left
cell, and otherwise the index and the cover of the first rectangle with the
most true cells among those with a true top-left cell. The table is taken to
be correct on the rectangles of the list. -/
theorem scan_rects_spec (matrix : List (List Bool)) (pref : List (List Int))
    (rects : List Rect)
    (hcov : ∀ x ∈ rects, sum_rect pref x.r1 x.c1 x.r2 x.c2 = ones_in matrix x)
    (hnn : ∀ x ∈ rects, x.candidate matrix → 0 ≤ ones_in matrix x) :
    (scan_rects matrix pref rects = (-1, -1) ∧ ∀ x ∈ rects, ¬ x.candidate matrix) ∨
    ∃ i : Nat, (scan_rects matrix pref rects).1 = (i : Int) ∧
      FirstBest matrix rects i (scan_rects matrix pref rects).2 := by
  induction rects using List.reverseRecOn with
  | nil => left; exact ⟨rfl, by simp⟩
  | append_singleton done x ih =>
    have hcov1 : ∀ y ∈ done, sum_rect pref y.r1 y.c1 y.r2 y.c2 = ones_in matrix y :=
      fun y hy => hcov y (List.mem_append_left _ hy)
    have hnn1 : ∀ y ∈ done, y.candidate matrix → 0 ≤ ones_in matrix y :=
      fun y hy => hnn y (List.mem_append_left _ hy)
    have hxm : x ∈ done ++ [x] := List.mem_append_right _ (List.mem_singleton_self x)
    have hxc := hcov x hxm
    rw [scan_rects_snoc]
    unfold scan_step
    simp only
    by_cases hc : x.candidate matrix
    · have hc1 : cell matrix x.r1 x.c1 = true := hc
      rw [hc1]
      simp only [Bool.not_true, Bool.false_eq_true, if_false]
      rw [hxc]
      have hnew : ones_in matrix x > (scan_rects matrix pref done).2 →
          FirstBest matrix (done ++ [x]) done.length (ones_in matrix x) := by
        intro hgt
        have hle : ∀ j < done.length,
            (done.getD j { r1 := 0, c1 := 0, r2 := 0, c2 := 0 }).candidate matrix →
            ones_in matrix (done.getD j { r1 := 0, c1 := 0, r2 := 0, c2 := 0 })
              < ones_in matrix x := by
          intro j hj hcj
          rcases ih hcov1 hnn1 with ⟨_, h2⟩ | ⟨i, _, hfb⟩
          · exact absurd hcj (h2 _ (getD_mem done j _ hj))
          · exact lt_of_le_of_lt (hfb.most j hj hcj) hgt
        have hget : ∀ j, j < done.length →
            (done ++ [x]).getD j { r1 := 0, c1 := 0, r2 := 0, c2 := 0 }
              = done.getD j { r1 := 0, c1 := 0, r2 := 0, c2 := 0 } := by
          intro j hj
          rw [getD_snoc, if_pos hj]
        have hlast : (done ++ [x]).getD done.length { r1 := 0, c1 := 0, r2 := 0, c2 := 0 }
            = x := by
          rw [getD_snoc, if_neg (lt_irrefl _), if_pos rfl]
        refine ⟨by simp, by rw [hlast]; exact hc, by rw [hlast], ?_, ?_⟩
        · intro j hj hcj
          rw [List.length_append, List.length_singleton] at hj
          rcases Nat.lt_or_ge j done.length with hlt | hge
          · rw [hget j hlt] at hcj ⊢
            exact (hle j hlt hcj).le
          · have hj0 : j = done.length := by omega
            rw [hj0, hlast]
        · intro j hj hcj
          rw [hget j hj] at hcj ⊢
          exact hle j hj hcj
      by_cases hgt : ones_in matrix x > (scan_rects matrix pref done).2
      · rw [if_pos hgt]
        right
        exact ⟨done.length, rfl, hnew hgt⟩
      · rw [if_neg hgt]
        rcases ih hcov1 hnn1 with ⟨h1, _⟩ | ⟨i, hi, hfb⟩
        · exfalso
          rw [h1] at hgt
          have := hnn x hxm hc
          simp only [gt_iff_lt, not_lt] at hgt
          omega
        · right
          exact ⟨i, hi, first_best_keep hfb (fun _ => not_lt.mp hgt)⟩
    · have hc1 : cell matrix x.r1 x.c1 = false := by
        cases h : cell matrix x.r1 x.c1 with
        | false => rfl
        | true => exact absurd h hc
      rw [hc1]
      simp only [Bool.not_false, if_true]
      rcases ih hcov1 hnn1 with ⟨h1, h2⟩ | ⟨i, hi, hfb⟩
      · left
        refine ⟨h1, ?_⟩
        intro y hy
        rcases List.mem_append.mp hy with hy | hy
        · exact h2 y hy
        · rw [List.mem_singleton.mp hy]; exact hc
      · right
        exact ⟨i, hi, first_best_keep hfb (fun h => absurd h hc)⟩

/-- The list `rects` holds exactly the rectangles of the grid. -/
theorem mem_all_rects (m n : Nat) (rect : Rect) : rect ∈ all_rects m n ↔ rect.inside m n := by
  unfold all_rects Rect.inside
  simp only [List.mem_flatMap, List.mem_map, List.mem_range, List.mem_range'_1]
  constructor
  · rintro ⟨r1, h1, c1, h2, r2, h3, c2, h4, rfl⟩
    simp only
    omega
  · intro h
    exact ⟨rect.r1, by omega, rect.c1, by omega, rect.r2, by omega, rect.c2, by omega, rfl⟩

/-! ### One pass of the greedy loop -/

theorem true_cell_of_has_ones {m n : Nat} {matrix : List (List Bool)}
    (h : WellFormed m n matrix) (h1 : matrix_has_ones matrix = true) :
    ∃ r c, r < m ∧ c < n ∧ cell matrix r c = true := by
  have h2 : ¬ (∀ row ∈ matrix, ∀ v ∈ row, v = false) := by
    rw [← has_ones_false_iff, h1]; simp
  push_neg at h2
  obtain ⟨row, hrow, v, hv, hvv⟩ := h2
  obtain ⟨r, hr, e1⟩ := List.getElem_of_mem hrow
  obtain ⟨c, hc, e2⟩ := List.getElem_of_mem hv
  refine ⟨r, c, by rw [← h.1]; exact hr, by rw [← h.2 row hrow]; exact hc, ?_⟩
  unfold cell
  have e3 : matrix.getD r [] = row := by
    rw [List.getD_eq_getElem?_getD, List.getElem?_eq_getElem hr, e1]; rfl
  rw [e3, List.getD_eq_getElem?_getD, List.getElem?_eq_getElem hc, e2]
  cases v with
  | true => rfl
  | false => exact absurd rfl hvv

theorem has_ones_of_true_cell {matrix : List (List Bool)} {r c : Nat}
    (h : cell matrix r c = true) : matrix_has_ones matrix = true := by
  cases h1 : matrix_has_ones matrix with
  | true => rfl
  | false =>
    exfalso
    have h2 := (has_ones_false_iff matrix).mp h1
    unfold cell at h
    by_cases hr : r < matrix.length
    · by_cases hc : c < (matrix.getD r []).length
      · have := h2 _ (getD_mem matrix r [] hr) _ (getD_mem _ c false hc)
        rw [this] at h
        cases h
      · rw [List.getD_eq_getElem?_getD (matrix.getD r []),
          List.getElem?_eq_none (not_lt.mp hc)] at h
        cases h
    · have e : matrix.getD r [] = [] := by
        rw [List.getD_eq_getElem?_getD, List.getElem?_eq_none (not_lt.mp hr)]
        rfl
      rw [e] at h
      cases h

/-- One pass of the greedy loop over a well-formed matrix with a true cell:
the scan finds the first rectangle with the most true cells among those with a
true top-left cell, no exception is thrown, and the loop goes on with that
rectangle flipped and one more flip counted. -/
theorem greedy_pass {m n : Nat} {matrix : List (List Bool)} (hwf : WellFormed m n matrix)
    (hm : 0 < m) {pref : List (List Int)} (hp : PrefShape m n pref)
    (h0 : ∀ b, pref_at pref 0 b = 0) (h1 : ∀ a, pref_at pref a 0 = 0)
    (hones : matrix_has_ones matrix = true) :
    ∃ i cover, 1 ≤ cover ∧ FirstBest matrix (all_rects m n) i cover ∧
      ((all_rects m n).getD i { r1 := 0, c1 := 0, r2 := 0, c2 := 0 }).inside m n ∧
      ∀ (fuel : Nat) (flips : Int),
        greedy_loop (all_rects m n) (fuel + 1) matrix pref flips =
          greedy_loop (all_rects m n) fuel
            (flip_rect matrix ((all_rects m n).getD i { r1 := 0, c1 := 0, r2 := 0, c2 := 0 }))
            (build_pref matrix pref) (flips + 1) := by
  obtain ⟨_, _, _, hspec⟩ := build_pref_spec hwf hm hp h0 h1
  obtain ⟨r, c, hr, hc, hrc⟩ := true_cell_of_has_ones hwf hones
  have hcov : ∀ x ∈ all_rects m n,
      sum_rect (build_pref matrix pref) x.r1 x.c1 x.r2 x.c2 = ones_in matrix x :=
    fun x hx => sum_rect_spec hspec ((mem_all_rects m n x).mp hx)
  have hpos : ∀ x ∈ all_rects m n, x.candidate matrix → 1 ≤ ones_in matrix x := by
    intro x hx hcx
    have := (mem_all_rects m n x).mp hx
    exact ones_in_pos matrix this.1 this.2.2.1 hcx
  have hcell : ({ r1 := r, c1 := c, r2 := r, c2 := c } : Rect) ∈ all_rects m n :=
    (mem_all_rects m n _).mpr ⟨le_rfl, hr, le_rfl, hc⟩
  rcases scan_rects_spec matrix (build_pref matrix pref) (all_rects m n) hcov
      (fun x hx hcx => le_trans zero_le_one (hpos x hx hcx)) with ⟨_, h2⟩ | ⟨i, hi, hfb⟩
  · exact absurd hrc (h2 _ hcell)
  · have hmem := getD_mem (all_rects m n) i { r1 := 0, c1 := 0, r2 := 0, c2 := 0 } hfb.lt
    have hcover : 1 ≤ (scan_rects matrix (build_pref matrix pref) (all_rects m n)).2 := by
      rw [hfb.cover_eq]
      exact hpos _ hmem hfb.cand
    refine ⟨i, _, hcover, hfb, (mem_all_rects m n _).mp hmem, ?_⟩
    intro fuel flips
    have hlt := hfb.lt
    have hno : ¬((scan_rects matrix (build_pref matrix pref) (all_rects m n)).2 ≤ 0 ∨
        (scan_rects matrix (build_pref matrix pref) (all_rects m n)).1 < 0 ∨
        (scan_rects matrix (build_pref matrix pref) (all_rects m n)).1
          ≥ ((all_rects m n).length : Int)) := by
      rw [hi]
      omega
    rw [greedy_loop]
    simp only [hones, if_true, if_neg hno]
    rw [hi, Int.toNat_ofNat]

theorem greedy_loop_done (rects : List Rect) (fuel : Nat) (matrix : List (List Bool))
    (pref : List (List Int)) (flips : Int) (h : matrix_has_ones matrix = false) :
    greedy_loop rects fuel matrix pref flips = some (.ok flips) := by
  cases fuel with
  | zero => simp [greedy_loop, h]
  | succ f => simp [greedy_loop, h]

/-- The greedy loop over a well-formed matrix ends: with fuel for as many
passes as the matrix is as a binary number, it returns a flip count. -/
theorem greedy_loop_terminates {m n : Nat} (hm : 0 < m) (bound : Nat) :
    ∀ (matrix : List (List Bool)) (pref : List (List Int)) (flips : Int),
      WellFormed m n matrix → PrefShape m n pref → (∀ b, pref_at pref 0 b = 0) →
      (∀ a, pref_at pref a 0 = 0) → code m n matrix ≤ bound →
      ∃ k : Int, flips ≤ k ∧ k ≤ flips + bound ∧
        (matrix_has_ones matrix = true → flips + 1 ≤ k) ∧
        ∀ fuel, bound ≤ fuel →
          greedy_loop (all_rects m n) fuel matrix pref flips = some (.ok k) := by
  induction bound with
  | zero =>
    intro matrix pref flips hwf hp h0 h1 hcode
    cases hones : matrix_has_ones matrix with
    | false =>
      exact ⟨flips, le_rfl, by simp, by simp,
        fun fuel _ => greedy_loop_done _ fuel matrix pref flips hones⟩
    | true =>
      exfalso
      obtain ⟨r, c, hr, hc, hrc⟩ := true_cell_of_has_ones hwf hones
      have hn : 0 < n := by omega
      have : 0 < code m n matrix := by
        unfold code
        apply binary_pos _ (r * n + c)
        · calc r * n + c < r * n + n := by omega
            _ = (r + 1) * n := by ring
            _ ≤ m * n := Nat.mul_le_mul_right n (by omega)
        · show cell matrix ((r * n + c) / n) ((r * n + c) % n) = true
          have e1 : (r * n + c) / n = r := by
            rw [Nat.mul_comm, Nat.mul_add_div hn, Nat.div_eq_of_lt hc]
            rfl
          have e2 : (r * n + c) % n = c := by
            rw [Nat.mul_comm, Nat.mul_add_mod, Nat.mod_eq_of_lt hc]
          rw [e1, e2]
          exact hrc
      omega
  | succ b ih =>
    intro matrix pref flips hwf hp h0 h1 hcode
    cases hones : matrix_has_ones matrix with
    | false =>
      exact ⟨flips, le_rfl, by omega, by simp,
        fun fuel _ => greedy_loop_done _ fuel matrix pref flips hones⟩
    | true =>
      obtain ⟨i, cover, _, hfb, hin, hstep⟩ := greedy_pass hwf hm hp h0 h1 hones
      obtain ⟨p1, p2, p3, _⟩ := build_pref_spec hwf hm hp h0 h1
      obtain ⟨w1, _⟩ := cell_flip_rect hwf hin
      have hlt := code_flip_rect hwf hin hfb.cand
      obtain ⟨k, k1, k2, _, k4⟩ := ih _ (build_pref matrix pref) (flips + 1) w1 p1 p2 p3
        (by omega)
      refine ⟨k, by omega, by push_cast; omega, fun _ => k1, ?_⟩
      intro fuel hfuel
      obtain ⟨f, rfl⟩ : ∃ f, fuel = f + 1 := ⟨fuel - 1, by omega⟩
      rw [hstep]
      exact k4 f (by omega)

theorem pref_at_replicate (m n a b : Nat) :
    pref_at (List.replicate (m + 1) (List.replicate (n + 1) (0 : Int))) a b = 0 := by
  unfold pref_at
  simp only [List.getD_eq_getElem?_getD, List.getElem?_replicate]
  by_cases ha : a < m + 1
  · by_cases hb : b < n + 1
    · simp [ha, hb]
    · simp [ha, hb]
  · simp [ha]

/-- For a well-formed matrix with positive dimensions `solve` returns: with
fuel for `2 ^ (m * n)` passes it gives a flip count, at least `1` when a cell
is true. -/
theorem solve_terminates (m n : Int) (matrix : List (List Bool))
    (hm : 1 ≤ m) (hn : 1 ≤ n) (hrows : (matrix.length : Int) = m)
    (hcols : ∀ row ∈ matrix, (row.length : Int) = n) :
    ∃ k : Int, 0 ≤ k ∧ (matrix_has_ones matrix = true → 1 ≤ k) ∧
      ∀ fuel, 2 ^ (m.toNat * n.toNat) ≤ fuel → solve fuel m n matrix = some (.ok k) := by
  have hwf : WellFormed m.toNat n.toNat matrix := by
    refine ⟨by omega, ?_⟩
    intro row hrow
    have := hcols row hrow
    omega
  cases hones : matrix_has_ones matrix with
  | false =>
    refine ⟨0, le_rfl, by simp, ?_⟩
    intro fuel _
    rw [solve_well_formed fuel m n matrix hm hn hrows hcols, hones]
    simp
  | true =>
    obtain ⟨k, k1, _, k3, k4⟩ := greedy_loop_terminates (show 0 < m.toNat by omega)
      (code m.toNat n.toNat matrix) matrix
      (List.replicate (m.toNat + 1) (List.replicate (n.toNat + 1) 0)) 0 hwf
      ⟨by simp, fun row hrow => by rw [List.eq_of_mem_replicate hrow]; simp⟩
      (fun b => pref_at_replicate _ _ 0 b) (fun a => pref_at_replicate _ _ a 0) le_rfl
    refine ⟨k, k1, fun _ => by have := k3 hones; omega, ?_⟩
    intro fuel hfuel
    rw [solve_well_formed fuel m n matrix hm hn hrows hcols, if_pos hones]
    apply k4
    have := binary_lt (fun k => cell matrix (k / n.toNat) (k % n.toNat)) (m.toNat * n.toNat)
    unfold code
    omega

end solution

/-! ## The greedy loop as a sequence of chosen rectangles -/

namespace solution

theorem before_irrefl (a : Rect) : ¬ a.before a := by
  unfold Rect.before; omega

theorem before_asymm {a b : Rect} (h : a.before b) : ¬ b.before a := by
  unfold Rect.before at *; omega

/-- The list `rects` of `solve` is in the order `Rect.before`. -/
theorem all_rects_sorted (m n : Nat) : (all_rects m n).Pairwise Rect.before := by
  unfold all_rects
  rw [List.pairwise_flatMap]
  constructor
  · intro r1 _
    rw [List.pairwise_flatMap]
    constructor
    · intro c1 _
      rw [List.pairwise_flatMap]
      constructor
      · intro r2 _
        rw [List.pairwise_map]
        exact (List.pairwise_lt_range' c1 (n - c1)).imp
          (fun hab => Or.inr ⟨rfl, Or.inr ⟨rfl, Or.inr ⟨rfl, hab⟩⟩⟩)
      · refine (List.pairwise_lt_range' r1 (m - r1)).imp ?_
        intro a b hab x hx y hy
        simp only [List.mem_map] at hx hy
        obtain ⟨_, _, rfl⟩ := hx
        obtain ⟨_, _, rfl⟩ := hy
        exact Or.inr ⟨rfl, Or.inr ⟨rfl, Or.inl hab⟩⟩
    · refine (List.pairwise_lt_range n).imp ?_
      intro a b hab x hx y hy
      simp only [List.mem_flatMap, List.mem_map] at hx hy
      obtain ⟨_, _, _, _, rfl⟩ := hx
      obtain ⟨_, _, _, _, rfl⟩ := hy
      exact Or.inr ⟨rfl, Or.inl hab⟩
  · refine (List.pairwise_lt_range m).imp ?_
    intro a b hab x hx y hy
    simp only [List.mem_flatMap, List.mem_map] at hx hy
    obtain ⟨_, _, _, _, _, _, rfl⟩ := hx
    obtain ⟨_, _, _, _, _, _, rfl⟩ := hy
    exact Or.inl hab

/-- The first best rectangle of the scan is the greedy choice: none of the
rectangles with as many true cells comes before it in the enumeration. -/
theorem greedy_choice_of_first_best {m n : Nat} {matrix : List (List Bool)} {i : Nat}
    {cover : Int} (h : FirstBest matrix (all_rects m n) i cover) :
    GreedyChoice m n matrix ((all_rects m n).getD i { r1 := 0, c1 := 0, r2 := 0, c2 := 0 }) := by
  have hmem := getD_mem (all_rects m n) i { r1 := 0, c1 := 0, r2 := 0, c2 := 0 } h.lt
  have hget : ∀ j (hj : j < (all_rects m n).length),
      (all_rects m n).getD j { r1 := 0, c1 := 0, r2 := 0, c2 := 0 } = (all_rects m n)[j] :=
    fun j hj => List.getD_eq_getElem _ _ hj
  refine ⟨(mem_all_rects m n _).mp hmem, h.cand, ?_, ?_⟩
  · intro y hy hc
    obtain ⟨j, hj, rfl⟩ := List.getElem_of_mem ((mem_all_rects m n y).mpr hy)
    have := h.most j hj (by rw [hget j hj]; exact hc)
    rw [hget j hj] at this
    rw [← h.cover_eq]
    exact this
  · intro y hy hc heq hbef
    obtain ⟨j, hj, rfl⟩ := List.getElem_of_mem ((mem_all_rects m n y).mpr hy)
    have hs := List.pairwise_iff_getElem.mp (all_rects_sorted m n)
    rw [hget i h.lt] at heq hbef
    rcases lt_trichotomy j i with hji | hji | hji
    · have := h.first j hji (by rw [hget j hj]; exact hc)
      rw [hget j hj, h.cover_eq, hget i h.lt] at this
      omega
    · subst hji
      exact before_irrefl _ hbef
    · exact before_asymm (hs i j h.lt hj hji) hbef

/-- The scan of one pass over a well-formed matrix with a true cell: the index
it returns is that of the first best rectangle, whose cover is at least `1`,
so the test before the exception fails. -/
theorem greedy_scan {m n : Nat} {matrix : List (List Bool)} (hwf : WellFormed m n matrix)
    (hm : 0 < m) {pref : List (List Int)} (hp : PrefShape m n pref)
    (h0 : ∀ b, pref_at pref 0 b = 0) (h1 : ∀ a, pref_at pref a 0 = 0)
    (hones : matrix_has_ones matrix = true) :
    ∃ i : Nat, (scan_rects matrix (build_pref matrix pref) (all_rects m n)).1 = (i : Int) ∧
      i < (all_rects m n).length ∧
      1 ≤ (scan_rects matrix (build_pref matrix pref) (all_rects m n)).2 ∧
      FirstBest matrix (all_rects m n) i
        (scan_rects matrix (build_pref matrix pref) (all_rects m n)).2 ∧
      ((all_rects m n).getD i { r1 := 0, c1 := 0, r2 := 0, c2 := 0 }).inside m n := by
  obtain ⟨_, _, _, hspec⟩ := build_pref_spec hwf hm hp h0 h1
  obtain ⟨r, c, hr, hc, hrc⟩ := true_cell_of_has_ones hwf hones
  have hcov : ∀ x ∈ all_rects m n,
      sum_rect (build_pref matrix pref) x.r1 x.c1 x.r2 x.c2 = ones_in matrix x :=
    fun x hx => sum_rect_spec hspec ((mem_all_rects m n x).mp hx)
  have hpos : ∀ x ∈ all_rects m n, x.candidate matrix → 1 ≤ ones_in matrix x := by
    intro x hx hcx
    have := (mem_all_rects m n x).mp hx
    exact ones_in_pos matrix this.1 this.2.2.1 hcx
  have hcell : ({ r1 := r, c1 := c, r2 := r, c2 := c } : Rect) ∈ all_rects m n :=
    (mem_all_rects m n _).mpr ⟨le_rfl, hr, le_rfl, hc⟩
  rcases scan_rects_spec matrix (build_pref matrix pref) (all_rects m n) hcov
      (fun x hx hcx => le_trans zero_le_one (hpos x hx hcx)) with ⟨_, h2⟩ | ⟨i, hi, hfb⟩
  · exact absurd hrc (h2 _ hcell)
  · have hmem := getD_mem (all_rects m n) i { r1 := 0, c1 := 0, r2 := 0, c2 := 0 } hfb.lt
    refine ⟨i, hi, hfb.lt, ?_, hfb, (mem_all_rects m n _).mp hmem⟩
    rw [hfb.cover_eq]
    exact hpos _ hmem hfb.cand


theorem flip_all_cons (matrix : List (List Bool)) (x : Rect) (rs : List Rect) :
    flip_all matrix (x :: rs) = flip_all (flip_rect matrix x) rs := rfl

/-- Whatever the fuel, what the greedy loop returns over a well-formed matrix
is a flip count, never the exception, and the flips counted are a sequence of
greedy choices, each made in the matrix the earlier ones have left, after
which no cell is true. -/
theorem greedy_run {m n : Nat} (hm : 0 < m) (fuel : Nat) :
    ∀ (matrix : List (List Bool)) (pref : List (List Int)) (flips : Int)
      (res : Except Error Int),
      WellFormed m n matrix → PrefShape m n pref → (∀ b, pref_at pref 0 b = 0) →
      (∀ a, pref_at pref a 0 = 0) →
      greedy_loop (all_rects m n) fuel matrix pref flips = some res →
      ∃ rs : List Rect, res = .ok (flips + (rs.length : Int)) ∧
        (∀ i < rs.length, GreedyChoice m n (flip_all matrix (rs.take i))
          (rs.getD i { r1 := 0, c1 := 0, r2 := 0, c2 := 0 })) ∧
        matrix_has_ones (flip_all matrix rs) = false := by
  induction fuel with
  | zero =>
    intro matrix pref flips res hwf hp h0 h1 h
    unfold greedy_loop at h
    split_ifs at h with hones
    simp only [Option.some.injEq] at h
    refine ⟨[], by simp [← h], by simp, ?_⟩
    simpa [flip_all] using hones
  | succ f ih =>
    intro matrix pref flips res hwf hp h0 h1 h
    cases hones : matrix_has_ones matrix with
    | false =>
      rw [greedy_loop_done _ _ _ _ _ hones] at h
      simp only [Option.some.injEq] at h
      refine ⟨[], by simp [← h], by simp, ?_⟩
      simpa [flip_all] using hones
    | true =>
      obtain ⟨i, cover, _, hfb, hin, hstep⟩ := greedy_pass hwf hm hp h0 h1 hones
      obtain ⟨p1, p2, p3, _⟩ := build_pref_spec hwf hm hp h0 h1
      obtain ⟨w1, _⟩ := cell_flip_rect hwf hin
      rw [hstep] at h
      obtain ⟨rs, e1, e2, e3⟩ := ih _ _ _ _ w1 p1 p2 p3 h
      refine ⟨(all_rects m n).getD i { r1 := 0, c1 := 0, r2 := 0, c2 := 0 } :: rs, ?_, ?_, ?_⟩
      · rw [e1]
        simp only [List.length_cons]
        push_cast
        ring_nf
      · intro j hj
        cases j with
        | zero => exact greedy_choice_of_first_best hfb
        | succ j1 =>
          simp only [List.length_cons] at hj
          have := e2 j1 (by omega)
          simpa [flip_all_cons] using this
      · rw [flip_all_cons]
        exact e3

theorem cell_false_of_no_ones {matrix : List (List Bool)}
    (h : matrix_has_ones matrix = false) (r c : Nat) : cell matrix r c = false := by
  cases hc : cell matrix r c with
  | false => rfl
  | true =>
    rw [has_ones_of_true_cell hc] at h
    cases h

theorem no_ones_of_cell_false {m n : Nat} {matrix : List (List Bool)}
    (hwf : WellFormed m n matrix) (h : ∀ r c, cell matrix r c = false) :
    matrix_has_ones matrix = false := by
  cases h1 : matrix_has_ones matrix with
  | false => rfl
  | true =>
    obtain ⟨r, c, _, _, hrc⟩ := true_cell_of_has_ones hwf h1
    rw [h r c] at hrc
    cases hrc

theorem solve_zero_dim (fuel : Nat) (m n : Int) (matrix : List (List Bool))
    (h : m = 0 ∨ n = 0) : solve fuel m n matrix = some (.ok 0) := by
  unfold solve
  rw [if_pos h]

theorem well_formed_of_dims {m n : Int} {matrix : List (List Bool)}
    (hrows : (matrix.length : Int) = m) (hcols : ∀ row ∈ matrix, (row.length : Int) = n) :
    WellFormed m.toNat n.toNat matrix := by
  refine ⟨by omega, ?_⟩
  intro row hrow
  have := hcols row hrow
  omega

theorem pref_shape_replicate (m n : Nat) :
    PrefShape m n (List.replicate (m + 1) (List.replicate (n + 1) (0 : Int))) :=
  ⟨by simp, fun row hrow => by rw [List.eq_of_mem_replicate hrow]; simp⟩

/-- Whatever the fuel, what `solve` returns for a well-formed matrix is the
length of a sequence of greedy choices that leaves no cell true. -/
theorem solve_run (fuel : Nat) (m n : Int) (matrix : List (List Bool))
    (hm : 0 ≤ m) (hn : 0 ≤ n) (hrows : (matrix.length : Int) = m)
    (hcols : ∀ row ∈ matrix, (row.length : Int) = n) (res : Except Error Int)
    (h : solve fuel m n matrix = some res) :
    ∃ rs : List Rect, res = .ok (rs.length : Int) ∧
      (∀ i < rs.length, GreedyChoice m.toNat n.toNat (flip_all matrix (rs.take i))
        (rs.getD i { r1 := 0, c1 := 0, r2 := 0, c2 := 0 })) ∧
      ∀ r c, cell (flip_all matrix rs) r c = false := by
  have hwf := well_formed_of_dims hrows hcols
  by_cases hz : m = 0 ∨ n = 0
  · rw [solve_zero_dim fuel m n matrix hz] at h
    simp only [Option.some.injEq] at h
    refine ⟨[], by simp [← h], by simp, ?_⟩
    intro r c
    apply cell_eq_false_of_row hwf
    omega
  · have hm1 : 1 ≤ m := by omega
    have hn1 : 1 ≤ n := by omega
    rw [solve_well_formed fuel m n matrix hm1 hn1 hrows hcols] at h
    cases hones : matrix_has_ones matrix with
    | false =>
      rw [hones] at h
      simp only [Bool.false_eq_true, if_false, Option.some.injEq] at h
      exact ⟨[], by simp [← h], by simp, cell_false_of_no_ones hones⟩
    | true =>
      rw [hones] at h
      simp only [if_true] at h
      obtain ⟨rs, e1, e2, e3⟩ := greedy_run (show 0 < m.toNat by omega) fuel matrix _ 0 res hwf
        (pref_shape_replicate _ _) (fun b => pref_at_replicate _ _ 0 b)
        (fun a => pref_at_replicate _ _ a 0) h
      exact ⟨rs, by simpa using e1, e2, cell_false_of_no_ones e3⟩

/-- The states the greedy loop passes through: the matrix at the head of pass
`j` is well-formed, it is at least `j` less than the first one as a binary
number, and the loop goes on from it with `j` flips counted. -/
theorem greedy_state_inv {m n : Nat} (hm : 0 < m) (j : Nat) :
    ∀ (matrix : List (List Bool)) (pref : List (List Int)),
      WellFormed m n matrix → PrefShape m n pref → (∀ b, pref_at pref 0 b = 0) →
      (∀ a, pref_at pref a 0 = 0) →
      ∀ (mat : List (List Bool)) (p : List (List Int)),
        greedy_state_after (all_rects m n) j matrix pref = some (mat, p) →
        WellFormed m n mat ∧ PrefShape m n p ∧ (∀ b, pref_at p 0 b = 0) ∧
        (∀ a, pref_at p a 0 = 0) ∧ code m n mat + j ≤ code m n matrix ∧
        ∀ (fuel : Nat) (flips : Int),
          greedy_loop (all_rects m n) (j + fuel) matrix pref flips =
            greedy_loop (all_rects m n) fuel mat p (flips + j) := by
  induction j with
  | zero =>
    intro matrix pref hwf hp h0 h1 mat p h
    simp only [greedy_state_after, Option.some.injEq, Prod.mk.injEq] at h
    obtain ⟨rfl, rfl⟩ := h
    exact ⟨hwf, hp, h0, h1, le_rfl, fun fuel flips => by simp⟩
  | succ j ih =>
    intro matrix pref hwf hp h0 h1 mat p h
    unfold greedy_state_after at h
    simp only at h
    split_ifs at h with hones herr
    obtain ⟨i, hi, hlt, hcover, hfb, hin⟩ := greedy_scan hwf hm hp h0 h1 hones
    obtain ⟨p1, p2, p3, _⟩ := build_pref_spec hwf hm hp h0 h1
    rw [hi, Int.toNat_ofNat] at h
    obtain ⟨w1, _⟩ := cell_flip_rect hwf hin
    have hlt2 := code_flip_rect hwf hin hfb.cand
    obtain ⟨a1, a2, a3, a4, a5, a6⟩ := ih _ _ w1 p1 p2 p3 mat p h
    refine ⟨a1, a2, a3, a4, by omega, ?_⟩
    intro fuel flips
    have e : j + 1 + fuel = (j + fuel) + 1 := by omega
    rw [e, greedy_loop]
    simp only [hones, if_true, if_neg herr]
    rw [hi, Int.toNat_ofNat, a6]
    congr 1
    push_cast
    ring

end solution

/-! ## A matrix whose true cells are one solid rectangle -/

namespace solution

theorem ones_in_eq_card (matrix : List (List Bool)) (x : Rect) :
    ones_in matrix x =
      (((Finset.Ico x.r1 (x.r2 + 1) ×ˢ Finset.Ico x.c1 (x.c2 + 1)).filter
        (fun p => cell matrix p.1 p.2 = true)).card : Int) := by
  unfold ones_in
  rw [Finset.card_filter, Finset.sum_product]
  push_cast
  rfl

/-- When the true cells are exactly those of the rectangle `R`, the greedy
choice is `R` itself. -/
theorem solid_choice {m n : Nat} {matrix : List (List Bool)} {R : Rect} (hR : R.inside m n)
    (hsolid : ∀ r c, cell matrix r c = true ↔ R.covers r c) {x : Rect}
    (hx : GreedyChoice m n matrix x) : x = R := by
  obtain ⟨hin, hcand, hmost, hfirst⟩ := hx
  obtain ⟨r1, r2, r3, r4⟩ := hR
  obtain ⟨x1, x2, x3, x4⟩ := hin
  have hRc : R.candidate matrix := (hsolid _ _).mpr ⟨le_rfl, r1, le_rfl, r3⟩
  have hle := hmost R ⟨r1, r2, r3, r4⟩ hRc
  rw [ones_in_eq_card, ones_in_eq_card] at hle
  have hsub : (Finset.Ico x.r1 (x.r2 + 1) ×ˢ Finset.Ico x.c1 (x.c2 + 1)).filter
        (fun p => cell matrix p.1 p.2 = true) ⊆
      (Finset.Ico R.r1 (R.r2 + 1) ×ˢ Finset.Ico R.c1 (R.c2 + 1)).filter
        (fun p => cell matrix p.1 p.2 = true) := by
    intro p hp
    rw [Finset.mem_filter] at hp ⊢
    obtain ⟨a, b, c, d⟩ := (hsolid _ _).mp hp.2
    refine ⟨?_, hp.2⟩
    rw [Finset.mem_product, Finset.mem_Ico, Finset.mem_Ico]
    omega
  have heq := Finset.eq_of_subset_of_card_le hsub (by exact_mod_cast hle)
  have hmem : ∀ r c, R.covers r c → x.r1 ≤ r ∧ r ≤ x.r2 ∧ x.c1 ≤ c ∧ c ≤ x.c2 := by
    intro r c hrc
    have : (r, c) ∈ (Finset.Ico R.r1 (R.r2 + 1) ×ˢ Finset.Ico R.c1 (R.c2 + 1)).filter
        (fun p => cell matrix p.1 p.2 = true) := by
      rw [Finset.mem_filter, Finset.mem_product, Finset.mem_Ico, Finset.mem_Ico]
      obtain ⟨a, b, c1, d⟩ := hrc
      exact ⟨⟨⟨a, by omega⟩, c1, by omega⟩, (hsolid _ _).mpr ⟨a, b, c1, d⟩⟩
    rw [← heq, Finset.mem_filter, Finset.mem_product, Finset.mem_Ico, Finset.mem_Ico] at this
    omega
  have hlo := hmem R.r1 R.c1 ⟨le_rfl, r1, le_rfl, r3⟩
  have hhi := hmem R.r2 R.c2 ⟨r1, le_rfl, r3, le_rfl⟩
  obtain ⟨a, b, c, d⟩ := (hsolid _ _).mp hcand
  have htie : ones_in matrix R = ones_in matrix x := by
    rw [ones_in_eq_card, ones_in_eq_card, heq]
  have hnb := hfirst R ⟨r1, r2, r3, r4⟩ hRc htie
  unfold Rect.before at hnb
  cases x
  cases R
  simp only [Rect.mk.injEq] at *
  omega

/-- Toggling the rectangle that holds exactly the true cells leaves no cell
true. -/
theorem solid_flip {m n : Nat} {matrix : List (List Bool)} (hwf : WellFormed m n matrix)
    {R : Rect} (hR : R.inside m n) (hsolid : ∀ r c, cell matrix r c = true ↔ R.covers r c) :
    matrix_has_ones (flip_rect matrix R) = false := by
  obtain ⟨w1, w2⟩ := cell_flip_rect hwf hR
  apply no_ones_of_cell_false w1
  intro r c
  rw [w2]
  by_cases hc : R.covers r c
  · rw [if_pos hc, (hsolid r c).mpr hc]
    rfl
  · rw [if_neg hc]
    cases h : cell matrix r c with
    | false => rfl
    | true => exact absurd ((hsolid r c).mp h) hc

end solution

/-! ## More fuel does not change what the greedy loop returns -/

namespace solution

theorem greedy_loop_mono (rects : List Rect) (fuel : Nat) :
    ∀ (matrix : List (List Bool)) (pref : List (List Int)) (flips : Int)
      (res : Except Error Int),
      greedy_loop rects fuel matrix pref flips = some res →
      ∀ fuel1, fuel ≤ fuel1 → greedy_loop rects fuel1 matrix pref flips = some res := by
  induction fuel with
  | zero =>
    intro matrix pref flips res h fuel1 _
    unfold greedy_loop at h
    split_ifs at h with hones
    rw [← h]
    exact greedy_loop_done _ _ _ _ _ (by simpa using hones)
  | succ f ih =>
    intro matrix pref flips res h fuel1 hle
    obtain ⟨g, rfl⟩ : ∃ g, fuel1 = g + 1 := ⟨fuel1 - 1, by omega⟩
    unfold greedy_loop at h ⊢
    simp only at h ⊢
    split_ifs at h ⊢ with hones herr
    · exact h
    · exact ih _ _ _ _ h g (by omega)
    · exact h

theorem solve_mono (fuel : Nat) (m n : Int) (matrix : List (List Bool))
    (res : Except Error Int) (h : solve fuel m n matrix = some res) (fuel1 : Nat)
    (hle : fuel ≤ fuel1) : solve fuel1 m n matrix = some res := by
  unfold solve at h ⊢
  split_ifs at h ⊢
  · exact h
  · exact h
  · exact h
  · exact h
  · exact h
  · exact greedy_loop_mono _ _ _ _ _ _ h fuel1 hle

theorem greedy_state_after_add (rects : List Rect) (j k : Nat) :
    ∀ (matrix : List (List Bool)) (pref : List (List Int)) (mat : List (List Bool))
      (p : List (List Int)),
      greedy_state_after rects j matrix pref = some (mat, p) →
      greedy_state_after rects (j + k) matrix pref = greedy_state_after rects k mat p := by
  induction j with
  | zero =>
    intro matrix pref mat p h
    simp only [greedy_state_after, Option.some.injEq, Prod.mk.injEq] at h
    obtain ⟨rfl, rfl⟩ := h
    simp
  | succ j ih =>
    intro matrix pref mat p h
    have e : j + 1 + k = (j + k) + 1 := by omega
    rw [e]
    unfold greedy_state_after at h
    simp only at h
    split_ifs at h with hones herr
    conv_lhs => rw [greedy_state_after]
    simp only [hones, if_true, if_neg herr]
    exact ih _ _ _ _ h

end solution

namespace projectile_path_simulator

/-! # Claims -/

/-! ## C1: STOP ends the run -/

section C1

variable {K : Type} [LinearOrderedField K] [FloorRing K]

/-- C1. Take any pass through the body of the inner loop that a run of
`simulate` makes: pass `k` of tick `j`, entered in tick state `ts`. If its
simultaneous-hit set holds a STOP hit, then, whatever else is in the set, the
body returns the path extended by exactly the averaged impact point, and
this path is what `simulate` returns: the run ends at once. -/
theorem stop_hit_ends_run (hypot : K → K → K) (sim : ProjectilePathSimulator K)
    (sx sy dx dy : K) (j k : Nat) (st : RunState K) (ts : TickState K)
    (hj : run_state_after sim.speed_ sim.walls_ j
      { path := [(sx, sy)], px := sx, py := sy, dx := (normalize hypot dx dy).1,
        dy := (normalize hypot dx dy).2, remaining_budget := sim.distance_budget_ }
      = some st)
    (hjlt : j < (max_outer sim.speed_ sim.distance_budget_).toNat)
    (hrb : 0 < st.remaining_budget)
    (hk : inner_state_after sim.speed_ sim.walls_ k
      { run := st, recorded_pass_before_nonpass := false,
        remaining_in_tick := min sim.speed_ st.remaining_budget } = some ts)
    (hklt : k < max_inner_per_tick)
    (hrit : 0 < ts.remaining_in_tick)
    (hstop : ∃ h ∈ event_hits sim.speed_ sim.walls_ ts, h.behavior = WallBehavior.STOP) :
    inner_body sim.speed_ sim.walls_ ts
        = Flow.ret (ts.run.path ++ [impact (event_hits sim.speed_ sim.walls_ ts)]) ∧
    sim.simulate hypot sx sy dx dy
        = ts.run.path ++ [impact (event_hits sim.speed_ sim.walls_ ts)] := by
  have hbody : inner_body sim.speed_ sim.walls_ ts
      = Flow.ret (ts.run.path ++ [impact (event_hits sim.speed_ sim.walls_ ts)]) := by
    obtain ⟨h, hh, hb⟩ := hstop
    exact inner_body_stop _ _ ts (candidates_ne_of_hit _ _ ts hh)
      ((flags_stop _).mpr ⟨h, hh, hb⟩)
  refine ⟨hbody, ?_⟩
  -- the inner loop of this tick returns the path
  obtain ⟨f, hf⟩ : ∃ f, max_inner_per_tick = k + (f + 1) :=
    ⟨max_inner_per_tick - k - 1, by omega⟩
  have htick : tick sim.speed_ sim.walls_ st
      = .stopped (ts.run.path ++ [impact (event_hits sim.speed_ sim.walls_ ts)]) := by
    unfold tick
    rw [hf, inner_loop_after _ _ k (f + 1) _ ts hk, inner_loop_succ _ _ f ts hrit, hbody]
  -- and so does the outer loop
  obtain ⟨g, hg⟩ : ∃ g, (max_outer sim.speed_ sim.distance_budget_).toNat = j + (g + 1) :=
    ⟨(max_outer sim.speed_ sim.distance_budget_).toNat - j - 1, by omega⟩
  unfold ProjectilePathSimulator.simulate
  simp only
  rw [hg, outer_loop_after _ _ j (g + 1) _ st hj, outer_loop_succ _ _ g st hrb, htick]

end C1

/-- Witness for C1: coincident REFLECT and STOP segments at `x = 1`, ray from
`(0,0)` along `+x`, tick 10, budget 5. The first pass of the first tick sees
both faces, its hit set holds the STOP hit, and the run returns
`[(0,0),(1,0)]`, from `simulate` and from `simulatePath`. -/
theorem stop_hit_ends_run_witness :
    ProjectilePathSimulator.simulate hypotQ
        { speed_ := (10 : ℚ), distance_budget_ := 5,
          walls_ := [{ x1 := 1, y1 := -2, x2 := 1, y2 := 2, behavior := .REFLECT },
                     { x1 := 1, y1 := -2, x2 := 1, y2 := 2, behavior := .STOP }] }
        0 0 1 0
      = [(0, 0), (1, 0)] ∧
    simulatePath hypotQ ((0 : ℚ), (0 : ℚ)) (1, 0) 10 5
        [{ x1 := 1, y1 := -2, x2 := 1, y2 := 2, behavior := .REFLECT },
         { x1 := 1, y1 := -2, x2 := 1, y2 := 2, behavior := .STOP }]
      = .ok [(0, 0), (1, 0)] :=
  ⟨(stop_hit_ends_run hypotQ
      { speed_ := (10 : ℚ), distance_budget_ := 5,
        walls_ := [{ x1 := 1, y1 := -2, x2 := 1, y2 := 2, behavior := .REFLECT },
                   { x1 := 1, y1 := -2, x2 := 1, y2 := 2, behavior := .STOP }] }
      0 0 1 0 0 0
      { path := [(0, 0)], px := 0, py := 0, dx := 1, dy := 0, remaining_budget := 5 }
      { run := { path := [(0, 0)], px := 0, py := 0, dx := 1, dy := 0,
                 remaining_budget := 5 },
        recorded_pass_before_nonpass := false, remaining_in_tick := 5 }
      (by decide!) (by decide!) (by decide!) (by decide!) (by decide!) (by decide!)
      (by decide!)).2.trans (by decide!),
   by decide!⟩

/-! ## C2: Reflection flips the struck axes -/

section C2

variable {K : Type} [LinearOrderedField K]

/-- C2. When the simultaneous-hit set holds no STOP hit, the iteration goes on
with the direction `(±dx, ±dy)`: the X component is negated exactly when the
set holds a REFLECT hit on a vertical face, the Y component exactly when it
holds a REFLECT hit on a horizontal face. PASS_THROUGH hits play no part. -/
theorem reflect_flips_struck_axes (speed : K) (walls : List (Wall K)) (ts : TickState K)
    (hcand : (event_candidates speed walls ts).isEmpty = false)
    (hnostop : ∀ h ∈ event_hits speed walls ts, h.behavior ≠ WallBehavior.STOP) :
    ∃ ts1 : TickState K, inner_body speed walls ts = Flow.next ts1 ∧
      ((∃ h ∈ event_hits speed walls ts,
          h.behavior = WallBehavior.REFLECT ∧ h.vertical = true) →
        ts1.run.dx = -ts.run.dx) ∧
      ((¬ ∃ h ∈ event_hits speed walls ts,
          h.behavior = WallBehavior.REFLECT ∧ h.vertical = true) →
        ts1.run.dx = ts.run.dx) ∧
      ((∃ h ∈ event_hits speed walls ts,
          h.behavior = WallBehavior.REFLECT ∧ h.horizontal = true) →
        ts1.run.dy = -ts.run.dy) ∧
      ((¬ ∃ h ∈ event_hits speed walls ts,
          h.behavior = WallBehavior.REFLECT ∧ h.horizontal = true) →
        ts1.run.dy = ts.run.dy) := by
  have hf : (flags (event_hits speed walls ts)).1 = false := by
    cases hfl : (flags (event_hits speed walls ts)).1 with
    | false => rfl
    | true =>
      obtain ⟨h, hh, hb⟩ := (flags_stop _).mp hfl
      exact absurd hb (hnostop h hh)
  simp only [inner_body, hcand, hf]
  refine ⟨_, rfl, ?_, ?_, ?_, ?_⟩
  · intro hv
    have := (flags_reflect_v _).mpr hv
    simp [this]
  · intro hv
    have : (flags (event_hits speed walls ts)).2.1 = false := by
      cases hfl : (flags (event_hits speed walls ts)).2.1 with
      | false => rfl
      | true => exact absurd ((flags_reflect_v _).mp hfl) hv
    simp [this]
  · intro hv
    have := (flags_reflect_h _).mpr hv
    simp [this]
  · intro hv
    have : (flags (event_hits speed walls ts)).2.2 = false := by
      cases hfl : (flags (event_hits speed walls ts)).2.2 with
      | false => rfl
      | true => exact absurd ((flags_reflect_h _).mp hfl) hv
    simp [this]

end C2

/-- Witness for C2: from `(0,0)` along `(3/5, 4/5)` a REFLECT vertical segment
at `x = 3` and a PASS_THROUGH horizontal segment at `y = 4` are struck at the
same distance 5; only the X component is negated. And a REFLECT segment tied
with a PASS_THROUGH segment on the same face `x = 1` still reflects: the run
(ray from `(0,0)` along `+x`, tick 10, budget 5) turns back at `(1,0)`. -/
theorem reflect_flips_struck_axes_witness :
    (∃ ts1 : TickState ℚ,
      inner_body (10 : ℚ)
        [{ x1 := 3, y1 := -10, x2 := 3, y2 := 10, behavior := .REFLECT },
         { x1 := -10, y1 := 4, x2 := 10, y2 := 4, behavior := .PASS_THROUGH }]
        { run := { path := [(0, 0)], px := 0, py := 0, dx := 3 / 5, dy := 4 / 5,
                   remaining_budget := 8 },
          recorded_pass_before_nonpass := false, remaining_in_tick := 8 }
        = Flow.next ts1 ∧
      ts1.run.dx = -(3 / 5) ∧ ts1.run.dy = 4 / 5) ∧
    simulatePath hypotQ ((0 : ℚ), (0 : ℚ)) (1, 0) 10 5
        [{ x1 := 1, y1 := -2, x2 := 1, y2 := 2, behavior := .PASS_THROUGH },
         { x1 := 1, y1 := -2, x2 := 1, y2 := 2, behavior := .REFLECT }]
      = .ok [(0, 0), (1, 0), (-3 - 11 / 2 ^ 42, 0)] := by
  obtain ⟨ts1, h1, hx, _, _, hy⟩ := reflect_flips_struck_axes (10 : ℚ)
    [{ x1 := 3, y1 := -10, x2 := 3, y2 := 10, behavior := .REFLECT },
     { x1 := -10, y1 := 4, x2 := 10, y2 := 4, behavior := .PASS_THROUGH }]
    { run := { path := [(0, 0)], px := 0, py := 0, dx := 3 / 5, dy := 4 / 5,
               remaining_budget := 8 },
      recorded_pass_before_nonpass := false, remaining_in_tick := 8 }
    (by decide!) (by decide!)
  exact ⟨⟨ts1, h1, hx (by decide!), hy (by decide!)⟩, by decide!⟩

/-! ## C3: Path length against the budget: equality -/

section C3

variable {K : Type} [LinearOrderedField K] [FloorRing K]

end C3

section C4

variable {K : Type} [LinearOrderedField K] [FloorRing K]

/-- C4. `simulatePath` fails exactly when `speed ≤ 0`, or `distance_budget < 0`,
or the magnitude `vec_len` of the direction is zero; otherwise it returns a
path. Every failure is an invalid-argument error, and it does not depend on
the wall list: no wall is looked at and no step is taken before it. -/
theorem simulatePath_fails_iff_invalid (hypot : K → K → K) (start direction : K × K)
    (speed distance_budget : K) (walls : List (Wall K)) :
    ((∃ e, simulatePath hypot start direction speed distance_budget walls = .error e) ↔
      (speed ≤ 0 ∨ distance_budget < 0 ∨ vec_len hypot direction.1 direction.2 = 0)) ∧
    ((∃ p, simulatePath hypot start direction speed distance_budget walls = .ok p) ↔
      ¬ (speed ≤ 0 ∨ distance_budget < 0 ∨ vec_len hypot direction.1 direction.2 = 0)) ∧
    (∀ e, simulatePath hypot start direction speed distance_budget walls = .error e →
      (∃ msg, e = Error.invalid_argument msg) ∧
      ∀ walls1 : List (Wall K),
        simulatePath hypot start direction speed distance_budget walls1 = .error e) := by
  by_cases hs : speed ≤ 0
  · simp [simulatePath, hs]
  by_cases hb : distance_budget < 0
  · simp [simulatePath, hs, hb]
  by_cases hd : vec_len hypot direction.1 direction.2 = 0
  · simp [simulatePath, hs, hb, hd]
  · have hok := fun w => simulatePath_ok hypot start direction speed distance_budget w
      (not_le.mp hs) (not_lt.mp hb) hd
    simp [hok, hs, hb, hd]

end C4

/-! ## C5: Zero budget -/

section C5

variable {K : Type} [LinearOrderedField K] [FloorRing K]

/-- C5. With a zero budget every valid call returns the one-element path
`[start]`, for every wall list. -/
theorem zero_budget_returns_start (hypot : K → K → K) (start direction : K × K)
    (speed : K) (walls : List (Wall K)) (hs : 0 < speed)
    (hd : vec_len hypot direction.1 direction.2 ≠ 0) :
    simulatePath hypot start direction speed 0 walls = .ok [start] := by
  rw [simulatePath_ok hypot start direction speed 0 walls hs le_rfl hd]
  have h0 := (ingest_speed
    ({ speed_ := speed, distance_budget_ := 0, walls_ := [] } : ProjectilePathSimulator K)
    walls)
  simp only at h0
  have hpos := eps_out_pos speed start.1 start.2 hs
  simp [ProjectilePathSimulator.simulate, h0.1, h0.2, max_outer, outer_loop, finish,
    not_lt.mpr hpos.le]

end C5

/-- Witness for C5: zero budget, one STOP wall ahead. -/
theorem zero_budget_returns_start_witness :
    simulatePath hypotQ ((0 : ℚ), (0 : ℚ)) (1, 0) 1 0
        [{ x1 := 2, y1 := -10, x2 := 2, y2 := 10, behavior := .STOP }]
      = .ok [(0, 0)] :=
  zero_budget_returns_start hypotQ (0, 0) (1, 0) 1
    [{ x1 := 2, y1 := -10, x2 := 2, y2 := 10, behavior := .STOP }]
    (by decide!) (by decide!)

/-! ## C6: The first vertex -/

section C6

variable {K : Type} [LinearOrderedField K] [FloorRing K]

/-- C6. Every path returned by `simulatePath` on a valid input, and every path
returned by `simulate`, is non-empty and begins with the start position. -/
theorem path_begins_at_start (hypot : K → K → K) (start direction : K × K)
    (speed distance_budget : K) (walls : List (Wall K))
    (hs : 0 < speed) (hb : 0 ≤ distance_budget)
    (hd : vec_len hypot direction.1 direction.2 ≠ 0) :
    (∃ rest, simulatePath hypot start direction speed distance_budget walls
        = .ok (start :: rest)) ∧
    (∀ (sim : ProjectilePathSimulator K) (sx sy dx dy : K),
      ∃ rest, sim.simulate hypot sx sy dx dy = (sx, sy) :: rest) := by
  have key : ∀ (sim : ProjectilePathSimulator K) (sx sy dx dy : K),
      ∃ rest, sim.simulate hypot sx sy dx dy = (sx, sy) :: rest := by
    intro sim sx sy dx dy
    obtain ⟨t, ht⟩ := simulate_extends hypot sim sx sy dx dy
    exact ⟨t, by rw [← ht]; rfl⟩
  refine ⟨?_, key⟩
  rw [simulatePath_ok hypot start direction speed distance_budget walls hs hb hd]
  obtain ⟨rest, hr⟩ := key
    (ingest { speed_ := speed, distance_budget_ := distance_budget, walls_ := [] } walls)
    start.1 start.2 (direction.1 / vec_len hypot direction.1 direction.2)
    (direction.2 / vec_len hypot direction.1 direction.2)
  exact ⟨rest, by rw [hr]⟩

end C6

/-- Witness for C6: the reflecting-wall scenario starts at `(0,0)`. -/
theorem path_begins_at_start_witness :
    (∃ rest, simulatePath hypotQ ((0 : ℚ), (0 : ℚ)) (1, 0) 10 5
        [{ x1 := 2, y1 := -10, x2 := 2, y2 := 10, behavior := .REFLECT }]
      = .ok ((0, 0) :: rest)) ∧
    (∀ (sim : ProjectilePathSimulator ℚ) (sx sy dx dy : ℚ),
      ∃ rest, sim.simulate hypotQ sx sy dx dy = (sx, sy) :: rest) :=
  path_begins_at_start hypotQ (0, 0) (1, 0) 10 5
    [{ x1 := 2, y1 := -10, x2 := 2, y2 := 10, behavior := .REFLECT }]
    (by decide!) (by decide!) (by decide!)

/-! ## C7: Path length against the budget: upper bound -/

section C7

variable {K : Type} [LinearOrderedField K] [FloorRing K]

end C7

section C8

variable {K : Type} [LinearOrderedField K] [FloorRing K]

end C8

section C9

variable {K : Type} [LinearOrderedField K] [FloorRing K]

end C9

/-- Counterexample for C10 as stated: the STOP segment `(2,-10)-(2,10)` has
zero width, hence zero area, and inserting it changes the result. -/
theorem zero_width_wall_changes_path :
    (({ x1 := 2, y1 := -10, x2 := 2, y2 := 10, behavior := .STOP } : Wall ℚ).x1
      = ({ x1 := 2, y1 := -10, x2 := 2, y2 := 10, behavior := .STOP } : Wall ℚ).x2) ∧
    simulatePath hypotQ ((0 : ℚ), (0 : ℚ)) (1, 0) 1 10
        [{ x1 := 2, y1 := -10, x2 := 2, y2 := 10, behavior := .STOP }]
      = .ok [(0, 0), (2, 0)] ∧
    simulatePath hypotQ ((0 : ℚ), (0 : ℚ)) (1, 0) 1 10 [] = .ok [(0, 0), (10, 0)] := by
  decide!

section C10

variable {K : Type} [LinearOrderedField K] [FloorRing K]

/-- C10, amended. A wall whose width and height are both at most `1e-12` (a
point wall) can be inserted anywhere in the wall list without changing the
result of `simulatePath`. -/
theorem point_wall_is_ignored (hypot : K → K → K) (start direction : K × K)
    (speed distance_budget : K) (l1 l2 : List (Wall K)) (w : Wall K)
    (hx : |w.x1 - w.x2| ≤ tiny) (hy : |w.y1 - w.y2| ≤ tiny) :
    simulatePath hypot start direction speed distance_budget (l1 ++ w :: l2) =
      simulatePath hypot start direction speed distance_budget (l1 ++ l2) := by
  have hi : ∀ sim : ProjectilePathSimulator K,
      ingest sim (l1 ++ w :: l2) = ingest sim (l1 ++ l2) := by
    intro sim
    rw [ingest_append, ingest_append, ingest_cons_degenerate _ _ _ hx hy]
  unfold simulatePath
  simp only [hi]

end C10

/-- Witness for C10, amended: the point wall `(2,0)-(2,0)` STOP, ray from
`(0,0)` along `+x`, tick 1, budget 3. -/
theorem point_wall_is_ignored_witness :
    simulatePath hypotQ ((0 : ℚ), (0 : ℚ)) (1, 0) 1 3
        ([] ++ { x1 := 2, y1 := 0, x2 := 2, y2 := 0, behavior := .STOP } :: [])
      = simulatePath hypotQ ((0 : ℚ), (0 : ℚ)) (1, 0) 1 3 ([] ++ []) ∧
    simulatePath hypotQ ((0 : ℚ), (0 : ℚ)) (1, 0) 1 3 [] = .ok [(0, 0), (3, 0)] :=
  ⟨point_wall_is_ignored hypotQ (0, 0) (1, 0) 1 3 [] []
      { x1 := 2, y1 := 0, x2 := 2, y2 := 0, behavior := .STOP } (by decide!) (by decide!),
   by decide!⟩

/-! ## C11: `add_wall` -/

section C11

variable {K : Type} [LinearOrderedField K]

end C11

section C12

variable {K : Type} [LinearOrderedField K]

end C12

section C13

variable {K : Type} [LinearOrderedField K] [FloorRing K]

end C13

section C14

variable {K : Type} [LinearOrderedField K] [FloorRing K]

end C14

section C15

variable {K : Type} [LinearOrderedField K] [FloorRing K]

end C15

/-- C16: the ray from `(0,0)` along `(1,0)` with budget 5 and a REFLECT segment
at `x = 2` spanning `[-10,10]`. With speed 1 the path is exactly
`[(0,0),(2,0),(-1,0)]`. With tick 10 it is `[(0,0),(2,0),(-1 - 11/2^42, 0)]`:
three vertices, the third within the relative tolerance `1e-6` of `(-1,0)`;
after the bounce the ray cast from the nudged position finds no candidate, so
the face is not detected again. -/
theorem reflect_segment_bounces_back :
    simulatePath hypotQ (0, 0) (1, 0) 1 5 [⟨2, -10, 2, 10, WallBehavior.REFLECT⟩]
      = .ok [(0, 0), (2, 0), (-1, 0)] ∧
    simulatePath hypotQ (0, 0) (1, 0) 10 5 [⟨2, -10, 2, 10, WallBehavior.REFLECT⟩]
      = .ok [(0, 0), (2, 0), (-1 - 11 / 2 ^ 42, 0)] ∧
    |(-1 - 11 / 2 ^ 42 : ℚ) - (-1)| ≤ 1 / 10 ^ 6 * |(-1 : ℚ)| ∧
    inner_body (10 : ℚ) [⟨2, -10, 2, 10, WallBehavior.REFLECT⟩]
        { run := { path := [(0, 0)], px := 0, py := 0, dx := 1, dy := 0,
                   remaining_budget := 5 },
          recorded_pass_before_nonpass := false, remaining_in_tick := 5 }
      = (Flow.next
        { run := { path := [(0, 0), (2, 0)], px := 2 - 11 / 2 ^ 42, py := 0, dx := -1,
                   dy := 0, remaining_budget := 3 },
          recorded_pass_before_nonpass := false, remaining_in_tick := 3 } : Flow ℚ) ∧
    gather (10 : ℚ) [⟨2, -10, 2, 10, WallBehavior.REFLECT⟩] (2 - 11 / 2 ^ 42) 0 (-1) 0 3 = [] ∧
    gather (1 : ℚ) [⟨2, -10, 2, 10, WallBehavior.REFLECT⟩] 2 0 (-1) 0 1 = [] := by
  refine ⟨?_, ?_, ?_, ?_, ?_, ?_⟩ <;> decide!

/-! ## C17: Chained PASS_THROUGH segments -/

section C17

variable {K : Type} [LinearOrderedField K] [FloorRing K]

end C17

/-- C18 as stated does not hold exactly: over the reals, with the exact
Euclidean `hypot`, the third vertex of the corner scenario is not
`1 - (3 - √2)/√2` in each coordinate; the nudge `eps_push` after the bounce is
added to the way back. -/
theorem corner_end_point_is_nudged :
    simulatePath (fun x y : ℝ => Real.sqrt (x * x + y * y)) (0, 0) (1, 1) 10 3
        [⟨1, 1, 3, 3, WallBehavior.REFLECT⟩]
      ≠ .ok [(0, 0), (1, 1),
          (1 - (3 - Real.sqrt 2) / Real.sqrt 2, 1 - (3 - Real.sqrt 2) / Real.sqrt 2)] := by
  have hr : (0 : ℝ) < Real.sqrt 2 := Real.sqrt_pos.mpr (by norm_num)
  rw [corner_run real_hypot_exact hr (Real.mul_self_sqrt (by norm_num))]
  intro h
  simp only [Except.ok.injEq, List.cons.injEq, Prod.mk.injEq, and_true, true_and,
    and_self] at h
  have hep : (0 : ℝ) < eps_push 10 := eps_push_pos (by norm_num)
  have : (3 - Real.sqrt 2 + eps_push 10) / Real.sqrt 2
      = (3 - Real.sqrt 2) / Real.sqrt 2 + eps_push 10 / Real.sqrt 2 := by ring
  have h2 : 0 < eps_push (10 : ℝ) / Real.sqrt 2 := div_pos hep hr
  linarith

section C18

variable {K : Type} [LinearOrderedField K] [FloorRing K]

/-- C18, amended: in every ordered field with `r = √2` and an exact `hypot`,
the corner scenario (start `(0,0)`, direction `(1,1)`, tick 10, budget 3,
REFLECT rectangle `(1,1)-(3,3)`) records the corner `(1,1)` first, flips both
direction components there, and returns `[(0,0),(1,1),(q,q)]` with
`q = 1 - (3 - √2 + eps_push)/√2`, where `eps_push = 1024 ulp (1 + 10)`; `q`
is below `1 - (3 - √2)/√2` by less than `2e-12`. -/
theorem corner_reflects_both_axes (hypot : K → K → K) (hx : HypotExact hypot) (r : K)
    (hr : 0 < r) (hr2 : r * r = 2) :
    inner_body (10 : K) [⟨1, 1, 3, 3, WallBehavior.REFLECT⟩]
        { run := { path := [(0, 0)], px := 0, py := 0, dx := 1 / r, dy := 1 / r,
                   remaining_budget := 3 },
          recorded_pass_before_nonpass := false, remaining_in_tick := min 10 3 }
      = Flow.next
        { run := { path := [(0, 0), (1, 1)], px := 1 - eps_push 10 / r,
                   py := 1 - eps_push 10 / r, dx := -(1 / r), dy := -(1 / r),
                   remaining_budget := 3 - r },
          recorded_pass_before_nonpass := false, remaining_in_tick := 3 - r } ∧
    simulatePath hypot (0, 0) (1, 1) 10 3 [⟨1, 1, 3, 3, WallBehavior.REFLECT⟩]
      = .ok [(0, 0), (1, 1),
          (1 - (3 - r + eps_push 10) / r, 1 - (3 - r + eps_push 10) / r)] ∧
    1 - (3 - r) / r - 2 / 10 ^ 12 < 1 - (3 - r + eps_push 10) / r ∧
    1 - (3 - r + eps_push 10) / r < 1 - (3 - r) / r := by
  refine ⟨corner_first_pass hr hr2, corner_run hx hr hr2, ?_, ?_⟩
  · obtain ⟨hr1, _⟩ := sqrt_two_bounds hr hr2
    obtain ⟨_, hep, _⟩ := @eps_ten K _
    have e : (3 - r + eps_push 10) / r = (3 - r) / r + eps_push 10 / r := by ring
    have h1 : eps_push (10 : K) / r < 2 / 10 ^ 12 := by
      rw [div_lt_iff₀ hr, hep]
      have : (11 : K) / 2 ^ 42 < 2 / 10 ^ 12 * (7 / 5) := by norm_num
      have h3 : (2 : K) / 10 ^ 12 * (7 / 5) < 2 / 10 ^ 12 * r :=
        mul_lt_mul_of_pos_left hr1 (by norm_num)
      linarith
    rw [e]; linarith
  · have hep : (0 : K) < eps_push 10 := eps_push_pos (by norm_num)
    have e : (3 - r + eps_push 10) / r = (3 - r) / r + eps_push 10 / r := by ring
    have h2 : 0 < eps_push (10 : K) / r := div_pos hep hr
    rw [e]; linarith

end C18

/-- C18 over the reals, with the exact Euclidean `hypot` and `r = √2`. -/
theorem corner_reflects_both_axes_witness :
    simulatePath (fun x y : ℝ => Real.sqrt (x * x + y * y)) (0, 0) (1, 1) 10 3
        [⟨1, 1, 3, 3, WallBehavior.REFLECT⟩]
      = .ok [(0, 0), (1, 1),
          (1 - (3 - Real.sqrt 2 + eps_push 10) / Real.sqrt 2,
           1 - (3 - Real.sqrt 2 + eps_push 10) / Real.sqrt 2)] :=
  (corner_reflects_both_axes (fun x y : ℝ => Real.sqrt (x * x + y * y)) real_hypot_exact
    (Real.sqrt 2) (Real.sqrt_pos.mpr (by norm_num)) (Real.mul_self_sqrt (by norm_num))).2.1

/-! ## C19: Faces parallel to the ray -/

section C19

variable {K : Type} [LinearOrderedField K]

/-- C19: a ray parallel to a face never collides with it. `maybe_add_vertical`
returns the candidate list unchanged when `|dx| ≤ eps_dir` and
`maybe_add_horizontal` when `|dy| ≤ eps_dir`, for every face position, wall,
origin, maximum distance and tolerance; so in an inner iteration no candidate
is on a vertical face when `|dx| ≤ eps_dir` and none on a horizontal face when
`|dy| ≤ eps_dir`. -/
theorem parallel_face_never_hit (side : K) (w : Wall K) (sx sy dx dy maxDist edir ef ed : K)
    (out : List (SideHit K)) (speed : K) (walls : List (Wall K)) :
    (|dx| ≤ edir → maybe_add_vertical side w sx sy dx dy maxDist edir ef ed out = out) ∧
    (|dy| ≤ edir → maybe_add_horizontal side w sx sy dx dy maxDist edir ef ed out = out) ∧
    (|dx| ≤ eps_dir → ∀ h ∈ gather speed walls sx sy dx dy maxDist, h.vertical = false) ∧
    (|dy| ≤ eps_dir → ∀ h ∈ gather speed walls sx sy dx dy maxDist, h.horizontal = false) := by
  refine ⟨?_, ?_, ?_, ?_⟩
  · intro h; unfold maybe_add_vertical; rw [if_pos h]
  · intro h; unfold maybe_add_horizontal; rw [if_pos h]
  · intro h c hc
    obtain ⟨w1, _, hw1⟩ := mem_gather hc
    rcases hw1.face with ⟨_, _, _, h4⟩ | ⟨h1, _, _, _⟩
    · exact absurd h (not_le.mpr h4)
    · exact h1
  · intro h c hc
    obtain ⟨w1, _, hw1⟩ := mem_gather hc
    rcases hw1.face with ⟨_, h2, _, _⟩ | ⟨_, _, _, h4⟩
    · exact h2
    · exact absurd h (not_le.mpr h4)

end C19

/-- C19, the repository's grazing scenario: a horizontal STOP segment lying on
the ray is not a candidate, and the run from `(0,1)` along `+x` with tick 10
and budget 5 returns `[(0,1),(5,1)]`. -/
theorem parallel_face_never_hit_witness :
    maybe_add_horizontal (1 : ℚ) ⟨-100, 1, 100, 1, WallBehavior.STOP⟩ 0 1 1 0 5 eps_dir
      (eps_face 10 0 1 1 0) (eps_d 10) [] = [] ∧
    gather (10 : ℚ) [⟨-100, 1, 100, 1, WallBehavior.STOP⟩] 0 1 1 0 5 = [] ∧
    simulatePath hypotQ (0, 1) (1, 0) 10 5 [⟨-100, 1, 100, 1, WallBehavior.STOP⟩]
      = .ok [(0, 1), (5, 1)] :=
  ⟨(parallel_face_never_hit (1 : ℚ) ⟨-100, 1, 100, 1, WallBehavior.STOP⟩ 0 1 1 0 5 eps_dir
      (eps_face 10 0 1 1 0) (eps_d 10) [] 10 []).2.1 (by decide!),
   by decide!, by decide!⟩

/-! ## C20: Iteration and vertex bounds -/

section C20

variable {K : Type} [LinearOrderedField K] [FloorRing K]

/-- C20: for every valid input and every wall list `simulatePath` returns a
path; the outer loop is entered at most `max_outer ≤ ⌈budget / speed⌉ + 2`
times and the inner loop at most 256 times per tick, and the path has at most
`256 * (⌈budget / speed⌉ + 2) + 2` vertices. -/
theorem path_length_bounded (hypot : K → K → K) (start direction : K × K)
    (speed budget : K) (walls : List (Wall K)) (hs : 0 < speed) (hB : 0 ≤ budget)
    (hL : vec_len hypot direction.1 direction.2 ≠ 0) :
    max_outer speed budget ≤ ⌈budget / speed⌉ + 2 ∧
    ∃ p, simulatePath hypot start direction speed budget walls = .ok p ∧
      p.length ≤ 256 * (⌈budget / speed⌉.toNat + 2) + 2 := by
  have hm := max_outer_le hs hB
  refine ⟨hm, ?_⟩
  obtain ⟨sim, hsim, hp⟩ : ∃ sim : ProjectilePathSimulator K,
      sim.speed_ = speed ∧ sim.distance_budget_ = budget ∧
      ∃ dx dy, simulatePath hypot start direction speed budget walls
        = .ok (sim.simulate hypot start.1 start.2 dx dy) := by
    refine ⟨ingest { speed_ := speed, distance_budget_ := budget, walls_ := [] } walls,
      (ingest_speed _ _).1, (ingest_speed _ _).2,
      direction.1 / vec_len hypot direction.1 direction.2,
      direction.2 / vec_len hypot direction.1 direction.2, ?_⟩
    unfold simulatePath ProjectilePathSimulator.new
    simp [not_le.mpr hs, not_lt.mpr hB, hL]
  obtain ⟨hb, dx, dy, hp⟩ := hp
  refine ⟨_, hp, ?_⟩
  have h1 := simulate_length hypot sim start.1 start.2 dx dy
  rw [hsim, hb] at h1
  have h2 : (max_outer speed budget).toNat ≤ ⌈budget / speed⌉.toNat + 2 := by omega
  have : max_inner_per_tick = 256 := rfl
  rw [this] at h1
  omega

end C20

/-- C20, the repository's dense field of five PASS_THROUGH segments with tick 2
and budget 6: at most `3 + 2` ticks, and a path within the vertex bound. -/
theorem path_length_bounded_witness :
    max_outer (2 : ℚ) 6 ≤ ⌈(6 : ℚ) / 2⌉ + 2 ∧
    ∃ p, simulatePath hypotQ (0, 0) (1, 0) 2 6
        [⟨1, -100, 1, 100, WallBehavior.PASS_THROUGH⟩,
         ⟨2, -100, 2, 100, WallBehavior.PASS_THROUGH⟩,
         ⟨3, -100, 3, 100, WallBehavior.PASS_THROUGH⟩,
         ⟨4, -100, 4, 100, WallBehavior.PASS_THROUGH⟩,
         ⟨5, -100, 5, 100, WallBehavior.PASS_THROUGH⟩] = .ok p ∧
      p.length ≤ 256 * (⌈(6 : ℚ) / 2⌉.toNat + 2) + 2 :=
  path_length_bounded hypotQ (0, 0) (1, 0) 2 6 _ (by norm_num) (by norm_num) (by decide!)

/-! ## C21: The direction stays a unit vector -/

section C21

variable {K : Type} [LinearOrderedField K] [FloorRing K]

end C21

section C22

variable {K : Type} [LinearOrderedField K]

/-- C22: in every inner iteration with a non-empty candidate list (of an
object with positive speed) the resolved distance `s_min` is finite and is
the distance of a candidate; that candidate survives into the
simultaneous-hit set, so the set is non-empty and the divisor of the
impact-point average is not zero. -/
theorem resolved_event_has_hit {speed : K} (hs : 0 < speed) (walls : List (Wall K))
    (ts : TickState K) (hne : (event_candidates speed walls ts).isEmpty = false) :
    ∃ s c, event_s_min speed walls ts = some s ∧
      c ∈ event_candidates speed walls ts ∧ c.dist = s ∧
      c ∈ event_hits speed walls ts ∧
      event_hits speed walls ts ≠ [] ∧
      ((event_hits speed walls ts).length : K) ≠ 0 := by
  obtain ⟨s, hsm, ⟨c, hc, hd⟩, _⟩ := event_s_min_spec hs walls ts hne
  have hne1 : event_hits speed walls ts ≠ [] := by
    intro h; rw [h] at hc; simp at hc
  refine ⟨s, c, hsm, event_hits_subset speed walls ts c hc, hd, hc, hne1, ?_⟩
  exact Nat.cast_ne_zero.mpr (fun h => hne1 (List.length_eq_zero.mp h))

end C22

/-- C22 on the first pass of the run from `(0,0)` along `+x` with tick 10 and
budget 5 towards a PASS_THROUGH segment at `x = 1` and a STOP segment at
`x = 2`: two candidates, resolved distance 1, one hit. -/
theorem resolved_event_has_hit_witness :
    (event_candidates (10 : ℚ)
        [⟨1, -1, 1, 1, WallBehavior.PASS_THROUGH⟩, ⟨2, -1, 2, 1, WallBehavior.STOP⟩]
        ⟨⟨[(0, 0)], 0, 0, 1, 0, 5⟩, false, 5⟩).length = 2 ∧
    ∃ s c, event_s_min (10 : ℚ)
        [⟨1, -1, 1, 1, WallBehavior.PASS_THROUGH⟩, ⟨2, -1, 2, 1, WallBehavior.STOP⟩]
        ⟨⟨[(0, 0)], 0, 0, 1, 0, 5⟩, false, 5⟩ = some s ∧
      c ∈ event_candidates (10 : ℚ)
        [⟨1, -1, 1, 1, WallBehavior.PASS_THROUGH⟩, ⟨2, -1, 2, 1, WallBehavior.STOP⟩]
        ⟨⟨[(0, 0)], 0, 0, 1, 0, 5⟩, false, 5⟩ ∧ c.dist = s ∧
      c ∈ event_hits (10 : ℚ)
        [⟨1, -1, 1, 1, WallBehavior.PASS_THROUGH⟩, ⟨2, -1, 2, 1, WallBehavior.STOP⟩]
        ⟨⟨[(0, 0)], 0, 0, 1, 0, 5⟩, false, 5⟩ ∧
      event_hits (10 : ℚ)
        [⟨1, -1, 1, 1, WallBehavior.PASS_THROUGH⟩, ⟨2, -1, 2, 1, WallBehavior.STOP⟩]
        ⟨⟨[(0, 0)], 0, 0, 1, 0, 5⟩, false, 5⟩ ≠ [] ∧
      ((event_hits (10 : ℚ)
        [⟨1, -1, 1, 1, WallBehavior.PASS_THROUGH⟩, ⟨2, -1, 2, 1, WallBehavior.STOP⟩]
        ⟨⟨[(0, 0)], 0, 0, 1, 0, 5⟩, false, 5⟩).length : ℚ) ≠ 0 :=
  ⟨by decide!,
   resolved_event_has_hit (by norm_num)
    [⟨1, -1, 1, 1, WallBehavior.PASS_THROUGH⟩, ⟨2, -1, 2, 1, WallBehavior.STOP⟩]
    ⟨⟨[(0, 0)], 0, 0, 1, 0, 5⟩, false, 5⟩ (by decide!)⟩

end projectile_path_simulator

/-! ## C23: `solve` and malformed dimensions -/

namespace solution

/-- C23 as stated fails when `m` or `n` is zero: the test `m == 0 || n == 0`
comes first and answers `0`, whatever the other dimension and the matrix are.
So `solve(0, 3, M)` with a two-row `M`, `solve(0, -5, {})`, `solve(-4, 0, M)`
and `solve(3, 0, M)` with a ragged `M` all return `0`. -/
theorem zero_dimension_answers_zero :
    (∀ fuel : Nat, solve fuel 0 3 [[true, false, true], [false, true, false]]
      = some (.ok 0)) ∧
    (∀ fuel : Nat, solve fuel 0 (-5) [] = some (.ok 0)) ∧
    (∀ fuel : Nat, solve fuel (-4) 0 [[true, true, true, true, true]] = some (.ok 0)) ∧
    (∀ fuel : Nat, solve fuel 3 0 [[true], [true, false], []] = some (.ok 0)) :=
  ⟨fun _ => rfl, fun _ => rfl, fun _ => rfl, fun _ => rfl⟩

/-- C23, amended: when neither `m` nor `n` is zero, `solve(m, n, matrix)`
throws `std::invalid_argument` whenever `m` or `n` is negative, or the number
of rows differs from `m`, or some row has a length other than `n`; the greedy
loop is not entered, so the answer does not depend on the fuel. -/
theorem solve_rejects_malformed (fuel : Nat) (m n : Int) (matrix : List (List Bool))
    (hm : m ≠ 0) (hn : n ≠ 0)
    (hbad : m < 0 ∨ n < 0 ∨ (matrix.length : Int) ≠ m ∨
      ∃ row ∈ matrix, (row.length : Int) ≠ n) :
    ∃ msg, solve fuel m n matrix = some (.error (.invalid_argument msg)) := by
  have h1 : ¬(m = 0 ∨ n = 0) := by
    rintro (h | h)
    · exact hm h
    · exact hn h
  unfold solve
  rw [if_neg h1]
  by_cases h2 : m < 0 ∨ n < 0
  · rw [if_pos h2]; exact ⟨_, rfl⟩
  · rw [if_neg h2]
    by_cases h3 : m ≠ (matrix.length : Int)
    · rw [if_pos h3]; exact ⟨_, rfl⟩
    · rw [if_neg h3]
      have h3e : m = (matrix.length : Int) := not_not.mp h3
      have hrow : ∃ row ∈ matrix, (row.length : Int) ≠ n := by
        rcases hbad with h | h | h | h
        · exact absurd (Or.inl h) h2
        · exact absurd (Or.inr h) h2
        · exact absurd h3e.symm h
        · exact h
      have hmt : m.toNat = matrix.length := by omega
      have h4 : (List.range m.toNat).any
          (fun i => decide (((matrix.getD i []).length : Int) ≠ n)) = true := by
        rw [hmt, row_check_iff]
        exact hrow
      rw [if_pos h4]
      exact ⟨_, rfl⟩

/-- C23, amended, on the four malformed inputs of the repository's tests:
`m = n = 3` with two rows, `m = n = 3` with a ragged row, `m = -4`, `n = 5`,
and `m = n = 4` with an empty matrix. -/
theorem solve_rejects_malformed_witness :
    (∃ msg, solve 0 3 3 [[true, false, true], [false, true, false]]
      = some (.error (.invalid_argument msg))) ∧
    (∃ msg, solve 0 3 3 [[true, false, true], [true], [false, true, false]]
      = some (.error (.invalid_argument msg))) ∧
    (∃ msg, solve 0 (-4) 5 [[true, true, true, true, true]]
      = some (.error (.invalid_argument msg))) ∧
    (∃ msg, solve 0 4 4 [] = some (.error (.invalid_argument msg))) :=
  ⟨solve_rejects_malformed 0 3 3 [[true, false, true], [false, true, false]]
      (by decide) (by decide) (Or.inr (Or.inr (Or.inl (by decide)))),
   solve_rejects_malformed 0 3 3 [[true, false, true], [true], [false, true, false]]
      (by decide) (by decide) (Or.inr (Or.inr (Or.inr ⟨[true], by decide, by decide⟩))),
   solve_rejects_malformed 0 (-4) 5 [[true, true, true, true, true]]
      (by decide) (by decide) (Or.inl (by decide)),
   solve_rejects_malformed 0 4 4 [] (by decide) (by decide)
      (Or.inr (Or.inr (Or.inl (by decide))))⟩

end solution

/-! ## C24: `solve` returns `0` exactly for a matrix without a true cell -/

namespace solution

/-- C24: for a well-formed `m × n` matrix with `m, n ≥ 1`, `solve` returns `0`
if and only if no cell is true. Without a true cell it returns `0` before the
greedy loop, whatever the fuel. With a true cell it returns a number `k ≥ 1`,
the same for every fuel from `2 ^ (m * n)` on, and with any fuel every number
it returns is at least `1`. And `solve(0, 0, {})` returns `0`. -/
theorem solve_zero_iff_no_true_cell (fuel : Nat) (m n : Int) (matrix : List (List Bool))
    (hm : 1 ≤ m) (hn : 1 ≤ n) (hrows : (matrix.length : Int) = m)
    (hcols : ∀ row ∈ matrix, (row.length : Int) = n) :
    (solve fuel m n matrix = some (.ok 0) ↔ ∀ row ∈ matrix, ∀ v ∈ row, v = false) ∧
    ((∃ row ∈ matrix, ∃ v ∈ row, v = true) →
      ∃ k : Int, 1 ≤ k ∧
        ∀ fuel1, 2 ^ (m.toNat * n.toNat) ≤ fuel1 → solve fuel1 m n matrix = some (.ok k)) ∧
    ((∃ row ∈ matrix, ∃ v ∈ row, v = true) →
      ∀ k, solve fuel m n matrix = some (.ok k) → 1 ≤ k) ∧
    solve fuel 0 0 [] = some (.ok 0) := by
  have hsolve := solve_well_formed fuel m n matrix hm hn hrows hcols
  have hpos : matrix_has_ones matrix = true →
      ∀ k, solve fuel m n matrix = some (.ok k) → 1 ≤ k := by
    intro h1 k hk
    rw [hsolve, if_pos h1] at hk
    have := (greedy_loop_counts _ _ _ _ _ _ hk).2 h1
    omega
  have hones : (∃ row ∈ matrix, ∃ v ∈ row, v = true) → matrix_has_ones matrix = true := by
    rintro ⟨row, hrow, v, hv, hvv⟩
    cases h1 : matrix_has_ones matrix with
    | true => rfl
    | false =>
      have := (has_ones_false_iff matrix).mp h1 row hrow v hv
      rw [hvv] at this
      cases this
  refine ⟨?_, ?_, fun h => hpos (hones h), rfl⟩
  · rw [← has_ones_false_iff]
    constructor
    · intro h
      cases h1 : matrix_has_ones matrix with
      | false => rfl
      | true =>
        have := hpos h1 0 h
        omega
    · intro h
      rw [hsolve, h]
      simp
  · intro h
    obtain ⟨k, _, k2, k3⟩ := solve_terminates m n matrix hm hn hrows hcols
    exact ⟨k, k2 (hones h), k3⟩

/-- C24 on the repository's tests: the `1 × 1` matrix `{0}` gives `0`, and the
`2 × 2` matrix with one true cell does not: it gives `1`. -/
theorem solve_zero_iff_no_true_cell_witness :
    solve 8 1 1 [[false]] = some (.ok 0) ∧
    solve 8 2 2 [[false, false], [false, true]] = some (.ok 1) ∧
    ¬ (solve 8 2 2 [[false, false], [false, true]] = some (.ok 0)) :=
  ⟨((solve_zero_iff_no_true_cell 8 1 1 [[false]] (by decide) (by decide) (by decide)
      (by decide)).1).mpr (by decide),
   by decide,
   fun h => absurd
     (((solve_zero_iff_no_true_cell 8 2 2 [[false, false], [false, true]] (by decide)
        (by decide) (by decide) (by decide)).1).mp h [false, true] (by decide) true
        (by decide))
     (by decide)⟩

end solution

namespace projectile_path_simulator

/-! ## C26: The distance window of a candidate -/

/-- C26 as stated fails at the far end of the window: with maximum distance
`1` and `eps_d = 2⁻⁴⁵` (speed 1) the face at `x = 1 + 2⁻⁴⁶` yields a candidate
at distance `1 + 2⁻⁴⁶ > 1`, and the run with tick 1 and budget 1 towards a STOP
segment there ends on it, beyond the budget. -/
theorem candidate_beyond_step_distance :
    maybe_add_vertical (1 + 1 / 2 ^ 46 : ℚ) ⟨1 + 1 / 2 ^ 46, -1, 1 + 1 / 2 ^ 46, 1, .STOP⟩
        0 0 1 0 1 eps_dir (eps_face 1 0 0 1 0) (eps_d 1) []
      = [⟨true, 1 + 1 / 2 ^ 46, 1 + 1 / 2 ^ 46, 0, true, false, .STOP⟩] ∧
    maybe_add_horizontal (1 + 1 / 2 ^ 46 : ℚ) ⟨-1, 1 + 1 / 2 ^ 46, 1, 1 + 1 / 2 ^ 46, .STOP⟩
        0 0 0 1 1 eps_dir (eps_face 1 0 0 0 1) (eps_d 1) []
      = [⟨true, 1 + 1 / 2 ^ 46, 0, 1 + 1 / 2 ^ 46, false, true, .STOP⟩] ∧
    (1 : ℚ) < 1 + 1 / 2 ^ 46 ∧
    simulatePath hypotQ (0, 0) (1, 0) 1 1
        [⟨1 + 1 / 2 ^ 46, -1, 1 + 1 / 2 ^ 46, 1, .STOP⟩]
      = .ok [(0, 0), (1 + 1 / 2 ^ 46, 0)] := by
  refine ⟨by decide!, by decide!, by norm_num, by decide!⟩

section C26

variable {K : Type} [LinearOrderedField K]

/-- C26, amended: every candidate that `maybe_add_vertical` or
`maybe_add_horizontal` adds for a step with maximum distance `D` has a travel
distance `s` with `eps_d < s ≤ D + eps_d`; so has every candidate of an inner
iteration. -/
theorem candidate_distance_window (side : K) (w : Wall K) (sx sy dx dy D edir ef ed : K)
    (out : List (SideHit K)) (h : SideHit K) (speed : K) (walls : List (Wall K)) :
    (h ∈ maybe_add_vertical side w sx sy dx dy D edir ef ed out →
      h ∈ out ∨ (ed < h.dist ∧ h.dist ≤ D + ed)) ∧
    (h ∈ maybe_add_horizontal side w sx sy dx dy D edir ef ed out →
      h ∈ out ∨ (ed < h.dist ∧ h.dist ≤ D + ed)) ∧
    (h ∈ gather speed walls sx sy dx dy D →
      eps_d speed < h.dist ∧ h.dist ≤ D + eps_d speed) := by
  refine ⟨?_, ?_, ?_⟩
  · intro hm
    unfold maybe_add_vertical at hm
    simp only at hm
    split_ifs at hm with h1 h2 h3
    · exact Or.inl hm
    · exact Or.inl hm
    · exact Or.inl hm
    · rcases List.mem_append.mp hm with hm | hm
      · exact Or.inl hm
      · right
        have hh := List.mem_singleton.mp hm
        push_neg at h2
        subst hh
        exact h2
  · intro hm
    unfold maybe_add_horizontal at hm
    simp only at hm
    split_ifs at hm with h1 h2 h3
    · exact Or.inl hm
    · exact Or.inl hm
    · exact Or.inl hm
    · rcases List.mem_append.mp hm with hm | hm
      · exact Or.inl hm
      · right
        have hh := List.mem_singleton.mp hm
        push_neg at h2
        subst hh
        exact h2
  · intro hm
    obtain ⟨w1, _, hw1⟩ := mem_gather hm
    exact ⟨hw1.ray.dist_gt, hw1.ray.dist_le⟩

end C26

/-- C26, amended, on the two faces of the scenario above and on a face well
inside the step: the candidate distances `1 + 2⁻⁴⁶` and `1/2` lie in
`(eps_d, 1 + eps_d]`. -/
theorem candidate_distance_window_witness :
    (eps_d (1 : ℚ) < 1 + 1 / 2 ^ 46 ∧ (1 + 1 / 2 ^ 46 : ℚ) ≤ 1 + eps_d 1) ∧
    (eps_d (1 : ℚ) < 1 / 2 ∧ (1 / 2 : ℚ) ≤ 1 + eps_d 1) :=
  ⟨((candidate_distance_window (1 + 1 / 2 ^ 46 : ℚ)
        ⟨1 + 1 / 2 ^ 46, -1, 1 + 1 / 2 ^ 46, 1, .STOP⟩ 0 0 1 0 1 eps_dir
        (eps_face 1 0 0 1 0) (eps_d 1) []
        ⟨true, 1 + 1 / 2 ^ 46, 1 + 1 / 2 ^ 46, 0, true, false, .STOP⟩ 1 []).1
      (by decide!)).resolve_left (by simp),
   (candidate_distance_window (1 / 2 : ℚ) ⟨1 / 2, -1, 1 / 2, 1, .STOP⟩ 0 0 1 0 1 eps_dir
        (eps_face 1 0 0 1 0) (eps_d 1) []
        ⟨true, 1 / 2, 1 / 2, 0, true, false, .STOP⟩ 1
        [⟨1 / 2, -1, 1 / 2, 1, .STOP⟩]).2.2 (by decide!)⟩

/-! ## C27: The batching flag lives for one tick -/

section C27

variable {K : Type} [LinearOrderedField K]

/-- C27: take the tick that starts in any run state `st`, whatever the ticks
before it recorded. Its inner loop starts with the flag cleared. The state at
the start of pass `k + 1` is the one pass `k` went on with, flag included; a
pass that goes on applied no stop, and it leaves the flag set exactly when it
applied no reflection, so cleared when it applied one. Hence in the first
pass of the tick a pass-through candidate that is more than `eps_tie` nearer
than every blocking candidate is not skipped: its vertex is recorded, the flag
is set and the tick goes on in the same direction. -/
theorem batching_flag_per_tick (speed : K) (hs : 0 < speed) (walls : List (Wall K))
    (st : RunState K) :
    inner_state_after speed walls 0
        { run := st, recorded_pass_before_nonpass := false,
          remaining_in_tick := min speed st.remaining_budget }
      = some { run := st, recorded_pass_before_nonpass := false,
               remaining_in_tick := min speed st.remaining_budget } ∧
    tick speed walls st =
      (match inner_loop speed walls max_inner_per_tick
          { run := st, recorded_pass_before_nonpass := false,
            remaining_in_tick := min speed st.remaining_budget } with
        | .stopped path => .stopped path
        | .fell ts => .fell ts.run) ∧
    (∀ (k : Nat) (ts1 : TickState K),
      inner_state_after speed walls (k + 1)
          { run := st, recorded_pass_before_nonpass := false,
            remaining_in_tick := min speed st.remaining_budget } = some ts1 →
      ∃ ts, inner_state_after speed walls k
          { run := st, recorded_pass_before_nonpass := false,
            remaining_in_tick := min speed st.remaining_budget } = some ts ∧
        inner_body speed walls ts = Flow.next ts1 ∧
        (flags (event_hits speed walls ts)).1 = false ∧
        (ts1.recorded_pass_before_nonpass = true ↔
          (flags (event_hits speed walls ts)).2.1 = false ∧
          (flags (event_hits speed walls ts)).2.2 = false) ∧
        (ts1.run.dx ≠ ts.run.dx ∨ ts1.run.dy ≠ ts.run.dy →
          ts1.recorded_pass_before_nonpass = false)) ∧
    (∀ p c : SideHit K,
      p ∈ event_candidates speed walls
          { run := st, recorded_pass_before_nonpass := false,
            remaining_in_tick := min speed st.remaining_budget } →
      p.behavior = WallBehavior.PASS_THROUGH →
      c ∈ event_candidates speed walls
          { run := st, recorded_pass_before_nonpass := false,
            remaining_in_tick := min speed st.remaining_budget } →
      c.behavior ≠ WallBehavior.PASS_THROUGH →
      (∀ b ∈ event_candidates speed walls
          { run := st, recorded_pass_before_nonpass := false,
            remaining_in_tick := min speed st.remaining_budget },
        b.behavior ≠ WallBehavior.PASS_THROUGH → p.dist + eps_tie speed < b.dist) →
      ∃ snp, snp ≤ c.dist ∧
        RecordsPassBefore speed walls
          { run := st, recorded_pass_before_nonpass := false,
            remaining_in_tick := min speed st.remaining_budget } snp) := by
  refine ⟨rfl, rfl, ?_, ?_⟩
  · intro k ts1 h
    obtain ⟨ts, h1, _, h3⟩ := inner_state_after_last k h
    obtain ⟨f1, f2, f3, f4⟩ := flag_after_pass h3
    refine ⟨ts, h1, h3, f1, f2, ?_⟩
    intro hne
    cases hr : ts1.recorded_pass_before_nonpass with
    | false => rfl
    | true =>
      exfalso
      obtain ⟨g1, g2⟩ := f2.mp hr
      rw [g1] at f3
      rw [g2] at f4
      rcases hne with hne | hne
      · exact hne f3
      · exact hne f4
  · intro p c hp hpb hc hcb hfar
    exact pass_recorded_first hs walls _ rfl hp hpb hc hcb hfar

end C27

/-- C27 on the repository's pass-through scenario with the second segment moved
to `x = 5/2` and ticks of length 2: the first tick records `(1,0)` and sets
the flag; the second tick starts at `x = 2 + 3/2⁴²` with the flag cleared, so
the segment at `5/2` is recorded before the REFLECT segment at `3`. With one
tick of length 10 the same segment is skipped on the way to the REFLECT
segment. -/
theorem batching_flag_per_tick_witness :
    inner_state_after (2 : ℚ)
        [⟨1, -2, 1, 2, WallBehavior.PASS_THROUGH⟩, ⟨5 / 2, -2, 5 / 2, 2, WallBehavior.PASS_THROUGH⟩,
         ⟨3, -2, 3, 2, WallBehavior.REFLECT⟩] 1
        ⟨⟨[(0, 0)], 0, 0, 1, 0, 5⟩, false, 2⟩
      = some ⟨⟨[(0, 0), (1, 0)], 1 + 3 / 2 ^ 42, 0, 1, 0, 4⟩, true, 1⟩ ∧
    run_state_after (2 : ℚ)
        [⟨1, -2, 1, 2, WallBehavior.PASS_THROUGH⟩, ⟨5 / 2, -2, 5 / 2, 2, WallBehavior.PASS_THROUGH⟩,
         ⟨3, -2, 3, 2, WallBehavior.REFLECT⟩] 1
        ⟨[(0, 0)], 0, 0, 1, 0, 5⟩
      = some ⟨[(0, 0), (1, 0)], 2 + 3 / 2 ^ 42, 0, 1, 0, 3⟩ ∧
    (∃ snp : ℚ, snp ≤ 1 - 3 / 2 ^ 42 ∧
      RecordsPassBefore (2 : ℚ)
        [⟨1, -2, 1, 2, WallBehavior.PASS_THROUGH⟩, ⟨5 / 2, -2, 5 / 2, 2, WallBehavior.PASS_THROUGH⟩,
         ⟨3, -2, 3, 2, WallBehavior.REFLECT⟩]
        ⟨⟨[(0, 0), (1, 0)], 2 + 3 / 2 ^ 42, 0, 1, 0, 3⟩, false, min 2 3⟩ snp) ∧
    simulatePath hypotQ (0, 0) (1, 0) 2 5
        [⟨1, -2, 1, 2, WallBehavior.PASS_THROUGH⟩, ⟨5 / 2, -2, 5 / 2, 2, WallBehavior.PASS_THROUGH⟩,
         ⟨3, -2, 3, 2, WallBehavior.REFLECT⟩]
      = .ok [(0, 0), (1, 0), (5 / 2, 0), (3, 0), (5 / 2, 0), (1, 0)] ∧
    simulatePath hypotQ (0, 0) (1, 0) 10 5
        [⟨1, -2, 1, 2, WallBehavior.PASS_THROUGH⟩, ⟨5 / 2, -2, 5 / 2, 2, WallBehavior.PASS_THROUGH⟩,
         ⟨3, -2, 3, 2, WallBehavior.REFLECT⟩]
      = .ok [(0, 0), (1, 0), (3, 0), (5 / 2, 0), (1, 0)] :=
  ⟨by decide!, by decide!,
   (batching_flag_per_tick (2 : ℚ) (by norm_num)
      [⟨1, -2, 1, 2, WallBehavior.PASS_THROUGH⟩, ⟨5 / 2, -2, 5 / 2, 2, WallBehavior.PASS_THROUGH⟩,
       ⟨3, -2, 3, 2, WallBehavior.REFLECT⟩]
      ⟨[(0, 0), (1, 0)], 2 + 3 / 2 ^ 42, 0, 1, 0, 3⟩).2.2.2
      ⟨true, 1 / 2 - 3 / 2 ^ 42, 5 / 2, 0, true, false, WallBehavior.PASS_THROUGH⟩
      ⟨true, 1 - 3 / 2 ^ 42, 3, 0, true, false, WallBehavior.REFLECT⟩
      (by decide!) rfl (by decide!) (by decide) (by decide!),
   by decide!, by decide!⟩

/-! ## C28: `simulatePath` against constructor, `add_wall` and `simulate` -/

section C28

variable {K : Type} [LinearOrderedField K] [FloorRing K]

end C28

section C29

variable {K : Type} [LinearOrderedField K] [FloorRing K]

end C29

section C30

variable {K : Type} [LinearOrderedField K]

end C30

section C31

variable {K : Type} [LinearOrderedField K] [FloorRing K]

end C31

end projectile_path_simulator

/-! ## C32: the greedy loop ends, and never by its exception -/

namespace solution

/-- C32: for a well-formed `m × n` matrix the greedy loop of `solve` ends and
never throws `runtime_error`. With fuel for `2 ^ (m * n)` passes `solve`
returns a flip count, and with no fuel at all does it return the exception.
At the head of every pass the loop reaches, the matrix is well-formed and, as
a binary number, at least as many below the input as passes have run. If a
cell is true there, the scan returns a valid index and a cover of at least
`1`, that of a rectangle of the grid with a true top-left cell; the flip turns
that cell false and leaves every cell before it in row-major order as it was,
so the binary number drops, and the next pass starts from the flipped
matrix. -/
theorem greedy_loop_ends_without_error (m n : Int) (matrix : List (List Bool))
    (hm : 0 ≤ m) (hn : 0 ≤ n) (hrows : (matrix.length : Int) = m)
    (hcols : ∀ row ∈ matrix, (row.length : Int) = n) :
    (∃ k : Int, 0 ≤ k ∧
      ∀ fuel, 2 ^ (m.toNat * n.toNat) ≤ fuel → solve fuel m n matrix = some (.ok k)) ∧
    (∀ fuel msg, solve fuel m n matrix ≠ some (.error (.runtime_error msg))) ∧
    (m ≠ 0 → n ≠ 0 → ∀ (j : Nat) (mat : List (List Bool)) (p : List (List Int)),
      greedy_state_after (all_rects m.toNat n.toNat) j matrix
        (List.replicate (m.toNat + 1) (List.replicate (n.toNat + 1) 0)) = some (mat, p) →
      WellFormed m.toNat n.toNat mat ∧
      code m.toNat n.toNat mat + j ≤ code m.toNat n.toNat matrix ∧
      (∀ fuel : Nat,
        greedy_loop (all_rects m.toNat n.toNat) (j + fuel) matrix
          (List.replicate (m.toNat + 1) (List.replicate (n.toNat + 1) 0)) 0 =
        greedy_loop (all_rects m.toNat n.toNat) fuel mat p j) ∧
      (matrix_has_ones mat = true →
        ∃ (i : Nat) (x : Rect),
          x = (all_rects m.toNat n.toNat).getD i { r1 := 0, c1 := 0, r2 := 0, c2 := 0 } ∧
          scan_rects mat (build_pref mat p) (all_rects m.toNat n.toNat)
            = ((i : Int), ones_in mat x) ∧
          i < (all_rects m.toNat n.toNat).length ∧
          1 ≤ ones_in mat x ∧
          x.inside m.toNat n.toNat ∧
          cell mat x.r1 x.c1 = true ∧
          cell (flip_rect mat x) x.r1 x.c1 = false ∧
          (∀ r c, r < x.r1 ∨ (r = x.r1 ∧ c < x.c1) →
            cell (flip_rect mat x) r c = cell mat r c) ∧
          code m.toNat n.toNat (flip_rect mat x) < code m.toNat n.toNat mat ∧
          greedy_state_after (all_rects m.toNat n.toNat) (j + 1) matrix
            (List.replicate (m.toNat + 1) (List.replicate (n.toNat + 1) 0))
            = some (flip_rect mat x, build_pref mat p))) := by
  have hwf := well_formed_of_dims hrows hcols
  refine ⟨?_, ?_, ?_⟩
  · by_cases hz : m = 0 ∨ n = 0
    · exact ⟨0, le_rfl, fun fuel _ => solve_zero_dim fuel m n matrix hz⟩
    · obtain ⟨k, k1, _, k3⟩ := solve_terminates m n matrix (by omega) (by omega) hrows hcols
      exact ⟨k, k1, k3⟩
  · intro fuel msg h
    obtain ⟨rs, e, _⟩ := solve_run fuel m n matrix hm hn hrows hcols _ h
    cases e
  · intro hm0 hn0 j mat p h
    have hmpos : 0 < m.toNat := by omega
    obtain ⟨a1, a2, a3, a4, a5, a6⟩ := greedy_state_inv hmpos j matrix _ hwf
      (pref_shape_replicate _ _) (fun b => pref_at_replicate _ _ 0 b)
      (fun a => pref_at_replicate _ _ a 0) mat p h
    refine ⟨a1, a5, fun fuel => by simpa using a6 fuel 0, ?_⟩
    intro hones
    obtain ⟨i, hi, hlt, hcover, hfb, hin⟩ := greedy_scan a1 hmpos a2 a3 a4 hones
    obtain ⟨w1, w2⟩ := cell_flip_rect a1 hin
    have hcand : cell mat
        ((all_rects m.toNat n.toNat).getD i { r1 := 0, c1 := 0, r2 := 0, c2 := 0 }).r1
        ((all_rects m.toNat n.toNat).getD i { r1 := 0, c1 := 0, r2 := 0, c2 := 0 }).c1 = true :=
      hfb.cand
    refine ⟨i, _, rfl, ?_, hlt, ?_, hin, hcand, ?_, ?_, code_flip_rect a1 hin hfb.cand, ?_⟩
    · rw [← hfb.cover_eq, ← hi]
    · rw [← hfb.cover_eq]
      exact hcover
    · rw [w2, if_pos ⟨le_rfl, hin.1, le_rfl, hin.2.2.1⟩, hcand]
      rfl
    · intro r c hrc
      rw [w2, if_neg]
      rintro ⟨b1, b2, b3, b4⟩
      omega
    · rw [greedy_state_after_add _ j 1 _ _ _ _ h]
      have hno : ¬((scan_rects mat (build_pref mat p) (all_rects m.toNat n.toNat)).2 ≤ 0 ∨
          (scan_rects mat (build_pref mat p) (all_rects m.toNat n.toNat)).1 < 0 ∨
          (scan_rects mat (build_pref mat p) (all_rects m.toNat n.toNat)).1
            ≥ ((all_rects m.toNat n.toNat).length : Int)) := by
        rw [hi]
        omega
      simp only [greedy_state_after, hones, if_true, if_neg hno]
      rw [hi, Int.toNat_ofNat]

/-- C32 on the `3 × 3` matrix of `test_complex_case2`: the loop ends after
five flips, and no fuel makes `solve` throw `runtime_error`. -/
theorem greedy_loop_ends_without_error_witness :
    solve 512 3 3 [[true, false, true], [false, true, false], [true, false, true]]
      = some (.ok 5) ∧
    ∀ fuel msg,
      solve fuel 3 3 [[true, false, true], [false, true, false], [true, false, true]]
        ≠ some (.error (.runtime_error msg)) :=
  ⟨by decide!,
   (greedy_loop_ends_without_error 3 3
      [[true, false, true], [false, true, false], [true, false, true]]
      (by decide) (by decide) (by decide) (by decide)).2.1⟩

end solution

/-! ## C33: the flip count is the length of a sequence of greedy choices -/

namespace solution

/-- C33: for a well-formed `m × n` matrix `solve` returns one number `k`, with
fuel for `2 ^ (m * n)` passes and, when it returns at all, with any fuel. This
`k` is the length of a sequence of rectangles of the grid whose toggling one
after the other leaves no cell true; each of them is the greedy choice in the
matrix the earlier ones have left: its top-left cell is true, no rectangle
with a true top-left cell holds more true cells, and none with as many comes
before it in the order `(r1, c1, r2, c2)`. Hence the least number of flips
that clear the matrix is at most `k`, and `k = 1` when the true cells are
exactly those of one rectangle. -/
theorem solve_counts_greedy_choices (m n : Int) (matrix : List (List Bool))
    (hm : 0 ≤ m) (hn : 0 ≤ n) (hrows : (matrix.length : Int) = m)
    (hcols : ∀ row ∈ matrix, (row.length : Int) = n) :
    ∃ (k : Int) (rs : List Rect),
      (∀ fuel, 2 ^ (m.toNat * n.toNat) ≤ fuel → solve fuel m n matrix = some (.ok k)) ∧
      (∀ fuel res, solve fuel m n matrix = some res → res = .ok k) ∧
      (rs.length : Int) = k ∧
      (∀ x ∈ rs, x.inside m.toNat n.toNat) ∧
      (∀ i < rs.length, GreedyChoice m.toNat n.toNat (flip_all matrix (rs.take i))
        (rs.getD i { r1 := 0, c1 := 0, r2 := 0, c2 := 0 })) ∧
      (∀ r c, cell (flip_all matrix rs) r c = false) ∧
      (∃ opt : Nat,
        IsLeast {l : Nat | ∃ rs1, IsFlipCover m.toNat n.toNat matrix rs1 ∧ rs1.length = l} opt ∧
        (opt : Int) ≤ k) ∧
      ((∃ R : Rect, R.inside m.toNat n.toNat ∧ ∀ r c, cell matrix r c = true ↔ R.covers r c) →
        k = 1) := by
  have hwf := well_formed_of_dims hrows hcols
  obtain ⟨k, hk⟩ : ∃ k : Int,
      ∀ fuel, 2 ^ (m.toNat * n.toNat) ≤ fuel → solve fuel m n matrix = some (.ok k) := by
    by_cases hz : m = 0 ∨ n = 0
    · exact ⟨0, fun fuel _ => solve_zero_dim fuel m n matrix hz⟩
    · obtain ⟨k, _, _, k3⟩ := solve_terminates m n matrix (by omega) (by omega) hrows hcols
      exact ⟨k, k3⟩
  have huniq : ∀ fuel res, solve fuel m n matrix = some res → res = .ok k := by
    intro fuel res h
    have h1 := solve_mono fuel m n matrix res h (max fuel (2 ^ (m.toNat * n.toNat)))
      (le_max_left _ _)
    rw [hk _ (le_max_right _ _)] at h1
    simp only [Option.some.injEq] at h1
    exact h1.symm
  obtain ⟨rs, e1, e2, e3⟩ := solve_run _ m n matrix hm hn hrows hcols _ (hk _ le_rfl)
  have hlen : (rs.length : Int) = k := by
    simp only [Except.ok.injEq] at e1
    exact e1.symm
  have hins : ∀ x ∈ rs, x.inside m.toNat n.toNat := by
    intro x hx
    obtain ⟨i, hi, rfl⟩ := List.getElem_of_mem hx
    have := (e2 i hi).1
    rw [List.getD_eq_getElem _ _ hi] at this
    exact this
  refine ⟨k, rs, hk, huniq, hlen, hins, e2, e3, ?_, ?_⟩
  · have hex : ∃ l : Nat, ∃ rs1, IsFlipCover m.toNat n.toNat matrix rs1 ∧ rs1.length = l :=
      ⟨rs.length, rs, ⟨hins, e3⟩, rfl⟩
    classical
    refine ⟨Nat.find hex, ⟨Nat.find_spec hex, fun l hl => Nat.find_min' hex hl⟩, ?_⟩
    have : Nat.find hex ≤ rs.length := Nat.find_min' hex ⟨rs, ⟨hins, e3⟩, rfl⟩
    omega
  · rintro ⟨R, hR, hsolid⟩
    have hmpos : 0 < m.toNat := by
      have := hR.2.1
      omega
    have hnpos : 0 < n.toNat := by
      have := hR.2.2.2
      omega
    have hones : matrix_has_ones matrix = true :=
      has_ones_of_true_cell ((hsolid R.r1 R.c1).mpr ⟨le_rfl, hR.1, le_rfl, hR.2.2.1⟩)
    obtain ⟨i, cover, _, hfb, hin, hstep⟩ := greedy_pass hwf hmpos (pref_shape_replicate _ _)
      (fun b => pref_at_replicate _ _ 0 b) (fun a => pref_at_replicate _ _ a 0) hones
    have hx := solid_choice hR hsolid (greedy_choice_of_first_best hfb)
    have h1 : solve 1 m n matrix = some (.ok 1) := by
      rw [solve_well_formed 1 m n matrix (by omega) (by omega) hrows hcols, if_pos hones,
        hstep 0 0, hx, greedy_loop_done _ _ _ _ _ (solid_flip hwf hR hsolid)]
      rfl
    have := huniq 1 _ h1
    simp only [Except.ok.injEq] at this
    exact this.symm

/-- C33 on a `2 × 3` matrix whose true cells are the rectangle of the last two
columns: `solve` returns `1`. -/
theorem solve_counts_greedy_choices_witness :
    solve 64 2 3 [[false, true, true], [false, true, true]] = some (.ok 1) := by
  obtain ⟨k, rs, h1, _, _, _, _, _, _, hs⟩ :=
    solve_counts_greedy_choices 2 3 [[false, true, true], [false, true, true]]
      (by decide) (by decide) (by decide) (by decide)
  have hk : k = 1 := by
    apply hs
    refine ⟨{ r1 := 0, c1 := 1, r2 := 1, c2 := 2 }, by decide, ?_⟩
    intro r c
    by_cases hr : r < 2
    · by_cases hc : c < 3
      · interval_cases r <;> interval_cases c <;> decide
      · have e : cell [[false, true, true], [false, true, true]] r c = false :=
          cell_eq_false_of_row (m := 2) (n := 3) (by decide) (Or.inr (by omega))
        rw [e]
        simp only [Rect.covers]
        constructor
        · intro h; cases h
        · intro h; omega
    · have e : cell [[false, true, true], [false, true, true]] r c = false :=
        cell_eq_false_of_row (m := 2) (n := 3) (by decide) (Or.inl (by omega))
      rw [e]
      simp only [Rect.covers]
      constructor
      · intro h; cases h
      · intro h; omega
  rw [← hk]
  exact h1 64 (by decide)

end solution
